import Mathlib

/-!
# Rockskip: a commit-aware symbol index

A shallow embedding of `enterprise/cmd/rockskip/lib.go`.

* `Index`, `getHops`, `ruler` and `Search` are translated from the Go functions of the
  same names.  They are written against the `DB` and `Git` interfaces, as in the source.
* `postgres` is the embedding of the `PostgresDB` implementation of `DB`: the two tables
  are lists of rows, each SQL statement is a function on the tables.
* `gitOfHistory` is the behaviour of the external `git` binary on a linear history.

Conventions.  A Go `error` is an `Option String`/`Except String`; `errors.Wrap(err, m)` is
`m ++ ": " ++ err`.  The loop `for { ... }` of `getHops` carries a fuel argument and returns
`none` when the fuel is exhausted.  Heights are natural numbers: the only heights the
indexer ever writes are `tipHeight + 1` counted up from `0`.
-/

namespace Rockskip

/-! ## Data model -/

/-- Status of a path in a log entry (`StatusAMD`). -/
inductive StatusAMD where
  | AddedAMD
  | ModifiedAMD
  | DeletedAMD
  deriving DecidableEq

/-- Column selector of a blob row (`StatusAD`). -/
inductive StatusAD where
  | AddedAD
  | DeletedAD
  deriving DecidableEq

/-- One path with its status (`PathStatus`). -/
structure PathStatus where
  Path : String
  Status : StatusAMD
  deriving DecidableEq

/-- One entry of the reverse log (`LogEntry`). -/
structure LogEntry where
  Commit : String
  PathStatuses : List PathStatus
  deriving DecidableEq

/-- A blob as passed to `InsertBlob` and returned by `Search` (`Blob`).  The slice
`Symbols` comes from the parser and may be the nil slice, which is `none` here; `Added`
and `Deleted` are built by slice literals in `Index` and scanned from the table in
`Search`, so they are plain lists. -/
structure Blob where
  Commit : String
  Path : String
  Added : List String
  Deleted : List String
  Symbols : Option (List String)
  deriving DecidableEq

/-- The all-zeros commit hash (`NULL`). -/
def NULL : String := "0000000000000000000000000000000000000000"

/-- The `Git` interface. -/
structure Git where
  LogReverse : String → Nat → Except String (List LogEntry)
  RevList : String → Except String (List String)
  CatFile : String → String → Except String (List UInt8)

/-- The `DB` interface.  The state of the store is threaded explicitly; a write that
returns an error leaves no new state. -/
structure DB (σ : Type) where
  GetCommit : σ → String → Except String (String × Nat × Bool)
  InsertCommit : σ → String → Nat → String → Except String σ
  GetBlob : σ → String → String → Except String (Nat × Bool)
  UpdateBlobHops : σ → Nat → StatusAD → String → Except String σ
  InsertBlob : σ → Blob → Except String (σ × Nat)
  AppendHop : σ → List String → StatusAD → String → Except String σ
  Search : σ → List String → Option String → Except String (List Blob)
  DeleteRedundant : σ → String → Except String σ

/-- The type of the symbol parser (`ParseSymbolsFunc`).  The slice it returns beside a nil
error may be the nil slice (`none`) or a slice with elements or without (`some`). -/
abbrev ParseSymbolsFunc := String → List UInt8 → Except String (Option (List String))

/-! ## The ruler sequence -/

/-- Body of `ruler`, with the recursion depth bounded by `fuel`. -/
def rulerAux : Nat → Nat → Nat
  | 0, _ => 0
  | fuel + 1, n =>
    if n = 0 then 0
    else if n % 2 ≠ 0 then 0
    else 1 + rulerAux fuel (n / 2)

/-- The function `ruler`: 0, 0, 1, 0, 2, 0, 1, 0, 3, ...  The recursion `ruler(n/2)` is
bounded by `n` itself (see `ruler_eq` for the equation of the source). -/
def ruler (n : Nat) : Nat := rulerAux n n

/-! ## Hop spine, search and indexing -/

/-- The loop of `getHops`: `current` is the commit looked up next, `spine` the list built
so far.  `none` means the fuel ran out. -/
def getHopsLoop {σ : Type} (db : DB σ) (s : σ) :
    Nat → String → List String → Option (Except String (List String))
  | 0, _, _ => none
  | fuel + 1, current, spine =>
    match db.GetCommit s current with
    | .error e => some (.error ("GetCommit: " ++ e))
    | .ok (ancestor, _, present) =>
      if !present then some (.ok spine)
      else if current = NULL then some (.ok spine)
      else getHopsLoop db s fuel ancestor (spine ++ [ancestor])

/-- The function `getHops`. -/
def getHops {σ : Type} (fuel : Nat) (db : DB σ) (s : σ) (commit : String) :
    Option (Except String (List String)) :=
  getHopsLoop db s fuel commit [commit]

/-- The function `Search`: the spine of `commit`, handed to `db.Search`. -/
def Search {σ : Type} (fuel : Nat) (db : DB σ) (s : σ) (commit : String)
    (query : Option String) : Option (Except String (List Blob)) :=
  match getHops fuel db s commit with
  | none => none
  | some (.error e) => some (.error e)
  | some (.ok hops) => some (db.Search s hops query)

/-- The scan of `Index` for the first commit of `revs` that is already present:
returns `(tipCommit, tipHeight, missingCount)`. -/
def findTip {σ : Type} (db : DB σ) (s : σ) :
    List String → Nat → Except String (String × Nat × Nat)
  | [], missingCount => .ok (NULL, 0, missingCount)
  | commit :: revs, missingCount =>
    match db.GetCommit s commit with
    | .error e => .error ("GetCommit: " ++ e)
    | .ok (_, height, present) =>
      if present then .ok (commit, height, missingCount)
      else findTip db s revs (missingCount + 1)

/-- The loop `for _, hop := range hops` of `Index` around `db.GetBlob`: returns
`(id, found)`. -/
def lookupBlob {σ : Type} (db : DB σ) (s : σ) (path : String) :
    List String → Except String (Nat × Bool)
  | [] => .ok (0, false)
  | hop :: hops =>
    match db.GetBlob s hop path with
    | .error e => .error ("GetBlob: " ++ e)
    | .ok (id, found) =>
      if found then .ok (id, true) else lookupBlob db s path hops

/-- The call `db.UpdateBlobHops(id, DeletedAD, entry.Commit)` of `Index`, whose error is
dropped. -/
def updateDeleted {σ : Type} (db : DB σ) (s : σ) (id : Nat) (commit : String) : σ :=
  match db.UpdateBlobHops s id .DeletedAD commit with
  | .ok s1 => s1
  | .error _ => s

/-- First half of the body of the path loop of `Index` (status `Deleted` or `Modified`):
find the blob of the path, through the cache or through the spine, and record the commit
in its deleted column. -/
def deletePath {σ : Type} (db : DB σ) (hops : List String) (commit path : String)
    (s : σ) (cache : String → Option Nat) : σ × Option String :=
  match cache path with
  | some id => (updateDeleted db s id commit, none)
  | none =>
    match lookupBlob db s path hops with
    | .error e => (s, some e)
    | .ok (id, found) =>
      if found then (updateDeleted db s id commit, none)
      else (s, some ("could not find blob for path " ++ path))

/-- Second half of the body of the path loop of `Index` (status `Added` or `Modified`):
read the file, parse it, insert the new blob and remember its id in the cache. -/
def insertPath {σ : Type} (git : Git) (db : DB σ) (parse : ParseSymbolsFunc)
    (commit path : String) (s : σ) (cache : String → Option Nat) :
    σ × (String → Option Nat) × Option String :=
  match git.CatFile commit path with
  | .error e => (s, cache, some ("CatFile: " ++ e))
  | .ok contents =>
    match parse path contents with
    | .error e => (s, cache, some e)
    | .ok symbols =>
      match db.InsertBlob s
          { Commit := commit, Path := path, Added := [commit], Deleted := [],
            Symbols := symbols } with
      | .error e => (s, cache, some ("InsertBlob: " ++ e))
      | .ok (s1, id) => (s1, fun p => if p = path then some id else cache p, none)

/-- Body of the path loop of `Index` for one `pathStatus`. -/
def indexPath {σ : Type} (git : Git) (db : DB σ) (parse : ParseSymbolsFunc)
    (hops : List String) (commit : String) (ps : PathStatus)
    (s : σ) (cache : String → Option Nat) : σ × (String → Option Nat) × Option String :=
  let afterDelete : σ × Option String :=
    if ps.Status = .DeletedAMD ∨ ps.Status = .ModifiedAMD then
      deletePath db hops commit ps.Path s cache
    else (s, none)
  match afterDelete with
  | (s1, some e) => (s1, cache, some e)
  | (s1, none) =>
    if ps.Status = .AddedAMD ∨ ps.Status = .ModifiedAMD then
      insertPath git db parse commit ps.Path s1 cache
    else (s1, cache, none)

/-- The loop `for _, pathStatus := range entry.PathStatuses` of `Index`; stops at the
first error. -/
def indexPaths {σ : Type} (git : Git) (db : DB σ) (parse : ParseSymbolsFunc)
    (hops : List String) (commit : String) :
    List PathStatus → σ → (String → Option Nat) → σ × (String → Option Nat) × Option String
  | [], s, cache => (s, cache, none)
  | ps :: rest, s, cache =>
    match indexPath git db parse hops commit ps s cache with
    | (s1, cache1, some e) => (s1, cache1, some e)
    | (s1, cache1, none) => indexPaths git db parse hops commit rest s1 cache1

/-- The local variables of `Index` that live across the entries, with the store. -/
structure IndexState (σ : Type) where
  db : σ
  tipCommit : String
  tipHeight : Nat
  pathToBlobIdCache : String → Option Nat

/-- The call `db.InsertCommit(tipCommit, tipHeight, hops[r])` of `Index`, whose error is
dropped. -/
def insertCommit {σ : Type} (db : DB σ) (s : σ) (commit : String) (height : Nat)
    (ancestor : String) : σ :=
  match db.InsertCommit s commit height ancestor with
  | .ok s1 => s1
  | .error _ => s

/-- Body of the loop `for entryIndex, entry := range entries` of `Index`.  The range check
`r >= len(hops)` and the later read `hops[r]` are the one lookup `hops[r]?`. -/
def indexEntry {σ : Type} (fuel : Nat) (git : Git) (db : DB σ) (parse : ParseSymbolsFunc)
    (entry : LogEntry) (st : IndexState σ) : Option (IndexState σ × Option String) :=
  match getHops fuel db st.db st.tipCommit with
  | none => none
  | some (.error e) => some (st, some ("getHops: " ++ e))
  | some (.ok hops) =>
    let r := ruler (st.tipHeight + 1)
    match hops[r]? with
    | none =>
      some (st, some ("ruler(" ++ toString (st.tipHeight + 1) ++ ") = " ++ toString r ++
        " is out of range of len(hops) = " ++ toString hops.length))
    | some ancestor =>
      match db.AppendHop st.db (hops.take r) .AddedAD entry.Commit with
      | .error e => some (st, some ("AppendHop (added): " ++ e))
      | .ok s1 =>
        match db.AppendHop s1 (hops.take r) .DeletedAD entry.Commit with
        | .error e => some ({ st with db := s1 }, some ("AppendHop (deleted): " ++ e))
        | .ok s2 =>
          match indexPaths git db parse hops entry.Commit entry.PathStatuses s2
              st.pathToBlobIdCache with
          | (s3, cache3, some e) =>
            some ({ st with db := s3, pathToBlobIdCache := cache3 }, some e)
          | (s3, cache3, none) =>
            match db.DeleteRedundant s3 entry.Commit with
            | .error e =>
              some ({ st with db := s3, pathToBlobIdCache := cache3 },
                some ("DeleteRedundant: " ++ e))
            | .ok s4 =>
              some ({ db := insertCommit db s4 entry.Commit (st.tipHeight + 1) ancestor,
                      tipCommit := entry.Commit,
                      tipHeight := st.tipHeight + 1,
                      pathToBlobIdCache := cache3 }, none)

/-- The loop over `entries` of `Index`; stops at the first error. -/
def indexEntries {σ : Type} (fuel : Nat) (git : Git) (db : DB σ) (parse : ParseSymbolsFunc) :
    List LogEntry → IndexState σ → Option (IndexState σ × Option String)
  | [], st => some (st, none)
  | entry :: rest, st =>
    match indexEntry fuel git db parse entry st with
    | none => none
    | some (st1, some e) => some (st1, some e)
    | some (st1, none) => indexEntries fuel git db parse rest st1

/-- The function `Index`.  Returns the store it leaves behind and the error it returns
(`none` for `nil`); the outer `none` means a `getHops` call ran out of fuel. -/
def Index {σ : Type} (fuel : Nat) (git : Git) (db : DB σ) (parse : ParseSymbolsFunc)
    (givenCommit : String) (s : σ) : Option (σ × Option String) :=
  match git.RevList givenCommit with
  | .error e => some (s, some ("RevList: " ++ e))
  | .ok revs =>
    match findTip db s revs 0 with
    | .error e => some (s, some e)
    | .ok (tipCommit, tipHeight, missingCount) =>
      match git.LogReverse givenCommit missingCount with
      | .error e => some (s, some ("LogReverse: " ++ e))
      | .ok entries =>
        match indexEntries fuel git db parse entries
            { db := s, tipCommit := tipCommit, tipHeight := tipHeight,
              pathToBlobIdCache := fun _ => none } with
        | none => none
        | some (st, err) => some (st.db, err)

/-! ## The PostgreSQL store -/

/-- A row of the table `rockskip_ancestry`. -/
structure AncestryRow where
  commit_id : String
  height : Nat
  ancestor_id : String
  deriving DecidableEq

/-- A row of the table `rockskip_blobs`. -/
structure BlobRow where
  id : Nat
  commit : String
  path : String
  added : List String
  deleted : List String
  symbols : List String
  deriving DecidableEq

/-- The state behind a `PostgresDB`: the two tables in insertion order and the next value
of the `SERIAL` sequence of `rockskip_blobs.id`. -/
structure Tables where
  rockskip_ancestry : List AncestryRow
  rockskip_blobs : List BlobRow
  nextId : Nat
  deriving DecidableEq

/-- The state left by `NewPostgresDB`: both tables freshly created. -/
def emptyTables : Tables :=
  { rockskip_ancestry := [], rockskip_blobs := [], nextId := 1 }

/-- The SQL operator `&&` on arrays: the two arrays have an element in common. -/
def overlaps (xs ys : List String) : Bool :=
  xs.any fun x => decide (x ∈ ys)

/-- The column named by `statusADToColumn`. -/
def BlobRow.column (b : BlobRow) : StatusAD → List String
  | .AddedAD => b.added
  | .DeletedAD => b.deleted

/-- The assignment `SET col = array_append(col, hop)` with `col` named by
`statusADToColumn`. -/
def BlobRow.arrayAppend (b : BlobRow) (status : StatusAD) (hop : String) : BlobRow :=
  match status with
  | .AddedAD => { b with added := b.added ++ [hop] }
  | .DeletedAD => { b with deleted := b.deleted ++ [hop] }

/-- The row as the `Blob` that `PostgresDB.Search` scans it into. -/
def BlobRow.toBlob (b : BlobRow) : Blob :=
  { Commit := b.commit, Path := b.path, Added := b.added, Deleted := b.deleted,
    Symbols := some b.symbols }

/-- The method `PostgresDB.GetCommit`. -/
def pgGetCommit (t : Tables) (givenCommit : String) : Except String (String × Nat × Bool) :=
  match t.rockskip_ancestry.find? fun row => decide (row.commit_id = givenCommit) with
  | none => .ok ("", 0, false)
  | some row => .ok (row.ancestor_id, row.height, true)

/-- The method `PostgresDB.InsertCommit`: the insert fails on the primary key when the
commit is already there. -/
def pgInsertCommit (t : Tables) (commit : String) (height : Nat) (ancestor : String) :
    Except String Tables :=
  if t.rockskip_ancestry.any fun row => decide (row.commit_id = commit) then
    .error "InsertCommit: duplicate key value violates unique constraint"
  else
    .ok { t with rockskip_ancestry :=
            t.rockskip_ancestry ++
              [{ commit_id := commit, height := height, ancestor_id := ancestor }] }

/-- The method `PostgresDB.GetBlob`: the first row with the path that has `hop` in
`added` and not in `deleted`. -/
def pgGetBlob (t : Tables) (hop path : String) : Except String (Nat × Bool) :=
  match t.rockskip_blobs.find? fun b =>
      decide (b.path = path) && decide (hop ∈ b.added) && !decide (hop ∈ b.deleted) with
  | none => .ok (0, false)
  | some b => .ok (b.id, true)

/-- The statement of `UpdateBlobHops` on one row: `SET col = array_append(col, hop) WHERE
id = $2`. -/
def updateOne (id : Nat) (status : StatusAD) (hop : String) (b : BlobRow) : BlobRow :=
  if b.id = id then b.arrayAppend status hop else b

/-- The method `PostgresDB.UpdateBlobHops`. -/
def pgUpdateBlobHops (t : Tables) (id : Nat) (status : StatusAD) (hop : String) :
    Except String Tables :=
  .ok { t with rockskip_blobs := t.rockskip_blobs.map (updateOne id status hop) }

/-- The method `PostgresDB.InsertBlob`.  The column `symbols` is `TEXT[] NOT NULL` and
`pg.Array` sends the nil slice as SQL `NULL`, so the statement fails for a blob whose
`Symbols` is nil and inserts no row (the error text stands for the one of the server; the
value that a failed statement may take from the sequence of `id` is not modelled). -/
def pgInsertBlob (t : Tables) (blob : Blob) : Except String (Tables × Nat) :=
  match blob.Symbols with
  | none =>
    .error ("InsertBlob: pq: null value in column \"symbols\" violates not-null constraint")
  | some symbols =>
    .ok ({ t with
            rockskip_blobs :=
              t.rockskip_blobs ++
                [{ id := t.nextId, commit := blob.Commit, path := blob.Path,
                   added := blob.Added, deleted := blob.Deleted, symbols := symbols }]
            nextId := t.nextId + 1 },
         t.nextId)

/-- The statement of `AppendHop` on one row: `SET col = array_append(col, newHop) WHERE
hops && col`. -/
def appendOne (hops : List String) (status : StatusAD) (newHop : String) (b : BlobRow) :
    BlobRow :=
  if overlaps hops (b.column status) then b.arrayAppend status newHop else b

/-- The method `PostgresDB.AppendHop`. -/
def pgAppendHop (t : Tables) (hops : List String) (givenStatus : StatusAD)
    (newHop : String) : Except String Tables :=
  .ok { t with rockskip_blobs := t.rockskip_blobs.map (appendOne hops givenStatus newHop) }

/-- The method `PostgresDB.Search`. -/
def pgSearch (t : Tables) (hops : List String) (query : Option String) :
    Except String (List Blob) :=
  match query with
  | some q =>
    .ok ((t.rockskip_blobs.filter fun b =>
        overlaps hops b.added && !overlaps hops b.deleted && overlaps [q] b.symbols).map
      BlobRow.toBlob)
  | none =>
    .ok ((t.rockskip_blobs.filter fun b =>
        overlaps hops b.added && !overlaps hops b.deleted).map BlobRow.toBlob)

/-- The statement of `DeleteRedundant` on one row: `SET added = array_remove(added, hop),
deleted = array_remove(deleted, hop) WHERE [hop] && added AND [hop] && deleted`;
`array_remove` drops every occurrence. -/
def collapse (hop : String) (b : BlobRow) : BlobRow :=
  if overlaps [hop] b.added && overlaps [hop] b.deleted then
    { b with added := b.added.filter fun c => decide (c ≠ hop)
             deleted := b.deleted.filter fun c => decide (c ≠ hop) }
  else b

/-- The method `PostgresDB.DeleteRedundant`. -/
def pgDeleteRedundant (t : Tables) (hop : String) : Except String Tables :=
  .ok { t with rockskip_blobs := t.rockskip_blobs.map (collapse hop) }

/-- The type `PostgresDB` as an implementation of `DB`. -/
def postgres : DB Tables :=
  { GetCommit := pgGetCommit
    InsertCommit := pgInsertCommit
    GetBlob := pgGetBlob
    UpdateBlobHops := pgUpdateBlobHops
    InsertBlob := pgInsertBlob
    AppendHop := pgAppendHop
    Search := pgSearch
    DeleteRedundant := pgDeleteRedundant }

/-! ## Linear histories -/

/-- The commits of a history, oldest first. -/
def commitsOf (hist : List LogEntry) : List String :=
  hist.map fun e => e.Commit

/-- The external `git` on a linear history `hist` (oldest entry first) whose file
contents are `contents commit path`: `RevList` lists the commits from the given one back
to the root, newest first; `LogReverse` gives the last `n` entries up to the given
commit, oldest first; an unknown commit is an error. -/
def gitOfHistory (hist : List LogEntry) (contents : String → String → List UInt8) : Git :=
  { RevList := fun commit =>
      let i := (commitsOf hist).indexOf commit
      if i < hist.length then .ok ((commitsOf hist).take (i + 1)).reverse
      else .error ("bad revision " ++ commit)
    LogReverse := fun commit n =>
      let i := (commitsOf hist).indexOf commit
      if i < hist.length then .ok ((hist.take (i + 1)).drop (i + 1 - n))
      else .error ("bad revision " ++ commit)
    CatFile := fun commit path => .ok (contents commit path) }

/-- A sequence of `Index` calls on a `PostgresDB`, one per target, whatever error each call
returns; `none` when a call ran out of fuel. -/
def indexAll (fuel : Nat) (git : Git) (parse : ParseSymbolsFunc) :
    List String → Tables → Option Tables
  | [], t => some t
  | target :: targets, t =>
    match Index fuel git postgres parse target t with
    | none => none
    | some (t1, _) => indexAll fuel git parse targets t1

/-! ## Vocabulary of the specification -/

/-- The commit at height `x` of a history: `NULL` at height 0, the `x`-th entry's commit
above. -/
def commitAt (hist : List LogEntry) : Nat → String
  | 0 => NULL
  | x + 1 => (commitsOf hist).getD x NULL

/-- The commits of a history are pairwise distinct and none is `NULL`. -/
def WellFormedCommits (hist : List LogEntry) : Prop :=
  (commitsOf hist).Nodup ∧ NULL ∉ commitsOf hist

/-- The heights visited by the hop spine from height `x`: each step clears the lowest
set bit, down to 0. -/
def spineH (x : Nat) : List Nat :=
  if x = 0 then [0] else x :: spineH (x - 2 ^ ruler x)
termination_by x
decreasing_by
  have h : 0 < 2 ^ ruler x := Nat.pos_of_ne_zero (by simp)
  omega

/-- The height `a` lies in the interval `(x - 2^ruler x, x]` that the commit at height
`x` stands for. -/
def inI (a x : Nat) : Prop :=
  x - 2 ^ ruler x < a ∧ a ≤ x

instance (a x : Nat) : Decidable (inI a x) := by
  unfold inI
  infer_instance

/-- The ancestry row that the indexer writes for height `x`. -/
def ancestryRow (hist : List LogEntry) (x : Nat) : AncestryRow :=
  { commit_id := commitAt hist x, height := x,
    ancestor_id := commitAt hist (x - 2 ^ ruler x) }

/-- The ancestry table after the first `k` entries of a history have been indexed. -/
def ancestryUpTo (hist : List LogEntry) (k : Nat) : List AncestryRow :=
  (List.range k).map fun i => ancestryRow hist (i + 1)

/-- The highest height stored in the ancestry table (0 when it is empty). -/
def maxHeight (t : Tables) : Nat :=
  (t.rockskip_ancestry.map fun row => row.height).foldr max 0

instance (hist : List LogEntry) : Decidable (WellFormedCommits hist) := by
  unfold WellFormedCommits
  infer_instance

/-- The commits from height `x` down to height 1: what `RevList` returns for the commit
at height `x`. -/
def revsFrom (hist : List LogEntry) : Nat → List String
  | 0 => []
  | x + 1 => commitAt hist (x + 1) :: revsFrom hist x

/-- The state of the loop of `Index` when the first `k` entries have been indexed, as far
as the ancestry table and the tip are concerned. -/
def AtHeight (hist : List LogEntry) (k : Nat) (st : IndexState Tables) : Prop :=
  st.db.rockskip_ancestry = ancestryUpTo hist k ∧ st.tipCommit = commitAt hist k ∧
    st.tipHeight = k

/-! ## The meaning of a history -/

/-- The status that a list of path statuses gives to path `p`, if any. -/
def statusIn (pss : List PathStatus) (p : String) : Option StatusAMD :=
  (pss.find? fun ps => decide (ps.Path = p)).map fun ps => ps.Status

/-- The status that the entry at height `x` reports for path `p`, if any. -/
def statusAt (hist : List LogEntry) (x : Nat) (p : String) : Option StatusAMD :=
  match x with
  | 0 => none
  | i + 1 =>
    match hist[i]? with
    | none => none
    | some e => statusIn e.PathStatuses p

/-- The entry at height `a` adds or modifies `p`: a blob for `p` is born there. -/
def born (hist : List LogEntry) (a : Nat) (p : String) : Prop :=
  statusAt hist a p = some .AddedAMD ∨ statusAt hist a p = some .ModifiedAMD

/-- The entry at height `x` modifies or deletes `p`: the blob of `p` visible before is
hidden there. -/
def hides (hist : List LogEntry) (x : Nat) (p : String) : Prop :=
  statusAt hist x p = some .ModifiedAMD ∨ statusAt hist x p = some .DeletedAMD

instance (hist : List LogEntry) (a : Nat) (p : String) : Decidable (born hist a p) := by
  unfold born
  infer_instance

instance (hist : List LogEntry) (x : Nat) (p : String) : Decidable (hides hist x p) := by
  unfold hides
  infer_instance

/-- The first of the `n` heights from `x` on whose entry modifies or deletes `p`; 0 when
there is none. -/
def firstHide (hist : List LogEntry) (p : String) : Nat → Nat → Nat
  | 0, _ => 0
  | n + 1, x => if hides hist x p then x else firstHide hist p n (x + 1)

/-- The height at which the blob of `p` born at height `a` is hidden: the first height
above `a` whose entry modifies or deletes `p`; 0 when there is none. -/
def hiddenAt (hist : List LogEntry) (a : Nat) (p : String) : Nat :=
  firstHide hist p (hist.length - a) (a + 1)

/-- The blob of `p` born at height `a` is the version of `p` that exists at height `k`. -/
def liveAt (hist : List LogEntry) (k a : Nat) (p : String) : Prop :=
  1 ≤ a ∧ a ≤ k ∧ born hist a p ∧ ∀ x, a < x → x ≤ k → ¬ hides hist x p

/-- The effect of one path status on the set of files. -/
def applyStatus (files : List String) (ps : PathStatus) : List String :=
  match ps.Status with
  | .AddedAMD => ps.Path :: files
  | .ModifiedAMD => files
  | .DeletedAMD => files.filter fun p => decide (p ≠ ps.Path)

/-- The effect of one entry on the set of files. -/
def applyEntry (files : List String) (e : LogEntry) : List String :=
  e.PathStatuses.foldl applyStatus files

/-- The files that exist at height `k` of a history. -/
def filesAt (hist : List LogEntry) (k : Nat) : List String :=
  (hist.take k).foldl applyEntry []

/-- An entry is well formed over the files of its parent: each path occurs at most once,
`Added` only for a path that is absent, `Modified` and `Deleted` only for one that is
present. -/
def WellFormedEntry (files : List String) (e : LogEntry) : Prop :=
  (e.PathStatuses.map fun ps => ps.Path).Nodup ∧
  ∀ ps ∈ e.PathStatuses,
    (ps.Status = .AddedAMD → ps.Path ∉ files) ∧ (ps.Status ≠ .AddedAMD → ps.Path ∈ files)

instance (files : List String) (e : LogEntry) : Decidable (WellFormedEntry files e) := by
  unfold WellFormedEntry
  infer_instance

/-- A well-formed linear history: distinct non-`NULL` commits, every entry well formed
over the files of its parent. -/
def WellFormed (hist : List LogEntry) : Prop :=
  WellFormedCommits hist ∧
  ∀ k, (h : k < hist.length) → WellFormedEntry (filesAt hist k) hist[k]

instance (hist : List LogEntry) : Decidable (WellFormed hist) := by
  unfold WellFormed
  infer_instance

/-- The parser returns, on every file that the history adds or modifies, a nil error and
a slice that is not nil. -/
def ParseOk (hist : List LogEntry) (contents : String → String → List UInt8)
    (parse : ParseSymbolsFunc) : Prop :=
  ∀ e ∈ hist, ∀ ps ∈ e.PathStatuses, ps.Status ≠ .DeletedAMD →
    ∃ symbols, parse ps.Path (contents e.Commit ps.Path) = .ok (some symbols)

/-- The height of a commit of the history; 0 for any other string. -/
def heightOf (hist : List LogEntry) (c : String) : Nat :=
  if c ∈ commitsOf hist then (commitsOf hist).indexOf c + 1 else 0

/-! ## Invariants of the blob table -/

/-- The height at which a blob row was born: the height of its commit. -/
def BlobRow.birth (hist : List LogEntry) (b : BlobRow) : Nat :=
  heightOf hist b.commit

/-- The height at which a blob row is hidden (0 when it never is). -/
def BlobRow.hidden (hist : List LogEntry) (b : BlobRow) : Nat :=
  hiddenAt hist (heightOf hist b.commit) b.path

/-- The commits that the `added` column of a blob born at `a` and hidden at `d` holds when
`k` entries are indexed: those whose interval contains `a` and not `d`. -/
def AddedAt (hist : List LogEntry) (k a d : Nat) (y : String) : Prop :=
  ∃ x, 1 ≤ x ∧ x ≤ k ∧ y = commitAt hist x ∧ inI a x ∧ ¬ inI d x

/-- The commits that the `deleted` column of a blob born at `a` and hidden at `d` holds
when `k` entries are indexed: those whose interval contains `d` and not `a`. -/
def DeletedAt (hist : List LogEntry) (k a d : Nat) (y : String) : Prop :=
  ∃ x, 1 ≤ x ∧ x ≤ k ∧ y = commitAt hist x ∧ inI d x ∧ ¬ inI a x

/-- The rows of the blob table, apart from the two hop columns, while the entry at height
`k + 1` is being indexed and the paths `ins` of it have been inserted: one row for each
birth of the history so far, with distinct ids. -/
structure KeysInv (hist : List LogEntry) (contents : String → String → List UInt8)
    (parse : ParseSymbolsFunc) (k : Nat) (ins : List String) (t : Tables) : Prop where
  ids_nodup : (t.rockskip_blobs.map fun b => b.id).Nodup
  ids_lt : ∀ b ∈ t.rockskip_blobs, b.id < t.nextId
  rows : ∀ b ∈ t.rockskip_blobs,
    1 ≤ b.birth hist ∧ b.birth hist ≤ k + 1 ∧ b.commit = commitAt hist (b.birth hist) ∧
    born hist (b.birth hist) b.path ∧
    parse b.path (contents b.commit b.path) = .ok (some b.symbols) ∧
    (b.birth hist = k + 1 → b.path ∈ ins)
  complete_old : ∀ a p, a ≤ k → born hist a p →
    ∃ b ∈ t.rockskip_blobs, b.commit = commitAt hist a ∧ b.path = p
  complete_new : ∀ p ∈ ins,
    ∃ b ∈ t.rockskip_blobs, b.commit = commitAt hist (k + 1) ∧ b.path = p
  distinct : t.rockskip_blobs.Pairwise fun b1 b2 =>
    ¬ (b1.commit = b2.commit ∧ b1.path = b2.path)

/-- The two hop columns when `k` entries are indexed; neither holds a commit twice. -/
structure ColumnsInv (hist : List LogEntry) (k : Nat) (t : Tables) : Prop where
  added : ∀ b ∈ t.rockskip_blobs, ∀ y,
    y ∈ b.added ↔ AddedAt hist k (b.birth hist) (b.hidden hist) y
  deleted : ∀ b ∈ t.rockskip_blobs, ∀ y,
    y ∈ b.deleted ↔ DeletedAt hist k (b.birth hist) (b.hidden hist) y
  added_nodup : ∀ b ∈ t.rockskip_blobs, b.added.Nodup
  deleted_nodup : ∀ b ∈ t.rockskip_blobs, b.deleted.Nodup

/-- The two hop columns while the entry at height `k + 1` is being indexed, after the two
`AppendHop` statements, when the blobs of the paths `hid` have been marked deleted. -/
structure MidInv (hist : List LogEntry) (k : Nat) (hid : List String) (t : Tables) :
    Prop where
  old_added : ∀ b ∈ t.rockskip_blobs, b.birth hist ≤ k → ∀ y,
    y ∈ b.added ↔
      AddedAt hist k (b.birth hist) (b.hidden hist) y ∨
      (y = commitAt hist (k + 1) ∧
        ∃ i ∈ (spineH k).take (ruler (k + 1)), inI (b.birth hist) i ∧ ¬ inI (b.hidden hist) i)
  old_deleted : ∀ b ∈ t.rockskip_blobs, b.birth hist ≤ k → ∀ y,
    y ∈ b.deleted ↔
      DeletedAt hist k (b.birth hist) (b.hidden hist) y ∨
      (y = commitAt hist (k + 1) ∧
        ((∃ i ∈ (spineH k).take (ruler (k + 1)),
            inI (b.hidden hist) i ∧ ¬ inI (b.birth hist) i) ∨
         (b.hidden hist = k + 1 ∧ b.path ∈ hid)))
  fresh : ∀ b ∈ t.rockskip_blobs, b.birth hist = k + 1 →
    b.added = [commitAt hist (k + 1)] ∧ b.deleted = []
  added_nodup : ∀ b ∈ t.rockskip_blobs, b.added.Nodup
  deleted_nodup : ∀ b ∈ t.rockskip_blobs, b.deleted.Nodup

/-- The blob table when `k` entries are indexed. -/
def BlobsInv (hist : List LogEntry) (contents : String → String → List UInt8)
    (parse : ParseSymbolsFunc) (k : Nat) (t : Tables) : Prop :=
  KeysInv hist contents parse k [] t ∧ ColumnsInv hist k t

/-- The cache `pathToBlobIdCache` is valid: the id it holds for a path is the id of the
latest-born blob of that path. -/
def CacheOK (hist : List LogEntry) (t : Tables) (cache : String → Option Nat) : Prop :=
  ∀ p id, cache p = some id →
    ∃ b ∈ t.rockskip_blobs, b.id = id ∧ b.path = p ∧
      ∀ b2 ∈ t.rockskip_blobs, b2.path = p → b2.birth hist ≤ b.birth hist

/-- The paths of a list of path statuses that the indexer marks deleted. -/
def hidOf (pss : List PathStatus) : List String :=
  (pss.filter fun ps => decide (ps.Status ≠ .AddedAMD)).map fun ps => ps.Path

/-- The paths of a list of path statuses for which the indexer inserts a blob. -/
def insOf (pss : List PathStatus) : List String :=
  (pss.filter fun ps => decide (ps.Status ≠ .DeletedAMD)).map fun ps => ps.Path

/-- A rewriting of blob rows that touches the two hop columns only. -/
def KeepsKeys (f : BlobRow → BlobRow) : Prop :=
  ∀ b, (f b).id = b.id ∧ (f b).commit = b.commit ∧ (f b).path = b.path ∧
    (f b).symbols = b.symbols

/-- The two `AppendHop` statements of an entry, on a row. -/
def appendBoth (hs : List String) (c : String) : BlobRow → BlobRow :=
  appendOne hs .DeletedAD c ∘ appendOne hs .AddedAD c

/-- The statement of `UpdateBlobHops` on the deleted column, on one row. -/
def markDeleted (id : Nat) (c : String) (b : BlobRow) : BlobRow :=
  updateOne id .DeletedAD c b

/-- The row that `InsertBlob` writes for the blob that `Index` builds. -/
def newRow (id : Nat) (c p : String) (symbols : List String) : BlobRow :=
  { id := id, commit := c, path := p, added := [c], deleted := [], symbols := symbols }

/-! ## Concrete histories -/

/-- Scenario 2 of the specification: `c1` adds `a.txt`, `c2` modifies it. -/
def modifyHistory : List LogEntry :=
  [{ Commit := "c1", PathStatuses := [{ Path := "a.txt", Status := .AddedAMD }] },
   { Commit := "c2", PathStatuses := [{ Path := "a.txt", Status := .ModifiedAMD }] }]

/-- File contents for `modifyHistory`: the byte `f` at `c1`, the byte `g` afterwards. -/
def modifyContents : String → String → List UInt8 :=
  fun commit _ => if commit = "c1" then [102] else [103]

/-- A parser that makes one symbol of every byte of the file. -/
def bytesAsSymbols : ParseSymbolsFunc :=
  fun _ bytes => .ok (some (bytes.map fun b => String.singleton (Char.ofNat b.toNat)))

/-- The store that `Index` leaves for `modifyHistory`. -/
def modifyTables : Tables :=
  { rockskip_ancestry :=
      [{ commit_id := "c1", height := 1, ancestor_id := NULL },
       { commit_id := "c2", height := 2, ancestor_id := NULL }],
    rockskip_blobs :=
      [{ id := 1, commit := "c1", path := "a.txt", added := ["c1"], deleted := [],
         symbols := ["f"] },
       { id := 2, commit := "c2", path := "a.txt", added := ["c2"], deleted := [],
         symbols := ["g"] }],
    nextId := 3 }

/-- A history of one commit, which adds `a.txt`. -/
def singleHistory : List LogEntry :=
  [{ Commit := "c1", PathStatuses := [{ Path := "a.txt", Status := .AddedAMD }] }]

/-- The store that `Index` leaves for `singleHistory`. -/
def singleTables : Tables :=
  { rockskip_ancestry := [{ commit_id := "c1", height := 1, ancestor_id := NULL }],
    rockskip_blobs :=
      [{ id := 1, commit := "c1", path := "a.txt", added := ["c1"], deleted := [],
         symbols := ["f"] }],
    nextId := 2 }

/-! ## Frame of an entry -/

/-- The row `b1` is the row `b` up to the occurrences of the commit `c` in the two hop
columns: same id, commit, path and symbols, and every other commit is in a column of `b1`
exactly when it is in that column of `b`. -/
def SameExcept (c : String) (b b1 : BlobRow) : Prop :=
  b1.id = b.id ∧ b1.commit = b.commit ∧ b1.path = b.path ∧ b1.symbols = b.symbols ∧
  ∀ y, y ≠ c → ((y ∈ b1.added ↔ y ∈ b.added) ∧ (y ∈ b1.deleted ↔ y ∈ b.deleted))

/-- The blob table `blobs1` keeps the rows of `blobs`, in their order and up to the
occurrences of the commit `c` in their hop columns, followed by new rows. -/
def KeepsRows (c : String) (blobs blobs1 : List BlobRow) : Prop :=
  ∃ olds news, blobs1 = olds ++ news ∧ List.Forall₂ (SameExcept c) blobs olds

/-! ## A chain of eight commits -/

/-- Eight commits: `c1` adds `a.txt`, every later commit adds a file of its own. -/
def chainHistory : List LogEntry :=
  [{ Commit := "c1", PathStatuses := [{ Path := "a.txt", Status := .AddedAMD }] },
   { Commit := "c2", PathStatuses := [{ Path := "b2.txt", Status := .AddedAMD }] },
   { Commit := "c3", PathStatuses := [{ Path := "b3.txt", Status := .AddedAMD }] },
   { Commit := "c4", PathStatuses := [{ Path := "b4.txt", Status := .AddedAMD }] },
   { Commit := "c5", PathStatuses := [{ Path := "b5.txt", Status := .AddedAMD }] },
   { Commit := "c6", PathStatuses := [{ Path := "b6.txt", Status := .AddedAMD }] },
   { Commit := "c7", PathStatuses := [{ Path := "b7.txt", Status := .AddedAMD }] },
   { Commit := "c8", PathStatuses := [{ Path := "b8.txt", Status := .AddedAMD }] }]

/-- The store that `Index` leaves for `chainHistory`. -/
def chainTables : Tables :=
  { rockskip_ancestry :=
      [{ commit_id := "c1", height := 1, ancestor_id := NULL },
       { commit_id := "c2", height := 2, ancestor_id := NULL },
       { commit_id := "c3", height := 3, ancestor_id := "c2" },
       { commit_id := "c4", height := 4, ancestor_id := NULL },
       { commit_id := "c5", height := 5, ancestor_id := "c4" },
       { commit_id := "c6", height := 6, ancestor_id := "c4" },
       { commit_id := "c7", height := 7, ancestor_id := "c6" },
       { commit_id := "c8", height := 8, ancestor_id := NULL }],
    rockskip_blobs :=
      [{ id := 1, commit := "c1", path := "a.txt", added := ["c1", "c2", "c4", "c8"],
         deleted := [], symbols := ["f"] },
       { id := 2, commit := "c2", path := "b2.txt", added := ["c2", "c4", "c8"],
         deleted := [], symbols := ["g"] },
       { id := 3, commit := "c3", path := "b3.txt", added := ["c3", "c4", "c8"],
         deleted := [], symbols := ["g"] },
       { id := 4, commit := "c4", path := "b4.txt", added := ["c4", "c8"],
         deleted := [], symbols := ["g"] },
       { id := 5, commit := "c5", path := "b5.txt", added := ["c5", "c6", "c8"],
         deleted := [], symbols := ["g"] },
       { id := 6, commit := "c6", path := "b6.txt", added := ["c6", "c8"],
         deleted := [], symbols := ["g"] },
       { id := 7, commit := "c7", path := "b7.txt", added := ["c7", "c8"],
         deleted := [], symbols := ["g"] },
       { id := 8, commit := "c8", path := "b8.txt", added := ["c8"],
         deleted := [], symbols := ["g"] }],
    nextId := 9 }

/-! ## Stores that fail -/

/-- A `PostgresDB` on which the statement of `UpdateBlobHops` fails; every other method is
that of `postgres`. -/
def updateFails : DB Tables :=
  { postgres with UpdateBlobHops := fun _ _ _ _ => .error "UpdateBlobHops: connection lost" }

/-- A `PostgresDB` on which the statement of `InsertCommit` fails; every other method is
that of `postgres`. -/
def insertCommitFails : DB Tables :=
  { postgres with InsertCommit := fun _ _ _ _ => .error "InsertCommit: connection lost" }

/-- A history of three commits: `c1` adds `a.txt`, `c2` and `c3` modify it. -/
def modifyTwice : List LogEntry :=
  [{ Commit := "c1", PathStatuses := [{ Path := "a.txt", Status := .AddedAMD }] },
   { Commit := "c2", PathStatuses := [{ Path := "a.txt", Status := .ModifiedAMD }] },
   { Commit := "c3", PathStatuses := [{ Path := "a.txt", Status := .ModifiedAMD }] }]

/-- The store that `Index` leaves for `modifyTwice` on `updateFails`: no blob was ever
marked deleted. -/
def modifyTwiceUnmarked : Tables :=
  { rockskip_ancestry :=
      [{ commit_id := "c1", height := 1, ancestor_id := NULL },
       { commit_id := "c2", height := 2, ancestor_id := NULL },
       { commit_id := "c3", height := 3, ancestor_id := "c2" }],
    rockskip_blobs :=
      [{ id := 1, commit := "c1", path := "a.txt", added := ["c1", "c2"], deleted := [],
         symbols := ["f"] },
       { id := 2, commit := "c2", path := "a.txt", added := ["c2"], deleted := [],
         symbols := ["g"] },
       { id := 3, commit := "c3", path := "a.txt", added := ["c3"], deleted := [],
         symbols := ["g"] }],
    nextId := 4 }

/-- The store that `Index` leaves for `singleHistory` on `insertCommitFails`: the blob is
there, the commit is not. -/
def singleUnrecorded : Tables :=
  { rockskip_ancestry := [],
    rockskip_blobs :=
      [{ id := 1, commit := "c1", path := "a.txt", added := ["c1"], deleted := [],
         symbols := ["f"] }],
    nextId := 2 }

/-! ## Histories that change a path that is not there -/

/-- A history that is not well formed: `c1` adds `a.txt`, `c2` deletes it, and `c3` reports
it as deleted once more. -/
def deleteTwice : List LogEntry :=
  [{ Commit := "c1", PathStatuses := [{ Path := "a.txt", Status := .AddedAMD }] },
   { Commit := "c2", PathStatuses := [{ Path := "a.txt", Status := .DeletedAMD }] },
   { Commit := "c3", PathStatuses := [{ Path := "a.txt", Status := .DeletedAMD }] }]

/-- The store after the first two commits of `deleteTwice`. -/
def deleteTwiceAt2 : Tables :=
  { rockskip_ancestry :=
      [{ commit_id := "c1", height := 1, ancestor_id := NULL },
       { commit_id := "c2", height := 2, ancestor_id := NULL }],
    rockskip_blobs :=
      [{ id := 1, commit := "c1", path := "a.txt", added := ["c1"], deleted := [],
         symbols := ["f"] }],
    nextId := 2 }

/-- The store that one `Index` call on `c3` leaves for `deleteTwice`. -/
def deleteTwiceAt3 : Tables :=
  { rockskip_ancestry :=
      [{ commit_id := "c1", height := 1, ancestor_id := NULL },
       { commit_id := "c2", height := 2, ancestor_id := NULL },
       { commit_id := "c3", height := 3, ancestor_id := "c2" }],
    rockskip_blobs :=
      [{ id := 1, commit := "c1", path := "a.txt", added := ["c1"], deleted := ["c3"],
         symbols := ["f"] }],
    nextId := 2 }

/-- A history that is not well formed: `c1` adds `a.txt`, `c2` adds `b.txt`, `c3` deletes
`a.txt`, and `c4` reports `a.txt` as deleted once more. -/
def deleteLate : List LogEntry :=
  [{ Commit := "c1", PathStatuses := [{ Path := "a.txt", Status := .AddedAMD }] },
   { Commit := "c2", PathStatuses := [{ Path := "b.txt", Status := .AddedAMD }] },
   { Commit := "c3", PathStatuses := [{ Path := "a.txt", Status := .DeletedAMD }] },
   { Commit := "c4", PathStatuses := [{ Path := "a.txt", Status := .DeletedAMD }] }]

/-- The store after the first three commits of `deleteLate`. -/
def deleteLateAt3 : Tables :=
  { rockskip_ancestry :=
      [{ commit_id := "c1", height := 1, ancestor_id := NULL },
       { commit_id := "c2", height := 2, ancestor_id := NULL },
       { commit_id := "c3", height := 3, ancestor_id := "c2" }],
    rockskip_blobs :=
      [{ id := 1, commit := "c1", path := "a.txt", added := ["c1", "c2"],
         deleted := ["c3"], symbols := ["f"] },
       { id := 2, commit := "c2", path := "b.txt", added := ["c2"], deleted := [],
         symbols := ["g"] }],
    nextId := 3 }

/-- The store after a further `Index` call on `c4` of `deleteLate`. -/
def deleteLateAt4 : Tables :=
  { rockskip_ancestry :=
      [{ commit_id := "c1", height := 1, ancestor_id := NULL },
       { commit_id := "c2", height := 2, ancestor_id := NULL },
       { commit_id := "c3", height := 3, ancestor_id := "c2" },
       { commit_id := "c4", height := 4, ancestor_id := NULL }],
    rockskip_blobs :=
      [{ id := 1, commit := "c1", path := "a.txt", added := ["c1", "c2"],
         deleted := ["c3"], symbols := ["f"] },
       { id := 2, commit := "c2", path := "b.txt", added := ["c2", "c4"], deleted := [],
         symbols := ["g"] }],
    nextId := 3 }

/-! ## The parser of the reverse log -/

/-- The Go conversion `string(bytes)`: a Go string is a sequence of bytes, and each byte is
kept as the character of the same code. -/
def bytesToString (bytes : List UInt8) : String :=
  String.mk (bytes.map fun b => Char.ofNat b.toNat)

/-- The call `reader.ReadBytes(delim)` on the rest of the stream: the bytes up to and
including the first `delim`, and what follows; `none` when the stream ends before a
`delim` (the call returns `io.EOF`). -/
def readBytes (delim : UInt8) : List UInt8 → Option (List UInt8 × List UInt8)
  | [] => none
  | b :: rest =>
    if b = delim then some ([b], rest)
    else
      match readBytes delim rest with
      | none => none
      | some (line, rest1) => some (b :: line, rest1)

/-- The local function `isSubmodule` of `ParseLogReverse`. -/
def isSubmodule (mode : String) : Bool :=
  decide (mode = "160000")

/-- The loop of `ParseLogReverse` over the path records of one commit: `input` is the rest
of the stream, `pathStatuses` the list built so far.  Returns the list and the rest of the
stream after the records.  The bytes are `:` (58), `A` (65), `M` (77), `D` (68), `T` (84),
`C` (67), `R` (82) and `X` (88).  `none` means the fuel ran out. -/
def parsePathStatuses :
    Nat → List UInt8 → List PathStatus →
      Option (Except String (List PathStatus × List UInt8))
  | 0, _, _ => none
  | fuel + 1, input, pathStatuses =>
    match input with
    | [] => some (.ok (pathStatuses, input))
    | first :: _ =>
      if first ≠ 58 then some (.ok (pathStatuses, input))
      else
        let buf := input.take 99
        if buf.length ≠ 99 then
          some (.error ("read " ++ toString buf.length ++ " bytes, expected 99"))
        else
          match readBytes 0 (input.drop 99) with
          | none => some (.error "EOF")
          | some (pathNul, rest) =>
            let path := pathNul.dropLast
            let statusByte := buf.getD 97 0
            if statusByte = 65 then
              parsePathStatuses fuel rest
                (pathStatuses ++ [{ Path := bytesToString path, Status := .AddedAMD }])
            else if statusByte = 77 then
              parsePathStatuses fuel rest
                (pathStatuses ++ [{ Path := bytesToString path, Status := .ModifiedAMD }])
            else if statusByte = 68 then
              parsePathStatuses fuel rest
                (pathStatuses ++ [{ Path := bytesToString path, Status := .DeletedAMD }])
            else if statusByte = 84 then
              let oldMode := bytesToString ((buf.drop 1).take 6)
              let newMode := bytesToString ((buf.drop 8).take 6)
              if isSubmodule oldMode && !isSubmodule newMode then
                parsePathStatuses fuel rest
                  (pathStatuses ++ [{ Path := bytesToString path, Status := .AddedAMD }])
              else if !isSubmodule oldMode && isSubmodule newMode then
                parsePathStatuses fuel rest
                  (pathStatuses ++ [{ Path := bytesToString path, Status := .DeletedAMD }])
              else parsePathStatuses fuel rest pathStatuses
            else if statusByte = 67 then
              some (.error "unexpected status 'C' given --no-renames was specified")
            else if statusByte = 82 then
              some (.error "unexpected status 'R' given --no-renames was specified")
            else if statusByte = 88 then
              some (.error "unexpected status 'X' indicates a bug in git")
            else parsePathStatuses fuel rest pathStatuses

/-- The outer loop of `ParseLogReverse` over the commit records: `input` is the rest of
the stream, `logEntries` the list built so far.  The byte 10 is the newline.  `none` means
the fuel ran out. -/
def parseLogEntries :
    Nat → List UInt8 → List LogEntry → Option (Except String (List LogEntry))
  | 0, _, _ => none
  | fuel + 1, input, logEntries =>
    if input.length < 40 then some (.ok logEntries)
    else
      let commit := bytesToString (input.take 40)
      match readBytes 0 input with
      | none => some (.error "EOF")
      | some (_, rest) =>
        match rest with
        | [] => some (.ok logEntries)
        | first :: rest1 =>
          if first = 10 then
            match parsePathStatuses fuel rest1 [] with
            | none => none
            | some (.error e) => some (.error e)
            | some (.ok (pathStatuses, rest2)) =>
              parseLogEntries fuel rest2
                (logEntries ++ [{ Commit := commit, PathStatuses := pathStatuses }])
          else parseLogEntries fuel rest logEntries

/-- The function `ParseLogReverse` on a finite stream `stdout`.  Every round of either
loop consumes at least one byte, so the length of the stream bounds the number of rounds
(see `ParseLogReverse_returns`). -/
def ParseLogReverse (stdout : List UInt8) : Option (Except String (List LogEntry)) :=
  parseLogEntries (stdout.length + 1) stdout []

/-! ## The shape of the raw log -/

/-- One path record of the raw log: the 99 bytes from the colon up to the NUL after the
status byte, and the bytes of the path (which a NUL follows in the stream). -/
structure RawPath where
  header : List UInt8
  path : List UInt8

/-- One commit record of the raw log: the 40 bytes of the hash, the rest of the header
(which a NUL follows in the stream) and, when a newline and a path list follow, the path
records. -/
structure RawCommit where
  hash : List UInt8
  parents : List UInt8
  paths : Option (List RawPath)

/-- The bytes of a path record. -/
def RawPath.bytes (r : RawPath) : List UInt8 :=
  r.header ++ (r.path ++ [0])

/-- The bytes of a list of path records. -/
def rawPaths : List RawPath → List UInt8
  | [] => []
  | r :: rs => r.bytes ++ rawPaths rs

/-- The bytes of a commit record. -/
def RawCommit.bytes (c : RawCommit) : List UInt8 :=
  c.hash ++ (c.parents ++ 0 ::
    match c.paths with
    | none => []
    | some rs => 10 :: rawPaths rs)

/-- The byte stream made of the given commit records. -/
def rawLog : List RawCommit → List UInt8
  | [] => []
  | c :: cs => c.bytes ++ rawLog cs

/-- A path record has 99 header bytes, the first of them a colon, and no NUL in its
path. -/
def RawPath.WellFormed (r : RawPath) : Prop :=
  r.header.length = 99 ∧ r.header.head? = some 58 ∧ (0 : UInt8) ∉ r.path

/-- A commit record has a hash of 40 bytes that starts with neither a colon nor a
newline, no NUL in its header, and well-formed path records. -/
def RawCommit.WellFormed (c : RawCommit) : Prop :=
  c.hash.length = 40 ∧ c.hash.head? ≠ some 58 ∧ c.hash.head? ≠ some 10 ∧
  (0 : UInt8) ∉ c.hash ∧ (0 : UInt8) ∉ c.parents ∧
  ∀ rs, c.paths = some rs → ∀ r ∈ rs, r.WellFormed

/-- The status byte of a path record, at offset 97. -/
def RawPath.statusByte (r : RawPath) : UInt8 :=
  r.header.getD 97 0

/-- The old mode of a path record, at offsets 1 to 6. -/
def RawPath.oldMode (r : RawPath) : String :=
  bytesToString ((r.header.drop 1).take 6)

/-- The new mode of a path record, at offsets 8 to 13. -/
def RawPath.newMode (r : RawPath) : String :=
  bytesToString ((r.header.drop 8).take 6)

/-- The classification of a path record in the words of the specification: the status it
is reported with, or `none` when the record is omitted. -/
def RawPath.reported (r : RawPath) : Option StatusAMD :=
  if r.statusByte = 65 then some .AddedAMD
  else if r.statusByte = 77 then some .ModifiedAMD
  else if r.statusByte = 68 then some .DeletedAMD
  else if r.statusByte = 84 then
    if r.oldMode = "160000" ∧ r.newMode ≠ "160000" then some .AddedAMD
    else if r.newMode = "160000" ∧ r.oldMode ≠ "160000" then some .DeletedAMD
    else none
  else none

/-- The status byte of the record is `C`, `R` or `X`. -/
def RawPath.Fatal (r : RawPath) : Prop :=
  r.statusByte = 67 ∨ r.statusByte = 82 ∨ r.statusByte = 88

/-- The path statuses that the specification reports for a list of path records. -/
def reportedPaths (rs : List RawPath) : List PathStatus :=
  rs.filterMap fun r =>
    r.reported.map fun status => { Path := bytesToString r.path, Status := status }

/-- The log entries that correspond to a list of commit records when every record with a
path list yields one entry and a record without a path list yields none. -/
def reportedEntries (cs : List RawCommit) : List LogEntry :=
  cs.filterMap fun c =>
    c.paths.map fun rs => { Commit := bytesToString c.hash, PathStatuses := reportedPaths rs }

/-- The ASCII bytes of a string literal. -/
def asciiBytes (s : String) : List UInt8 :=
  s.data.map fun c => c.toNat.toUInt8

/-- A commit record without a path list, as `git log` prints it for a commit that changes
no file. -/
def emptyCommitRecord : RawCommit :=
  { hash := List.replicate 40 97, parents := asciiBytes " ", paths := none }

/-- A commit record with one path record, which adds `a.txt`. -/
def addCommitRecord : RawCommit :=
  { hash := List.replicate 40 98,
    parents := 32 :: List.replicate 40 97,
    paths := some
      [{ header := asciiBytes ":000000 100644 " ++ List.replicate 40 48 ++ [32] ++
          List.replicate 40 49 ++ asciiBytes " A" ++ [0],
         path := asciiBytes "a.txt" }] }

/-- A commit record with one path record, whose status byte is `R`. -/
def renameCommitRecord : RawCommit :=
  { hash := List.replicate 40 99,
    parents := 32 :: List.replicate 40 98,
    paths := some
      [{ header := asciiBytes ":100644 100644 " ++ List.replicate 40 48 ++ [32] ++
          List.replicate 40 49 ++ asciiBytes " R" ++ [0],
         path := asciiBytes "b.txt" }] }

/-! ## The writes of a run -/

/-- A write that `Index` issues to the store, with its arguments. -/
inductive Call where
  | AppendHop (hops : List String) (status : StatusAD) (hop : String)
  | UpdateBlobHops (id : Nat) (status : StatusAD) (hop : String)
  | InsertBlob (blob : Blob)
  | DeleteRedundant (hop : String)
  | InsertCommit (commit : String) (height : Nat) (ancestor : String)
  deriving DecidableEq

/-- The store `db` with a log: next to the state of `db`, the writes that `db` accepted, in
the order in which they were issued.  Reads go to `db` unchanged, and a write that `db`
refuses is refused with the same error. -/
def traced {σ : Type} (db : DB σ) : DB (σ × List Call) :=
  { GetCommit := fun s givenCommit => db.GetCommit s.1 givenCommit
    InsertCommit := fun s commit height ancestor =>
      match db.InsertCommit s.1 commit height ancestor with
      | .error e => .error e
      | .ok s1 => .ok (s1, s.2 ++ [.InsertCommit commit height ancestor])
    GetBlob := fun s hop path => db.GetBlob s.1 hop path
    UpdateBlobHops := fun s id status hop =>
      match db.UpdateBlobHops s.1 id status hop with
      | .error e => .error e
      | .ok s1 => .ok (s1, s.2 ++ [.UpdateBlobHops id status hop])
    InsertBlob := fun s blob =>
      match db.InsertBlob s.1 blob with
      | .error e => .error e
      | .ok (s1, id) => .ok ((s1, s.2 ++ [.InsertBlob blob]), id)
    AppendHop := fun s hops status hop =>
      match db.AppendHop s.1 hops status hop with
      | .error e => .error e
      | .ok s1 => .ok (s1, s.2 ++ [.AppendHop hops status hop])
    Search := fun s hops query => db.Search s.1 hops query
    DeleteRedundant := fun s hop =>
      match db.DeleteRedundant s.1 hop with
      | .error e => .error e
      | .ok s1 => .ok (s1, s.2 ++ [.DeleteRedundant hop]) }

/-- The writes of one path status of an entry with commit `commit`: at most one
`UpdateBlobHops` on the deleted column (none for an `Added` path, or when the store
refused the update), followed by at most one `InsertBlob` of a blob of that path born at
`commit` (none for a `Deleted` path). -/
def PathCalls (commit : String) (ps : PathStatus) (calls : List Call) : Prop :=
  ∃ upd ins, calls = upd ++ ins ∧
    (upd = [] ∨ (ps.Status ≠ .AddedAMD ∧ ∃ id, upd = [.UpdateBlobHops id .DeletedAD commit])) ∧
    (ins = [] ∨ (ps.Status ≠ .DeletedAMD ∧ ∃ symbols, ins = [.InsertBlob
      { Commit := commit, Path := ps.Path, Added := [commit], Deleted := [],
        Symbols := symbols }]))

/-- The writes of one path status that was processed without error: as `PathCalls`, and
the `InsertBlob` is there for every path that is not `Deleted`. -/
def PathCallsDone (commit : String) (ps : PathStatus) (calls : List Call) : Prop :=
  PathCalls commit ps calls ∧
  (ps.Status ≠ .DeletedAMD → ∃ symbols, [Call.InsertBlob
      { Commit := commit, Path := ps.Path, Added := [commit], Deleted := [],
        Symbols := symbols }] <:+ calls)

/-- The writes of an entry that was processed without error: the two `AppendHop`, the
writes of the path statuses in their order, `DeleteRedundant`, and last `InsertCommit`
(missing when the store refused it). -/
def EntryCalls (entry : LogEntry) (calls : List Call) : Prop :=
  ∃ hops groups last,
    calls = [.AppendHop hops .AddedAD entry.Commit, .AppendHop hops .DeletedAD entry.Commit] ++
      groups.flatten ++ [.DeleteRedundant entry.Commit] ++ last ∧
    List.Forall₂ (PathCallsDone entry.Commit) entry.PathStatuses groups ∧
    (last = [] ∨ ∃ height ancestor, last = [.InsertCommit entry.Commit height ancestor])

/-- The writes of an entry whose processing ended in an error: a prefix of the two
`AppendHop` followed by the writes of the first path statuses. -/
def EntryCallsFailed (entry : LogEntry) (calls : List Call) : Prop :=
  ∃ hops groups,
    calls <+: [.AppendHop hops .AddedAD entry.Commit,
      .AppendHop hops .DeletedAD entry.Commit] ++ groups.flatten ∧
    List.Forall₂ (PathCalls entry.Commit) (entry.PathStatuses.take groups.length) groups

/-- The writes of a run of the loop of `Index` over `entries`: the writes of each entry
that was processed without error, entry after entry, followed, when the run ended in an
error, by the writes of the entry that failed. -/
def RunCalls (entries : List LogEntry) (err : Option String) (calls : List Call) : Prop :=
  match err with
  | none => ∃ groups, calls = groups.flatten ∧ List.Forall₂ EntryCalls entries groups
  | some _ =>
    ∃ done failed rest groups failedCalls,
      entries = done ++ failed :: rest ∧ calls = groups.flatten ++ failedCalls ∧
      List.Forall₂ EntryCalls done groups ∧ EntryCallsFailed failed failedCalls

/-- The call is an `InsertCommit`. -/
def Call.isInsertCommit : Call → Bool
  | .InsertCommit _ _ _ => true
  | _ => false

/-- The call is an `InsertBlob`. -/
def Call.isInsertBlob : Call → Bool
  | .InsertBlob _ => true
  | _ => false

/-- The state of the loop of `Index` over a store with a log, without the log. -/
def IndexState.erase {σ : Type} (st : IndexState (σ × List Call)) : IndexState σ :=
  { db := st.db.1, tipCommit := st.tipCommit, tipHeight := st.tipHeight,
    pathToBlobIdCache := st.pathToBlobIdCache }

/-! ## Reprocessing an entry -/

/-- The effect on the tables of a `PostgresDB` of issuing a write (nothing when the
statement fails). -/
def applyCall (t : Tables) : Call → Tables
  | .AppendHop hops status hop =>
    match postgres.AppendHop t hops status hop with
    | .ok t1 => t1
    | .error _ => t
  | .UpdateBlobHops id status hop =>
    match postgres.UpdateBlobHops t id status hop with
    | .ok t1 => t1
    | .error _ => t
  | .InsertBlob blob =>
    match postgres.InsertBlob t blob with
    | .ok (t1, _) => t1
    | .error _ => t
  | .DeleteRedundant hop =>
    match postgres.DeleteRedundant t hop with
    | .ok t1 => t1
    | .error _ => t
  | .InsertCommit commit height ancestor =>
    match postgres.InsertCommit t commit height ancestor with
    | .ok t1 => t1
    | .error _ => t

/-- The effect of issuing a list of writes, in order. -/
def applyCalls (t : Tables) (calls : List Call) : Tables :=
  calls.foldl applyCall t

/-- Two blob rows that are equal once their hop columns are read as sets. -/
def BlobRow.SameSets (b b1 : BlobRow) : Prop :=
  b1.id = b.id ∧ b1.commit = b.commit ∧ b1.path = b.path ∧ b1.symbols = b.symbols ∧
  (∀ y, y ∈ b1.added ↔ y ∈ b.added) ∧ (∀ y, y ∈ b1.deleted ↔ y ∈ b.deleted)

/-- Two stores that are equal once the hop columns are read as sets: the same ancestry
rows, the same next id, and row by row the same blobs. -/
def Tables.SameSets (t t1 : Tables) : Prop :=
  t1.rockskip_ancestry = t.rockskip_ancestry ∧ t1.nextId = t.nextId ∧
  List.Forall₂ BlobRow.SameSets t.rockskip_blobs t1.rockskip_blobs

/-- Two blobs returned by `Search` that are equal once their hop lists are read as
sets. -/
def Blob.SameSets (b b1 : Blob) : Prop :=
  b1.Commit = b.Commit ∧ b1.Path = b.Path ∧ b1.Symbols = b.Symbols ∧
  (∀ y, y ∈ b1.Added ↔ y ∈ b.Added) ∧ (∀ y, y ∈ b1.Deleted ↔ y ∈ b.Deleted)

/-- The row `b1` of a reprocessing run against the row `b` of the uninterrupted run while
the entry with commit `c` is processed: the rows agree on every commit other than `c`, and
`c` is in a column of `b1` when it is in that column of `b` or was left there by the
interrupted pass (`Ea`, `Ed` say for which row ids it was). -/
def RowSim (c : String) (Ea Ed : Nat → Prop) (b b1 : BlobRow) : Prop :=
  b1.id = b.id ∧ b1.commit = b.commit ∧ b1.path = b.path ∧ b1.symbols = b.symbols ∧
  (∀ y, y ≠ c → ((y ∈ b1.added ↔ y ∈ b.added) ∧ (y ∈ b1.deleted ↔ y ∈ b.deleted))) ∧
  (c ∈ b1.added ↔ c ∈ b.added ∨ Ea b.id) ∧ (c ∈ b1.deleted ↔ c ∈ b.deleted ∨ Ed b.id)

/-- The store `t1` of a reprocessing run against the store `t` of the uninterrupted
run. -/
def TablesSim (c : String) (Ea Ed : Nat → Prop) (t t1 : Tables) : Prop :=
  t1.rockskip_ancestry = t.rockskip_ancestry ∧ t1.nextId = t.nextId ∧
  List.Forall₂ (RowSim c Ea Ed) t.rockskip_blobs t1.rockskip_blobs ∧
  ∀ id, Ed id → id < t.nextId

/-- The write names the commit `c` as its hop and inserts no row: an `AppendHop`, an
`UpdateBlobHops` or a `DeleteRedundant` with hop `c`. -/
def Call.marks (c : String) : Call → Bool
  | .AppendHop _ _ hop => decide (hop = c)
  | .UpdateBlobHops _ _ hop => decide (hop = c)
  | .DeleteRedundant hop => decide (hop = c)
  | _ => false

/-- The write only appends: to hop columns (`AppendHop`, `UpdateBlobHops`) or a row to the
blob table (`InsertBlob`). -/
def Call.appends : Call → Bool
  | .AppendHop _ _ _ => true
  | .UpdateBlobHops _ _ _ => true
  | .InsertBlob _ => true
  | _ => false

/-- Every row of `blobs` has a row of `blobs1` with its id that holds the commit `c` in
each hop column in which the row of `blobs` holds it. -/
def Under (c : String) (blobs blobs1 : List BlobRow) : Prop :=
  ∀ b ∈ blobs, ∃ b1 ∈ blobs1, b1.id = b.id ∧ (c ∈ b.added → c ∈ b1.added) ∧
    (c ∈ b.deleted → c ∈ b1.deleted)

/-- The row with id `id` of `blobs` holds the commit `c` in its added column. -/
def leftAdded (c : String) (blobs : List BlobRow) (id : Nat) : Prop :=
  ∃ b ∈ blobs, b.id = id ∧ c ∈ b.added

/-- The row with id `id` of `blobs` holds the commit `c` in its deleted column. -/
def leftDeleted (c : String) (blobs : List BlobRow) (id : Nat) : Prop :=
  ∃ b ∈ blobs, b.id = id ∧ c ∈ b.deleted

/-! ## A crash in the middle of an entry -/

/-- The first three writes of the entry `c1` of `singleHistory`: the two `AppendHop` and
the `InsertBlob` of `a.txt`. -/
def singleCrashPrefix : List Call :=
  [.AppendHop [] .AddedAD "c1", .AppendHop [] .DeletedAD "c1",
   .InsertBlob { Commit := "c1", Path := "a.txt", Added := ["c1"], Deleted := [],
                 Symbols := some ["f"] }]

/-- The store that `Index` leaves for `singleHistory` when it is run on the store left by
`singleCrashPrefix`: `a.txt` has two blobs. -/
def singleReprocessed : Tables :=
  { rockskip_ancestry := [{ commit_id := "c1", height := 1, ancestor_id := NULL }],
    rockskip_blobs :=
      [{ id := 1, commit := "c1", path := "a.txt", added := ["c1"], deleted := [],
         symbols := ["f"] },
       { id := 2, commit := "c1", path := "a.txt", added := ["c1"], deleted := [],
         symbols := ["f"] }],
    nextId := 3 }

/-! ## Properties of an ancestry store -/

/-- P1 of the specification, height density, read through `GetCommit`: `NULL` is absent
(it is the implicit height 0), every present commit has a height in `1..H`, and every
height in `1..H` is the height of exactly one present commit. -/
def HeightDensity {σ : Type} (db : DB σ) (s : σ) (H : Nat) : Prop :=
  (∃ a h, db.GetCommit s NULL = .ok (a, h, false)) ∧
  (∀ c a h, db.GetCommit s c = .ok (a, h, true) → 1 ≤ h ∧ h ≤ H) ∧
  (∀ h, 1 ≤ h → h ≤ H → ∃ c a, db.GetCommit s c = .ok (a, h, true)) ∧
  (∀ c1 c2 a1 a2 h, db.GetCommit s c1 = .ok (a1, h, true) →
    db.GetCommit s c2 = .ok (a2, h, true) → c1 = c2)

/-- P2 of the specification, ancestor-height decrease, read through `GetCommit`: the
ancestor of a present commit of height `h > 0` has height `h - 2 ^ ruler h`; it is `NULL`
when that is 0 and a present commit otherwise. -/
def AncestorDecrease {σ : Type} (db : DB σ) (s : σ) : Prop :=
  ∀ c a h, db.GetCommit s c = .ok (a, h, true) → 0 < h →
    (h - 2 ^ ruler h = 0 ∧ a = NULL) ∨
    (0 < h - 2 ^ ruler h ∧ ∃ a2, db.GetCommit s a = .ok (a2, h - 2 ^ ruler h, true))

/-- The height of a commit in a store: the stored height of a present commit, and 0 for
`NULL` and for a commit that is absent. -/
def heightIn {σ : Type} (db : DB σ) (s : σ) (c : String) : Nat :=
  match db.GetCommit s c with
  | .ok (_, h, true) => if c = NULL then 0 else h
  | _ => 0

/-- The ancestor of every present commit is `NULL`, absent, or a present commit of
strictly smaller height. -/
def AncestorsBelow {σ : Type} (db : DB σ) (s : σ) : Prop :=
  ∀ c a h, db.GetCommit s c = .ok (a, h, true) →
    ∀ a2 h2, db.GetCommit s a = .ok (a2, h2, true) → a = NULL ∨ h2 < h

/-- An ancestry table with one commit stored at height 0. -/
def heightZeroStore : Tables :=
  { rockskip_ancestry := [{ commit_id := "c1", height := 0, ancestor_id := NULL }],
    rockskip_blobs := [], nextId := 1 }

/-! ## A collapse without a path status -/

/-- Four commits: `c1` adds `a.txt`, `c2` adds `b.txt`, `c3` deletes `a.txt`, and `c4`
changes no file. -/
def collapseHistory : List LogEntry :=
  [{ Commit := "c1", PathStatuses := [{ Path := "a.txt", Status := .AddedAMD }] },
   { Commit := "c2", PathStatuses := [{ Path := "b.txt", Status := .AddedAMD }] },
   { Commit := "c3", PathStatuses := [{ Path := "a.txt", Status := .DeletedAMD }] },
   { Commit := "c4", PathStatuses := [] }]

/-- The store that `Index` leaves for `collapseHistory` at `c3`. -/
def collapseAt3 : Tables :=
  { rockskip_ancestry :=
      [{ commit_id := "c1", height := 1, ancestor_id := NULL },
       { commit_id := "c2", height := 2, ancestor_id := NULL },
       { commit_id := "c3", height := 3, ancestor_id := "c2" }],
    rockskip_blobs :=
      [{ id := 1, commit := "c1", path := "a.txt", added := ["c1", "c2"], deleted := ["c3"],
         symbols := ["f"] },
       { id := 2, commit := "c2", path := "b.txt", added := ["c2"], deleted := [],
         symbols := ["g"] }],
    nextId := 3 }

/-- The store of `collapseHistory` while `c4` is processed, after the two `AppendHop`
statements: the blob of `a.txt` has `c4` in both columns. -/
def collapseMid : Tables :=
  { rockskip_ancestry := collapseAt3.rockskip_ancestry,
    rockskip_blobs :=
      [{ id := 1, commit := "c1", path := "a.txt", added := ["c1", "c2", "c4"],
         deleted := ["c3", "c4"], symbols := ["f"] },
       { id := 2, commit := "c2", path := "b.txt", added := ["c2", "c4"], deleted := [],
         symbols := ["g"] }],
    nextId := 3 }

/-- The store that `Index` leaves for `collapseHistory` at `c4`. -/
def collapseAt4 : Tables :=
  { rockskip_ancestry :=
      collapseAt3.rockskip_ancestry ++
        [{ commit_id := "c4", height := 4, ancestor_id := NULL }],
    rockskip_blobs :=
      [{ id := 1, commit := "c1", path := "a.txt", added := ["c1", "c2"], deleted := ["c3"],
         symbols := ["f"] },
       { id := 2, commit := "c2", path := "b.txt", added := ["c2", "c4"], deleted := [],
         symbols := ["g"] }],
    nextId := 3 }

/-! ## The birth commit of a blob -/

/-- Each entry of the history names a path at most once. -/
def NodupPaths (hist : List LogEntry) : Prop :=
  ∀ e ∈ hist, (e.PathStatuses.map fun ps => ps.Path).Nodup

instance (hist : List LogEntry) : Decidable (NodupPaths hist) := by
  unfold NodupPaths
  infer_instance

/-- The ids of the blob table are pairwise different and below the next value of the
sequence. -/
def IdsOK (t : Tables) : Prop :=
  (t.rockskip_blobs.map fun b => b.id).Nodup ∧ ∀ b ∈ t.rockskip_blobs, b.id < t.nextId

/-- A blob row born at a height `a` in `1..k`: its commit is the commit at height `a` and
is in its `added` column, and its `deleted` column holds only commits of heights above `a`,
up to `m`. -/
def BornRow (hist : List LogEntry) (k m : Nat) (b : BlobRow) : Prop :=
  ∃ a, 1 ≤ a ∧ a ≤ k ∧ b.commit = commitAt hist a ∧ b.commit ∈ b.added ∧
    ∀ y ∈ b.deleted, ∃ x, a < x ∧ x ≤ m ∧ y = commitAt hist x

/-- The blob table when `k` entries of a history are indexed, as far as the birth commits
are concerned. -/
def BirthInv (hist : List LogEntry) (k : Nat) (t : Tables) : Prop :=
  IdsOK t ∧ ∀ b ∈ t.rockskip_blobs, BornRow hist k k b

/-- The cache `pathToBlobIdCache` holds ids that the sequence has given out, and the rows
with an id that it holds for a path are rows of that path. -/
def CacheIds (t : Tables) (cache : String → Option Nat) : Prop :=
  ∀ p id, cache p = some id →
    id < t.nextId ∧ ∀ b ∈ t.rockskip_blobs, b.id = id → b.path = p

/-- The blob table while the entry at height `k + 1` is processed, after its two
`AppendHop` statements, when the paths `done` have been processed: the rows with an id
below `N0`, the next id at the start of the entry, were born before; the other rows were
inserted by the entry, for a path of `done`, and nothing was appended to them. -/
def BirthMid (hist : List LogEntry) (k N0 : Nat) (done : List String) (t : Tables) : Prop :=
  IdsOK t ∧ N0 ≤ t.nextId ∧ ∀ b ∈ t.rockskip_blobs,
    (b.id < N0 ∧ BornRow hist k (k + 1) b) ∨
    (N0 ≤ b.id ∧ b.commit = commitAt hist (k + 1) ∧ b.added = [commitAt hist (k + 1)] ∧
      b.deleted = [] ∧ b.path ∈ done)

/-! ## Columns of a row, for any statuses -/

/-- The columns of the row hold commits of the first `m` heights of the history only, and
the heights of the commits in `added` all have the height `a` in their interval. -/
def ColumnsWithin (hist : List LogEntry) (m : Nat) (b : BlobRow) : Prop :=
  ∃ a, (∀ y ∈ b.added, ∃ x, 1 ≤ x ∧ x ≤ m ∧ y = commitAt hist x ∧ inI a x) ∧
    ∀ y ∈ b.deleted, ∃ x, 1 ≤ x ∧ x ≤ m ∧ y = commitAt hist x

/-! ## A modify beside another file -/

/-- A history in which `c0` adds `q.txt`, `c1` adds `a.txt` and the next commit `c2`
modifies `a.txt`. -/
def besideHistory : List LogEntry :=
  [{ Commit := "c0", PathStatuses := [{ Path := "q.txt", Status := .AddedAMD }] },
   { Commit := "c1", PathStatuses := [{ Path := "a.txt", Status := .AddedAMD }] },
   { Commit := "c2", PathStatuses := [{ Path := "a.txt", Status := .ModifiedAMD }] }]

/-- The store that `Index` leaves for `besideHistory` with the contents `modifyContents`
and the parser `bytesAsSymbols`. -/
def besideTables : Tables :=
  { rockskip_ancestry :=
      [{ commit_id := "c0", height := 1, ancestor_id := NULL },
       { commit_id := "c1", height := 2, ancestor_id := NULL },
       { commit_id := "c2", height := 3, ancestor_id := "c1" }],
    rockskip_blobs :=
      [{ id := 1, commit := "c0", path := "q.txt", added := ["c0", "c1"], deleted := [],
         symbols := ["g"] },
       { id := 2, commit := "c1", path := "a.txt", added := ["c1"], deleted := ["c2"],
         symbols := ["f"] },
       { id := 3, commit := "c2", path := "a.txt", added := ["c2"], deleted := [],
         symbols := ["g"] }],
    nextId := 4 }

/-- A parser that returns the nil slice and a nil error for every file. -/
def nilSymbols : ParseSymbolsFunc :=
  fun _ _ => .ok none

/-! ## Lemmas -/

theorem rulerAux_fuel (n : Nat) : ∀ fuel1 fuel2, n ≤ fuel1 → n ≤ fuel2 →
    rulerAux fuel1 n = rulerAux fuel2 n := by
  induction n using Nat.strong_induction_on with
  | _ n ih =>
    intro fuel1 fuel2 h1 h2
    by_cases hn : n = 0
    · subst hn
      cases fuel1 <;> cases fuel2 <;> simp [rulerAux]
    · obtain ⟨f1, rfl⟩ : ∃ f, fuel1 = f + 1 := ⟨fuel1 - 1, by omega⟩
      obtain ⟨f2, rfl⟩ : ∃ f, fuel2 = f + 1 := ⟨fuel2 - 1, by omega⟩
      simp only [rulerAux, hn, if_false]
      by_cases hp : n % 2 ≠ 0
      · simp [hp]
      · simp only [hp, if_false]
        rw [ih (n / 2) (by omega) f1 f2 (by omega) (by omega)]

/-- The equation of the source: `ruler` as it is written in Go. -/
theorem ruler_eq (n : Nat) :
    ruler n = if n = 0 then 0 else if n % 2 ≠ 0 then 0 else 1 + ruler (n / 2) := by
  unfold ruler
  cases n with
  | zero => simp [rulerAux]
  | succ m =>
    simp only [rulerAux]
    by_cases hp : (m + 1) % 2 ≠ 0
    · simp [hp]
    · simp only [hp, if_false, Nat.succ_ne_zero]
      rw [rulerAux_fuel ((m + 1) / 2) m ((m + 1) / 2) (by omega) (le_refl _)]

theorem ruler_zero : ruler 0 = 0 := by decide

theorem ruler_odd {n : Nat} (h : n % 2 = 1) : ruler n = 0 := by
  rw [ruler_eq]; simp [h]
  
theorem ruler_even {n : Nat} (h0 : 0 < n) (h : n % 2 = 0) : ruler n = 1 + ruler (n / 2) := by
  rw [ruler_eq]; simp [h]; omega

theorem ruler_two_mul {n : Nat} (h0 : 0 < n) : ruler (2 * n) = 1 + ruler n := by
  rw [ruler_even (by omega) (by omega)]
  congr 2; omega

theorem pow_ruler_dvd (n : Nat) : 2 ^ ruler n ∣ n := by
  induction n using Nat.strong_induction_on with
  | _ n ih =>
    by_cases hn : n = 0
    · subst hn; simp
    · by_cases hp : n % 2 = 1
      · rw [ruler_odd hp]; simp
      · rw [ruler_even (by omega) (by omega), Nat.add_comm, pow_succ]
        have := ih (n / 2) (by omega)
        obtain ⟨k, hk⟩ := this
        refine ⟨k, ?_⟩
        have h2 : n = 2 * (n / 2) := by omega
        calc n = 2 * (n / 2) := h2
          _ = 2 * (2 ^ ruler (n / 2) * k) := by rw [← hk]
          _ = 2 ^ ruler (n / 2) * 2 * k := by ring

theorem pow_ruler_succ_not_dvd {n : Nat} (h0 : 0 < n) : ¬ 2 ^ (ruler n + 1) ∣ n := by
  induction n using Nat.strong_induction_on with
  | _ n ih =>
    by_cases hp : n % 2 = 1
    · rw [ruler_odd hp]
      simp only [zero_add, pow_one]
      omega
    · rw [ruler_even (by omega) (by omega)]
      intro ⟨k, hk⟩
      apply ih (n / 2) (by omega) (by omega)
      refine ⟨k, ?_⟩
      have h2 : n = 2 * (n / 2) := by omega
      generalize ruler (n / 2) = r at hk ⊢
      have h3 : (2 : Nat) ^ (1 + r + 1) * k = 2 * (2 ^ (r + 1) * k) := by ring
      omega

theorem ruler_eq_zero_iff {n : Nat} (h0 : 0 < n) : ruler n = 0 ↔ n % 2 = 1 := by
  constructor
  · intro h
    by_contra hp
    rw [ruler_even h0 (by omega)] at h
    omega
  · exact ruler_odd

theorem pow_ruler_le {x : Nat} (h : 0 < x) : 2 ^ ruler x ≤ x :=
  Nat.le_of_dvd h (pow_ruler_dvd x)

theorem ruler_pow_mul (j : Nat) {q : Nat} (hq : 0 < q) : ruler (2 ^ j * q) = j + ruler q := by
  induction j with
  | zero => simp
  | succ j ih =>
    have h1 : 2 ^ (j + 1) * q = 2 * (2 ^ j * q) := by ring
    have h2 : 0 < 2 ^ j * q := Nat.mul_pos (Nat.pos_of_ne_zero (by simp)) hq
    rw [h1, ruler_two_mul h2, ih]
    omega

theorem spineH_zero : spineH 0 = [0] := by
  rw [spineH]; simp

theorem spineH_pos {x : Nat} (h : 0 < x) : spineH x = x :: spineH (x - 2 ^ ruler x) := by
  rw [spineH]; simp [Nat.ne_of_gt h]

theorem spineH_head (x : Nat) : ∃ l, spineH x = x :: l := by
  by_cases h : x = 0
  · subst h; exact ⟨[], spineH_zero⟩
  · exact ⟨_, spineH_pos (by omega)⟩

theorem spineH_le (x : Nat) : ∀ y ∈ spineH x, y ≤ x := by
  induction x using Nat.strong_induction_on with
  | _ x ih =>
    by_cases h : x = 0
    · subst h; rw [spineH_zero]; simp
    · have hl := pow_ruler_le (Nat.pos_of_ne_zero h)
      have hp : 0 < 2 ^ ruler x := Nat.pos_of_ne_zero (by simp)
      rw [spineH_pos (by omega)]
      intro y hy
      rcases List.mem_cons.mp hy with rfl | hy
      · exact le_refl _
      · have := ih (x - 2 ^ ruler x) (by omega) y hy
        omega

theorem spineH_length_le (x : Nat) : (spineH x).length ≤ x + 1 := by
  induction x using Nat.strong_induction_on with
  | _ x ih =>
    by_cases h : x = 0
    · subst h; rw [spineH_zero]; simp
    · have hl := pow_ruler_le (Nat.pos_of_ne_zero h)
      have hp : 0 < 2 ^ ruler x := Nat.pos_of_ne_zero (by simp)
      rw [spineH_pos (by omega)]
      have := ih (x - 2 ^ ruler x) (by omega)
      simp only [List.length_cons]
      omega

theorem not_inI_zero (a : Nat) : ¬ inI a 0 := by
  unfold inI; omega

theorem not_inI_zero_left (x : Nat) : ¬ inI 0 x := by
  unfold inI; omega

/-- The intervals of the spine of `x` cover exactly the heights `1..x`. -/
theorem spineH_cover (x a : Nat) : (∃ y ∈ spineH x, inI a y) ↔ 0 < a ∧ a ≤ x := by
  induction x using Nat.strong_induction_on with
  | _ x ih =>
    by_cases h : x = 0
    · subst h; rw [spineH_zero]; simp [inI]
    · have hl := pow_ruler_le (Nat.pos_of_ne_zero h)
      have hp : 0 < 2 ^ ruler x := Nat.pos_of_ne_zero (by simp)
      rw [spineH_pos (by omega)]
      simp only [List.mem_cons, exists_eq_or_imp]
      rw [ih (x - 2 ^ ruler x) (by omega)]
      unfold inI
      omega

/-- The intervals of the spine of `x` are pairwise disjoint. -/
theorem spineH_unique (x a : Nat) : ∀ y1 ∈ spineH x, ∀ y2 ∈ spineH x,
    inI a y1 → inI a y2 → y1 = y2 := by
  induction x using Nat.strong_induction_on with
  | _ x ih =>
    by_cases h : x = 0
    · subst h; rw [spineH_zero]; simp
    · have hl := pow_ruler_le (Nat.pos_of_ne_zero h)
      have hp : 0 < 2 ^ ruler x := Nat.pos_of_ne_zero (by simp)
      rw [spineH_pos (by omega)]
      intro y1 h1 y2 h2 i1 i2
      rcases List.mem_cons.mp h1 with rfl | h1 <;> rcases List.mem_cons.mp h2 with rfl | h2
      · rfl
      · have := spineH_le _ y2 h2
        unfold inI at i1 i2; omega
      · have := spineH_le _ y1 h1
        unfold inI at i1 i2; omega
      · exact ih _ (by omega) y1 h1 y2 h2 i1 i2

/-- Walking `j` steps down the spine of `t` when `2^j` divides `t + 1`: every step
clears one of the `j` trailing one bits. -/
theorem spineH_drop (t : Nat) : ∀ j, 2 ^ j ∣ t + 1 →
    (spineH t).drop j = spineH (t + 1 - 2 ^ j) ∧
    ∀ a, (∃ y ∈ (spineH t).take j, inI a y) ↔ t + 1 - 2 ^ j < a ∧ a ≤ t := by
  intro j
  induction j with
  | zero =>
    intro _
    refine ⟨by simp, fun a => ?_⟩
    simp
  | succ j ih =>
    intro hd
    obtain ⟨m, hm⟩ := hd
    have hj : 2 ^ j ∣ t + 1 := ⟨2 * m, by rw [hm]; ring⟩
    obtain ⟨ihd, ihc⟩ := ih hj
    have hpj : 0 < 2 ^ j := Nat.pos_of_ne_zero (by simp)
    have hm0 : 0 < m := by
      rcases Nat.eq_zero_or_pos m with h | h
      · subst h; simp at hm
      · exact h
    have hy : t + 1 - 2 ^ j = 2 ^ j * (2 * m - 1) := by
      have : 2 ^ j * (2 * m - 1) = 2 ^ (j + 1) * m - 2 ^ j := by
        rw [Nat.mul_sub, pow_succ]; ring_nf
      rw [this, hm]
    have hr : ruler (t + 1 - 2 ^ j) = j := by
      rw [hy, ruler_pow_mul j (by omega), ruler_odd (by omega)]
      rfl
    have hypos : 0 < t + 1 - 2 ^ j := by
      rw [hy]; exact Nat.mul_pos hpj (by omega)
    have hsp := spineH_pos hypos
    rw [hr] at hsp
    have h2 : t + 1 - 2 ^ j - 2 ^ j = t + 1 - 2 ^ (j + 1) := by
      rw [pow_succ]; omega
    rw [h2] at hsp
    have hdrop : (spineH t).drop (j + 1) = spineH (t + 1 - 2 ^ (j + 1)) := by
      rw [← List.drop_drop 1 j, ihd, hsp]
      rfl
    refine ⟨hdrop, fun a => ?_⟩
    have htake : (spineH t).take (j + 1) = (spineH t).take j ++ [t + 1 - 2 ^ j] := by
      rw [List.take_succ]
      congr 1
      have : (spineH t)[j]? = ((spineH t).drop j)[0]? := by simp
      rw [this, ihd, hsp]
      simp
    rw [htake]
    simp only [List.mem_append, List.mem_singleton]
    constructor
    · rintro ⟨y, hy1 | rfl, hi⟩
      · have := (ihc a).mp ⟨y, hy1, hi⟩
        omega
      · unfold inI at hi
        rw [hr, h2] at hi
        omega
    · intro ⟨h3, h4⟩
      by_cases h5 : t + 1 - 2 ^ j < a
      · obtain ⟨y, hy1, hi⟩ := (ihc a).mpr ⟨h5, h4⟩
        exact ⟨y, Or.inl hy1, hi⟩
      · refine ⟨_, Or.inr rfl, ?_⟩
        unfold inI
        rw [hr, h2]
        omega

/-- The spine prefix that `Index` hands to `AppendHop` and the ancestor it records, for
the new height `t + 1` with `r = ruler (t + 1)`. -/
theorem spineH_ruler (t : Nat) :
    (spineH t)[ruler (t + 1)]? = some (t + 1 - 2 ^ ruler (t + 1)) ∧
    ∀ a, (∃ y ∈ (spineH t).take (ruler (t + 1)), inI a y) ↔
      t + 1 - 2 ^ ruler (t + 1) < a ∧ a ≤ t := by
  obtain ⟨hd, hc⟩ := spineH_drop t (ruler (t + 1)) (pow_ruler_dvd (t + 1))
  refine ⟨?_, hc⟩
  have : (spineH t)[ruler (t + 1)]? = ((spineH t).drop (ruler (t + 1)))[0]? := by simp
  rw [this, hd]
  obtain ⟨l, hl⟩ := spineH_head (t + 1 - 2 ^ ruler (t + 1))
  rw [hl]
  simp

/-! ### Commits of a history -/

theorem commitsOf_length (hist : List LogEntry) : (commitsOf hist).length = hist.length := by
  simp [commitsOf]

theorem commitAt_succ {hist : List LogEntry} {i : Nat} (h : i < hist.length) :
    commitAt hist (i + 1) = (hist[i]).Commit := by
  simp [commitAt, commitsOf, List.getD, h]

theorem commitAt_mem {hist : List LogEntry} {x : Nat} (h1 : 1 ≤ x) (h2 : x ≤ hist.length) :
    commitAt hist x ∈ commitsOf hist := by
  obtain ⟨i, rfl⟩ : ∃ i, x = i + 1 := ⟨x - 1, by omega⟩
  rw [commitAt_succ (by omega)]
  exact List.mem_map.mpr ⟨hist[i], List.getElem_mem _, rfl⟩

theorem commitAt_ne_NULL {hist : List LogEntry} (hwf : WellFormedCommits hist) {x : Nat}
    (h1 : 1 ≤ x) (h2 : x ≤ hist.length) : commitAt hist x ≠ NULL := by
  intro h
  exact hwf.2 (h ▸ commitAt_mem h1 h2)

theorem commitAt_inj {hist : List LogEntry} (hwf : WellFormedCommits hist) {x y : Nat}
    (hx : x ≤ hist.length) (hy : y ≤ hist.length) (h : commitAt hist x = commitAt hist y) :
    x = y := by
  rcases Nat.eq_zero_or_pos x with rfl | hx0 <;> rcases Nat.eq_zero_or_pos y with rfl | hy0
  · rfl
  · exact absurd h.symm (commitAt_ne_NULL hwf hy0 hy)
  · exact absurd h (commitAt_ne_NULL hwf hx0 hx)
  · obtain ⟨i, rfl⟩ : ∃ i, x = i + 1 := ⟨x - 1, by omega⟩
    obtain ⟨j, rfl⟩ : ∃ j, y = j + 1 := ⟨y - 1, by omega⟩
    have hi : i < (commitsOf hist).length := by rw [commitsOf_length]; omega
    have hj : j < (commitsOf hist).length := by rw [commitsOf_length]; omega
    have h3 : (commitsOf hist)[i] = (commitsOf hist)[j] := by
      simpa [commitAt, List.getD, hi, hj] using h
    have := (List.Nodup.getElem_inj_iff (l := commitsOf hist) hwf.1).mp h3
    omega

theorem mem_commitsOf_iff {hist : List LogEntry} {c : String} :
    c ∈ commitsOf hist ↔ ∃ x, 1 ≤ x ∧ x ≤ hist.length ∧ commitAt hist x = c := by
  constructor
  · intro h
    obtain ⟨i, hi, rfl⟩ := List.getElem_of_mem h
    rw [commitsOf_length] at hi
    refine ⟨i + 1, by omega, by omega, ?_⟩
    rw [commitAt_succ hi]
    simp [commitsOf]
  · rintro ⟨x, h1, h2, rfl⟩
    exact commitAt_mem h1 h2

theorem indexOf_commitAt {hist : List LogEntry} (hwf : WellFormedCommits hist) {i : Nat}
    (h : i < hist.length) : (commitsOf hist).indexOf (commitAt hist (i + 1)) = i := by
  have hi : i < (commitsOf hist).length := by rw [commitsOf_length]; exact h
  have h1 : commitAt hist (i + 1) = (commitsOf hist)[i] := by
    simp [commitAt, List.getD, hi]
  rw [h1]
  exact List.indexOf_getElem hwf.1 i hi

/-! ### The ancestry table -/

theorem ancestryUpTo_succ (hist : List LogEntry) (k : Nat) :
    ancestryUpTo hist (k + 1) = ancestryUpTo hist k ++ [ancestryRow hist (k + 1)] := by
  simp [ancestryUpTo, List.range_succ]

theorem mem_ancestryUpTo {hist : List LogEntry} {k : Nat} {row : AncestryRow} :
    row ∈ ancestryUpTo hist k ↔ ∃ x, 1 ≤ x ∧ x ≤ k ∧ row = ancestryRow hist x := by
  simp only [ancestryUpTo, List.mem_map, List.mem_range]
  constructor
  · rintro ⟨i, hi, rfl⟩
    exact ⟨i + 1, by omega, by omega, rfl⟩
  · rintro ⟨x, h1, h2, rfl⟩
    exact ⟨x - 1, by omega, by congr 1; omega⟩

theorem find_ancestryUpTo_none {hist : List LogEntry} {k : Nat} {c : String}
    (h : ∀ x, 1 ≤ x → x ≤ k → commitAt hist x ≠ c) :
    (ancestryUpTo hist k).find? (fun row => decide (row.commit_id = c)) = none := by
  rw [List.find?_eq_none]
  intro row hrow
  obtain ⟨x, h1, h2, rfl⟩ := mem_ancestryUpTo.mp hrow
  simpa [ancestryRow] using h x h1 h2

theorem find_ancestryUpTo_some {hist : List LogEntry} (hwf : WellFormedCommits hist) :
    ∀ {k x : Nat}, k ≤ hist.length → 1 ≤ x → x ≤ k →
    (ancestryUpTo hist k).find? (fun row => decide (row.commit_id = commitAt hist x)) =
      some (ancestryRow hist x) := by
  intro k
  induction k with
  | zero => intro x _ h1 h2; omega
  | succ k ih =>
    intro x hk h1 h2
    rw [ancestryUpTo_succ, List.find?_append]
    by_cases hx : x ≤ k
    · rw [ih (by omega) h1 hx]; rfl
    · have hxk : x = k + 1 := by omega
      subst hxk
      rw [find_ancestryUpTo_none]
      · simp [ancestryRow]
      · intro y hy1 hy2 heq
        have := commitAt_inj hwf (by omega) hk heq
        omega

theorem pgGetCommit_present {hist : List LogEntry} (hwf : WellFormedCommits hist)
    {t : Tables} {k x : Nat} (ht : t.rockskip_ancestry = ancestryUpTo hist k)
    (hk : k ≤ hist.length) (h1 : 1 ≤ x) (h2 : x ≤ k) :
    postgres.GetCommit t (commitAt hist x) =
      .ok (commitAt hist (x - 2 ^ ruler x), x, true) := by
  show pgGetCommit t (commitAt hist x) = _
  unfold pgGetCommit
  rw [ht, find_ancestryUpTo_some hwf hk h1 h2]
  rfl

theorem pgGetCommit_absent {hist : List LogEntry} {t : Tables} {k : Nat} {c : String}
    (ht : t.rockskip_ancestry = ancestryUpTo hist k)
    (h : ∀ x, 1 ≤ x → x ≤ k → commitAt hist x ≠ c) :
    postgres.GetCommit t c = .ok ("", 0, false) := by
  show pgGetCommit t c = _
  unfold pgGetCommit
  rw [ht, find_ancestryUpTo_none h]

theorem pgGetCommit_NULL {hist : List LogEntry} (hwf : WellFormedCommits hist)
    {t : Tables} {k : Nat} (ht : t.rockskip_ancestry = ancestryUpTo hist k)
    (hk : k ≤ hist.length) : postgres.GetCommit t NULL = .ok ("", 0, false) :=
  pgGetCommit_absent ht fun _ h1 h2 => commitAt_ne_NULL hwf h1 (by omega)

theorem pgGetCommit_later {hist : List LogEntry} (hwf : WellFormedCommits hist)
    {t : Tables} {k x : Nat} (ht : t.rockskip_ancestry = ancestryUpTo hist k)
    (hx : k < x) (hx2 : x ≤ hist.length) :
    postgres.GetCommit t (commitAt hist x) = .ok ("", 0, false) :=
  pgGetCommit_absent ht fun y _ h2 heq => by
    have := commitAt_inj hwf (by omega) hx2 heq
    omega

/-! ### The hop spine over the ancestry table -/

theorem getHopsLoop_spine {hist : List LogEntry} (hwf : WellFormedCommits hist)
    {t : Tables} {k : Nat} (ht : t.rockskip_ancestry = ancestryUpTo hist k)
    (hk : k ≤ hist.length) (x : Nat) :
    ∀ (fuel : Nat) (acc : List String), x ≤ k → (spineH x).length ≤ fuel →
    getHopsLoop postgres t fuel (commitAt hist x) acc =
      some (.ok (acc ++ ((spineH x).tail.map (commitAt hist)))) := by
  induction x using Nat.strong_induction_on with
  | _ x ih =>
    intro fuel acc hx hfuel
    by_cases h0 : x = 0
    · subst h0
      rw [spineH_zero] at hfuel ⊢
      obtain ⟨f, rfl⟩ : ∃ f, fuel = f + 1 := ⟨fuel - 1, by simp at hfuel; omega⟩
      have hg := pgGetCommit_NULL hwf ht hk
      simp [getHopsLoop, commitAt, hg]
    · have hl := pow_ruler_le (Nat.pos_of_ne_zero h0)
      have hp : 0 < 2 ^ ruler x := Nat.pos_of_ne_zero (by simp)
      rw [spineH_pos (by omega)] at hfuel ⊢
      obtain ⟨f, rfl⟩ : ∃ f, fuel = f + 1 := ⟨fuel - 1, by simp at hfuel; omega⟩
      have hg := pgGetCommit_present hwf ht hk (show 1 ≤ x by omega) hx
      have hne := commitAt_ne_NULL hwf (show 1 ≤ x by omega) (show x ≤ hist.length by omega)
      simp only [getHopsLoop, hg, Bool.not_true, Bool.false_eq_true, if_false, hne]
      rw [ih (x - 2 ^ ruler x) (by omega) f _ (by omega) (by simpa using hfuel)]
      obtain ⟨l, hl2⟩ := spineH_head (x - 2 ^ ruler x)
      rw [hl2]
      simp

/-- The spine of an indexed commit, as a list of commits. -/
theorem getHops_spine {hist : List LogEntry} (hwf : WellFormedCommits hist)
    {t : Tables} {k : Nat} (ht : t.rockskip_ancestry = ancestryUpTo hist k)
    (hk : k ≤ hist.length) {x fuel : Nat} (hx : x ≤ k) (hfuel : hist.length < fuel) :
    getHops fuel postgres t (commitAt hist x) =
      some (.ok ((spineH x).map (commitAt hist))) := by
  unfold getHops
  rw [getHopsLoop_spine hwf ht hk x fuel _ hx
    (by have := spineH_length_le x; omega)]
  obtain ⟨l, hl⟩ := spineH_head x
  rw [hl]
  simp

/-! ### The blob statements leave the ancestry table alone -/

@[simp] theorem postgres_GetCommit : (postgres.GetCommit) = pgGetCommit := rfl
@[simp] theorem postgres_InsertCommit : (postgres.InsertCommit) = pgInsertCommit := rfl
@[simp] theorem postgres_GetBlob : (postgres.GetBlob) = pgGetBlob := rfl
@[simp] theorem postgres_UpdateBlobHops : (postgres.UpdateBlobHops) = pgUpdateBlobHops := rfl
@[simp] theorem postgres_InsertBlob : (postgres.InsertBlob) = pgInsertBlob := rfl
@[simp] theorem postgres_AppendHop : (postgres.AppendHop) = pgAppendHop := rfl
@[simp] theorem postgres_Search : (postgres.Search) = pgSearch := rfl
@[simp] theorem postgres_DeleteRedundant : (postgres.DeleteRedundant) = pgDeleteRedundant := rfl

theorem updateDeleted_ancestry (t : Tables) (id : Nat) (c : String) :
    (updateDeleted postgres t id c).rockskip_ancestry = t.rockskip_ancestry := rfl

theorem deletePath_ancestry (hops : List String) (c p : String) (t : Tables)
    (cache : String → Option Nat) :
    (deletePath postgres hops c p t cache).1.rockskip_ancestry = t.rockskip_ancestry := by
  unfold deletePath
  cases cache p with
  | some id => rfl
  | none =>
    simp only
    cases lookupBlob postgres t p hops with
    | error e => rfl
    | ok r =>
      obtain ⟨id, found⟩ := r
      cases found <;> rfl

theorem insertPath_ancestry (git : Git) (parse : ParseSymbolsFunc) (c p : String)
    (t : Tables) (cache : String → Option Nat) :
    (insertPath git postgres parse c p t cache).1.rockskip_ancestry = t.rockskip_ancestry := by
  unfold insertPath
  cases git.CatFile c p with
  | error e => rfl
  | ok contents =>
    simp only
    cases parse p contents with
    | error e => rfl
    | ok symbols => cases symbols <;> rfl

theorem indexPath_ancestry (git : Git) (parse : ParseSymbolsFunc) (hops : List String)
    (c : String) (ps : PathStatus) (t : Tables) (cache : String → Option Nat) :
    (indexPath git postgres parse hops c ps t cache).1.rockskip_ancestry =
      t.rockskip_ancestry := by
  unfold indexPath
  by_cases hd : ps.Status = .DeletedAMD ∨ ps.Status = .ModifiedAMD
  · simp only [hd, if_true]
    have h1 := deletePath_ancestry hops c ps.Path t cache
    rcases hdp : deletePath postgres hops c ps.Path t cache with ⟨s1, _ | e⟩
    · rw [hdp] at h1
      simp only
      split
      · rw [insertPath_ancestry]; exact h1
      · exact h1
    · rw [hdp] at h1
      exact h1
  · simp only [hd, if_false]
    split
    · rw [insertPath_ancestry]
    · rfl

theorem indexPaths_ancestry (git : Git) (parse : ParseSymbolsFunc) (hops : List String)
    (c : String) (pss : List PathStatus) : ∀ (t : Tables) (cache : String → Option Nat),
    (indexPaths git postgres parse hops c pss t cache).1.rockskip_ancestry =
      t.rockskip_ancestry := by
  induction pss with
  | nil => intro t cache; rfl
  | cons ps rest ih =>
    intro t cache
    unfold indexPaths
    have h1 := indexPath_ancestry git parse hops c ps t cache
    rcases hip : indexPath git postgres parse hops c ps t cache with ⟨s1, cache1, _ | e⟩
    · rw [hip] at h1
      simp only
      rw [ih s1 cache1]; exact h1
    · rw [hip] at h1
      exact h1

/-! ### One entry, as far as the ancestry table is concerned -/

theorem pgInsertCommit_fresh {hist : List LogEntry} (hwf : WellFormedCommits hist)
    {t : Tables} {k : Nat} (ht : t.rockskip_ancestry = ancestryUpTo hist k)
    (hk : k < hist.length) :
    insertCommit postgres t (commitAt hist (k + 1)) (k + 1)
        (commitAt hist (k + 1 - 2 ^ ruler (k + 1))) =
      { t with rockskip_ancestry := ancestryUpTo hist (k + 1) } := by
  have hnone : (t.rockskip_ancestry.any fun row =>
      decide (row.commit_id = commitAt hist (k + 1))) = false := by
    rw [ht, List.any_eq_false]
    intro row hrow
    obtain ⟨x, h1, h2, rfl⟩ := mem_ancestryUpTo.mp hrow
    simp only [ancestryRow, decide_eq_true_eq]
    intro heq
    have := commitAt_inj hwf (by omega) (by omega) heq
    omega
  simp only [insertCommit, postgres_InsertCommit, pgInsertCommit, hnone]
  rw [ancestryUpTo_succ, ht]
  rfl

theorem indexEntry_ancestry {hist : List LogEntry} (hwf : WellFormedCommits hist)
    (git : Git) (parse : ParseSymbolsFunc) {fuel k : Nat} (hfuel : hist.length < fuel)
    (hk : k < hist.length) {st : IndexState Tables} (hst : AtHeight hist k st) :
    ∃ st1 err, indexEntry fuel git postgres parse hist[k] st = some (st1, err) ∧
      ((err = none ∧ AtHeight hist (k + 1) st1) ∨ (err ≠ none ∧ AtHeight hist k st1)) := by
  obtain ⟨ht, htip, hh⟩ := hst
  have hhops := getHops_spine hwf ht (le_of_lt hk) (le_refl k) hfuel
  obtain ⟨hr, -⟩ := spineH_ruler k
  have hanc : ((spineH k).map (commitAt hist))[ruler (k + 1)]? =
      some (commitAt hist (k + 1 - 2 ^ ruler (k + 1))) := by
    rw [List.getElem?_map, hr]; rfl
  have hc : (hist[k]).Commit = commitAt hist (k + 1) := (commitAt_succ hk).symm
  unfold indexEntry
  rw [htip, hhops, hh]
  simp only [hanc, postgres_AppendHop, pgAppendHop, postgres_DeleteRedundant,
    pgDeleteRedundant]
  generalize hs2 : ({ rockskip_ancestry := _, rockskip_blobs := _, nextId := _ } : Tables) = s2
  have hs2a : s2.rockskip_ancestry = ancestryUpTo hist k := by
    rw [← hs2]; exact ht
  have hpaths := indexPaths_ancestry git parse ((spineH k).map (commitAt hist))
    (hist[k]).Commit (hist[k]).PathStatuses s2 st.pathToBlobIdCache
  rcases hip : indexPaths git postgres parse ((spineH k).map (commitAt hist))
    (hist[k]).Commit (hist[k]).PathStatuses s2 st.pathToBlobIdCache with ⟨s3, cache3, _ | e⟩
  · rw [hip] at hpaths
    simp only at hpaths
    refine ⟨_, none, rfl, Or.inl ⟨rfl, ?_, ?_, rfl⟩⟩
    · simp only
      rw [hc, pgInsertCommit_fresh hwf (by rw [← hs2a, ← hpaths]) hk]
    · exact hc
  · rw [hip] at hpaths
    simp only at hpaths
    refine ⟨_, some e, rfl, Or.inr ⟨by simp, ?_, rfl, rfl⟩⟩
    simp only
    rw [hpaths, hs2a]

theorem indexEntries_ancestry {hist : List LogEntry} (hwf : WellFormedCommits hist)
    (git : Git) (parse : ParseSymbolsFunc) {fuel : Nat} (hfuel : hist.length < fuel) :
    ∀ (n k : Nat) (st : IndexState Tables), k + n ≤ hist.length → AtHeight hist k st →
    ∃ st1 err k1, indexEntries fuel git postgres parse ((hist.drop k).take n) st =
        some (st1, err) ∧ k ≤ k1 ∧ k1 ≤ k + n ∧ AtHeight hist k1 st1 ∧
        (err = none → k1 = k + n) := by
  intro n
  induction n with
  | zero =>
    intro k st _ hst
    exact ⟨st, none, k, by simp [indexEntries], le_refl _, le_refl _, hst, fun _ => rfl⟩
  | succ n ih =>
    intro k st hk hst
    have hlt : k < hist.length := by omega
    have hcons : (hist.drop k).take (n + 1) = hist[k] :: (hist.drop (k + 1)).take n := by
      rw [List.drop_eq_getElem_cons hlt]; rfl
    rw [hcons]
    obtain ⟨st1, err, he, hcase⟩ := indexEntry_ancestry hwf git parse hfuel hlt hst
    unfold indexEntries
    rw [he]
    rcases hcase with ⟨rfl, h1⟩ | ⟨hne, h1⟩
    · obtain ⟨st2, err2, k2, h2, h3, h4, h5, h6⟩ := ih (k + 1) st1 (by omega) h1
      exact ⟨st2, err2, k2, h2, by omega, by omega, h5, fun h => by have := h6 h; omega⟩
    · cases err with
      | none => exact absurd rfl hne
      | some e => exact ⟨st1, some e, k, rfl, le_refl _, by omega, h1, fun h => by simp at h⟩

/-! ### The resume point -/

theorem take_commitsOf_succ {hist : List LogEntry} {x : Nat} (hx : x < hist.length) :
    (commitsOf hist).take (x + 1) = (commitsOf hist).take x ++ [commitAt hist (x + 1)] := by
  have hx2 : x < (commitsOf hist).length := by rw [commitsOf_length]; exact hx
  rw [List.take_succ, List.getElem?_eq_getElem hx2]
  simp [commitAt, List.getD, hx2]

theorem reverse_take_commitsOf {hist : List LogEntry} : ∀ {x : Nat}, x ≤ hist.length →
    ((commitsOf hist).take x).reverse = revsFrom hist x := by
  intro x
  induction x with
  | zero => intro _; simp [revsFrom]
  | succ x ih =>
    intro hx
    rw [take_commitsOf_succ (by omega), List.reverse_append, ih (by omega)]
    rfl

theorem findTip_revsFrom {hist : List LogEntry} (hwf : WellFormedCommits hist)
    {t : Tables} {k : Nat} (ht : t.rockskip_ancestry = ancestryUpTo hist k)
    (hk : k ≤ hist.length) : ∀ (x m : Nat), x ≤ hist.length →
    findTip postgres t (revsFrom hist x) m =
      .ok (if x ≤ k then (commitAt hist x, x, m) else (commitAt hist k, k, m + (x - k))) := by
  intro x
  induction x with
  | zero => intro m _; simp [revsFrom, findTip, commitAt]
  | succ x ih =>
    intro m hx
    unfold revsFrom findTip
    by_cases hxk : x + 1 ≤ k
    · rw [pgGetCommit_present hwf ht hk (by omega) hxk]
      simp [hxk]
    · rw [pgGetCommit_later hwf ht (by omega) hx]
      simp only [Bool.false_eq_true, if_false, hxk]
      rw [ih (m + 1) (by omega)]
      by_cases hxk2 : x ≤ k
      · have : x = k := by omega
        subst this
        simp
      · simp only [hxk2, if_false]
        congr 3
        omega

/-- The run of `Index` on the commit at height `x`, from a store in which the first `k`
entries are indexed: the entries `k + 1 .. x` are processed from the tip at height `k`,
with an empty cache. -/
theorem Index_eq_indexEntries {hist : List LogEntry} (hwf : WellFormedCommits hist)
    (contents : String → String → List UInt8) (parse : ParseSymbolsFunc) (fuel : Nat)
    {t : Tables} {k x : Nat} (ht : t.rockskip_ancestry = ancestryUpTo hist k)
    (hk : k ≤ hist.length) (hx1 : 1 ≤ x) (hx : x ≤ hist.length) :
    Index fuel (gitOfHistory hist contents) postgres parse (commitAt hist x) t =
      (indexEntries fuel (gitOfHistory hist contents) postgres parse
          ((hist.drop k).take (x - k))
          { db := t, tipCommit := commitAt hist k, tipHeight := k,
            pathToBlobIdCache := fun _ => none }).map fun r => (r.1.db, r.2) := by
  obtain ⟨i, rfl⟩ : ∃ i, x = i + 1 := ⟨x - 1, by omega⟩
  have hidx := indexOf_commitAt hwf (show i < hist.length by omega)
  have hrev : (gitOfHistory hist contents).RevList (commitAt hist (i + 1)) =
      .ok (revsFrom hist (i + 1)) := by
    simp only [gitOfHistory, hidx, show i < hist.length by omega, if_true]
    rw [reverse_take_commitsOf hx]
  have hlog : ∀ n, (gitOfHistory hist contents).LogReverse (commitAt hist (i + 1)) n =
      .ok ((hist.take (i + 1)).drop (i + 1 - n)) := by
    intro n
    simp only [gitOfHistory, hidx, show i < hist.length by omega, if_true]
  generalize gitOfHistory hist contents = git at hrev hlog ⊢
  unfold Index
  rw [hrev]
  simp only
  rw [findTip_revsFrom hwf ht hk (i + 1) 0 hx]
  by_cases hxk : i + 1 ≤ k
  · simp only [hxk, if_true, hlog]
    have h0 : i + 1 - k = 0 := by omega
    have h1 : List.drop (i + 1 - 0) (List.take (i + 1) hist) = [] := by
      rw [List.drop_eq_nil_iff]
      simp
    rw [h0, h1]
    simp [indexEntries]
  · simp only [hxk, if_false, hlog]
    have h1 : i + 1 - (0 + (i + 1 - k)) = k := by omega
    rw [h1, List.drop_take]
    generalize indexEntries _ _ _ _ _ _ = r
    rcases r with _ | ⟨st, err⟩ <;> rfl

theorem Index_unknown (hist : List LogEntry) (contents : String → String → List UInt8)
    (parse : ParseSymbolsFunc) (fuel : Nat) (t : Tables) {c : String}
    (hc : c ∉ commitsOf hist) :
    Index fuel (gitOfHistory hist contents) postgres parse c t =
      some (t, some ("RevList: " ++ ("bad revision " ++ c))) := by
  have : ¬ (commitsOf hist).indexOf c < hist.length := by
    rw [← commitsOf_length, List.indexOf_lt_length]
    exact hc
  simp [Index, gitOfHistory, this]

/-- Whatever the target and whatever error comes back, `Index` leaves the ancestry table
as the rows of a range of heights `1..k`. -/
theorem Index_ancestry {hist : List LogEntry} (hwf : WellFormedCommits hist)
    (contents : String → String → List UInt8) (parse : ParseSymbolsFunc) {fuel : Nat}
    (hfuel : hist.length < fuel) {t : Tables} {k : Nat}
    (ht : t.rockskip_ancestry = ancestryUpTo hist k) (hk : k ≤ hist.length)
    (target : String) :
    ∃ t1 err k1, Index fuel (gitOfHistory hist contents) postgres parse target t =
        some (t1, err) ∧ k ≤ k1 ∧ k1 ≤ hist.length ∧
        t1.rockskip_ancestry = ancestryUpTo hist k1 := by
  by_cases hc : target ∈ commitsOf hist
  · obtain ⟨x, hx1, hx2, rfl⟩ := mem_commitsOf_iff.mp hc
    rw [Index_eq_indexEntries hwf contents parse fuel ht hk hx1 hx2]
    by_cases hxk : x ≤ k
    · have h0 : x - k = 0 := by omega
      rw [h0]
      exact ⟨t, none, k, by simp [indexEntries], le_refl _, hk, ht⟩
    · obtain ⟨st1, err, k1, h1, h2, h3, h4, -⟩ :=
        indexEntries_ancestry hwf (gitOfHistory hist contents) parse hfuel (x - k) k
          { db := t, tipCommit := commitAt hist k, tipHeight := k,
            pathToBlobIdCache := fun _ => none } (by omega) ⟨ht, rfl, rfl⟩
      rw [h1]
      exact ⟨st1.db, err, k1, rfl, h2, by omega, h4.1⟩
  · rw [Index_unknown hist contents parse fuel t hc]
    exact ⟨t, _, k, rfl, le_refl _, hk, ht⟩

theorem indexAll_ancestry {hist : List LogEntry} (hwf : WellFormedCommits hist)
    (contents : String → String → List UInt8) (parse : ParseSymbolsFunc) {fuel : Nat}
    (hfuel : hist.length < fuel) (targets : List String) :
    ∀ {t : Tables} {k : Nat}, t.rockskip_ancestry = ancestryUpTo hist k → k ≤ hist.length →
    ∃ t1 k1, indexAll fuel (gitOfHistory hist contents) parse targets t = some t1 ∧
      k1 ≤ hist.length ∧ t1.rockskip_ancestry = ancestryUpTo hist k1 := by
  induction targets with
  | nil => intro t k ht hk; exact ⟨t, k, rfl, hk, ht⟩
  | cons target rest ih =>
    intro t k ht hk
    obtain ⟨t1, err, k1, h1, -, h3, h4⟩ :=
      Index_ancestry hwf contents parse hfuel ht hk target
    unfold indexAll
    rw [h1]
    exact ih h4 h3

/-! ### Length of the spine -/

theorem spineH_two_mul (y : Nat) : spineH (2 * y) = (spineH y).map fun z => 2 * z := by
  induction y using Nat.strong_induction_on with
  | _ y ih =>
    by_cases h0 : y = 0
    · subst h0; simp [spineH_zero]
    · have hl := pow_ruler_le (Nat.pos_of_ne_zero h0)
      have hp : 0 < 2 ^ ruler y := Nat.pos_of_ne_zero (by simp)
      rw [spineH_pos (show 0 < 2 * y by omega), spineH_pos (show 0 < y by omega),
        ruler_two_mul (by omega)]
      have h1 : 2 * y - 2 ^ (1 + ruler y) = 2 * (y - 2 ^ ruler y) := by
        rw [Nat.add_comm, pow_succ]; omega
      rw [h1, ih (y - 2 ^ ruler y) (by omega)]
      simp

theorem spineH_two_mul_succ (y : Nat) : spineH (2 * y + 1) = (2 * y + 1) :: spineH (2 * y) := by
  rw [spineH_pos (by omega), ruler_odd (by omega)]
  simp

theorem spineH_length_lt_pow : ∀ (m x : Nat), x < 2 ^ m → (spineH x).length ≤ m + 1 := by
  intro m
  induction m with
  | zero =>
    intro x hx
    have : x = 0 := by simpa using hx
    subst this
    simp [spineH_zero]
  | succ m ih =>
    intro x hx
    have hy : x / 2 < 2 ^ m := by
      rw [pow_succ] at hx; omega
    have := ih (x / 2) hy
    rcases Nat.mod_two_eq_zero_or_one x with h | h
    · have hx2 : x = 2 * (x / 2) := by omega
      rw [hx2, spineH_two_mul, List.length_map]
      omega
    · have hx2 : x = 2 * (x / 2) + 1 := by omega
      rw [hx2, spineH_two_mul_succ, spineH_two_mul, List.length_cons, List.length_map]
      omega

theorem spineH_length_pow (m : Nat) : (spineH (2 ^ m)).length = 2 := by
  induction m with
  | zero =>
    rw [pow_zero, spineH_pos (by omega), ruler_odd (by omega)]
    simp [spineH_zero]
  | succ m ih =>
    have : 2 ^ (m + 1) = 2 * 2 ^ m := by ring
    rw [this, spineH_two_mul, List.length_map, ih]

theorem spineH_length_clog {x H : Nat} (hx : x ≤ H) (hH : 2 ≤ H) :
    (spineH x).length ≤ Nat.clog 2 H + 1 := by
  have h1 : H ≤ 2 ^ Nat.clog 2 H := Nat.le_pow_clog (by decide) H
  have h2 : 0 < Nat.clog 2 H := Nat.clog_pos (by decide) hH
  by_cases h3 : x < 2 ^ Nat.clog 2 H
  · exact spineH_length_lt_pow _ x h3
  · have h4 : x = 2 ^ Nat.clog 2 H := by omega
    rw [h4, spineH_length_pow]
    omega

/-! ### Heights of the ancestry table -/

theorem foldr_max_append (l : List Nat) (a : Nat) :
    (l ++ [a]).foldr max 0 = max (l.foldr max 0) a := by
  induction l with
  | nil => simp
  | cons b l ih => simp only [List.cons_append, List.foldr_cons, ih, max_assoc]

theorem maxHeight_ancestryUpTo {hist : List LogEntry} {t : Tables} : ∀ {k : Nat},
    t.rockskip_ancestry = ancestryUpTo hist k → maxHeight t = k := by
  intro k ht
  unfold maxHeight
  rw [ht]
  clear ht
  induction k with
  | zero => simp [ancestryUpTo]
  | succ k ih =>
    rw [ancestryUpTo_succ, List.map_append, List.map_singleton, foldr_max_append, ih]
    simp [ancestryRow]

theorem countP_height_ancestryUpTo (hist : List LogEntry) {h : Nat} : ∀ {k : Nat},
    (ancestryUpTo hist k).countP (fun row => decide (row.height = h)) =
      if 1 ≤ h ∧ h ≤ k then 1 else 0 := by
  intro k
  induction k with
  | zero =>
    have : ¬ (1 ≤ h ∧ h ≤ 0) := by omega
    rw [if_neg this]
    simp [ancestryUpTo]
  | succ k ih =>
    rw [ancestryUpTo_succ, List.countP_append, ih]
    simp only [List.countP_cons, List.countP_nil, ancestryRow, decide_eq_true_eq, zero_add]
    by_cases h1 : 1 ≤ h ∧ h ≤ k
    · have h2 : 1 ≤ h ∧ h ≤ k + 1 := by omega
      have h3 : ¬ k + 1 = h := by omega
      rw [if_pos h1, if_pos h2, if_neg h3]
    · by_cases h3 : k + 1 = h
      · have h2 : 1 ≤ h ∧ h ≤ k + 1 := by omega
        rw [if_neg h1, if_pos h2, if_pos h3]
      · have h2 : ¬ (1 ≤ h ∧ h ≤ k + 1) := by omega
        rw [if_neg h1, if_neg h2, if_neg h3]

theorem emptyTables_ancestry (hist : List LogEntry) :
    emptyTables.rockskip_ancestry = ancestryUpTo hist 0 := rfl

/-! ### Statuses, births and hidings -/

theorem statusIn_cons (ps : PathStatus) (rest : List PathStatus) (p : String) :
    statusIn (ps :: rest) p = if ps.Path = p then some ps.Status else statusIn rest p := by
  unfold statusIn
  by_cases h : ps.Path = p <;> simp [List.find?_cons, h]

theorem statusIn_eq_none {pss : List PathStatus} {p : String} :
    statusIn pss p = none ↔ ∀ ps ∈ pss, ps.Path ≠ p := by
  simp [statusIn, List.find?_eq_none]

theorem statusIn_mem {pss : List PathStatus} {p : String} {st : StatusAMD}
    (h : statusIn pss p = some st) : { Path := p, Status := st } ∈ pss := by
  induction pss with
  | nil => simp [statusIn] at h
  | cons ps rest ih =>
    rw [statusIn_cons] at h
    by_cases hp : ps.Path = p
    · rw [if_pos hp] at h
      have : ps = { Path := p, Status := st } := by
        cases ps
        simp only [Option.some.injEq] at h hp
        simp [h, hp]
      rw [this]; exact List.mem_cons_self _ _
    · rw [if_neg hp] at h
      exact List.mem_cons_of_mem _ (ih h)

theorem statusIn_of_mem {pss : List PathStatus} (hnd : (pss.map fun ps => ps.Path).Nodup)
    {ps : PathStatus} (h : ps ∈ pss) : statusIn pss ps.Path = some ps.Status := by
  induction pss with
  | nil => simp at h
  | cons q rest ih =>
    rw [statusIn_cons]
    rw [List.map_cons, List.nodup_cons] at hnd
    rcases List.mem_cons.mp h with rfl | h
    · simp
    · have hne : q.Path ≠ ps.Path := by
        intro heq
        exact hnd.1 (heq ▸ List.mem_map.mpr ⟨ps, h, rfl⟩)
      rw [if_neg hne]
      exact ih hnd.2 h

theorem statusAt_zero (hist : List LogEntry) (p : String) : statusAt hist 0 p = none := rfl

theorem statusAt_succ {hist : List LogEntry} {i : Nat} (h : i < hist.length) (p : String) :
    statusAt hist (i + 1) p = statusIn (hist[i]).PathStatuses p := by
  simp [statusAt, List.getElem?_eq_getElem h]

theorem statusAt_beyond {hist : List LogEntry} {x : Nat} (h : hist.length < x) (p : String) :
    statusAt hist x p = none := by
  obtain ⟨i, rfl⟩ : ∃ i, x = i + 1 := ⟨x - 1, by omega⟩
  have : hist[i]? = none := List.getElem?_eq_none (by omega)
  simp [statusAt, this]

theorem born_range {hist : List LogEntry} {a : Nat} {p : String} (h : born hist a p) :
    1 ≤ a ∧ a ≤ hist.length := by
  unfold born at h
  constructor
  · rcases Nat.eq_zero_or_pos a with rfl | h0
    · simp [statusAt_zero] at h
    · exact h0
  · by_contra hlt
    rw [statusAt_beyond (by omega)] at h
    simp at h

theorem hides_range {hist : List LogEntry} {x : Nat} {p : String} (h : hides hist x p) :
    1 ≤ x ∧ x ≤ hist.length := by
  unfold hides at h
  constructor
  · rcases Nat.eq_zero_or_pos x with rfl | h0
    · simp [statusAt_zero] at h
    · exact h0
  · by_contra hlt
    rw [statusAt_beyond (by omega)] at h
    simp at h

theorem firstHide_spec (hist : List LogEntry) (p : String) : ∀ (n x : Nat), 1 ≤ x →
    (firstHide hist p n x = 0 ∧ ∀ y, x ≤ y → y < x + n → ¬ hides hist y p) ∨
    (x ≤ firstHide hist p n x ∧ firstHide hist p n x < x + n ∧
      hides hist (firstHide hist p n x) p ∧
      ∀ y, x ≤ y → y < firstHide hist p n x → ¬ hides hist y p) := by
  intro n
  induction n with
  | zero =>
    intro x _
    left
    exact ⟨rfl, fun y h1 h2 => by omega⟩
  | succ n ih =>
    intro x hx
    unfold firstHide
    by_cases hh : hides hist x p
    · rw [if_pos hh]
      right
      exact ⟨le_refl _, by omega, hh, fun y h1 h2 => by omega⟩
    · rw [if_neg hh]
      rcases ih (x + 1) (by omega) with ⟨h0, hall⟩ | ⟨h1, h2, h3, h4⟩
      · left
        refine ⟨h0, fun y hy1 hy2 => ?_⟩
        by_cases hxy : y = x
        · rw [hxy]; exact hh
        · exact hall y (by omega) (by omega)
      · right
        refine ⟨by omega, by omega, h3, fun y hy1 hy2 => ?_⟩
        by_cases hxy : y = x
        · rw [hxy]; exact hh
        · exact h4 y (by omega) hy2

/-- The characterisation of `hiddenAt`: either nothing above `a` hides `p`, or
`hiddenAt` is the lowest height above `a` that does. -/
theorem hiddenAt_spec (hist : List LogEntry) (a : Nat) (p : String) :
    (hiddenAt hist a p = 0 ∧ ∀ y, a < y → ¬ hides hist y p) ∨
    (a < hiddenAt hist a p ∧ hiddenAt hist a p ≤ hist.length ∧
      hides hist (hiddenAt hist a p) p ∧
      ∀ y, a < y → y < hiddenAt hist a p → ¬ hides hist y p) := by
  unfold hiddenAt
  rcases firstHide_spec hist p (hist.length - a) (a + 1) (by omega) with
    ⟨h0, hall⟩ | ⟨h1, h2, h3, h4⟩
  · left
    refine ⟨h0, fun y hy hh => ?_⟩
    have := (hides_range hh).2
    exact hall y (by omega) (by omega) hh
  · right
    exact ⟨by omega, (hides_range h3).2, h3, fun y hy1 hy2 => h4 y (by omega) hy2⟩

/-- The blob born at `a` is not yet hidden at height `k` exactly when no entry in
`(a, k]` hides its path. -/
theorem hiddenAt_not_le_iff (hist : List LogEntry) (a k : Nat) (p : String) :
    ¬ (0 < hiddenAt hist a p ∧ hiddenAt hist a p ≤ k) ↔
      ∀ x, a < x → x ≤ k → ¬ hides hist x p := by
  rcases hiddenAt_spec hist a p with ⟨h0, hall⟩ | ⟨h1, h2, h3, h4⟩
  · constructor
    · intro _ x hx _; exact hall x hx
    · intro _; omega
  · constructor
    · intro h x hx1 hx2
      exact h4 x hx1 (by omega)
    · intro h hd
      exact h _ h1 hd.2 h3

theorem hiddenAt_eq_of_hides {hist : List LogEntry} {a h : Nat} {p : String}
    (hah : a < h) (hh : hides hist h p) (hno : ∀ x, a < x → x < h → ¬ hides hist x p) :
    hiddenAt hist a p = h := by
  rcases hiddenAt_spec hist a p with ⟨h0, hall⟩ | ⟨h1, h2, h3, h4⟩
  · exact absurd hh (hall h hah)
  · by_contra hne
    rcases Nat.lt_or_gt_of_ne hne with hlt | hgt
    · exact hno _ h1 hlt h3
    · exact h4 h hah hgt hh

theorem hiddenAt_zero_or_gt (hist : List LogEntry) (a : Nat) (p : String) :
    hiddenAt hist a p = 0 ∨ a < hiddenAt hist a p := by
  rcases hiddenAt_spec hist a p with ⟨h0, -⟩ | ⟨h1, -⟩
  · exact Or.inl h0
  · exact Or.inr h1

/-! ### The files of a history -/

theorem mem_applyStatus_ne {files : List String} {ps : PathStatus} {q : String}
    (h : ps.Path ≠ q) : q ∈ applyStatus files ps ↔ q ∈ files := by
  unfold applyStatus
  cases ps.Status with
  | AddedAMD => simp [Ne.symm h]
  | ModifiedAMD => rfl
  | DeletedAMD => simp [List.mem_filter, Ne.symm h]

theorem mem_foldl_applyStatus (pss : List PathStatus) :
    ∀ (files : List String) (q : String), (pss.map fun ps => ps.Path).Nodup →
    (q ∈ pss.foldl applyStatus files ↔
      statusIn pss q = some .AddedAMD ∨ (q ∈ files ∧ statusIn pss q ≠ some .DeletedAMD)) := by
  induction pss with
  | nil => intro files q _; simp [statusIn]
  | cons ps rest ih =>
    intro files q hnd
    rw [List.map_cons, List.nodup_cons] at hnd
    rw [List.foldl_cons, ih _ q hnd.2, statusIn_cons]
    by_cases hp : ps.Path = q
    · have hnone : statusIn rest q = none := by
        rw [statusIn_eq_none]
        intro ps2 h2 heq
        exact hnd.1 (hp ▸ heq ▸ List.mem_map.mpr ⟨ps2, h2, rfl⟩)
      rw [if_pos hp, hnone]
      unfold applyStatus
      cases hs : ps.Status <;> simp [hp, List.mem_filter]
    · rw [if_neg hp, mem_applyStatus_ne hp]

theorem filesAt_succ {hist : List LogEntry} {k : Nat} (h : k < hist.length) :
    filesAt hist (k + 1) = applyEntry (filesAt hist k) hist[k] := by
  unfold filesAt
  rw [List.take_succ, List.getElem?_eq_getElem h]
  rw [List.foldl_append]
  rfl

theorem mem_filesAt_succ {hist : List LogEntry} (hwf : WellFormed hist) {k : Nat}
    (h : k < hist.length) (q : String) :
    q ∈ filesAt hist (k + 1) ↔
      statusAt hist (k + 1) q = some .AddedAMD ∨
      (q ∈ filesAt hist k ∧ statusAt hist (k + 1) q ≠ some .DeletedAMD) := by
  rw [filesAt_succ h, statusAt_succ h]
  exact mem_foldl_applyStatus _ _ q (hwf.2 k h).1

theorem wellFormed_status {hist : List LogEntry} (hwf : WellFormed hist) {k : Nat}
    (h : k < hist.length) {q : String} {st : StatusAMD}
    (hs : statusAt hist (k + 1) q = some st) :
    (st = .AddedAMD → q ∉ filesAt hist k) ∧ (st ≠ .AddedAMD → q ∈ filesAt hist k) := by
  rw [statusAt_succ h] at hs
  exact (hwf.2 k h).2 _ (statusIn_mem hs)

/-- The files at height `k` are the paths that have a live blob at height `k`. -/
theorem mem_filesAt_iff {hist : List LogEntry} (hwf : WellFormed hist) :
    ∀ {k : Nat}, k ≤ hist.length → ∀ q, (q ∈ filesAt hist k ↔ ∃ a, liveAt hist k a q) := by
  intro k
  induction k with
  | zero =>
    intro _ q
    simp only [filesAt, List.take_zero, List.foldl_nil, List.not_mem_nil, false_iff]
    rintro ⟨a, h1, h2, -⟩
    omega
  | succ k ih =>
    intro hk q
    have hlt : k < hist.length := by omega
    rw [mem_filesAt_succ hwf hlt, ih (by omega)]
    constructor
    · rintro (hA | ⟨⟨a, h1, h2, h3, h4⟩, hD⟩)
      · exact ⟨k + 1, by omega, le_refl _, Or.inl hA, fun x hx1 hx2 => by omega⟩
      · by_cases hM : statusAt hist (k + 1) q = some .ModifiedAMD
        · exact ⟨k + 1, by omega, le_refl _, Or.inr hM, fun x hx1 hx2 => by omega⟩
        · refine ⟨a, h1, by omega, h3, fun x hx1 hx2 => ?_⟩
          by_cases hx : x = k + 1
          · subst hx
            rintro (h | h)
            · exact hM h
            · exact hD h
          · exact h4 x hx1 (by omega)
    · rintro ⟨a, h1, h2, h3, h4⟩
      by_cases ha : a = k + 1
      · subst ha
        rcases h3 with hA | hM
        · exact Or.inl hA
        · right
          refine ⟨?_, by rw [hM]; simp⟩
          exact (ih (by omega) q).mp ((wellFormed_status hwf hlt hM).2 (by simp))
      · have hlive : liveAt hist k a q :=
          ⟨h1, by omega, h3, fun x hx1 hx2 => h4 x hx1 (by omega)⟩
        have hnh := h4 (k + 1) (by omega) (le_refl _)
        right
        exact ⟨⟨a, hlive⟩, fun hD => hnh (Or.inr hD)⟩

/-- A live blob is the latest-born blob of its path. -/
theorem liveAt_latest {hist : List LogEntry} (hwf : WellFormed hist) {k a0 a : Nat}
    {q : String} (hk : k ≤ hist.length) (hlive : liveAt hist k a0 q)
    (hb : born hist a q) (hak : a ≤ k) : a ≤ a0 := by
  by_contra hgt
  have hgt : a0 < a := by omega
  obtain ⟨h1, h2, h3, h4⟩ := hlive
  rcases hb with hA | hM
  · obtain ⟨i, rfl⟩ : ∃ i, a = i + 1 := ⟨a - 1, by omega⟩
    have hnot := (wellFormed_status hwf (show i < hist.length by omega) hA).1 rfl
    apply hnot
    rw [mem_filesAt_iff hwf (by omega)]
    exact ⟨a0, h1, by omega, h3, fun x hx1 hx2 => h4 x hx1 (by omega)⟩
  · exact h4 a hgt hak (Or.inl hM)

theorem liveAt_unique {hist : List LogEntry} (hwf : WellFormed hist) {k a1 a2 : Nat}
    {q : String} (hk : k ≤ hist.length) (h1 : liveAt hist k a1 q)
    (h2 : liveAt hist k a2 q) : a1 = a2 := by
  have := liveAt_latest hwf hk h1 h2.2.2.1 h2.2.1
  have := liveAt_latest hwf hk h2 h1.2.2.1 h1.2.1
  omega

/-- A blob born before the live one was hidden no later than the live one was born. -/
theorem hiddenAt_le_of_later_born {hist : List LogEntry} (hwf : WellFormed hist)
    {a a0 : Nat} {q : String} (ha : 1 ≤ a) (hlt : a < a0) (hb : born hist a q)
    (hb0 : born hist a0 q) :
    0 < hiddenAt hist a q ∧ hiddenAt hist a q ≤ a0 := by
  by_contra hcon
  have hno := (hiddenAt_not_le_iff hist a a0 q).mp hcon
  have hr := born_range hb0
  have hlive : liveAt hist a0 a q := ⟨ha, by omega, hb, hno⟩
  have := liveAt_latest hwf hr.2 hlive hb0 (le_refl _)
  omega

/-! ### Heights of commits -/

theorem heightOf_commitAt {hist : List LogEntry} (hwf : WellFormedCommits hist) {x : Nat}
    (hx : x ≤ hist.length) : heightOf hist (commitAt hist x) = x := by
  unfold heightOf
  rcases Nat.eq_zero_or_pos x with rfl | h0
  · have : commitAt hist 0 ∉ commitsOf hist := hwf.2
    rw [if_neg this]
  · obtain ⟨i, rfl⟩ : ∃ i, x = i + 1 := ⟨x - 1, by omega⟩
    rw [if_pos (commitAt_mem (by omega) hx), indexOf_commitAt hwf (by omega)]

/-! ### Elementary facts about the statements on the blob table -/

theorem overlaps_iff {xs ys : List String} : overlaps xs ys = true ↔ ∃ x ∈ xs, x ∈ ys := by
  simp [overlaps, List.any_eq_true]

theorem overlaps_singleton {x : String} {ys : List String} :
    overlaps [x] ys = true ↔ x ∈ ys := by
  simp [overlaps_iff]

theorem birth_eq {hist : List LogEntry} {b1 b2 : BlobRow} (h : b1.commit = b2.commit) :
    b1.birth hist = b2.birth hist := by
  unfold BlobRow.birth; rw [h]

theorem hidden_def (hist : List LogEntry) (b : BlobRow) :
    b.hidden hist = hiddenAt hist (b.birth hist) b.path := rfl

theorem hidden_zero_or_gt (hist : List LogEntry) (b : BlobRow) :
    b.hidden hist = 0 ∨ b.birth hist < b.hidden hist := by
  rw [hidden_def]
  exact hiddenAt_zero_or_gt hist _ _

theorem hides_of_hidden_eq {hist : List LogEntry} {b : BlobRow} {h : Nat}
    (hd : b.hidden hist = h) (hpos : 0 < h) : hides hist h b.path := by
  rw [hidden_def] at hd
  rcases hiddenAt_spec hist (b.birth hist) b.path with ⟨h0, -⟩ | ⟨-, -, h7, -⟩
  · omega
  · rw [hd] at h7; exact h7

theorem hidden_eq {hist : List LogEntry} {b1 b2 : BlobRow} (h : b1.commit = b2.commit)
    (hp : b1.path = b2.path) : b1.hidden hist = b2.hidden hist := by
  unfold BlobRow.hidden; rw [h, hp]

theorem keepsKeys_arrayAppend_if (cond : BlobRow → Bool) (status : StatusAD) (hop : String) :
    KeepsKeys fun b => if cond b then b.arrayAppend status hop else b := by
  intro b
  by_cases h : cond b = true
  · simp only [h, if_true]
    cases status <;> exact ⟨rfl, rfl, rfl, rfl⟩
  · simp only [h]
    exact ⟨rfl, rfl, rfl, rfl⟩

theorem keepsKeys_comp {f g : BlobRow → BlobRow} (hf : KeepsKeys f) (hg : KeepsKeys g) :
    KeepsKeys (g ∘ f) := by
  intro b
  obtain ⟨f1, f2, f3, f4⟩ := hf b
  obtain ⟨g1, g2, g3, g4⟩ := hg (f b)
  exact ⟨g1.trans f1, g2.trans f2, g3.trans f3, g4.trans f4⟩

theorem KeysInv.map {hist : List LogEntry} {contents : String → String → List UInt8}
    {parse : ParseSymbolsFunc} {k : Nat} {ins : List String} {t : Tables}
    (h : KeysInv hist contents parse k ins t) {f : BlobRow → BlobRow} (hf : KeepsKeys f) :
    KeysInv hist contents parse k ins
      { t with rockskip_blobs := t.rockskip_blobs.map f } where
  ids_nodup := by
    have : (t.rockskip_blobs.map f).map (fun b => b.id) =
        t.rockskip_blobs.map fun b => b.id := by
      rw [List.map_map]
      exact List.map_congr_left fun b _ => (hf b).1
    simp only [this]
    exact h.ids_nodup
  ids_lt := by
    intro b hb
    obtain ⟨b0, hb0, rfl⟩ := List.mem_map.mp hb
    rw [(hf b0).1]
    exact h.ids_lt b0 hb0
  rows := by
    intro b hb
    obtain ⟨b0, hb0, rfl⟩ := List.mem_map.mp hb
    obtain ⟨-, f2, f3, f4⟩ := hf b0
    rw [birth_eq f2, f2, f3, f4]
    exact h.rows b0 hb0
  complete_old := by
    intro a p ha hb
    obtain ⟨b0, hb0, h1, h2⟩ := h.complete_old a p ha hb
    exact ⟨f b0, List.mem_map.mpr ⟨b0, hb0, rfl⟩, (hf b0).2.1.trans h1, (hf b0).2.2.1.trans h2⟩
  complete_new := by
    intro p hp
    obtain ⟨b0, hb0, h1, h2⟩ := h.complete_new p hp
    exact ⟨f b0, List.mem_map.mpr ⟨b0, hb0, rfl⟩, (hf b0).2.1.trans h1, (hf b0).2.2.1.trans h2⟩
  distinct := by
    show (t.rockskip_blobs.map f).Pairwise _
    rw [List.pairwise_map]
    refine h.distinct.imp ?_
    intro b1 b2 hne
    rw [(hf b1).2.1, (hf b2).2.1, (hf b1).2.2.1, (hf b2).2.2.1]
    exact hne

/-- Within the blob table, a row is determined by its commit and path. -/
theorem KeysInv.eq_of_key {hist : List LogEntry} {contents : String → String → List UInt8}
    {parse : ParseSymbolsFunc} {k : Nat} {ins : List String} {t : Tables}
    (h : KeysInv hist contents parse k ins t) {b1 b2 : BlobRow}
    (h1 : b1 ∈ t.rockskip_blobs) (h2 : b2 ∈ t.rockskip_blobs)
    (hc : b1.commit = b2.commit) (hp : b1.path = b2.path) : b1 = b2 := by
  by_contra hne
  have hsymm : Symmetric fun b1 b2 : BlobRow => ¬ (b1.commit = b2.commit ∧ b1.path = b2.path) :=
    fun x y hxy hyx => hxy ⟨hyx.1.symm, hyx.2.symm⟩
  exact h.distinct.forall hsymm h1 h2 hne ⟨hc, hp⟩

/-- Within the blob table, a row is determined by its id. -/
theorem KeysInv.eq_of_id {hist : List LogEntry} {contents : String → String → List UInt8}
    {parse : ParseSymbolsFunc} {k : Nat} {ins : List String} {t : Tables}
    (h : KeysInv hist contents parse k ins t) {b1 b2 : BlobRow}
    (h1 : b1 ∈ t.rockskip_blobs) (h2 : b2 ∈ t.rockskip_blobs)
    (hid : b1.id = b2.id) : b1 = b2 :=
  List.inj_on_of_nodup_map h.ids_nodup h1 h2 hid

/-! ### The membership predicates at a commit of the history -/

theorem inI_pos {a x : Nat} (h : inI a x) : 1 ≤ a ∧ 1 ≤ x := by
  unfold inI at h; omega

theorem AddedAt_commitAt {hist : List LogEntry} (hwf : WellFormedCommits hist)
    {k a d i : Nat} (hk : k ≤ hist.length) (hi : i ≤ hist.length) :
    AddedAt hist k a d (commitAt hist i) ↔ i ≤ k ∧ inI a i ∧ ¬ inI d i := by
  constructor
  · rintro ⟨x, h1, h2, h3, h4, h5⟩
    have := commitAt_inj hwf hi (by omega) h3
    subst this
    exact ⟨h2, h4, h5⟩
  · rintro ⟨h1, h2, h3⟩
    exact ⟨i, (inI_pos h2).2, h1, rfl, h2, h3⟩

theorem DeletedAt_commitAt {hist : List LogEntry} (hwf : WellFormedCommits hist)
    {k a d i : Nat} (hk : k ≤ hist.length) (hi : i ≤ hist.length) :
    DeletedAt hist k a d (commitAt hist i) ↔ i ≤ k ∧ inI d i ∧ ¬ inI a i := by
  constructor
  · rintro ⟨x, h1, h2, h3, h4, h5⟩
    have := commitAt_inj hwf hi (by omega) h3
    subst this
    exact ⟨h2, h4, h5⟩
  · rintro ⟨h1, h2, h3⟩
    exact ⟨i, (inI_pos h2).2, h1, rfl, h2, h3⟩

theorem AddedAt_succ {hist : List LogEntry} {k a d : Nat} {y : String} :
    AddedAt hist (k + 1) a d y ↔
      AddedAt hist k a d y ∨ (y = commitAt hist (k + 1) ∧ inI a (k + 1) ∧ ¬ inI d (k + 1)) := by
  constructor
  · rintro ⟨x, h1, h2, h3, h4, h5⟩
    by_cases hx : x = k + 1
    · subst hx; exact Or.inr ⟨h3, h4, h5⟩
    · exact Or.inl ⟨x, h1, by omega, h3, h4, h5⟩
  · rintro (⟨x, h1, h2, h3, h4, h5⟩ | ⟨h3, h4, h5⟩)
    · exact ⟨x, h1, by omega, h3, h4, h5⟩
    · exact ⟨k + 1, by omega, le_refl _, h3, h4, h5⟩

theorem DeletedAt_succ {hist : List LogEntry} {k a d : Nat} {y : String} :
    DeletedAt hist (k + 1) a d y ↔
      DeletedAt hist k a d y ∨
      (y = commitAt hist (k + 1) ∧ inI d (k + 1) ∧ ¬ inI a (k + 1)) := by
  constructor
  · rintro ⟨x, h1, h2, h3, h4, h5⟩
    by_cases hx : x = k + 1
    · subst hx; exact Or.inr ⟨h3, h4, h5⟩
    · exact Or.inl ⟨x, h1, by omega, h3, h4, h5⟩
  · rintro (⟨x, h1, h2, h3, h4, h5⟩ | ⟨h3, h4, h5⟩)
    · exact ⟨x, h1, by omega, h3, h4, h5⟩
    · exact ⟨k + 1, by omega, le_refl _, h3, h4, h5⟩

theorem AddedAt_ne_next {hist : List LogEntry} (hwf : WellFormedCommits hist)
    {k a d : Nat} (hk : k < hist.length) : ¬ AddedAt hist k a d (commitAt hist (k + 1)) := by
  rintro ⟨x, h1, h2, h3, -⟩
  have := commitAt_inj hwf (by omega) (by omega) h3
  omega

theorem DeletedAt_ne_next {hist : List LogEntry} (hwf : WellFormedCommits hist)
    {k a d : Nat} (hk : k < hist.length) : ¬ DeletedAt hist k a d (commitAt hist (k + 1)) := by
  rintro ⟨x, h1, h2, h3, -⟩
  have := commitAt_inj hwf (by omega) (by omega) h3
  omega

theorem mem_take_spineH_le {k r i : Nat} (h : i ∈ (spineH k).take r) : i ≤ k :=
  spineH_le k i (List.mem_of_mem_take h)

/-- The rows born at the current height of a finished table: none. -/
theorem BlobsInv.birth_le {hist : List LogEntry} {contents : String → String → List UInt8}
    {parse : ParseSymbolsFunc} {k : Nat} {t : Tables}
    (h : BlobsInv hist contents parse k t) {b : BlobRow} (hb : b ∈ t.rockskip_blobs) :
    b.birth hist ≤ k := by
  obtain ⟨-, h2, -, -, -, h6⟩ := h.1.rows b hb
  by_contra hgt
  have := h6 (by omega)
  simp at this

/-! ### Overlap of a spine with a hop column -/

theorem overlaps_spine_added {hist : List LogEntry} (hwf : WellFormedCommits hist)
    {k a d : Nat} (hk : k ≤ hist.length) {l : List Nat} (hl : ∀ i ∈ l, i ≤ k)
    {col : List String} (hcol : ∀ y, y ∈ col ↔ AddedAt hist k a d y) :
    overlaps (l.map (commitAt hist)) col = true ↔ ∃ i ∈ l, inI a i ∧ ¬ inI d i := by
  rw [overlaps_iff]
  constructor
  · rintro ⟨y, hy, hmem⟩
    obtain ⟨i, hi, rfl⟩ := List.mem_map.mp hy
    have := (AddedAt_commitAt hwf hk (by have := hl i hi; omega)).mp ((hcol _).mp hmem)
    exact ⟨i, hi, this.2⟩
  · rintro ⟨i, hi, h1, h2⟩
    refine ⟨commitAt hist i, List.mem_map.mpr ⟨i, hi, rfl⟩, (hcol _).mpr ?_⟩
    exact (AddedAt_commitAt hwf hk (by have := hl i hi; omega)).mpr ⟨hl i hi, h1, h2⟩

theorem overlaps_spine_deleted {hist : List LogEntry} (hwf : WellFormedCommits hist)
    {k a d : Nat} (hk : k ≤ hist.length) {l : List Nat} (hl : ∀ i ∈ l, i ≤ k)
    {col : List String} (hcol : ∀ y, y ∈ col ↔ DeletedAt hist k a d y) :
    overlaps (l.map (commitAt hist)) col = true ↔ ∃ i ∈ l, inI d i ∧ ¬ inI a i := by
  rw [overlaps_iff]
  constructor
  · rintro ⟨y, hy, hmem⟩
    obtain ⟨i, hi, rfl⟩ := List.mem_map.mp hy
    have := (DeletedAt_commitAt hwf hk (by have := hl i hi; omega)).mp ((hcol _).mp hmem)
    exact ⟨i, hi, this.2⟩
  · rintro ⟨i, hi, h1, h2⟩
    refine ⟨commitAt hist i, List.mem_map.mpr ⟨i, hi, rfl⟩, (hcol _).mpr ?_⟩
    exact (DeletedAt_commitAt hwf hk (by have := hl i hi; omega)).mpr ⟨hl i hi, h1, h2⟩

/-! ### The two `AppendHop` statements -/

theorem appendBoth_keys (hs : List String) (c : String) : KeepsKeys (appendBoth hs c) :=
  keepsKeys_comp (keepsKeys_arrayAppend_if (fun b => overlaps hs (b.column .AddedAD)) _ _)
    (keepsKeys_arrayAppend_if (fun b => overlaps hs (b.column .DeletedAD)) _ _)

theorem appendBoth_added (hs : List String) (c : String) (b : BlobRow) :
    (appendBoth hs c b).added = if overlaps hs b.added then b.added ++ [c] else b.added := by
  unfold appendBoth appendOne
  by_cases h1 : overlaps hs b.added = true <;>
    by_cases h2 : overlaps hs b.deleted = true <;>
    simp [BlobRow.column, BlobRow.arrayAppend, h1, h2]

theorem appendBoth_deleted (hs : List String) (c : String) (b : BlobRow) :
    (appendBoth hs c b).deleted =
      if overlaps hs b.deleted then b.deleted ++ [c] else b.deleted := by
  unfold appendBoth appendOne
  by_cases h1 : overlaps hs b.added = true <;>
    by_cases h2 : overlaps hs b.deleted = true <;>
    simp [BlobRow.column, BlobRow.arrayAppend, h1, h2]

theorem pgAppendHop_both (t : Tables) (hs : List String) (c : String) :
    ∃ s1, postgres.AppendHop t hs .AddedAD c = .ok s1 ∧
      postgres.AppendHop s1 hs .DeletedAD c =
        .ok { t with rockskip_blobs := t.rockskip_blobs.map (appendBoth hs c) } := by
  refine ⟨_, rfl, ?_⟩
  simp only [postgres_AppendHop, pgAppendHop, List.map_map]
  rfl

/-- After the two `AppendHop` statements of the entry at height `k + 1`. -/
theorem appendBoth_inv {hist : List LogEntry} {contents : String → String → List UInt8}
    {parse : ParseSymbolsFunc} (hwf : WellFormedCommits hist) {k : Nat}
    (hk : k < hist.length) {t : Tables} (h : BlobsInv hist contents parse k t) :
    KeysInv hist contents parse k []
      { t with rockskip_blobs := (t.rockskip_blobs.map
          (appendBoth (((spineH k).map (commitAt hist)).take (ruler (k + 1)))
            (commitAt hist (k + 1)))) } ∧
    MidInv hist k []
      { t with rockskip_blobs := (t.rockskip_blobs.map
          (appendBoth (((spineH k).map (commitAt hist)).take (ruler (k + 1)))
            (commitAt hist (k + 1)))) } := by
  refine ⟨h.1.map (appendBoth_keys _ _), ?_⟩
  have hmt : ((spineH k).map (commitAt hist)).take (ruler (k + 1)) =
      ((spineH k).take (ruler (k + 1))).map (commitAt hist) := (List.map_take _ _ _).symm
  have hle : ∀ i ∈ (spineH k).take (ruler (k + 1)), i ≤ k := fun i hi => mem_take_spineH_le hi
  constructor
  · intro b2 hb2 _ y
    obtain ⟨b, hb, rfl⟩ := List.mem_map.mp hb2
    have hkeys := appendBoth_keys (((spineH k).map (commitAt hist)).take (ruler (k + 1)))
      (commitAt hist (k + 1)) b
    rw [birth_eq hkeys.2.1, hidden_eq hkeys.2.1 hkeys.2.2.1, appendBoth_added, hmt]
    have hov := overlaps_spine_added hwf (le_of_lt hk) hle (h.2.added b hb)
    by_cases ho : overlaps (((spineH k).take (ruler (k + 1))).map (commitAt hist)) b.added = true
    · rw [if_pos ho, List.mem_append, List.mem_singleton, h.2.added b hb]
      constructor
      · rintro (h1 | h1)
        · exact Or.inl h1
        · exact Or.inr ⟨h1, hov.mp ho⟩
      · rintro (h1 | ⟨h1, -⟩)
        · exact Or.inl h1
        · exact Or.inr h1
    · rw [if_neg ho, h.2.added b hb]
      constructor
      · exact Or.inl
      · rintro (h1 | ⟨-, h1⟩)
        · exact h1
        · exact absurd (hov.mpr h1) ho
  · intro b2 hb2 _ y
    obtain ⟨b, hb, rfl⟩ := List.mem_map.mp hb2
    have hkeys := appendBoth_keys (((spineH k).map (commitAt hist)).take (ruler (k + 1)))
      (commitAt hist (k + 1)) b
    rw [birth_eq hkeys.2.1, hidden_eq hkeys.2.1 hkeys.2.2.1, appendBoth_deleted, hmt]
    have hov := overlaps_spine_deleted hwf (le_of_lt hk) hle (h.2.deleted b hb)
    by_cases ho :
        overlaps (((spineH k).take (ruler (k + 1))).map (commitAt hist)) b.deleted = true
    · rw [if_pos ho, List.mem_append, List.mem_singleton, h.2.deleted b hb]
      constructor
      · rintro (h1 | h1)
        · exact Or.inl h1
        · exact Or.inr ⟨h1, Or.inl (hov.mp ho)⟩
      · rintro (h1 | ⟨h1, -⟩)
        · exact Or.inl h1
        · exact Or.inr h1
    · rw [if_neg ho, h.2.deleted b hb]
      constructor
      · exact Or.inl
      · rintro (h1 | ⟨-, h1 | ⟨-, h1⟩⟩)
        · exact h1
        · exact absurd (hov.mpr h1) ho
        · simp at h1
  · intro b2 hb2 hbirth
    obtain ⟨b, hb, rfl⟩ := List.mem_map.mp hb2
    have hkeys := appendBoth_keys (((spineH k).map (commitAt hist)).take (ruler (k + 1)))
      (commitAt hist (k + 1)) b
    rw [birth_eq hkeys.2.1] at hbirth
    have := h.birth_le hb
    omega
  · intro b2 hb2
    obtain ⟨b, hb, rfl⟩ := List.mem_map.mp hb2
    rw [appendBoth_added]
    split
    · refine List.Nodup.append (h.2.added_nodup b hb) (List.nodup_singleton _) ?_
      intro y hy1 hy2
      rw [List.mem_singleton] at hy2
      subst hy2
      exact AddedAt_ne_next hwf hk ((h.2.added b hb _).mp hy1)
    · exact h.2.added_nodup b hb
  · intro b2 hb2
    obtain ⟨b, hb, rfl⟩ := List.mem_map.mp hb2
    rw [appendBoth_deleted]
    split
    · refine List.Nodup.append (h.2.deleted_nodup b hb) (List.nodup_singleton _) ?_
      intro y hy1 hy2
      rw [List.mem_singleton] at hy2
      subst hy2
      exact DeletedAt_ne_next hwf hk ((h.2.deleted b hb _).mp hy1)
    · exact h.2.deleted_nodup b hb

/-! ### The interval of the new height against the intervals of the spine prefix -/

theorem inI_self (h : Nat) (hh : 1 ≤ h) : inI h h := by
  have hp : 0 < 2 ^ ruler h := Nat.pos_of_ne_zero (by simp)
  unfold inI; omega

theorem take_cover (k z : Nat) :
    (∃ i ∈ (spineH k).take (ruler (k + 1)), inI z i) ↔ inI z (k + 1) ∧ z ≠ k + 1 := by
  rw [(spineH_ruler k).2 z]
  unfold inI
  omega

theorem take_unique (k z : Nat) {i j : Nat} (hi : i ∈ (spineH k).take (ruler (k + 1)))
    (hj : j ∈ (spineH k).take (ruler (k + 1))) (h1 : inI z i) (h2 : inI z j) : i = j :=
  spineH_unique k z i (List.mem_of_mem_take hi) j (List.mem_of_mem_take hj) h1 h2

/-- What the collapse leaves of the new commit in the `added` column. -/
theorem collapse_added (k a d : Nat) (ha : a ≤ k) :
    ((∃ i ∈ (spineH k).take (ruler (k + 1)), inI a i ∧ ¬ inI d i) ∧
      ¬ ((∃ i ∈ (spineH k).take (ruler (k + 1)), inI d i ∧ ¬ inI a i) ∨ d = k + 1)) ↔
    (inI a (k + 1) ∧ ¬ inI d (k + 1)) := by
  constructor
  · rintro ⟨⟨i, hi, h1, h2⟩, hD⟩
    refine ⟨((take_cover k a).mp ⟨i, hi, h1⟩).1, fun hd => ?_⟩
    have hne : d ≠ k + 1 := fun h => hD (Or.inr h)
    obtain ⟨j, hj, h3⟩ := (take_cover k d).mpr ⟨hd, hne⟩
    have h4 : inI a j := by
      by_contra hn
      exact hD (Or.inl ⟨j, hj, h3, hn⟩)
    have := take_unique k a hi hj h1 h4
    subst this
    exact h2 h3
  · rintro ⟨h1, h2⟩
    obtain ⟨i, hi, h3⟩ := (take_cover k a).mpr ⟨h1, by omega⟩
    refine ⟨⟨i, hi, h3, fun hd => h2 ((take_cover k d).mp ⟨i, hi, hd⟩).1⟩, ?_⟩
    rintro (⟨j, hj, h4, -⟩ | hd)
    · exact h2 ((take_cover k d).mp ⟨j, hj, h4⟩).1
    · subst hd
      exact h2 (inI_self _ (by omega))

/-- What the collapse leaves of the new commit in the `deleted` column. -/
theorem collapse_deleted (k a d : Nat) (ha : a ≤ k) :
    (((∃ i ∈ (spineH k).take (ruler (k + 1)), inI d i ∧ ¬ inI a i) ∨ d = k + 1) ∧
      ¬ (∃ i ∈ (spineH k).take (ruler (k + 1)), inI a i ∧ ¬ inI d i)) ↔
    (inI d (k + 1) ∧ ¬ inI a (k + 1)) := by
  constructor
  · rintro ⟨hD, hA⟩
    have hna : ¬ inI a (k + 1) := by
      intro h1
      obtain ⟨i, hi, h3⟩ := (take_cover k a).mpr ⟨h1, by omega⟩
      have h4 : inI d i := by
        by_contra hn
        exact hA ⟨i, hi, h3, hn⟩
      rcases hD with ⟨j, hj, h5, h6⟩ | hd
      · have := take_unique k d hi hj h4 h5
        subst this
        exact h6 h3
      · subst hd
        have := mem_take_spineH_le hi
        unfold inI at h4
        omega
    refine ⟨?_, hna⟩
    rcases hD with ⟨j, hj, h5, -⟩ | hd
    · exact ((take_cover k d).mp ⟨j, hj, h5⟩).1
    · subst hd
      exact inI_self _ (by omega)
  · rintro ⟨h1, h2⟩
    have hA : ¬ (∃ i ∈ (spineH k).take (ruler (k + 1)), inI a i ∧ ¬ inI d i) := by
      rintro ⟨i, hi, h3, -⟩
      exact h2 ((take_cover k a).mp ⟨i, hi, h3⟩).1
    refine ⟨?_, hA⟩
    by_cases hd : d = k + 1
    · exact Or.inr hd
    · obtain ⟨j, hj, h3⟩ := (take_cover k d).mpr ⟨h1, hd⟩
      exact Or.inl ⟨j, hj, h3, fun h4 => h2 ((take_cover k a).mp ⟨j, hj, h4⟩).1⟩

/-! ### The statement `DeleteRedundant` -/

theorem collapse_keys (c : String) : KeepsKeys (collapse c) := by
  intro b
  unfold collapse
  split <;> exact ⟨rfl, rfl, rfl, rfl⟩

theorem mem_collapse_added (c : String) (b : BlobRow) (y : String) :
    y ∈ (collapse c b).added ↔ y ∈ b.added ∧ (y = c → c ∉ b.deleted) := by
  unfold collapse
  by_cases h : (overlaps [c] b.added && overlaps [c] b.deleted) = true
  · rw [if_pos h]
    simp only [Bool.and_eq_true, overlaps_singleton] at h
    simp only [List.mem_filter, decide_eq_true_eq]
    constructor
    · rintro ⟨h1, h2⟩; exact ⟨h1, fun h3 => absurd h3 h2⟩
    · rintro ⟨h1, h2⟩; exact ⟨h1, fun h3 => h2 h3 h.2⟩
  · rw [if_neg h]
    simp only [Bool.and_eq_true, overlaps_singleton, not_and] at h
    constructor
    · intro h1; exact ⟨h1, fun h3 => h (h3 ▸ h1)⟩
    · exact fun h1 => h1.1

theorem mem_collapse_deleted (c : String) (b : BlobRow) (y : String) :
    y ∈ (collapse c b).deleted ↔ y ∈ b.deleted ∧ (y = c → c ∉ b.added) := by
  unfold collapse
  by_cases h : (overlaps [c] b.added && overlaps [c] b.deleted) = true
  · rw [if_pos h]
    simp only [Bool.and_eq_true, overlaps_singleton] at h
    simp only [List.mem_filter, decide_eq_true_eq]
    constructor
    · rintro ⟨h1, h2⟩; exact ⟨h1, fun h3 => absurd h3 h2⟩
    · rintro ⟨h1, h2⟩; exact ⟨h1, fun h3 => h2 h3 h.1⟩
  · rw [if_neg h]
    simp only [Bool.and_eq_true, overlaps_singleton, not_and] at h
    constructor
    · intro h1; exact ⟨h1, fun h3 h4 => h h4 (h3 ▸ h1)⟩
    · exact fun h1 => h1.1

theorem pgDeleteRedundant_eq (t : Tables) (c : String) :
    postgres.DeleteRedundant t c =
      .ok { t with rockskip_blobs := t.rockskip_blobs.map (collapse c) } := rfl

/-! ### The end of an entry -/

theorem KeysInv.next {hist : List LogEntry} {contents : String → String → List UInt8}
    {parse : ParseSymbolsFunc} {k : Nat} {ins : List String} {t : Tables}
    (h : KeysInv hist contents parse k ins t)
    (hins : ∀ p, born hist (k + 1) p → p ∈ ins) :
    KeysInv hist contents parse (k + 1) [] t where
  ids_nodup := h.ids_nodup
  ids_lt := h.ids_lt
  rows := by
    intro b hb
    obtain ⟨h1, h2, h3, h4, h5, -⟩ := h.rows b hb
    exact ⟨h1, by omega, h3, h4, h5, fun h7 => by omega⟩
  complete_old := by
    intro a p ha hb
    by_cases hak : a ≤ k
    · exact h.complete_old a p hak hb
    · have : a = k + 1 := by omega
      subst this
      exact h.complete_new p (hins p hb)
  complete_new := by
    intro p hp
    simp at hp
  distinct := h.distinct

/-- The blob table after `DeleteRedundant`: the invariant of the next height. -/
theorem collapse_inv {hist : List LogEntry} {contents : String → String → List UInt8}
    {parse : ParseSymbolsFunc} (hwf : WellFormedCommits hist) {k : Nat}
    (hk : k < hist.length) {ins hid : List String} {t : Tables}
    (hkeys : KeysInv hist contents parse k ins t) (hmid : MidInv hist k hid t)
    (hins : ∀ p, born hist (k + 1) p → p ∈ ins)
    (hhid : ∀ p, hides hist (k + 1) p → p ∈ hid) :
    BlobsInv hist contents parse (k + 1)
      { t with rockskip_blobs := (t.rockskip_blobs.map (collapse (commitAt hist (k + 1)))) } := by
  refine ⟨(hkeys.map (collapse_keys _)).next hins, ?_, ?_, ?_, ?_⟩
  · intro b2 hb2 y
    obtain ⟨b, hb, rfl⟩ := List.mem_map.mp hb2
    have hk2 := collapse_keys (commitAt hist (k + 1)) b
    rw [birth_eq hk2.2.1, hidden_eq hk2.2.1 hk2.2.2.1, mem_collapse_added, AddedAt_succ]
    obtain ⟨h1, h2, h3, h4, h5, h6⟩ := hkeys.rows b hb
    by_cases hold : b.birth hist ≤ k
    · rw [hmid.old_added b hb hold, hmid.old_deleted b hb hold]
      have hd : b.hidden hist = k + 1 → b.path ∈ hid := by
        intro hd
        exact hhid _ (hides_of_hidden_eq hd (by omega))
      have hca := collapse_added k (b.birth hist) (b.hidden hist) hold
      by_cases hy : y = commitAt hist (k + 1)
      · subst hy
        simp only [AddedAt_ne_next hwf hk, DeletedAt_ne_next hwf hk, false_or, true_and,
          forall_const]
        rw [← hca]
        constructor
        · rintro ⟨hA, hD⟩
          refine ⟨hA, ?_⟩
          rintro (h7 | h7)
          · exact hD (Or.inl h7)
          · exact hD (Or.inr ⟨h7, hd h7⟩)
        · rintro ⟨hA, hD⟩
          refine ⟨hA, ?_⟩
          rintro (h7 | ⟨h7, -⟩)
          · exact hD (Or.inl h7)
          · exact hD (Or.inr h7)
      · simp [hy]
    · have hnew : b.birth hist = k + 1 := by omega
      obtain ⟨ha, hdel⟩ := hmid.fresh b hb hnew
      rw [ha, hdel, hnew]
      have hdz := hidden_zero_or_gt hist b
      have hself := inI_self (k + 1) (by omega)
      have hnd : ¬ inI (b.hidden hist) (k + 1) := by
        unfold inI
        omega
      simp only [List.mem_singleton, List.not_mem_nil, not_false_eq_true, implies_true,
        and_true]
      constructor
      · intro hy; exact Or.inr ⟨hy, hself, hnd⟩
      · rintro (⟨x, hx1, hx2, hx3, hx4, hx5⟩ | ⟨hy, -⟩)
        · unfold inI at hx4; omega
        · exact hy
  · intro b2 hb2 y
    obtain ⟨b, hb, rfl⟩ := List.mem_map.mp hb2
    have hk2 := collapse_keys (commitAt hist (k + 1)) b
    rw [birth_eq hk2.2.1, hidden_eq hk2.2.1 hk2.2.2.1, mem_collapse_deleted, DeletedAt_succ]
    obtain ⟨h1, h2, h3, h4, h5, h6⟩ := hkeys.rows b hb
    by_cases hold : b.birth hist ≤ k
    · rw [hmid.old_added b hb hold, hmid.old_deleted b hb hold]
      have hd : b.hidden hist = k + 1 → b.path ∈ hid := by
        intro hd
        exact hhid _ (hides_of_hidden_eq hd (by omega))
      have hcd := collapse_deleted k (b.birth hist) (b.hidden hist) hold
      by_cases hy : y = commitAt hist (k + 1)
      · subst hy
        simp only [AddedAt_ne_next hwf hk, DeletedAt_ne_next hwf hk, false_or, true_and,
          forall_const]
        rw [← hcd]
        constructor
        · rintro ⟨hD, hA⟩
          refine ⟨?_, hA⟩
          rcases hD with h7 | ⟨h7, -⟩
          · exact Or.inl h7
          · exact Or.inr h7
        · rintro ⟨hD, hA⟩
          refine ⟨?_, hA⟩
          rcases hD with h7 | h7
          · exact Or.inl h7
          · exact Or.inr ⟨h7, hd h7⟩
      · simp [hy]
    · have hnew : b.birth hist = k + 1 := by omega
      obtain ⟨ha, hdel⟩ := hmid.fresh b hb hnew
      rw [ha, hdel, hnew]
      have hdz := hidden_zero_or_gt hist b
      simp only [List.not_mem_nil, false_and, false_iff, not_or]
      constructor
      · rintro ⟨x, hx1, hx2, hx3, hx4, hx5⟩
        unfold inI at hx4
        omega
      · rintro ⟨-, hx4, -⟩
        unfold inI at hx4
        omega
  · intro b2 hb2
    obtain ⟨b, hb, rfl⟩ := List.mem_map.mp hb2
    unfold collapse
    split
    · exact (hmid.added_nodup b hb).filter _
    · exact hmid.added_nodup b hb
  · intro b2 hb2
    obtain ⟨b, hb, rfl⟩ := List.mem_map.mp hb2
    unfold collapse
    split
    · exact (hmid.deleted_nodup b hb).filter _
    · exact hmid.deleted_nodup b hb

/-! ### The blob that an entry hides -/

theorem spineH_sorted (x : Nat) : (spineH x).Pairwise (fun a b => b < a) := by
  induction x using Nat.strong_induction_on with
  | _ x ih =>
    by_cases h : x = 0
    · subst h; rw [spineH_zero]; simp
    · have hl := pow_ruler_le (Nat.pos_of_ne_zero h)
      have hp : 0 < 2 ^ ruler x := Nat.pos_of_ne_zero (by simp)
      rw [spineH_pos (by omega), List.pairwise_cons]
      refine ⟨fun y hy => ?_, ih _ (by omega)⟩
      have := spineH_le _ y hy
      omega

theorem liveAt_of_hidden_next {hist : List LogEntry} {contents : String → String → List UInt8}
    {parse : ParseSymbolsFunc} {k : Nat} {ins : List String} {t : Tables}
    (hkeys : KeysInv hist contents parse k ins t) {b : BlobRow} (hb : b ∈ t.rockskip_blobs)
    (hold : b.birth hist ≤ k) (hd : b.hidden hist = k + 1) :
    liveAt hist k (b.birth hist) b.path := by
  obtain ⟨h1, -, -, h4, -, -⟩ := hkeys.rows b hb
  refine ⟨h1, hold, h4, ?_⟩
  rw [← hiddenAt_not_le_iff, ← hidden_def, hd]
  omega

/-- At most one blob of a path is hidden by the entry being indexed. -/
theorem hidden_next_unique {hist : List LogEntry} {contents : String → String → List UInt8}
    {parse : ParseSymbolsFunc} (hwf : WellFormed hist) {k : Nat} (hk : k < hist.length)
    {ins : List String} {t : Tables}
    (hkeys : KeysInv hist contents parse k ins t) {b1 b2 : BlobRow}
    (h1 : b1 ∈ t.rockskip_blobs) (h2 : b2 ∈ t.rockskip_blobs)
    (ho1 : b1.birth hist ≤ k) (ho2 : b2.birth hist ≤ k)
    (hd1 : b1.hidden hist = k + 1) (hd2 : b2.hidden hist = k + 1)
    (hp : b1.path = b2.path) : b1 = b2 := by
  have l1 := liveAt_of_hidden_next hkeys h1 ho1 hd1
  have l2 := liveAt_of_hidden_next hkeys h2 ho2 hd2
  rw [hp] at l1
  have hb := liveAt_unique hwf (le_of_lt hk) l1 l2
  have hc : b1.commit = b2.commit := by
    rw [(hkeys.rows b1 h1).2.2.1, (hkeys.rows b2 h2).2.2.1, hb]
  exact hkeys.eq_of_key h1 h2 hc hp

/-- The blob that the entry at height `k + 1` hides for a path it modifies or deletes. -/
theorem exists_hidden_next {hist : List LogEntry} {contents : String → String → List UInt8}
    {parse : ParseSymbolsFunc} (hwf : WellFormed hist) {k : Nat} (hk : k < hist.length)
    {ins : List String} {t : Tables}
    (hkeys : KeysInv hist contents parse k ins t) {p : String}
    (hh : hides hist (k + 1) p) :
    ∃ b0 ∈ t.rockskip_blobs, b0.path = p ∧ b0.birth hist ≤ k ∧ b0.hidden hist = k + 1 ∧
      liveAt hist k (b0.birth hist) p := by
  have hfile : p ∈ filesAt hist k := by
    rcases hh with h | h
    · exact (wellFormed_status hwf hk h).2 (by simp)
    · exact (wellFormed_status hwf hk h).2 (by simp)
  obtain ⟨a0, hlive⟩ := (mem_filesAt_iff hwf (le_of_lt hk) p).mp hfile
  obtain ⟨b0, hb0, hc, hp⟩ := hkeys.complete_old a0 p hlive.2.1 hlive.2.2.1
  have hbirth : b0.birth hist = a0 := by
    unfold BlobRow.birth
    rw [hc, heightOf_commitAt hwf.1 (by have := hlive.2.1; omega)]
  refine ⟨b0, hb0, hp, by rw [hbirth]; exact hlive.2.1, ?_, by rw [hbirth]; exact hlive⟩
  rw [hidden_def, hbirth, hp]
  exact hiddenAt_eq_of_hides (by have := hlive.2.1; omega) hh
    fun x hx1 hx2 => hlive.2.2.2 x hx1 (by omega)

/-! ### Looking the blob up through the spine -/

theorem lookupBlob_append {t : Tables} {p : String} {id : Nat} :
    ∀ (l1 : List String) (y : String) (l2 : List String),
    (∀ z ∈ l1, postgres.GetBlob t z p = .ok (0, false)) →
    postgres.GetBlob t y p = .ok (id, true) →
    lookupBlob postgres t p (l1 ++ y :: l2) = .ok (id, true) := by
  intro l1
  induction l1 with
  | nil =>
    intro y l2 _ hy
    simp [lookupBlob, hy]
  | cons z l1 ih =>
    intro y l2 hz hy
    rw [List.cons_append]
    unfold lookupBlob
    rw [hz z (List.mem_cons_self _ _)]
    simp only [Bool.false_eq_true, if_false]
    exact ih y l2 (fun w hw => hz w (List.mem_cons_of_mem _ hw)) hy

/-- A blob of path `p` that `GetBlob` can return for a hop of the spine at or above the
hop whose interval holds the birth of the live blob is the live blob. -/
theorem getBlob_candidate {hist : List LogEntry} {contents : String → String → List UInt8}
    {parse : ParseSymbolsFunc} (hwf : WellFormed hist) {k : Nat} (hk : k < hist.length)
    {ins hid : List String} {t : Tables}
    (hkeys : KeysInv hist contents parse k ins t) (hmid : MidInv hist k hid t)
    {b0 : BlobRow} (hb0 : b0 ∈ t.rockskip_blobs)
    (hlive : liveAt hist k (b0.birth hist) b0.path)
    {y0 y : Nat} (hy0s : y0 ∈ spineH k) (hys : y ∈ spineH k)
    (hy0 : inI (b0.birth hist) y0) (hge : y0 ≤ y)
    {b : BlobRow} (hb : b ∈ t.rockskip_blobs) (hp : b.path = b0.path)
    (hadd : commitAt hist y ∈ b.added) (hdel : commitAt hist y ∉ b.deleted) :
    b = b0 ∧ y = y0 := by
  obtain ⟨h1, h2, h3, h4, h5, h6⟩ := hkeys.rows b hb
  have hyk : y ≤ k := spineH_le k y hys
  have hne : commitAt hist y ≠ commitAt hist (k + 1) := by
    intro heq
    have := commitAt_inj hwf.1 (by omega) (by omega) heq
    omega
  by_cases hold : b.birth hist ≤ k
  · have ha := (hmid.old_added b hb hold _).mp hadd
    have hd := fun h => hdel ((hmid.old_deleted b hb hold _).mpr (Or.inl h))
    rcases ha with ha | ⟨ha, -⟩
    · obtain ⟨-, hi1, hi2⟩ := (AddedAt_commitAt hwf.1 (le_of_lt hk) (by omega)).mp ha
      have hle := liveAt_latest hwf (le_of_lt hk) hlive (hp ▸ h4) hold
      by_cases heq : b.birth hist = b0.birth hist
      · have hc : b.commit = b0.commit := by
          rw [h3, (hkeys.rows b0 hb0).2.2.1, heq]
        have hbb := hkeys.eq_of_key hb hb0 hc hp
        subst hbb
        exact ⟨rfl, spineH_unique k _ y hys y0 hy0s hi1 hy0⟩
      · exfalso
        have hlt : b.birth hist < b0.birth hist := by omega
        have hb0born := (hkeys.rows b0 hb0).2.2.2.1
        have hhid := hiddenAt_le_of_later_born hwf h1 hlt (hp ▸ h4) hb0born
        rw [← hp, ← hidden_def] at hhid
        have hgt := hidden_zero_or_gt hist b
        apply hi2
        unfold inI at hi1 hy0 ⊢
        omega
    · exact absurd ha hne
  · have hnew : b.birth hist = k + 1 := by omega
    rw [(hmid.fresh b hb hnew).1, List.mem_singleton] at hadd
    exact absurd hadd hne

theorem pgGetBlob_none {t : Tables} {hop p : String}
    (h : ∀ b ∈ t.rockskip_blobs, b.path = p → hop ∈ b.added → hop ∈ b.deleted) :
    postgres.GetBlob t hop p = .ok (0, false) := by
  have : (t.rockskip_blobs.find? fun b =>
      decide (b.path = p) && decide (hop ∈ b.added) && !decide (hop ∈ b.deleted)) = none := by
    rw [List.find?_eq_none]
    intro b hb
    simp only [Bool.and_eq_true, decide_eq_true_eq, Bool.not_eq_true', decide_eq_false_iff_not,
      not_and, not_not]
    exact fun h2 => h b hb h2.1 h2.2
  simp only [postgres_GetBlob, pgGetBlob, this]

theorem pgGetBlob_some {t : Tables} {hop p : String} {b0 : BlobRow}
    (hb0 : b0 ∈ t.rockskip_blobs) (hp : b0.path = p) (ha : hop ∈ b0.added)
    (hd : hop ∉ b0.deleted)
    (h : ∀ b ∈ t.rockskip_blobs, b.path = p → hop ∈ b.added → hop ∉ b.deleted → b = b0) :
    postgres.GetBlob t hop p = .ok (b0.id, true) := by
  simp only [postgres_GetBlob, pgGetBlob]
  cases hf : t.rockskip_blobs.find? fun b =>
      decide (b.path = p) && decide (hop ∈ b.added) && !decide (hop ∈ b.deleted) with
  | none =>
    rw [List.find?_eq_none] at hf
    have := hf b0 hb0
    simp [hp, ha, hd] at this
  | some b =>
    have hmem := List.mem_of_find?_eq_some hf
    have hpred := List.find?_some hf
    simp only [Bool.and_eq_true, decide_eq_true_eq, Bool.not_eq_true',
      decide_eq_false_iff_not] at hpred
    rw [h b hmem hpred.1.1 hpred.1.2 hpred.2]

/-- The first half of the path loop finds the blob that the entry hides, whether through
the cache or through the spine. -/
theorem deletePath_ok {hist : List LogEntry} {contents : String → String → List UInt8}
    {parse : ParseSymbolsFunc} (hwf : WellFormed hist) {k : Nat} (hk : k < hist.length)
    {ins hid : List String} {t : Tables}
    (hkeys : KeysInv hist contents parse k ins t) (hmid : MidInv hist k hid t)
    {p : String} (hh : hides hist (k + 1) p) (hpi : p ∉ ins) :
    ∃ b0 ∈ t.rockskip_blobs, b0.path = p ∧ b0.birth hist ≤ k ∧ b0.hidden hist = k + 1 ∧
      ∀ cache, CacheOK hist t cache →
        deletePath postgres ((spineH k).map (commitAt hist)) (commitAt hist (k + 1)) p t cache =
          (updateDeleted postgres t b0.id (commitAt hist (k + 1)), none) := by
  obtain ⟨b0, hb0, hp0, hold0, hd0, hlive⟩ := exists_hidden_next hwf hk hkeys hh
  refine ⟨b0, hb0, hp0, hold0, hd0, ?_⟩
  intro cache hcache
  unfold deletePath
  cases hc : cache p with
  | some id =>
    obtain ⟨b, hb, hid, hbp, hlatest⟩ := hcache p id hc
    obtain ⟨h1, h2, h3, h4, h5, h6⟩ := hkeys.rows b hb
    have hold : b.birth hist ≤ k := by
      by_contra hgt
      exact hpi (hbp ▸ h6 (by omega))
    have hle1 := hlatest b0 hb0 hp0
    have hle2 := liveAt_latest hwf (le_of_lt hk) hlive (hbp ▸ h4) hold
    have hc : b.commit = b0.commit := by
      rw [h3, (hkeys.rows b0 hb0).2.2.1, le_antisymm hle2 hle1]
    have := hkeys.eq_of_key hb hb0 hc (hbp.trans hp0.symm)
    subst this
    rw [hid]
  | none =>
    simp only
    have ha0 := hlive.1
    obtain ⟨y0, hy0s, hy0⟩ := (spineH_cover k (b0.birth hist)).mpr ⟨by omega, hold0⟩
    obtain ⟨L1, L2, hsplit⟩ := List.append_of_mem hy0s
    have hsorted := spineH_sorted k
    rw [hsplit, List.pairwise_append] at hsorted
    have hy0k : y0 ≤ k := spineH_le k y0 hy0s
    have hlook : lookupBlob postgres t p ((spineH k).map (commitAt hist)) =
        .ok (b0.id, true) := by
      rw [hsplit, List.map_append, List.map_cons]
      apply lookupBlob_append
      · intro z hz
        obtain ⟨y, hy, rfl⟩ := List.mem_map.mp hz
        have hys : y ∈ spineH k := by rw [hsplit]; exact List.mem_append_left _ hy
        have hlt := hsorted.2.2 y hy y0 (List.mem_cons_self _ _)
        apply pgGetBlob_none
        intro b hb hbp hadd
        by_contra hdel
        have := (getBlob_candidate hwf hk hkeys hmid hb0 (hp0 ▸ hlive) hy0s hys hy0
          (le_of_lt hlt) hb (hbp.trans hp0.symm) hadd hdel).2
        omega
      · apply pgGetBlob_some hb0 hp0
        · refine (hmid.old_added b0 hb0 hold0 _).mpr (Or.inl ?_)
          refine (AddedAt_commitAt hwf.1 (le_of_lt hk) (by omega)).mpr ⟨hy0k, hy0, ?_⟩
          rw [hd0]; unfold inI; omega
        · intro hdel
          rcases (hmid.old_deleted b0 hb0 hold0 _).mp hdel with h | ⟨h, -⟩
          · have := ((DeletedAt_commitAt hwf.1 (le_of_lt hk) (by omega)).mp h).2.1
            rw [hd0] at this; unfold inI at this; omega
          · have := commitAt_inj hwf.1 (by omega) (by omega) h
            omega
        · intro b hb hbp hadd hdel
          exact (getBlob_candidate hwf hk hkeys hmid hb0 (hp0 ▸ hlive) hy0s hy0s hy0
            (le_refl _) hb (hbp.trans hp0.symm) hadd hdel).1
    rw [hlook]
    simp

/-! ### The table after the first half of the path loop -/

theorem updateDeleted_eq (t : Tables) (id : Nat) (c : String) :
    updateDeleted postgres t id c =
      { t with rockskip_blobs := t.rockskip_blobs.map (markDeleted id c) } := rfl

theorem markDeleted_keys (id : Nat) (c : String) : KeepsKeys (markDeleted id c) := by
  intro b
  unfold markDeleted updateOne
  split <;> exact ⟨rfl, rfl, rfl, rfl⟩

theorem CacheOK.mapKeys {hist : List LogEntry} {t : Tables} {cache : String → Option Nat}
    (h : CacheOK hist t cache) {f : BlobRow → BlobRow} (hf : KeepsKeys f) :
    CacheOK hist { t with rockskip_blobs := (t.rockskip_blobs.map f) } cache := by
  intro p id hc
  obtain ⟨b, hb, h1, h2, h3⟩ := h p id hc
  refine ⟨f b, List.mem_map.mpr ⟨b, hb, rfl⟩, (hf b).1.trans h1, (hf b).2.2.1.trans h2, ?_⟩
  intro b2 hb2 hp2
  obtain ⟨b3, hb3, rfl⟩ := List.mem_map.mp hb2
  rw [birth_eq (hf b3).2.1, birth_eq (hf b).2.1]
  exact h3 b3 hb3 ((hf b3).2.2.1.symm.trans hp2)

theorem markDeleted_inv {hist : List LogEntry} {contents : String → String → List UInt8}
    {parse : ParseSymbolsFunc} (hwf : WellFormed hist) {k : Nat} (hk : k < hist.length)
    {ins hid : List String} {t : Tables}
    (hkeys : KeysInv hist contents parse k ins t) (hmid : MidInv hist k hid t)
    {b0 : BlobRow} (hb0 : b0 ∈ t.rockskip_blobs) (hold0 : b0.birth hist ≤ k)
    (hd0 : b0.hidden hist = k + 1) (hph : b0.path ∉ hid) :
    MidInv hist k (b0.path :: hid)
      { t with rockskip_blobs :=
          (t.rockskip_blobs.map (markDeleted b0.id (commitAt hist (k + 1)))) } := by
  constructor
  · intro b2 hb2 hold y
    obtain ⟨b, hb, rfl⟩ := List.mem_map.mp hb2
    have hk2 := markDeleted_keys b0.id (commitAt hist (k + 1)) b
    rw [birth_eq hk2.2.1] at hold ⊢
    rw [hidden_eq hk2.2.1 hk2.2.2.1, ← hmid.old_added b hb hold]
    unfold markDeleted updateOne
    split <;> simp [BlobRow.arrayAppend]
  · intro b2 hb2 hold y
    obtain ⟨b, hb, rfl⟩ := List.mem_map.mp hb2
    have hk2 := markDeleted_keys b0.id (commitAt hist (k + 1)) b
    rw [birth_eq hk2.2.1] at hold ⊢
    rw [hidden_eq hk2.2.1 hk2.2.2.1, hk2.2.2.1]
    have hcol := hmid.old_deleted b hb hold y
    by_cases hid : b.id = b0.id
    · have := hkeys.eq_of_id hb hb0 hid
      subst this
      have : (markDeleted b.id (commitAt hist (k + 1)) b).deleted =
          b.deleted ++ [commitAt hist (k + 1)] := by
        simp [markDeleted, updateOne, BlobRow.arrayAppend]
      rw [this, List.mem_append, List.mem_singleton, hcol]
      constructor
      · rintro (h | h)
        · rcases h with h | ⟨h1, h2 | ⟨h2, h3⟩⟩
          · exact Or.inl h
          · exact Or.inr ⟨h1, Or.inl h2⟩
          · exact Or.inr ⟨h1, Or.inr ⟨h2, List.mem_cons_of_mem _ h3⟩⟩
        · exact Or.inr ⟨h, Or.inr ⟨hd0, List.mem_cons_self _ _⟩⟩
      · rintro (h | ⟨h1, -⟩)
        · exact Or.inl (Or.inl h)
        · exact Or.inr h1
    · have : (markDeleted b0.id (commitAt hist (k + 1)) b).deleted = b.deleted := by
        simp [markDeleted, updateOne, hid]
      rw [this, hcol]
      have hnot : ¬ (b.hidden hist = k + 1 ∧ b.path = b0.path) := by
        rintro ⟨h1, h2⟩
        exact hid (congrArg BlobRow.id
          (hidden_next_unique hwf hk hkeys hb hb0 hold hold0 h1 hd0 h2))
      constructor
      · rintro (h | ⟨h1, h2 | ⟨h2, h3⟩⟩)
        · exact Or.inl h
        · exact Or.inr ⟨h1, Or.inl h2⟩
        · exact Or.inr ⟨h1, Or.inr ⟨h2, List.mem_cons_of_mem _ h3⟩⟩
      · rintro (h | ⟨h1, h2 | ⟨h2, h3⟩⟩)
        · exact Or.inl h
        · exact Or.inr ⟨h1, Or.inl h2⟩
        · rcases List.mem_cons.mp h3 with h4 | h4
          · exact absurd ⟨h2, h4⟩ hnot
          · exact Or.inr ⟨h1, Or.inr ⟨h2, h4⟩⟩
  · intro b2 hb2 hnew
    obtain ⟨b, hb, rfl⟩ := List.mem_map.mp hb2
    have hk2 := markDeleted_keys b0.id (commitAt hist (k + 1)) b
    rw [birth_eq hk2.2.1] at hnew
    have hid : b.id ≠ b0.id := by
      intro hid
      have := hkeys.eq_of_id hb hb0 hid
      subst this
      omega
    have : markDeleted b0.id (commitAt hist (k + 1)) b = b := by
      simp [markDeleted, updateOne, hid]
    rw [this]
    exact hmid.fresh b hb hnew
  · intro b2 hb2
    obtain ⟨b, hb, rfl⟩ := List.mem_map.mp hb2
    have : (markDeleted b0.id (commitAt hist (k + 1)) b).added = b.added := by
      unfold markDeleted updateOne
      split <;> rfl
    rw [this]
    exact hmid.added_nodup b hb
  · intro b2 hb2
    obtain ⟨b, hb, rfl⟩ := List.mem_map.mp hb2
    by_cases hid : b.id = b0.id
    · have := hkeys.eq_of_id hb hb0 hid
      subst this
      have : (markDeleted b.id (commitAt hist (k + 1)) b).deleted =
          b.deleted ++ [commitAt hist (k + 1)] := by
        simp [markDeleted, updateOne, BlobRow.arrayAppend]
      rw [this]
      refine List.Nodup.append (hmid.deleted_nodup b hb) (List.nodup_singleton _) ?_
      intro y hy1 hy2
      rw [List.mem_singleton] at hy2
      subst hy2
      rcases (hmid.old_deleted b hb hold0 _).mp hy1 with h | ⟨-, ⟨i, hi, h1, -⟩ | ⟨-, h2⟩⟩
      · exact DeletedAt_ne_next hwf.1 hk h
      · have := mem_take_spineH_le hi
        rw [hd0] at h1
        unfold inI at h1
        omega
      · exact hph h2
    · have : (markDeleted b0.id (commitAt hist (k + 1)) b).deleted = b.deleted := by
        simp [markDeleted, updateOne, hid]
      rw [this]
      exact hmid.deleted_nodup b hb

/-! ### The second half of the path loop -/

theorem insertPath_eq (hist : List LogEntry) (contents : String → String → List UInt8)
    {parse : ParseSymbolsFunc} {c p : String} {symbols : List String}
    (hparse : parse p (contents c p) = .ok (some symbols)) (t : Tables)
    (cache : String → Option Nat) :
    insertPath (gitOfHistory hist contents) postgres parse c p t cache =
      ({ t with rockskip_blobs := t.rockskip_blobs ++ [newRow t.nextId c p symbols]
                nextId := t.nextId + 1 },
       fun q => if q = p then some t.nextId else cache q, none) := by
  simp only [insertPath, gitOfHistory, hparse, postgres_InsertBlob, pgInsertBlob]
  rfl

theorem newRow_birth {hist : List LogEntry} (hwf : WellFormedCommits hist) {k : Nat}
    (hk : k < hist.length) (id : Nat) (p : String) (symbols : List String) :
    (newRow id (commitAt hist (k + 1)) p symbols).birth hist = k + 1 := by
  show heightOf hist (commitAt hist (k + 1)) = k + 1
  exact heightOf_commitAt hwf hk

theorem insert_inv {hist : List LogEntry} {contents : String → String → List UInt8}
    {parse : ParseSymbolsFunc} (hwf : WellFormed hist) {k : Nat} (hk : k < hist.length)
    {ins hid : List String} {t : Tables}
    (hkeys : KeysInv hist contents parse k ins t) (hmid : MidInv hist k hid t)
    {p : String} {symbols : List String} (hb : born hist (k + 1) p) (hpi : p ∉ ins)
    (hparse : parse p (contents (commitAt hist (k + 1)) p) = .ok (some symbols)) :
    KeysInv hist contents parse k (p :: ins)
      { t with rockskip_blobs :=
                 t.rockskip_blobs ++ [newRow t.nextId (commitAt hist (k + 1)) p symbols]
               nextId := t.nextId + 1 } ∧
    MidInv hist k hid
      { t with rockskip_blobs :=
                 t.rockskip_blobs ++ [newRow t.nextId (commitAt hist (k + 1)) p symbols]
               nextId := t.nextId + 1 } ∧
    ∀ cache, CacheOK hist t cache →
      CacheOK hist
        { t with rockskip_blobs :=
                   t.rockskip_blobs ++ [newRow t.nextId (commitAt hist (k + 1)) p symbols]
                 nextId := t.nextId + 1 }
        (fun q => if q = p then some t.nextId else cache q) := by
  have hnb := newRow_birth hwf.1 hk t.nextId p symbols
  refine ⟨?_, ?_, ?_⟩
  · constructor
    · show ((t.rockskip_blobs ++ [_]).map fun b : BlobRow => b.id).Nodup
      rw [List.map_append, List.map_singleton, List.nodup_append]
      refine ⟨hkeys.ids_nodup, List.nodup_singleton _, ?_⟩
      intro x hx1 hx2
      obtain ⟨b, hb1, rfl⟩ := List.mem_map.mp hx1
      have := hkeys.ids_lt b hb1
      rw [List.mem_singleton] at hx2
      simp only [newRow] at hx2
      omega
    · intro b hb1
      show b.id < t.nextId + 1
      rcases List.mem_append.mp hb1 with h | h
      · have := hkeys.ids_lt b h; omega
      · rw [List.mem_singleton] at h
        subst h
        simp [newRow]
    · intro b hb1
      rcases List.mem_append.mp hb1 with h | h
      · obtain ⟨h1, h2, h3, h4, h5, h6⟩ := hkeys.rows b h
        exact ⟨h1, h2, h3, h4, h5, fun h7 => List.mem_cons_of_mem _ (h6 h7)⟩
      · rw [List.mem_singleton] at h
        subst h
        rw [hnb]
        exact ⟨by omega, le_refl _, rfl, hb, hparse, fun _ => List.mem_cons_self _ _⟩
    · intro a q ha hbq
      obtain ⟨b, hb1, h1, h2⟩ := hkeys.complete_old a q ha hbq
      exact ⟨b, List.mem_append_left _ hb1, h1, h2⟩
    · intro q hq
      rcases List.mem_cons.mp hq with rfl | hq
      · exact ⟨_, List.mem_append_right _ (List.mem_singleton_self _), rfl, rfl⟩
      · obtain ⟨b, hb1, h1, h2⟩ := hkeys.complete_new q hq
        exact ⟨b, List.mem_append_left _ hb1, h1, h2⟩
    · show (t.rockskip_blobs ++ [_]).Pairwise _
      rw [List.pairwise_append]
      refine ⟨hkeys.distinct, List.pairwise_singleton _ _, ?_⟩
      intro b hb1 b2 hb2
      rw [List.mem_singleton] at hb2
      subst hb2
      rintro ⟨hc, hp⟩
      simp only [newRow] at hc hp
      obtain ⟨h1, h2, h3, h4, h5, h6⟩ := hkeys.rows b hb1
      have hbirth : b.birth hist = k + 1 := by
        unfold BlobRow.birth
        rw [hc]
        exact heightOf_commitAt hwf.1 hk
      exact hpi (hp ▸ h6 hbirth)
  · constructor
    · intro b hb1 hold y
      rcases List.mem_append.mp hb1 with h | h
      · exact hmid.old_added b h hold y
      · rw [List.mem_singleton] at h
        subst h
        rw [hnb] at hold
        omega
    · intro b hb1 hold y
      rcases List.mem_append.mp hb1 with h | h
      · exact hmid.old_deleted b h hold y
      · rw [List.mem_singleton] at h
        subst h
        rw [hnb] at hold
        omega
    · intro b hb1 hnew
      rcases List.mem_append.mp hb1 with h | h
      · exact hmid.fresh b h hnew
      · rw [List.mem_singleton] at h
        subst h
        exact ⟨rfl, rfl⟩
    · intro b hb1
      rcases List.mem_append.mp hb1 with h | h
      · exact hmid.added_nodup b h
      · rw [List.mem_singleton] at h
        subst h
        exact List.nodup_singleton _
    · intro b hb1
      rcases List.mem_append.mp hb1 with h | h
      · exact hmid.deleted_nodup b h
      · rw [List.mem_singleton] at h
        subst h
        exact List.nodup_nil
  · intro cache hcache q id hq
    by_cases hqp : q = p
    · subst hqp
      simp only [if_true, Option.some.injEq] at hq
      subst hq
      refine ⟨_, List.mem_append_right _ (List.mem_singleton_self _), rfl, rfl, ?_⟩
      intro b2 hb2 _
      rw [hnb]
      rcases List.mem_append.mp hb2 with h | h
      · exact (hkeys.rows b2 h).2.1
      · rw [List.mem_singleton] at h
        subst h
        rw [hnb]
    · simp only [hqp, if_false] at hq
      obtain ⟨b, hb1, h1, h2, h3⟩ := hcache q id hq
      refine ⟨b, List.mem_append_left _ hb1, h1, h2, ?_⟩
      intro b2 hb2 hp2
      rcases List.mem_append.mp hb2 with h | h
      · exact h3 b2 h hp2
      · rw [List.mem_singleton] at h
        subst h
        simp only [newRow] at hp2
        exact absurd hp2.symm hqp

/-! ### The path loop -/

theorem mem_insOf {pss : List PathStatus} {q : String} :
    q ∈ insOf pss ↔ ∃ ps ∈ pss, ps.Status ≠ .DeletedAMD ∧ ps.Path = q := by
  simp [insOf, and_assoc]

theorem mem_hidOf {pss : List PathStatus} {q : String} :
    q ∈ hidOf pss ↔ ∃ ps ∈ pss, ps.Status ≠ .AddedAMD ∧ ps.Path = q := by
  simp [hidOf, and_assoc]

theorem mem_insOf_cons {ps : PathStatus} {rest : List PathStatus} {q : String} :
    q ∈ insOf (ps :: rest) ↔ (q = ps.Path ∧ ps.Status ≠ .DeletedAMD) ∨ q ∈ insOf rest := by
  simp only [mem_insOf, List.mem_cons, exists_eq_or_imp]
  constructor
  · rintro (⟨h1, h2⟩ | h)
    · exact Or.inl ⟨h2.symm, h1⟩
    · exact Or.inr h
  · rintro (⟨h1, h2⟩ | h)
    · exact Or.inl ⟨h2, h1.symm⟩
    · exact Or.inr h

theorem mem_hidOf_cons {ps : PathStatus} {rest : List PathStatus} {q : String} :
    q ∈ hidOf (ps :: rest) ↔ (q = ps.Path ∧ ps.Status ≠ .AddedAMD) ∨ q ∈ hidOf rest := by
  simp only [mem_hidOf, List.mem_cons, exists_eq_or_imp]
  constructor
  · rintro (⟨h1, h2⟩ | h)
    · exact Or.inl ⟨h2.symm, h1⟩
    · exact Or.inr h
  · rintro (⟨h1, h2⟩ | h)
    · exact Or.inl ⟨h2, h1.symm⟩
    · exact Or.inr h

theorem indexPath_ok {hist : List LogEntry} {contents : String → String → List UInt8}
    {parse : ParseSymbolsFunc} (hwf : WellFormed hist) {k : Nat} (hk : k < hist.length)
    {ins hid : List String} {t : Tables}
    (hkeys : KeysInv hist contents parse k ins t) (hmid : MidInv hist k hid t)
    {ps : PathStatus} (hst : statusAt hist (k + 1) ps.Path = some ps.Status)
    (hpi : ps.Path ∉ ins) (hph : ps.Path ∉ hid)
    (hparse : ps.Status ≠ .DeletedAMD →
      ∃ symbols, parse ps.Path (contents (commitAt hist (k + 1)) ps.Path) = .ok (some symbols)) :
    ∃ t1 ins1 hid1, KeysInv hist contents parse k ins1 t1 ∧ MidInv hist k hid1 t1 ∧
      (∀ q, q ∈ ins1 ↔ q ∈ ins ∨ (q = ps.Path ∧ ps.Status ≠ .DeletedAMD)) ∧
      (∀ q, q ∈ hid1 ↔ q ∈ hid ∨ (q = ps.Path ∧ ps.Status ≠ .AddedAMD)) ∧
      ∀ cache, CacheOK hist t cache →
        ∃ cache1, indexPath (gitOfHistory hist contents) postgres parse
            ((spineH k).map (commitAt hist)) (commitAt hist (k + 1)) ps t cache =
              (t1, cache1, none) ∧ CacheOK hist t1 cache1 := by
  cases hs : ps.Status with
  | AddedAMD =>
    rw [hs] at hst hparse
    obtain ⟨symbols, hsym⟩ := hparse (by simp)
    obtain ⟨h1, h2, h3⟩ := insert_inv hwf hk hkeys hmid (Or.inl hst) hpi hsym
    refine ⟨_, ps.Path :: ins, hid, h1, h2, ?_, ?_, ?_⟩
    · intro q; simp [or_comm]
    · intro q; simp
    · intro cache hcache
      refine ⟨_, ?_, h3 cache hcache⟩
      simp only [indexPath, hs]
      simp [insertPath_eq hist contents hsym]
  | DeletedAMD =>
    rw [hs] at hst
    obtain ⟨b0, hb0, hp0, hold0, hd0, hdel⟩ :=
      deletePath_ok hwf hk hkeys hmid (Or.inr hst) hpi
    have h1 := hkeys.map (markDeleted_keys b0.id (commitAt hist (k + 1)))
    have h2 := markDeleted_inv hwf hk hkeys hmid hb0 hold0 hd0 (hp0 ▸ hph)
    refine ⟨_, ins, b0.path :: hid, h1, h2, ?_, ?_, ?_⟩
    · intro q; simp
    · intro q; simp [or_comm, hp0]
    · intro cache hcache
      refine ⟨cache, ?_, hcache.mapKeys (markDeleted_keys _ _)⟩
      simp only [indexPath, hs]
      simp [hdel cache hcache, updateDeleted_eq]
  | ModifiedAMD =>
    rw [hs] at hst hparse
    obtain ⟨symbols, hsym⟩ := hparse (by simp)
    obtain ⟨b0, hb0, hp0, hold0, hd0, hdel⟩ :=
      deletePath_ok hwf hk hkeys hmid (Or.inl hst) hpi
    have h1 := hkeys.map (markDeleted_keys b0.id (commitAt hist (k + 1)))
    have h2 := markDeleted_inv hwf hk hkeys hmid hb0 hold0 hd0 (hp0 ▸ hph)
    obtain ⟨h3, h4, h5⟩ := insert_inv hwf hk h1 h2 (Or.inr hst) hpi hsym
    refine ⟨_, ps.Path :: ins, b0.path :: hid, h3, h4, ?_, ?_, ?_⟩
    · intro q; simp [or_comm]
    · intro q; simp [or_comm, hp0]
    · intro cache hcache
      refine ⟨_, ?_, h5 cache (hcache.mapKeys (markDeleted_keys _ _))⟩
      simp only [indexPath, hs]
      simp [hdel cache hcache, updateDeleted_eq, insertPath_eq hist contents hsym]

theorem indexPaths_ok {hist : List LogEntry} {contents : String → String → List UInt8}
    {parse : ParseSymbolsFunc} (hwf : WellFormed hist) {k : Nat} (hk : k < hist.length) :
    ∀ (todo : List PathStatus) (ins hid : List String) (t : Tables),
    (todo.map fun ps => ps.Path).Nodup →
    (∀ ps ∈ todo, ps.Path ∉ ins) → (∀ ps ∈ todo, ps.Path ∉ hid) →
    (∀ ps ∈ todo, statusAt hist (k + 1) ps.Path = some ps.Status) →
    (∀ ps ∈ todo, ps.Status ≠ .DeletedAMD →
      ∃ symbols, parse ps.Path (contents (commitAt hist (k + 1)) ps.Path) = .ok (some symbols)) →
    KeysInv hist contents parse k ins t → MidInv hist k hid t →
    ∃ t1 ins1 hid1, KeysInv hist contents parse k ins1 t1 ∧ MidInv hist k hid1 t1 ∧
      (∀ q, q ∈ ins1 ↔ q ∈ ins ∨ q ∈ insOf todo) ∧
      (∀ q, q ∈ hid1 ↔ q ∈ hid ∨ q ∈ hidOf todo) ∧
      ∀ cache, CacheOK hist t cache →
        ∃ cache1, indexPaths (gitOfHistory hist contents) postgres parse
            ((spineH k).map (commitAt hist)) (commitAt hist (k + 1)) todo t cache =
              (t1, cache1, none) ∧ CacheOK hist t1 cache1 := by
  intro todo
  induction todo with
  | nil =>
    intro ins hid t _ _ _ _ _ hkeys hmid
    exact ⟨t, ins, hid, hkeys, hmid, by simp [insOf], by simp [hidOf],
      fun cache hc => ⟨cache, rfl, hc⟩⟩
  | cons ps rest ih =>
    intro ins hid t hnd hni hnh hst hparse hkeys hmid
    rw [List.map_cons, List.nodup_cons] at hnd
    obtain ⟨t1, ins1, hid1, hk1, hm1, hi1, hh1, hrun1⟩ :=
      indexPath_ok hwf hk hkeys hmid (hst ps (List.mem_cons_self _ _))
        (hni ps (List.mem_cons_self _ _)) (hnh ps (List.mem_cons_self _ _))
        (hparse ps (List.mem_cons_self _ _))
    have hni2 : ∀ ps2 ∈ rest, ps2.Path ∉ ins1 := by
      intro ps2 h2 hmem
      rcases (hi1 _).mp hmem with h | ⟨h, -⟩
      · exact hni ps2 (List.mem_cons_of_mem _ h2) h
      · exact hnd.1 (h ▸ List.mem_map.mpr ⟨ps2, h2, rfl⟩)
    have hnh2 : ∀ ps2 ∈ rest, ps2.Path ∉ hid1 := by
      intro ps2 h2 hmem
      rcases (hh1 _).mp hmem with h | ⟨h, -⟩
      · exact hnh ps2 (List.mem_cons_of_mem _ h2) h
      · exact hnd.1 (h ▸ List.mem_map.mpr ⟨ps2, h2, rfl⟩)
    obtain ⟨t2, ins2, hid2, hk2, hm2, hi2, hh2, hrun2⟩ :=
      ih ins1 hid1 t1 hnd.2 hni2 hnh2 (fun ps2 h2 => hst ps2 (List.mem_cons_of_mem _ h2))
        (fun ps2 h2 => hparse ps2 (List.mem_cons_of_mem _ h2)) hk1 hm1
    refine ⟨t2, ins2, hid2, hk2, hm2, ?_, ?_, ?_⟩
    · intro q
      rw [hi2, hi1, mem_insOf_cons]
      tauto
    · intro q
      rw [hh2, hh1, mem_hidOf_cons]
      tauto
    · intro cache hcache
      obtain ⟨cache1, he1, hc1⟩ := hrun1 cache hcache
      obtain ⟨cache2, he2, hc2⟩ := hrun2 cache1 hc1
      refine ⟨cache2, ?_, hc2⟩
      unfold indexPaths
      rw [he1]
      exact he2

/-! ### One entry -/

theorem BlobsInv.of_blobs_eq {hist : List LogEntry} {contents : String → String → List UInt8}
    {parse : ParseSymbolsFunc} {k : Nat} {t t1 : Tables}
    (h : BlobsInv hist contents parse k t) (hb : t1.rockskip_blobs = t.rockskip_blobs)
    (hn : t1.nextId = t.nextId) : BlobsInv hist contents parse k t1 := by
  obtain ⟨a1, b1, n1⟩ := t
  obtain ⟨a2, b2, n2⟩ := t1
  simp only at hb hn
  subst hb hn
  exact ⟨⟨h.1.ids_nodup, h.1.ids_lt, h.1.rows, h.1.complete_old, h.1.complete_new,
    h.1.distinct⟩, ⟨h.2.added, h.2.deleted, h.2.added_nodup, h.2.deleted_nodup⟩⟩

theorem CacheOK.of_same_blobs {hist : List LogEntry} {t t1 : Tables}
    {cache : String → Option Nat} (h : CacheOK hist t cache)
    (hb : t1.rockskip_blobs = t.rockskip_blobs) : CacheOK hist t1 cache := by
  intro p id hc
  rw [hb]
  exact h p id hc

theorem entry_status {hist : List LogEntry} (hwf : WellFormed hist) {k : Nat}
    (hk : k < hist.length) {ps : PathStatus} (hps : ps ∈ (hist[k]).PathStatuses) :
    statusAt hist (k + 1) ps.Path = some ps.Status := by
  rw [statusAt_succ hk]
  exact statusIn_of_mem (hwf.2 k hk).1 hps

theorem entry_mem_of_status {hist : List LogEntry} {k : Nat} (hk : k < hist.length)
    {p : String} {st : StatusAMD} (h : statusAt hist (k + 1) p = some st) :
    ({ Path := p, Status := st } : PathStatus) ∈ (hist[k]).PathStatuses := by
  rw [statusAt_succ hk] at h
  exact statusIn_mem h

/-- Indexing the entry at height `k + 1` of a well-formed history: the entry is processed
without error, the result does not depend on the (valid) cache, and the invariants of the
two tables hold at height `k + 1`. -/
theorem indexEntry_ok {hist : List LogEntry} {contents : String → String → List UInt8}
    {parse : ParseSymbolsFunc} (hwf : WellFormed hist) (hpo : ParseOk hist contents parse)
    {fuel k : Nat} (hfuel : hist.length < fuel) (hk : k < hist.length) {t : Tables}
    (hanc : t.rockskip_ancestry = ancestryUpTo hist k)
    (hinv : BlobsInv hist contents parse k t) :
    ∃ t1, t1.rockskip_ancestry = ancestryUpTo hist (k + 1) ∧
      BlobsInv hist contents parse (k + 1) t1 ∧
      ∀ cache, CacheOK hist t cache →
        ∃ cache1, indexEntry fuel (gitOfHistory hist contents) postgres parse hist[k]
            { db := t, tipCommit := commitAt hist k, tipHeight := k,
              pathToBlobIdCache := cache } =
          some ({ db := t1, tipCommit := commitAt hist (k + 1), tipHeight := k + 1,
                  pathToBlobIdCache := cache1 }, none) ∧
          CacheOK hist t1 cache1 := by
  have hhops := getHops_spine hwf.1 hanc (le_of_lt hk) (le_refl k) hfuel
  obtain ⟨hr, -⟩ := spineH_ruler k
  have hancr : ((spineH k).map (commitAt hist))[ruler (k + 1)]? =
      some (commitAt hist (k + 1 - 2 ^ ruler (k + 1))) := by
    rw [List.getElem?_map, hr]; rfl
  have hc : (hist[k]).Commit = commitAt hist (k + 1) := (commitAt_succ hk).symm
  obtain ⟨s1, hs1, hs2⟩ := pgAppendHop_both t
    (((spineH k).map (commitAt hist)).take (ruler (k + 1))) (commitAt hist (k + 1))
  obtain ⟨hkeys2, hmid2⟩ := appendBoth_inv hwf.1 hk hinv
  obtain ⟨t3, ins3, hid3, hkeys3, hmid3, hins3, hhid3, hrun3⟩ :=
    indexPaths_ok hwf hk (hist[k]).PathStatuses [] [] _ (hwf.2 k hk).1
      (fun ps _ => List.not_mem_nil _) (fun ps _ => List.not_mem_nil _)
      (fun ps hps => entry_status hwf hk hps)
      (fun ps hps hne => by
        have := hpo hist[k] (List.getElem_mem _) ps hps hne
        rwa [hc] at this)
      hkeys2 hmid2
  have hins : ∀ p, born hist (k + 1) p → p ∈ ins3 := by
    intro p hb
    rw [hins3]
    right
    rcases hb with h | h
    · exact mem_insOf.mpr ⟨_, entry_mem_of_status hk h, by simp, rfl⟩
    · exact mem_insOf.mpr ⟨_, entry_mem_of_status hk h, by simp, rfl⟩
  have hhid : ∀ p, hides hist (k + 1) p → p ∈ hid3 := by
    intro p hb
    rw [hhid3]
    right
    rcases hb with h | h
    · exact mem_hidOf.mpr ⟨_, entry_mem_of_status hk h, by simp, rfl⟩
    · exact mem_hidOf.mpr ⟨_, entry_mem_of_status hk h, by simp, rfl⟩
  have hinv4 := collapse_inv hwf.1 hk hkeys3 hmid3 hins hhid
  have hanc3 : t3.rockskip_ancestry = ancestryUpTo hist k := by
    obtain ⟨cache1, he, -⟩ := hrun3 (fun _ => none) (fun p id h => by simp at h)
    have h5 := indexPaths_ancestry (gitOfHistory hist contents) parse
      ((spineH k).map (commitAt hist)) (commitAt hist (k + 1)) (hist[k]).PathStatuses
    have h6 := congrArg (fun r => r.1.rockskip_ancestry) he
    simp only [h5] at h6
    exact h6.symm.trans hanc
  have hcommit : insertCommit postgres
      { rockskip_ancestry := t3.rockskip_ancestry,
        rockskip_blobs := t3.rockskip_blobs.map (collapse (commitAt hist (k + 1))),
        nextId := t3.nextId } (commitAt hist (k + 1)) (k + 1)
        (commitAt hist (k + 1 - 2 ^ ruler (k + 1))) =
      { rockskip_ancestry := ancestryUpTo hist (k + 1),
        rockskip_blobs := t3.rockskip_blobs.map (collapse (commitAt hist (k + 1))),
        nextId := t3.nextId } :=
    pgInsertCommit_fresh hwf.1 hanc3 hk
  refine ⟨{ rockskip_ancestry := ancestryUpTo hist (k + 1),
            rockskip_blobs := t3.rockskip_blobs.map (collapse (commitAt hist (k + 1))),
            nextId := t3.nextId }, rfl, hinv4.of_blobs_eq rfl rfl, ?_⟩
  · intro cache hcache
    obtain ⟨cache3, he3, hc3⟩ := hrun3 cache (hcache.mapKeys (appendBoth_keys _ _))
    refine ⟨cache3, ?_, (hc3.mapKeys (collapse_keys (commitAt hist (k + 1)))).of_same_blobs rfl⟩
    unfold indexEntry
    simp only [hhops, hancr, hc, hs1, hs2, he3, pgDeleteRedundant_eq, hcommit]

/-! ### Runs of entries -/

theorem indexEntries_ok {hist : List LogEntry} {contents : String → String → List UInt8}
    {parse : ParseSymbolsFunc} (hwf : WellFormed hist) (hpo : ParseOk hist contents parse)
    {fuel : Nat} (hfuel : hist.length < fuel) :
    ∀ (n k : Nat) (t : Tables), k + n ≤ hist.length →
    t.rockskip_ancestry = ancestryUpTo hist k → BlobsInv hist contents parse k t →
    ∃ t1, t1.rockskip_ancestry = ancestryUpTo hist (k + n) ∧
      BlobsInv hist contents parse (k + n) t1 ∧
      ∀ cache, CacheOK hist t cache →
        ∃ cache1, indexEntries fuel (gitOfHistory hist contents) postgres parse
            ((hist.drop k).take n)
            { db := t, tipCommit := commitAt hist k, tipHeight := k,
              pathToBlobIdCache := cache } =
          some ({ db := t1, tipCommit := commitAt hist (k + n), tipHeight := k + n,
                  pathToBlobIdCache := cache1 }, none) ∧
          CacheOK hist t1 cache1 := by
  intro n
  induction n with
  | zero =>
    intro k t _ hanc hinv
    exact ⟨t, hanc, hinv, fun cache hc => ⟨cache, by simp [indexEntries], hc⟩⟩
  | succ n ih =>
    intro k t hk hanc hinv
    have hlt : k < hist.length := by omega
    have hcons : (hist.drop k).take (n + 1) = hist[k] :: (hist.drop (k + 1)).take n := by
      rw [List.drop_eq_getElem_cons hlt]; rfl
    obtain ⟨t1, hanc1, hinv1, hrun1⟩ := indexEntry_ok hwf hpo hfuel hlt hanc hinv
    obtain ⟨t2, hanc2, hinv2, hrun2⟩ := ih (k + 1) t1 (by omega) hanc1 hinv1
    have hkn : k + 1 + n = k + (n + 1) := by omega
    rw [hkn] at hanc2 hinv2 hrun2
    refine ⟨t2, hanc2, hinv2, ?_⟩
    intro cache hcache
    obtain ⟨cache1, he1, hc1⟩ := hrun1 cache hcache
    obtain ⟨cache2, he2, hc2⟩ := hrun2 cache1 hc1
    refine ⟨cache2, ?_, hc2⟩
    rw [hcons]
    unfold indexEntries
    rw [he1]
    exact he2

theorem CacheOK_empty (hist : List LogEntry) (t : Tables) : CacheOK hist t fun _ => none := by
  intro p id h
  simp at h

theorem BlobsInv_empty (hist : List LogEntry) (contents : String → String → List UInt8)
    (parse : ParseSymbolsFunc) : BlobsInv hist contents parse 0 emptyTables := by
  refine ⟨⟨?_, ?_, ?_, ?_, ?_, ?_⟩, ⟨?_, ?_, ?_, ?_⟩⟩
  · simp [emptyTables]
  · intro b hb; simp [emptyTables] at hb
  · intro b hb; simp [emptyTables] at hb
  · intro a p ha hb
    have := (born_range hb).1
    omega
  · intro p hp; simp at hp
  · simp [emptyTables]
  · intro b hb; simp [emptyTables] at hb
  · intro b hb; simp [emptyTables] at hb
  · intro b hb; simp [emptyTables] at hb
  · intro b hb; simp [emptyTables] at hb

/-- The run of `Index` on the commit at height `x`, from a store that holds the first `k ≤ x`
entries: it returns without error and leaves the store of height `x`. -/
theorem Index_ok {hist : List LogEntry} {contents : String → String → List UInt8}
    {parse : ParseSymbolsFunc} (hwf : WellFormed hist) (hpo : ParseOk hist contents parse)
    {fuel : Nat} (hfuel : hist.length < fuel) {k x : Nat} (hkx : k ≤ x) (hx1 : 1 ≤ x)
    (hx : x ≤ hist.length) {t : Tables}
    (hanc : t.rockskip_ancestry = ancestryUpTo hist k)
    (hinv : BlobsInv hist contents parse k t) :
    ∃ t1, Index fuel (gitOfHistory hist contents) postgres parse (commitAt hist x) t =
        some (t1, none) ∧
      t1.rockskip_ancestry = ancestryUpTo hist x ∧ BlobsInv hist contents parse x t1 ∧
      ∀ cache, CacheOK hist t cache →
        ∃ cache1, indexEntries fuel (gitOfHistory hist contents) postgres parse
            ((hist.drop k).take (x - k))
            { db := t, tipCommit := commitAt hist k, tipHeight := k,
              pathToBlobIdCache := cache } =
          some ({ db := t1, tipCommit := commitAt hist x, tipHeight := x,
                  pathToBlobIdCache := cache1 }, none) ∧
          CacheOK hist t1 cache1 := by
  obtain ⟨t1, hanc1, hinv1, hrun1⟩ :=
    indexEntries_ok hwf hpo hfuel (x - k) k t (by omega) hanc hinv
  have hkx2 : k + (x - k) = x := by omega
  rw [hkx2] at hanc1 hinv1 hrun1
  refine ⟨t1, ?_, hanc1, hinv1, hrun1⟩
  rw [Index_eq_indexEntries hwf.1 contents parse fuel hanc (by omega) hx1 hx]
  obtain ⟨cache1, he1, -⟩ := hrun1 (fun _ => none) (CacheOK_empty hist t)
  rw [he1]
  rfl

theorem indexEntries_cons {σ : Type} (fuel : Nat) (git : Git) (db : DB σ)
    (parse : ParseSymbolsFunc) (e : LogEntry) (rest : List LogEntry) (st : IndexState σ) :
    indexEntries fuel git db parse (e :: rest) st =
      match indexEntry fuel git db parse e st with
      | none => none
      | some (st1, some err) => some (st1, some err)
      | some (st1, none) => indexEntries fuel git db parse rest st1 := rfl

theorem indexEntries_append {σ : Type} (fuel : Nat) (git : Git) (db : DB σ)
    (parse : ParseSymbolsFunc) : ∀ (l1 l2 : List LogEntry) (st st1 : IndexState σ),
    indexEntries fuel git db parse l1 st = some (st1, none) →
    indexEntries fuel git db parse (l1 ++ l2) st = indexEntries fuel git db parse l2 st1 := by
  intro l1
  induction l1 with
  | nil =>
    intro l2 st st1 h
    simp only [indexEntries, Option.some.injEq, Prod.mk.injEq, and_true] at h
    subst h
    rfl
  | cons e rest ih =>
    intro l2 st st1 h
    rw [List.cons_append, indexEntries_cons]
    rw [indexEntries_cons] at h
    rcases he : indexEntry fuel git db parse e st with _ | ⟨st2, _ | err⟩
    · rw [he] at h; simp at h
    · rw [he] at h
      simp only at h ⊢
      exact ih l2 st2 st1 h
    · rw [he] at h; simp at h

/-! ### Visibility through the spine -/

theorem spine_visible (x a d : Nat) :
    ((∃ i ∈ spineH x, inI a i ∧ ¬ inI d i) ∧ ¬ (∃ i ∈ spineH x, inI d i ∧ ¬ inI a i)) ↔
    (1 ≤ a ∧ a ≤ x ∧ ¬ (0 < d ∧ d ≤ x)) := by
  constructor
  · rintro ⟨⟨i, hi, h1, h2⟩, hD⟩
    have ha := (spineH_cover x a).mp ⟨i, hi, h1⟩
    refine ⟨ha.1, ha.2, fun hd => ?_⟩
    obtain ⟨j, hj, h3⟩ := (spineH_cover x d).mpr hd
    have h4 : inI a j := by
      by_contra hn
      exact hD ⟨j, hj, h3, hn⟩
    have := spineH_unique x a i hi j hj h1 h4
    subst this
    exact h2 h3
  · rintro ⟨h1, h2, h3⟩
    obtain ⟨i, hi, h4⟩ := (spineH_cover x a).mpr ⟨h1, h2⟩
    refine ⟨⟨i, hi, h4, fun hd => h3 ((spineH_cover x d).mp ⟨i, hi, hd⟩)⟩, ?_⟩
    rintro ⟨j, hj, h5, -⟩
    exact h3 ((spineH_cover x d).mp ⟨j, hj, h5⟩)

/-- A blob is selected by `Search` at the commit of height `x` exactly when it is the
live version of its path at height `x`. -/
theorem visible_iff {hist : List LogEntry} {contents : String → String → List UInt8}
    {parse : ParseSymbolsFunc} (hwf : WellFormed hist) {n x : Nat} (hx : x ≤ n)
    (hn : n ≤ hist.length) {t : Tables} (hinv : BlobsInv hist contents parse n t)
    {b : BlobRow} (hb : b ∈ t.rockskip_blobs) :
    (overlaps ((spineH x).map (commitAt hist)) b.added &&
      !overlaps ((spineH x).map (commitAt hist)) b.deleted) = true ↔
    liveAt hist x (b.birth hist) b.path := by
  have hle : ∀ i ∈ spineH x, i ≤ n := fun i hi => le_trans (spineH_le x i hi) hx
  have h1 := overlaps_spine_added hwf.1 hn hle (hinv.2.added b hb)
  have h2 := overlaps_spine_deleted hwf.1 hn hle (hinv.2.deleted b hb)
  rw [Bool.and_eq_true, Bool.not_eq_true', ← Bool.not_eq_true, h1, h2, spine_visible]
  obtain ⟨r1, r2, r3, r4, r5, r6⟩ := hinv.1.rows b hb
  unfold liveAt
  rw [← hiddenAt_not_le_iff, ← hidden_def]
  constructor
  · rintro ⟨a1, a2, a3⟩; exact ⟨a1, a2, r4, a3⟩
  · rintro ⟨a1, a2, -, a3⟩; exact ⟨a1, a2, a3⟩

theorem birth_of_commit {hist : List LogEntry} (hwf : WellFormed hist) {b : BlobRow}
    {a : Nat} (ha : a ≤ hist.length) (hc : b.commit = commitAt hist a) :
    b.birth hist = a := by
  unfold BlobRow.birth
  rw [hc]
  exact heightOf_commitAt hwf.1 ha

/-- Two rows of the table that are live at the same height for the same path are the
same row. -/
theorem live_unique {hist : List LogEntry} {contents : String → String → List UInt8}
    {parse : ParseSymbolsFunc} (hwf : WellFormed hist) {n x : Nat}
    (hx : x ≤ hist.length) {t : Tables} (hinv : BlobsInv hist contents parse n t)
    {b1 b2 : BlobRow} (h1 : b1 ∈ t.rockskip_blobs) (h2 : b2 ∈ t.rockskip_blobs)
    (l1 : liveAt hist x (b1.birth hist) b1.path) (l2 : liveAt hist x (b2.birth hist) b2.path)
    (hp : b1.path = b2.path) : b1 = b2 := by
  rw [hp] at l1
  have hb := liveAt_unique hwf hx l1 l2
  have hc : b1.commit = b2.commit := by
    rw [(hinv.1.rows b1 h1).2.2.1, (hinv.1.rows b2 h2).2.2.1, hb]
  exact hinv.1.eq_of_key h1 h2 hc hp

theorem Search_eq {hist : List LogEntry} (hwf : WellFormedCommits hist) {t : Tables}
    {n x fuel : Nat} (hanc : t.rockskip_ancestry = ancestryUpTo hist n)
    (hn : n ≤ hist.length) (hx : x ≤ n) (hfuel : hist.length < fuel)
    (query : Option String) :
    Search fuel postgres t (commitAt hist x) query =
      some (pgSearch t ((spineH x).map (commitAt hist)) query) := by
  unfold Search
  rw [getHops_spine hwf hanc hn hx hfuel]
  rfl

theorem pgSearch_none (t : Tables) (hops : List String) :
    pgSearch t hops none =
      .ok ((t.rockskip_blobs.filter fun b =>
        overlaps hops b.added && !overlaps hops b.deleted).map BlobRow.toBlob) := rfl

theorem pgSearch_some (t : Tables) (hops : List String) (q : String) :
    pgSearch t hops (some q) =
      .ok ((t.rockskip_blobs.filter fun b =>
        overlaps hops b.added && !overlaps hops b.deleted && overlaps [q] b.symbols).map
          BlobRow.toBlob) := rfl

/-- The paths of the rows that `Search` selects are pairwise different. -/
theorem visible_paths_nodup {hist : List LogEntry} {contents : String → String → List UInt8}
    {parse : ParseSymbolsFunc} (hwf : WellFormed hist) {n x : Nat} (hx : x ≤ n)
    (hn : n ≤ hist.length) {t : Tables} (hinv : BlobsInv hist contents parse n t) :
    (((t.rockskip_blobs.filter fun b =>
        overlaps ((spineH x).map (commitAt hist)) b.added &&
          !overlaps ((spineH x).map (commitAt hist)) b.deleted).map BlobRow.toBlob).map
      fun b => b.Path).Nodup := by
  rw [List.map_map]
  unfold List.Nodup
  rw [List.pairwise_map]
  have hpw := hinv.1.distinct.filter (fun b =>
        overlaps ((spineH x).map (commitAt hist)) b.added &&
          !overlaps ((spineH x).map (commitAt hist)) b.deleted)
  refine List.Pairwise.imp_of_mem ?_ hpw
  intro b1 b2 hb1 hb2 hne hp
  obtain ⟨m1, v1⟩ := List.mem_filter.mp hb1
  obtain ⟨m2, v2⟩ := List.mem_filter.mp hb2
  have l1 := (visible_iff hwf hx hn hinv m1).mp v1
  have l2 := (visible_iff hwf hx hn hinv m2).mp v2
  have := live_unique hwf (le_trans hx hn) hinv m1 m2 l1 l2 hp
  subst this
  exact hne ⟨rfl, rfl⟩

/-! ### At most one row for a hop and a path -/

theorem countP_le_one_of_unique {α : Type} (p : α → Bool) :
    ∀ (l : List α), l.Nodup → (∀ a ∈ l, ∀ b ∈ l, p a = true → p b = true → a = b) →
    l.countP p ≤ 1 := by
  intro l
  induction l with
  | nil => intro _ _; simp
  | cons a l ih =>
    intro hnd huniq
    rw [List.nodup_cons] at hnd
    rw [List.countP_cons]
    by_cases hpa : p a = true
    · have hzero : l.countP p = 0 := by
        rw [List.countP_eq_zero]
        intro b hb hpb
        have := huniq a (List.mem_cons_self _ _) b (List.mem_cons_of_mem _ hb) hpa hpb
        exact hnd.1 (this ▸ hb)
      rw [hzero]
      simp [hpa]
    · have := ih hnd.2 fun x hx y hy => huniq x (List.mem_cons_of_mem _ hx) y
        (List.mem_cons_of_mem _ hy)
      simp only [hpa, Bool.false_eq_true, if_false, add_zero]
      exact this

theorem blobs_nodup {hist : List LogEntry} {contents : String → String → List UInt8}
    {parse : ParseSymbolsFunc} {k : Nat} {ins : List String} {t : Tables}
    (h : KeysInv hist contents parse k ins t) : t.rockskip_blobs.Nodup :=
  List.Nodup.of_map _ h.ids_nodup

/-- In a finished table, at most one row of a path has a given hop in `added` and not in
`deleted`. -/
theorem getBlob_unique {hist : List LogEntry} {contents : String → String → List UInt8}
    {parse : ParseSymbolsFunc} (hwf : WellFormed hist) {n : Nat} (hn : n ≤ hist.length)
    {t : Tables} (hinv : BlobsInv hist contents parse n t) {hop : String}
    {b1 b2 : BlobRow} (h1 : b1 ∈ t.rockskip_blobs) (h2 : b2 ∈ t.rockskip_blobs)
    (hp : b1.path = b2.path) (ha1 : hop ∈ b1.added) (ha2 : hop ∈ b2.added)
    (hd1 : hop ∉ b1.deleted) (hd2 : hop ∉ b2.deleted) : b1 = b2 := by
  obtain ⟨y, hy1, hy2, rfl, i1, j1⟩ := (hinv.2.added b1 h1 _).mp ha1
  obtain ⟨-, i2, j2⟩ := (AddedAt_commitAt hwf.1 hn (by omega)).mp ((hinv.2.added b2 h2 _).mp ha2)
  obtain ⟨r1, -, r3, r4, -, -⟩ := hinv.1.rows b1 h1
  obtain ⟨s1, -, s3, s4, -, -⟩ := hinv.1.rows b2 h2
  have g1 := hidden_zero_or_gt hist b1
  have g2 := hidden_zero_or_gt hist b2
  rcases Nat.lt_trichotomy (b1.birth hist) (b2.birth hist) with hlt | heq | hgt
  · exfalso
    have hh := hiddenAt_le_of_later_born hwf r1 hlt r4 (hp ▸ s4)
    rw [← hidden_def] at hh
    apply j1
    unfold inI at i1 i2 ⊢
    omega
  · have hc : b1.commit = b2.commit := by rw [r3, s3, heq]
    exact hinv.1.eq_of_key h1 h2 hc hp
  · exfalso
    have hh := hiddenAt_le_of_later_born hwf s1 hgt s4 (hp ▸ r4)
    rw [← hidden_def] at hh
    apply j2
    unfold inI at i1 i2 ⊢
    omega

/-- A commit is never in both hop columns of a row of a finished table. -/
theorem columns_disjoint {hist : List LogEntry} {contents : String → String → List UInt8}
    {parse : ParseSymbolsFunc} (hwf : WellFormed hist) {n : Nat} (hn : n ≤ hist.length)
    {t : Tables} (hinv : BlobsInv hist contents parse n t) {b : BlobRow}
    (hb : b ∈ t.rockskip_blobs) {c : String} (ha : c ∈ b.added) : c ∉ b.deleted := by
  intro hd
  obtain ⟨y, hy1, hy2, rfl, i1, j1⟩ := (hinv.2.added b hb _).mp ha
  obtain ⟨-, i2, j2⟩ :=
    (DeletedAt_commitAt hwf.1 hn (by omega)).mp ((hinv.2.deleted b hb _).mp hd)
  exact j1 i2

theorem take_split (hist : List LogEntry) {m n : Nat} (hmn : m ≤ n) :
    (hist.drop 0).take (n - 0) = (hist.drop 0).take (m - 0) ++ (hist.drop m).take (n - m) := by
  simp only [List.drop_zero, Nat.sub_zero]
  have : n = m + (n - m) := by omega
  conv_lhs => rw [this]
  exact List.take_add _ _ _

/-! ### Small facts used by the claims -/

theorem parseOk_bytesAsSymbols (hist : List LogEntry)
    (contents : String → String → List UInt8) : ParseOk hist contents bytesAsSymbols :=
  fun _ _ _ _ _ => ⟨_, rfl⟩

theorem eq_singleton_of_nodup {l : List String} {c : String} (hnd : l.Nodup)
    (h : ∀ y, y ∈ l ↔ y = c) : l = [c] := by
  match l, hnd, h with
  | [], _, h => exact absurd ((h c).mpr rfl) (List.not_mem_nil _)
  | [a], _, h =>
    have := (h a).mp (List.mem_singleton_self a)
    rw [this]
  | a :: b :: rest, hnd, h =>
    have ha := (h a).mp (List.mem_cons_self _ _)
    have hb := (h b).mp (List.mem_cons_of_mem _ (List.mem_cons_self _ _))
    rw [List.nodup_cons] at hnd
    exact absurd (ha.trans hb.symm ▸ List.mem_cons_self _ _) hnd.1

/-! ### The head of the spine -/

theorem getHopsLoop_prefix {σ : Type} (db : DB σ) (s : σ) :
    ∀ (fuel : Nat) (current : String) (spine hops : List String),
      getHopsLoop db s fuel current spine = some (.ok hops) → ∃ rest, hops = spine ++ rest := by
  intro fuel
  induction fuel with
  | zero => intro current spine hops h; simp [getHopsLoop] at h
  | succ fuel ih =>
    intro current spine hops h
    unfold getHopsLoop at h
    rcases hg : db.GetCommit s current with e | ⟨ancestor, height, present⟩
    · rw [hg] at h; simp at h
    · rw [hg] at h
      simp only at h
      by_cases hp : present = true
      · simp only [hp, Bool.not_true, Bool.false_eq_true, if_false] at h
        by_cases hn : current = NULL
        · rw [if_pos hn] at h
          simp only [Option.some.injEq, Except.ok.injEq] at h
          exact ⟨[], by simp [h]⟩
        · rw [if_neg hn] at h
          obtain ⟨rest, hr⟩ := ih _ _ _ h
          exact ⟨ancestor :: rest, by simp [hr]⟩
      · simp only [Bool.not_eq_true] at hp
        simp only [hp, Bool.not_false, if_true, Option.some.injEq, Except.ok.injEq] at h
        exact ⟨[], by simp [h]⟩

theorem getHops_absent {σ : Type} (db : DB σ) (s : σ) (commit ancestor : String)
    (height fuel : Nat) (h : db.GetCommit s commit = .ok (ancestor, height, false)) :
    getHops (fuel + 1) db s commit = some (.ok [commit]) := by
  simp [getHops, getHopsLoop, h]

/-! ### What an entry leaves alone -/

theorem sameExcept_refl (c : String) (b : BlobRow) : SameExcept c b b :=
  ⟨rfl, rfl, rfl, rfl, fun _ _ => ⟨Iff.rfl, Iff.rfl⟩⟩

theorem sameExcept_trans {c : String} {b1 b2 b3 : BlobRow} (h12 : SameExcept c b1 b2)
    (h23 : SameExcept c b2 b3) : SameExcept c b1 b3 := by
  obtain ⟨i1, c1, p1, s1, m1⟩ := h12
  obtain ⟨i2, c2, p2, s2, m2⟩ := h23
  refine ⟨i2.trans i1, c2.trans c1, p2.trans p1, s2.trans s1, fun y hy => ?_⟩
  exact ⟨(m2 y hy).1.trans (m1 y hy).1, (m2 y hy).2.trans (m1 y hy).2⟩

theorem sameExcept_arrayAppend (c : String) (status : StatusAD) (b : BlobRow) :
    SameExcept c b (b.arrayAppend status c) := by
  cases status
  · refine ⟨rfl, rfl, rfl, rfl, fun y hy => ⟨?_, Iff.rfl⟩⟩
    simp [BlobRow.arrayAppend, hy]
  · refine ⟨rfl, rfl, rfl, rfl, fun y hy => ⟨Iff.rfl, ?_⟩⟩
    simp [BlobRow.arrayAppend, hy]

theorem sameExcept_appendOne (hops : List String) (status : StatusAD) (c : String)
    (b : BlobRow) : SameExcept c b (appendOne hops status c b) := by
  unfold appendOne
  split
  · exact sameExcept_arrayAppend c status b
  · exact sameExcept_refl c b

theorem sameExcept_updateOne (id : Nat) (status : StatusAD) (c : String) (b : BlobRow) :
    SameExcept c b (updateOne id status c b) := by
  unfold updateOne
  split
  · exact sameExcept_arrayAppend c status b
  · exact sameExcept_refl c b

theorem sameExcept_collapse (c : String) (b : BlobRow) : SameExcept c b (collapse c b) := by
  unfold collapse
  split
  · refine ⟨rfl, rfl, rfl, rfl, fun y hy => ?_⟩
    simp [hy]
  · exact sameExcept_refl c b

theorem keepsRows_refl (c : String) (blobs : List BlobRow) : KeepsRows c blobs blobs :=
  ⟨blobs, [], by simp, List.forall₂_same.mpr fun b _ => sameExcept_refl c b⟩

theorem keepsRows_map {c : String} {blobs blobs1 : List BlobRow}
    (h : KeepsRows c blobs blobs1) {f : BlobRow → BlobRow}
    (hf : ∀ b, SameExcept c b (f b)) : KeepsRows c blobs (blobs1.map f) := by
  obtain ⟨olds, news, rfl, h2⟩ := h
  refine ⟨olds.map f, news.map f, by simp, ?_⟩
  rw [List.forall₂_map_right_iff]
  exact h2.imp fun b b1 hb => sameExcept_trans hb (hf b1)

theorem keepsRows_append {c : String} {blobs blobs1 : List BlobRow}
    (h : KeepsRows c blobs blobs1) (extra : List BlobRow) :
    KeepsRows c blobs (blobs1 ++ extra) := by
  obtain ⟨olds, news, rfl, h2⟩ := h
  exact ⟨olds, news ++ extra, by simp, h2⟩

theorem updateDeleted_keeps {c : String} {blobs0 : List BlobRow} {t : Tables} (id : Nat)
    (h : KeepsRows c blobs0 t.rockskip_blobs) :
    KeepsRows c blobs0 (updateDeleted postgres t id c).rockskip_blobs :=
  keepsRows_map h (sameExcept_updateOne id .DeletedAD c)

theorem deletePath_keeps {c : String} {blobs0 : List BlobRow} {t : Tables}
    (hops : List String) (p : String) (cache : String → Option Nat)
    (h : KeepsRows c blobs0 t.rockskip_blobs) :
    KeepsRows c blobs0 (deletePath postgres hops c p t cache).1.rockskip_blobs := by
  unfold deletePath
  cases cache p with
  | some id => exact updateDeleted_keeps id h
  | none =>
    simp only
    cases lookupBlob postgres t p hops with
    | error e => exact h
    | ok r =>
      obtain ⟨id, found⟩ := r
      cases found
      · exact h
      · exact updateDeleted_keeps id h

theorem insertPath_keeps {c : String} {blobs0 : List BlobRow} {t : Tables} (git : Git)
    (parse : ParseSymbolsFunc) (p : String) (cache : String → Option Nat)
    (h : KeepsRows c blobs0 t.rockskip_blobs) :
    KeepsRows c blobs0 (insertPath git postgres parse c p t cache).1.rockskip_blobs := by
  unfold insertPath
  cases git.CatFile c p with
  | error e => exact h
  | ok contents =>
    simp only
    cases parse p contents with
    | error e => exact h
    | ok symbols =>
      cases symbols with
      | none => exact h
      | some symbols => exact keepsRows_append h _

theorem indexPath_keeps {c : String} {blobs0 : List BlobRow} {t : Tables} (git : Git)
    (parse : ParseSymbolsFunc) (hops : List String) (ps : PathStatus)
    (cache : String → Option Nat) (h : KeepsRows c blobs0 t.rockskip_blobs) :
    KeepsRows c blobs0 (indexPath git postgres parse hops c ps t cache).1.rockskip_blobs := by
  unfold indexPath
  by_cases hd : ps.Status = .DeletedAMD ∨ ps.Status = .ModifiedAMD
  · simp only [hd, if_true]
    have h1 := deletePath_keeps hops ps.Path cache h
    rcases hdp : deletePath postgres hops c ps.Path t cache with ⟨s1, _ | e⟩
    · rw [hdp] at h1
      simp only
      split
      · exact insertPath_keeps git parse ps.Path cache h1
      · exact h1
    · rw [hdp] at h1
      exact h1
  · simp only [hd, if_false]
    split
    · exact insertPath_keeps git parse ps.Path cache h
    · exact h

theorem indexPaths_keeps {c : String} {blobs0 : List BlobRow} (git : Git)
    (parse : ParseSymbolsFunc) (hops : List String) (pss : List PathStatus) :
    ∀ (t : Tables) (cache : String → Option Nat), KeepsRows c blobs0 t.rockskip_blobs →
      KeepsRows c blobs0 (indexPaths git postgres parse hops c pss t cache).1.rockskip_blobs := by
  induction pss with
  | nil => intro t cache h; exact h
  | cons ps rest ih =>
    intro t cache h
    unfold indexPaths
    have h1 := indexPath_keeps git parse hops ps cache h
    rcases hip : indexPath git postgres parse hops c ps t cache with ⟨s1, cache1, _ | e⟩
    · rw [hip] at h1
      exact ih s1 cache1 h1
    · rw [hip] at h1
      exact h1

theorem insertCommit_blobs (t : Tables) (commit : String) (height : Nat)
    (ancestor : String) :
    (insertCommit postgres t commit height ancestor).rockskip_blobs = t.rockskip_blobs := by
  simp only [insertCommit, postgres_InsertCommit, pgInsertCommit]
  by_cases hdup : (t.rockskip_ancestry.any fun row => decide (row.commit_id = commit)) = true
  · rw [if_pos hdup]
  · rw [if_neg hdup]

theorem insertCommit_ancestry (t : Tables) (commit : String) (height : Nat)
    (ancestor : String) :
    ∃ rows, (insertCommit postgres t commit height ancestor).rockskip_ancestry =
      t.rockskip_ancestry ++ rows := by
  simp only [insertCommit, postgres_InsertCommit, pgInsertCommit]
  by_cases hdup : (t.rockskip_ancestry.any fun row => decide (row.commit_id = commit)) = true
  · rw [if_pos hdup]
    exact ⟨[], by simp⟩
  · rw [if_neg hdup]
    exact ⟨_, rfl⟩

/-- Whatever way the processing of an entry ends, it keeps the rows of the blob table up
to the occurrences of the entry's commit, and only adds rows to the ancestry table. -/
theorem indexEntry_keeps (fuel : Nat) (git : Git) (parse : ParseSymbolsFunc)
    (entry : LogEntry) (st st1 : IndexState Tables) (err : Option String)
    (h : indexEntry fuel git postgres parse entry st = some (st1, err)) :
    KeepsRows entry.Commit st.db.rockskip_blobs st1.db.rockskip_blobs ∧
    ∃ rows, st1.db.rockskip_ancestry = st.db.rockskip_ancestry ++ rows := by
  unfold indexEntry at h
  rcases hg : getHops fuel postgres st.db st.tipCommit with _ | ⟨e | hops⟩
  · rw [hg] at h; simp at h
  · rw [hg] at h
    simp only [Option.some.injEq, Prod.mk.injEq] at h
    obtain ⟨rfl, -⟩ := h
    exact ⟨keepsRows_refl _ _, [], by simp⟩
  · rw [hg] at h
    simp only at h
    rcases hr : hops[ruler (st.tipHeight + 1)]? with _ | ancestor
    · rw [hr] at h
      simp only [Option.some.injEq, Prod.mk.injEq] at h
      obtain ⟨rfl, -⟩ := h
      exact ⟨keepsRows_refl _ _, [], by simp⟩
    · rw [hr] at h
      simp only [postgres_AppendHop, pgAppendHop, postgres_DeleteRedundant,
        pgDeleteRedundant] at h
      have k2 : KeepsRows entry.Commit st.db.rockskip_blobs
          ((st.db.rockskip_blobs.map (appendOne (hops.take (ruler (st.tipHeight + 1)))
            .AddedAD entry.Commit)).map (appendOne (hops.take (ruler (st.tipHeight + 1)))
            .DeletedAD entry.Commit)) :=
        keepsRows_map (keepsRows_map (keepsRows_refl _ _) (sameExcept_appendOne _ _ _))
          (sameExcept_appendOne _ _ _)
      have k3 := indexPaths_keeps git parse hops entry.PathStatuses
        { st.db with rockskip_blobs :=
            (st.db.rockskip_blobs.map (appendOne (hops.take (ruler (st.tipHeight + 1)))
              .AddedAD entry.Commit)).map (appendOne (hops.take (ruler (st.tipHeight + 1)))
              .DeletedAD entry.Commit) } st.pathToBlobIdCache k2
      have a3 := indexPaths_ancestry git parse hops entry.Commit entry.PathStatuses
        { st.db with rockskip_blobs :=
            (st.db.rockskip_blobs.map (appendOne (hops.take (ruler (st.tipHeight + 1)))
              .AddedAD entry.Commit)).map (appendOne (hops.take (ruler (st.tipHeight + 1)))
              .DeletedAD entry.Commit) } st.pathToBlobIdCache
      revert h k3 a3
      rcases indexPaths git postgres parse hops entry.Commit entry.PathStatuses
          { st.db with rockskip_blobs :=
            (st.db.rockskip_blobs.map (appendOne (hops.take (ruler (st.tipHeight + 1)))
              .AddedAD entry.Commit)).map (appendOne (hops.take (ruler (st.tipHeight + 1)))
              .DeletedAD entry.Commit) } st.pathToBlobIdCache with ⟨s3, cache3, _ | e⟩
      · intro h k3 a3
        simp only [Option.some.injEq, Prod.mk.injEq] at h
        obtain ⟨rfl, -⟩ := h
        simp only [insertCommit_blobs]
        refine ⟨keepsRows_map k3 (sameExcept_collapse _), ?_⟩
        obtain ⟨rows, hrows⟩ := insertCommit_ancestry
          { s3 with rockskip_blobs := s3.rockskip_blobs.map (collapse entry.Commit) }
          entry.Commit (st.tipHeight + 1) ancestor
        exact ⟨rows, by rw [hrows]; simp only; rw [a3]⟩
      · intro h k3 a3
        simp only [Option.some.injEq, Prod.mk.injEq] at h
        obtain ⟨rfl, -⟩ := h
        exact ⟨k3, [], by rw [List.append_nil]; exact a3⟩

/-! ### The added column of a blob that is never hidden -/

theorem not_inI_hidden_of_unhidden {hist : List LogEntry} {b : BlobRow} {n x : Nat}
    (hnh : ∀ z, b.birth hist < z → z ≤ n → ¬ hides hist z b.path) (hx : x ≤ n) :
    ¬ inI (b.hidden hist) x := by
  intro hin
  have hpos := (inI_pos hin).1
  rcases hidden_zero_or_gt hist b with h0 | hgt
  · omega
  · exact hnh _ hgt (le_trans hin.2 hx) (hides_of_hidden_eq rfl (by omega))

theorem inI_one_iff {x : Nat} (hx : x ≤ 8) : inI 1 x ↔ x = 1 ∨ x = 2 ∨ x = 4 ∨ x = 8 := by
  interval_cases x <;> decide

/-- The blob of a path that the first commit adds and no commit up to height 8 touches
again, after 8 entries: its added column holds the commits at heights 1, 2, 4 and 8. -/
theorem chain_added {hist : List LogEntry} {contents : String → String → List UInt8}
    {parse : ParseSymbolsFunc} (hwf : WellFormed hist) (hpo : ParseOk hist contents parse)
    {fuel : Nat} (hfuel : hist.length < fuel) (hlen : 8 ≤ hist.length) {p : String}
    (hadd : statusAt hist 1 p = some .AddedAMD)
    (hnot : ∀ x, 2 ≤ x → x ≤ 8 → statusAt hist x p = none) :
    ∃ t b,
      Index fuel (gitOfHistory hist contents) postgres parse (commitAt hist 8) emptyTables =
        some (t, none) ∧
      b ∈ t.rockskip_blobs ∧ b.path = p ∧ b.commit = commitAt hist 1 ∧
      (∀ b2 ∈ t.rockskip_blobs, b2.path = p → b2 = b) ∧
      b.added.Perm [commitAt hist 1, commitAt hist 2, commitAt hist 4, commitAt hist 8] := by
  obtain ⟨t, hrun, -, hinv, -⟩ :=
    Index_ok hwf hpo hfuel (Nat.zero_le 8) (by omega) hlen (emptyTables_ancestry hist)
      (BlobsInv_empty hist contents parse)
  obtain ⟨b, hb, hbc, hbp⟩ := hinv.1.complete_old 1 p (by omega) (Or.inl hadd)
  have hbirth : b.birth hist = 1 := birth_of_commit hwf (by omega) hbc
  have hnh : ∀ z, b.birth hist < z → z ≤ 8 → ¬ hides hist z b.path := by
    intro z hz1 hz2 hh
    rw [hbirth] at hz1
    rw [hbp] at hh
    have := hnot z (by omega) hz2
    rcases hh with h | h <;> rw [this] at h <;> simp at h
  refine ⟨t, b, hrun, hb, hbp, hbc, ?_, ?_⟩
  · intro b2 hb2 hp2
    obtain ⟨h1, h2, h3, h4, -⟩ := hinv.1.rows b2 hb2
    have hle : b2.birth hist ≤ 8 := BlobsInv.birth_le hinv hb2
    have hb1 : b2.birth hist = 1 := by
      by_contra hne
      have := hnot (b2.birth hist) (by omega) hle
      rw [hp2] at h4
      rcases h4 with h | h <;> rw [this] at h <;> simp at h
    rw [hb1] at h3
    exact hinv.1.eq_of_key hb2 hb (h3.trans hbc.symm) (hp2.trans hbp.symm)
  · rw [List.perm_ext_iff_of_nodup (hinv.2.added_nodup b hb)]
    · intro y
      rw [hinv.2.added b hb y, hbirth]
      simp only [List.mem_cons, List.mem_singleton, List.not_mem_nil, or_false]
      constructor
      · rintro ⟨x, h1, h2, rfl, hin, -⟩
        rcases (inI_one_iff h2).mp hin with rfl | rfl | rfl | rfl <;> simp
      · intro hy
        have hno : ∀ x, x ≤ 8 → ¬ inI (b.hidden hist) x :=
          fun x hx => not_inI_hidden_of_unhidden hnh hx
        rcases hy with rfl | rfl | rfl | rfl
        · exact ⟨1, by omega, by omega, rfl, by decide, hno 1 (by omega)⟩
        · exact ⟨2, by omega, by omega, rfl, by decide, hno 2 (by omega)⟩
        · exact ⟨4, by omega, by omega, rfl, by decide, hno 4 (by omega)⟩
        · exact ⟨8, by omega, by omega, rfl, by decide, hno 8 (by omega)⟩
    · have hne : ∀ {i j : Nat}, i ≤ 8 → j ≤ 8 → i ≠ j → commitAt hist i ≠ commitAt hist j :=
        fun hi hj hij hc => hij (commitAt_inj hwf.1 (by omega) (by omega) hc)
      simp only [List.nodup_cons, List.mem_cons, List.mem_singleton, List.not_mem_nil,
        not_or, not_false_eq_true, List.nodup_nil, and_true]
      refine ⟨⟨?_, ?_, ?_⟩, ⟨?_, ?_⟩, ?_⟩ <;> apply hne <;> omega

/-! ### Reaching a path status -/

theorem indexPaths_cons {σ : Type} (git : Git) (db : DB σ) (parse : ParseSymbolsFunc)
    (hops : List String) (commit : String) (ps : PathStatus) (rest : List PathStatus)
    (s : σ) (cache : String → Option Nat) :
    indexPaths git db parse hops commit (ps :: rest) s cache =
      match indexPath git db parse hops commit ps s cache with
      | (s1, cache1, some e) => (s1, cache1, some e)
      | (s1, cache1, none) => indexPaths git db parse hops commit rest s1 cache1 := rfl

theorem indexPaths_append {σ : Type} (git : Git) (db : DB σ) (parse : ParseSymbolsFunc)
    (hops : List String) (commit : String) :
    ∀ (pre post : List PathStatus) (s s1 : σ) (cache cache1 : String → Option Nat),
      indexPaths git db parse hops commit pre s cache = (s1, cache1, none) →
      indexPaths git db parse hops commit (pre ++ post) s cache =
        indexPaths git db parse hops commit post s1 cache1 := by
  intro pre
  induction pre with
  | nil =>
    intro post s s1 cache cache1 h
    simp only [indexPaths, Prod.mk.injEq, and_true] at h
    obtain ⟨rfl, rfl⟩ := h
    rfl
  | cons ps pre ih =>
    intro post s s1 cache cache1 h
    simp only [List.cons_append]
    rw [indexPaths_cons] at h ⊢
    rcases hip : indexPath git db parse hops commit ps s cache with ⟨s2, cache2, _ | e⟩
    · rw [hip] at h
      simp only at h ⊢
      exact ih post s2 s1 cache2 cache1 h
    · rw [hip] at h
      simp at h

theorem lookupBlob_miss {σ : Type} (db : DB σ) (s : σ) (path : String) :
    ∀ (hops : List String), (∀ hop ∈ hops, ∃ id, db.GetBlob s hop path = .ok (id, false)) →
      lookupBlob db s path hops = .ok (0, false) := by
  intro hops
  induction hops with
  | nil => intro _; rfl
  | cons hop hops ih =>
    intro h
    obtain ⟨id, hid⟩ := h hop (List.mem_cons_self _ _)
    unfold lookupBlob
    rw [hid]
    simp only [Bool.false_eq_true, if_false]
    exact ih fun hop2 h2 => h hop2 (List.mem_cons_of_mem _ h2)

theorem indexPath_miss {σ : Type} (git : Git) (db : DB σ) (parse : ParseSymbolsFunc)
    (hops : List String) (commit : String) (ps : PathStatus) (s : σ)
    (cache : String → Option Nat)
    (hst : ps.Status = .DeletedAMD ∨ ps.Status = .ModifiedAMD)
    (hcache : cache ps.Path = none)
    (hmiss : ∀ hop ∈ hops, ∃ id, db.GetBlob s hop ps.Path = .ok (id, false)) :
    indexPath git db parse hops commit ps s cache =
      (s, cache, some ("could not find blob for path " ++ ps.Path)) := by
  unfold indexPath
  simp only [hst, if_true, deletePath, hcache, lookupBlob_miss db s ps.Path hops hmiss,
    Bool.false_eq_true, if_false]

/-! ### Reading up to a NUL byte -/

theorem readBytes_append (delim : UInt8) :
    ∀ (line rest : List UInt8), delim ∉ line →
      readBytes delim (line ++ delim :: rest) = some (line ++ [delim], rest) := by
  intro line
  induction line with
  | nil => intro rest _; simp [readBytes]
  | cons b line ih =>
    intro rest h
    simp only [List.mem_cons, not_or] at h
    have hb : b ≠ delim := fun e => h.1 e.symm
    have e := ih rest h.2
    simp only [List.cons_append]
    unfold readBytes
    rw [if_neg hb, e]

theorem readBytes_length (delim : UInt8) :
    ∀ (input line rest : List UInt8), readBytes delim input = some (line, rest) →
      rest.length < input.length := by
  intro input
  induction input with
  | nil => intro line rest h; simp [readBytes] at h
  | cons b input ih =>
    intro line rest h
    unfold readBytes at h
    by_cases hb : b = delim
    · rw [if_pos hb] at h
      simp only [Option.some.injEq, Prod.mk.injEq] at h
      obtain ⟨-, rfl⟩ := h
      simp
    · rw [if_neg hb] at h
      rcases hr : readBytes delim input with _ | ⟨line1, rest1⟩
      · rw [hr] at h; simp at h
      · rw [hr] at h
        simp only [Option.some.injEq, Prod.mk.injEq] at h
        obtain ⟨-, rfl⟩ := h
        have := ih line1 rest1 hr
        simp only [List.length_cons]
        omega

/-! ### One path record -/

theorem reportedPaths_nil : reportedPaths [] = [] := rfl

theorem reportedPaths_cons (r : RawPath) (rs : List RawPath) :
    reportedPaths (r :: rs) =
      (match r.reported with
        | none => []
        | some status => [{ Path := bytesToString r.path, Status := status }]) ++
      reportedPaths rs := by
  unfold reportedPaths
  rw [List.filterMap_cons]
  cases r.reported <;> rfl

theorem parsePathStatuses_step (r : RawPath) (hwf : r.WellFormed) (fuel : Nat)
    (tail : List UInt8) (acc : List PathStatus) :
    parsePathStatuses (fuel + 1) (r.bytes ++ tail) acc =
      if r.statusByte = 67 then
        some (.error "unexpected status 'C' given --no-renames was specified")
      else if r.statusByte = 82 then
        some (.error "unexpected status 'R' given --no-renames was specified")
      else if r.statusByte = 88 then
        some (.error "unexpected status 'X' indicates a bug in git")
      else parsePathStatuses fuel tail (acc ++ reportedPaths [r]) := by
  obtain ⟨hlen, hhead, hpath⟩ := hwf
  have hin : r.bytes ++ tail = r.header ++ (r.path ++ 0 :: tail) := by
    simp [RawPath.bytes]
  have htake : (r.header ++ (r.path ++ 0 :: tail)).take 99 = r.header :=
    List.take_left' hlen
  have hdrop : (r.header ++ (r.path ++ 0 :: tail)).drop 99 = r.path ++ 0 :: tail :=
    List.drop_left' hlen
  obtain ⟨h, hh⟩ : ∃ h, r.header = 58 :: h := by
    rcases hr : r.header with _ | ⟨b, h⟩
    · rw [hr] at hhead; simp at hhead
    · rw [hr] at hhead
      simp only [List.head?_cons, Option.some.injEq] at hhead
      exact ⟨h, by rw [hhead]⟩
  rw [hin]
  have hcons : r.header ++ (r.path ++ 0 :: tail) = 58 :: (h ++ (r.path ++ 0 :: tail)) := by
    rw [hh]; rfl
  rw [hcons, parsePathStatuses]
  simp only [ne_eq, not_true_eq_false, if_false]
  rw [← hcons, htake, hdrop, readBytes_append 0 r.path tail hpath]
  simp only [hlen, not_true_eq_false, if_false, List.dropLast_concat]
  rw [reportedPaths_cons, reportedPaths_nil, List.append_nil]
  unfold RawPath.reported
  have hsb : r.header.getD 97 0 = r.statusByte := rfl
  have hold : bytesToString ((r.header.drop 1).take 6) = r.oldMode := rfl
  have hnew : bytesToString ((r.header.drop 8).take 6) = r.newMode := rfl
  rw [hsb, hold, hnew]
  generalize r.statusByte = sb
  generalize r.oldMode = om
  generalize r.newMode = nm
  by_cases h65 : sb = 65
  · subst h65; simp +decide
  by_cases h77 : sb = 77
  · subst h77; simp +decide
  by_cases h68 : sb = 68
  · subst h68; simp +decide
  by_cases h84 : sb = 84
  · subst h84
    by_cases ho : om = "160000" <;> by_cases hn : nm = "160000" <;>
      simp +decide [isSubmodule, ho, hn]
  · rw [if_neg h65, if_neg h77, if_neg h68, if_neg h84, if_neg h65, if_neg h77, if_neg h68,
      if_neg h84]
    simp only [List.append_nil]

/-! ### The path records of one commit -/

theorem rawPaths_length_ge (rs : List RawPath) : rs.length ≤ (rawPaths rs).length := by
  induction rs with
  | nil => simp [rawPaths]
  | cons r rs ih =>
    simp only [rawPaths, RawPath.bytes, List.length_cons, List.length_append,
      List.length_nil]
    omega

theorem parsePathStatuses_end (fuel : Nat) (tail : List UInt8) (acc : List PathStatus)
    (htail : tail.head? ≠ some 58) :
    parsePathStatuses (fuel + 1) tail acc = some (.ok (acc, tail)) := by
  rcases tail with _ | ⟨b, tail⟩
  · rfl
  · have hb : b ≠ 58 := fun e => htail (by simp [e])
    rw [parsePathStatuses]
    simp only [ne_eq, hb, not_false_eq_true, if_true]

theorem parsePathStatuses_records :
    ∀ (rs : List RawPath), (∀ r ∈ rs, r.WellFormed) → (∀ r ∈ rs, ¬ r.Fatal) →
      ∀ (fuel : Nat) (tail : List UInt8) (acc : List PathStatus),
        rs.length < fuel → tail.head? ≠ some 58 →
        parsePathStatuses fuel (rawPaths rs ++ tail) acc =
          some (.ok (acc ++ reportedPaths rs, tail)) := by
  intro rs
  induction rs with
  | nil =>
    intro _ _ fuel tail acc hfuel htail
    obtain ⟨f, rfl⟩ : ∃ f, fuel = f + 1 := ⟨fuel - 1, by simp at hfuel; omega⟩
    simp only [rawPaths, List.nil_append, reportedPaths_nil, List.append_nil]
    exact parsePathStatuses_end f tail acc htail
  | cons r rs ih =>
    intro hwf hnf fuel tail acc hfuel htail
    obtain ⟨f, rfl⟩ : ∃ f, fuel = f + 1 := ⟨fuel - 1, by simp at hfuel; omega⟩
    have hr : ¬ r.Fatal := hnf r (List.mem_cons_self _ _)
    simp only [RawPath.Fatal, not_or] at hr
    simp only [rawPaths, List.append_assoc]
    rw [parsePathStatuses_step r (hwf r (List.mem_cons_self _ _)), if_neg hr.1, if_neg hr.2.1,
      if_neg hr.2.2,
      ih (fun x hx => hwf x (List.mem_cons_of_mem _ hx))
        (fun x hx => hnf x (List.mem_cons_of_mem _ hx)) f tail _
        (by simp at hfuel; omega) htail]
    rw [reportedPaths_cons r rs, reportedPaths_cons r [], reportedPaths_nil, List.append_nil,
      List.append_assoc]

theorem parsePathStatuses_fatal :
    ∀ (rs : List RawPath), (∀ r ∈ rs, r.WellFormed) → (∃ r ∈ rs, r.Fatal) →
      ∀ (fuel : Nat) (tail : List UInt8) (acc : List PathStatus), rs.length < fuel →
        ∃ e, parsePathStatuses fuel (rawPaths rs ++ tail) acc = some (.error e) := by
  intro rs
  induction rs with
  | nil => intro _ h; simp at h
  | cons r rs ih =>
    intro hwf hf fuel tail acc hfuel
    obtain ⟨f, rfl⟩ : ∃ f, fuel = f + 1 := ⟨fuel - 1, by simp at hfuel; omega⟩
    simp only [rawPaths, List.append_assoc]
    rw [parsePathStatuses_step r (hwf r (List.mem_cons_self _ _))]
    by_cases h67 : r.statusByte = 67
    · rw [if_pos h67]; exact ⟨_, rfl⟩
    rw [if_neg h67]
    by_cases h82 : r.statusByte = 82
    · rw [if_pos h82]; exact ⟨_, rfl⟩
    rw [if_neg h82]
    by_cases h88 : r.statusByte = 88
    · rw [if_pos h88]; exact ⟨_, rfl⟩
    rw [if_neg h88]
    apply ih (fun x hx => hwf x (List.mem_cons_of_mem _ hx)) _ f tail _
      (by simp at hfuel; omega)
    obtain ⟨x, hx, hxf⟩ := hf
    rcases List.mem_cons.mp hx with rfl | hx
    · rcases hxf with h | h | h
      · exact absurd h h67
      · exact absurd h h82
      · exact absurd h h88
    · exact ⟨x, hx, hxf⟩

/-! ### The commit records -/

theorem reportedEntries_nil : reportedEntries [] = [] := rfl

theorem reportedEntries_cons (c : RawCommit) (cs : List RawCommit) :
    reportedEntries (c :: cs) =
      (match c.paths with
        | none => []
        | some rs => [{ Commit := bytesToString c.hash, PathStatuses := reportedPaths rs }]) ++
      reportedEntries cs := by
  unfold reportedEntries
  rw [List.filterMap_cons]
  cases c.paths <;> rfl

theorem parseLogEntries_short (fuel : Nat) (input : List UInt8) (acc : List LogEntry)
    (h : input.length < 40) : parseLogEntries (fuel + 1) input acc = some (.ok acc) := by
  rw [parseLogEntries, if_pos h]

theorem rawCommit_bytes_eq (c : RawCommit) (tail : List UInt8) :
    c.bytes ++ tail = (c.hash ++ c.parents) ++ 0 ::
      ((match c.paths with
        | none => []
        | some rs => 10 :: rawPaths rs) ++ tail) := by
  obtain ⟨hash, parents, paths⟩ := c
  cases paths <;> simp [RawCommit.bytes]

theorem parseLogEntries_step (c : RawCommit) (hwf : c.WellFormed) (fuel : Nat)
    (tail : List UInt8) (acc : List LogEntry)
    (hnf : ∀ rs, c.paths = some rs → ∀ r ∈ rs, ¬ r.Fatal)
    (h58 : tail.head? ≠ some 58) (h10 : tail.head? ≠ some 10)
    (hfuel : (c.bytes ++ tail).length ≤ fuel) :
    parseLogEntries (fuel + 1) (c.bytes ++ tail) acc =
      parseLogEntries fuel tail (acc ++ reportedEntries [c]) := by
  obtain ⟨hlen, -, -, hhash, hparents, hpaths⟩ := hwf
  have hline : (0 : UInt8) ∉ c.hash ++ c.parents := by
    simp only [List.mem_append, not_or]; exact ⟨hhash, hparents⟩
  have hlong : ¬ (c.bytes ++ tail).length < 40 := by
    simp only [RawCommit.bytes, List.length_append, hlen]; omega
  have htake : (c.bytes ++ tail).take 40 = c.hash := by
    rw [RawCommit.bytes, List.append_assoc]
    exact List.take_left' hlen
  rw [parseLogEntries, if_neg hlong]
  simp only [htake]
  rw [rawCommit_bytes_eq, readBytes_append 0 _ _ hline]
  simp only
  rw [reportedEntries_cons, reportedEntries_nil, List.append_nil]
  rcases hp : c.paths with _ | rs
  · simp only [List.nil_append, List.append_nil]
    rcases tail with _ | ⟨b, tail⟩
    · simp only
      have hf : ∃ f, fuel = f + 1 := by
        refine ⟨fuel - 1, ?_⟩
        simp only [RawCommit.bytes, List.length_append, hlen] at hfuel
        omega
      obtain ⟨f, rfl⟩ := hf
      rw [parseLogEntries_short f [] acc (by simp)]
    · have hb : b ≠ 10 := fun e => h10 (by simp [e])
      simp only [hb, if_false]
  · have hlen2 : rs.length < fuel := by
      have := rawPaths_length_ge rs
      simp only [RawCommit.bytes, hp, List.length_append, List.length_cons, hlen] at hfuel
      omega
    simp only [List.cons_append, if_true]
    rw [parsePathStatuses_records rs (hpaths rs hp) (hnf rs hp) fuel tail [] hlen2 h58]
    simp only [List.nil_append]

theorem parseLogEntries_fatal (c : RawCommit) (hwf : c.WellFormed) (fuel : Nat)
    (tail : List UInt8) (acc : List LogEntry) (rs : List RawPath) (hp : c.paths = some rs)
    (hf : ∃ r ∈ rs, r.Fatal) (hfuel : (c.bytes ++ tail).length ≤ fuel) :
    ∃ e, parseLogEntries (fuel + 1) (c.bytes ++ tail) acc = some (.error e) := by
  obtain ⟨hlen, -, -, hhash, hparents, hpaths⟩ := hwf
  have hline : (0 : UInt8) ∉ c.hash ++ c.parents := by
    simp only [List.mem_append, not_or]; exact ⟨hhash, hparents⟩
  have hlong : ¬ (c.bytes ++ tail).length < 40 := by
    simp only [RawCommit.bytes, List.length_append, hlen]; omega
  have hlen2 : rs.length < fuel := by
    have := rawPaths_length_ge rs
    simp only [RawCommit.bytes, hp, List.length_append, List.length_cons, hlen] at hfuel
    omega
  obtain ⟨e, he⟩ := parsePathStatuses_fatal rs (hpaths rs hp) hf fuel tail [] hlen2
  refine ⟨e, ?_⟩
  rw [parseLogEntries, if_neg hlong]
  simp only
  rw [rawCommit_bytes_eq, readBytes_append 0 _ _ hline, hp]
  simp only [List.cons_append, if_true, he]

theorem rawLog_head (cs : List RawCommit) (hwf : ∀ c ∈ cs, c.WellFormed) :
    (rawLog cs).head? ≠ some 58 ∧ (rawLog cs).head? ≠ some 10 := by
  rcases cs with _ | ⟨c, cs⟩
  · simp [rawLog]
  · obtain ⟨hlen, h58, h10, -⟩ := hwf c (List.mem_cons_self _ _)
    rcases hh : c.hash with _ | ⟨b, hash⟩
    · rw [hh] at hlen; simp at hlen
    · rw [hh] at h58 h10
      simp only [rawLog, RawCommit.bytes, hh, List.cons_append, List.head?_cons]
      exact ⟨h58, h10⟩

/-- The parse of a stream of well-formed commit records none of which has a path record
with status `C`, `R` or `X`. -/
theorem parseLogEntries_rawLog :
    ∀ (cs : List RawCommit), (∀ c ∈ cs, c.WellFormed) →
      (∀ c ∈ cs, ∀ rs, c.paths = some rs → ∀ r ∈ rs, ¬ r.Fatal) →
      ∀ (fuel : Nat) (acc : List LogEntry), (rawLog cs).length < fuel →
        parseLogEntries fuel (rawLog cs) acc = some (.ok (acc ++ reportedEntries cs)) := by
  intro cs
  induction cs with
  | nil =>
    intro _ _ fuel acc hfuel
    obtain ⟨f, rfl⟩ : ∃ f, fuel = f + 1 := ⟨fuel - 1, by omega⟩
    rw [rawLog, parseLogEntries_short f [] acc (by simp), reportedEntries_nil,
      List.append_nil]
  | cons c cs ih =>
    intro hwf hnf fuel acc hfuel
    obtain ⟨f, rfl⟩ : ∃ f, fuel = f + 1 := ⟨fuel - 1, by omega⟩
    have hwf2 : ∀ x ∈ cs, x.WellFormed := fun x hx => hwf x (List.mem_cons_of_mem _ hx)
    have hh := rawLog_head cs hwf2
    have hlen : (c.bytes ++ rawLog cs).length ≤ f := by
      simp only [rawLog] at hfuel; omega
    have hlen2 : (rawLog cs).length < f := by
      have h40 := (hwf c (List.mem_cons_self _ _)).1
      simp only [List.length_append, RawCommit.bytes, List.length_cons] at hlen
      omega
    rw [rawLog, parseLogEntries_step c (hwf c (List.mem_cons_self _ _)) f _ acc
      (hnf c (List.mem_cons_self _ _)) hh.1 hh.2 hlen,
      ih hwf2 (fun x hx => hnf x (List.mem_cons_of_mem _ hx)) f _ hlen2,
      reportedEntries_cons c cs, reportedEntries_cons c [], reportedEntries_nil,
      List.append_nil, List.append_assoc]

/-- The parse of a stream of well-formed commit records one of which has a path record
with status `C`, `R` or `X`. -/
theorem parseLogEntries_rawLog_fatal :
    ∀ (cs : List RawCommit), (∀ c ∈ cs, c.WellFormed) →
      (∃ c ∈ cs, ∃ rs, c.paths = some rs ∧ ∃ r ∈ rs, r.Fatal) →
      ∀ (fuel : Nat) (acc : List LogEntry), (rawLog cs).length < fuel →
        ∃ e, parseLogEntries fuel (rawLog cs) acc = some (.error e) := by
  intro cs
  induction cs with
  | nil => intro _ h; simp at h
  | cons c cs ih =>
    intro hwf hf fuel acc hfuel
    obtain ⟨f, rfl⟩ : ∃ f, fuel = f + 1 := ⟨fuel - 1, by omega⟩
    have hwf2 : ∀ x ∈ cs, x.WellFormed := fun x hx => hwf x (List.mem_cons_of_mem _ hx)
    have hh := rawLog_head cs hwf2
    have hlen : (c.bytes ++ rawLog cs).length ≤ f := by
      simp only [rawLog] at hfuel; omega
    have hlen2 : (rawLog cs).length < f := by
      have h40 := (hwf c (List.mem_cons_self _ _)).1
      simp only [List.length_append, RawCommit.bytes, List.length_cons] at hlen
      omega
    by_cases hc : ∃ rs, c.paths = some rs ∧ ∃ r ∈ rs, r.Fatal
    · obtain ⟨rs, hp, hr⟩ := hc
      rw [rawLog]
      exact parseLogEntries_fatal c (hwf c (List.mem_cons_self _ _)) f _ acc rs hp hr hlen
    · have hnf : ∀ rs, c.paths = some rs → ∀ r ∈ rs, ¬ r.Fatal :=
        fun rs hp r hr hfat => hc ⟨rs, hp, r, hr, hfat⟩
      rw [rawLog, parseLogEntries_step c (hwf c (List.mem_cons_self _ _)) f _ acc hnf hh.1
        hh.2 hlen]
      apply ih hwf2 _ f _ hlen2
      obtain ⟨x, hx, hxf⟩ := hf
      rcases List.mem_cons.mp hx with rfl | hx
      · exact absurd hxf hc
      · exact ⟨x, hx, hxf⟩

/-! ### The parser returns on every stream -/

theorem parsePathStatuses_returns :
    ∀ (fuel : Nat) (input : List UInt8) (acc : List PathStatus), input.length < fuel →
      ∃ r, parsePathStatuses fuel input acc = some r ∧
        ∀ ps rest, r = .ok (ps, rest) → rest.length ≤ input.length := by
  intro fuel
  induction fuel with
  | zero => intro input acc h; omega
  | succ f ih =>
    intro input acc h
    rcases input with _ | ⟨b, t⟩
    · refine ⟨_, rfl, ?_⟩
      intro ps rest e
      simp only [Except.ok.injEq, Prod.mk.injEq] at e
      rw [← e.2]
    · rw [parsePathStatuses]
      by_cases hb : b = 58
      · subst hb
        simp only [ne_eq, not_true_eq_false, if_false]
        by_cases hl : ¬ ((58 :: t).take 99).length = 99
        · rw [if_pos hl]
          exact ⟨_, rfl, by intro _ _ e; cases e⟩
        · rw [if_neg hl]
          rcases hr : readBytes 0 ((58 :: t).drop 99) with _ | ⟨pathNul, rest⟩
          · exact ⟨_, rfl, by intro _ _ e; cases e⟩
          · have hlt := readBytes_length 0 _ _ _ hr
            have hdl : ((58 :: t).drop 99).length ≤ (58 :: t).length := by
              rw [List.length_drop]; omega
            have key : ∀ X, ∃ r, parsePathStatuses f rest X = some r ∧
                ∀ ps rest1, r = .ok (ps, rest1) → rest1.length ≤ (58 :: t).length := by
              intro X
              obtain ⟨r, h1, h2⟩ := ih rest X (by omega)
              exact ⟨r, h1, fun ps rest1 e => le_trans (h2 ps rest1 e) (by omega)⟩
            simp only
            split_ifs <;> first | exact key _ | exact ⟨_, rfl, by intro _ _ e; cases e⟩
      · rw [if_pos (by simpa using hb)]
        refine ⟨_, rfl, ?_⟩
        intro ps rest e
        simp only [Except.ok.injEq, Prod.mk.injEq] at e
        rw [← e.2]

theorem parseLogEntries_returns :
    ∀ (fuel : Nat) (input : List UInt8) (acc : List LogEntry), input.length < fuel →
      ∃ r, parseLogEntries fuel input acc = some r := by
  intro fuel
  induction fuel with
  | zero => intro input acc h; omega
  | succ f ih =>
    intro input acc h
    rw [parseLogEntries]
    by_cases h40 : input.length < 40
    · rw [if_pos h40]; exact ⟨_, rfl⟩
    · rw [if_neg h40]
      simp only
      rcases hr : readBytes 0 input with _ | ⟨line, rest⟩
      · exact ⟨_, rfl⟩
      · have hlt := readBytes_length 0 _ _ _ hr
        simp only
        rcases rest with _ | ⟨b, rest1⟩
        · exact ⟨_, rfl⟩
        · simp only
          by_cases hb : b = 10
          · rw [if_pos hb]
            simp only [List.length_cons] at hlt
            obtain ⟨r, h1, h2⟩ := parsePathStatuses_returns f rest1 [] (by omega)
            rw [h1]
            rcases r with e | ⟨ps, rest2⟩
            · exact ⟨_, rfl⟩
            · have := h2 ps rest2 rfl
              exact ih rest2 _ (by omega)
          · rw [if_neg hb]
            exact ih _ _ (by omega)

/-- The function `ParseLogReverse` returns on every stream: the fuel it gives to its loops
never runs out. -/
theorem ParseLogReverse_returns (stdout : List UInt8) :
    ∃ r, ParseLogReverse stdout = some r :=
  parseLogEntries_returns _ stdout [] (Nat.lt_succ_self _)

/-! ### Concrete records -/

theorem emptyCommitRecord_wf : emptyCommitRecord.WellFormed := by
  refine ⟨by rfl, by decide, by decide, by decide, by decide, ?_⟩
  intro rs h
  simp [emptyCommitRecord] at h

theorem addCommitRecord_wf : addCommitRecord.WellFormed := by
  refine ⟨by rfl, by decide, by decide, by decide, by decide, ?_⟩
  intro rs h r hr
  simp only [addCommitRecord, Option.some.injEq] at h
  subst h
  simp only [List.mem_singleton] at hr
  subst hr
  exact ⟨by rfl, by rfl, by decide⟩

theorem renameCommitRecord_wf : renameCommitRecord.WellFormed := by
  refine ⟨by rfl, by decide, by decide, by decide, by decide, ?_⟩
  intro rs h r hr
  simp only [renameCommitRecord, Option.some.injEq] at h
  subst h
  simp only [List.mem_singleton] at hr
  subst hr
  exact ⟨by rfl, by rfl, by decide⟩

theorem addCommitRecord_not_fatal :
    ∀ rs, addCommitRecord.paths = some rs → ∀ r ∈ rs, ¬ r.Fatal := by
  intro rs h r hr
  simp only [addCommitRecord, Option.some.injEq] at h
  subst h
  simp only [List.mem_singleton] at hr
  subst hr
  simp only [RawPath.Fatal, not_or]
  exact ⟨by decide, by decide, by decide⟩

theorem emptyCommitRecord_not_fatal :
    ∀ rs, emptyCommitRecord.paths = some rs → ∀ r ∈ rs, ¬ r.Fatal := by
  intro rs h
  simp [emptyCommitRecord] at h

/-! ### A store with a log reads like the store -/

theorem traced_GetCommit {σ : Type} (db : DB σ) (s : σ) (tr : List Call) (c : String) :
    (traced db).GetCommit (s, tr) c = db.GetCommit s c := rfl

theorem traced_GetBlob {σ : Type} (db : DB σ) (s : σ) (tr : List Call) (hop path : String) :
    (traced db).GetBlob (s, tr) hop path = db.GetBlob s hop path := rfl

theorem traced_UpdateBlobHops {σ : Type} (db : DB σ) (s : σ) (tr : List Call) (id : Nat)
    (status : StatusAD) (hop : String) :
    (traced db).UpdateBlobHops (s, tr) id status hop =
      match db.UpdateBlobHops s id status hop with
      | .error e => .error e
      | .ok s1 => .ok (s1, tr ++ [.UpdateBlobHops id status hop]) := rfl

theorem traced_InsertBlob {σ : Type} (db : DB σ) (s : σ) (tr : List Call) (blob : Blob) :
    (traced db).InsertBlob (s, tr) blob =
      match db.InsertBlob s blob with
      | .error e => .error e
      | .ok (s1, id) => .ok ((s1, tr ++ [.InsertBlob blob]), id) := rfl

theorem traced_AppendHop {σ : Type} (db : DB σ) (s : σ) (tr : List Call)
    (hops : List String) (status : StatusAD) (hop : String) :
    (traced db).AppendHop (s, tr) hops status hop =
      match db.AppendHop s hops status hop with
      | .error e => .error e
      | .ok s1 => .ok (s1, tr ++ [.AppendHop hops status hop]) := rfl

theorem traced_DeleteRedundant {σ : Type} (db : DB σ) (s : σ) (tr : List Call)
    (hop : String) :
    (traced db).DeleteRedundant (s, tr) hop =
      match db.DeleteRedundant s hop with
      | .error e => .error e
      | .ok s1 => .ok (s1, tr ++ [.DeleteRedundant hop]) := rfl

theorem traced_InsertCommit {σ : Type} (db : DB σ) (s : σ) (tr : List Call)
    (commit : String) (height : Nat) (ancestor : String) :
    (traced db).InsertCommit (s, tr) commit height ancestor =
      match db.InsertCommit s commit height ancestor with
      | .error e => .error e
      | .ok s1 => .ok (s1, tr ++ [.InsertCommit commit height ancestor]) := rfl

theorem traced_getHopsLoop {σ : Type} (db : DB σ) (s : σ) (tr : List Call) :
    ∀ (fuel : Nat) (current : String) (spine : List String),
      getHopsLoop (traced db) (s, tr) fuel current spine =
        getHopsLoop db s fuel current spine := by
  intro fuel
  induction fuel with
  | zero => intro _ _; rfl
  | succ fuel ih =>
    intro current spine
    unfold getHopsLoop
    rw [traced_GetCommit]
    rcases db.GetCommit s current with e | ⟨ancestor, height, present⟩
    · rfl
    · simp only [ih]

theorem traced_getHops {σ : Type} (db : DB σ) (s : σ) (tr : List Call) (fuel : Nat)
    (commit : String) :
    getHops fuel (traced db) (s, tr) commit = getHops fuel db s commit :=
  traced_getHopsLoop db s tr fuel commit [commit]

theorem traced_findTip {σ : Type} (db : DB σ) (s : σ) (tr : List Call) :
    ∀ (revs : List String) (missingCount : Nat),
      findTip (traced db) (s, tr) revs missingCount = findTip db s revs missingCount := by
  intro revs
  induction revs with
  | nil => intro _; rfl
  | cons commit revs ih =>
    intro missingCount
    unfold findTip
    rw [traced_GetCommit]
    rcases db.GetCommit s commit with e | ⟨ancestor, height, present⟩
    · rfl
    · simp only [ih]

theorem traced_lookupBlob {σ : Type} (db : DB σ) (s : σ) (tr : List Call) (path : String) :
    ∀ (hops : List String),
      lookupBlob (traced db) (s, tr) path hops = lookupBlob db s path hops := by
  intro hops
  induction hops with
  | nil => rfl
  | cons hop hops ih =>
    unfold lookupBlob
    rw [traced_GetBlob]
    rcases db.GetBlob s hop path with e | ⟨id, found⟩
    · rfl
    · simp only [ih]

/-! ### The writes of a path status -/

theorem traced_updateDeleted {σ : Type} (db : DB σ) (s : σ) (tr : List Call) (id : Nat)
    (commit : String) :
    ∃ upd, updateDeleted (traced db) (s, tr) id commit =
        (updateDeleted db s id commit, tr ++ upd) ∧
      (upd = [] ∨ upd = [.UpdateBlobHops id .DeletedAD commit]) := by
  unfold updateDeleted
  rw [traced_UpdateBlobHops]
  rcases db.UpdateBlobHops s id .DeletedAD commit with e | s1
  · exact ⟨[], by simp, Or.inl rfl⟩
  · exact ⟨_, rfl, Or.inr rfl⟩

theorem traced_deletePath {σ : Type} (db : DB σ) (s : σ) (tr : List Call)
    (hops : List String) (commit path : String) (cache : String → Option Nat) :
    ∃ upd, deletePath (traced db) hops commit path (s, tr) cache =
        (((deletePath db hops commit path s cache).1, tr ++ upd),
          (deletePath db hops commit path s cache).2) ∧
      (upd = [] ∨ ∃ id, upd = [.UpdateBlobHops id .DeletedAD commit]) := by
  unfold deletePath
  rcases cache path with _ | id
  · simp only [traced_lookupBlob]
    rcases lookupBlob db s path hops with e | ⟨id, found⟩
    · exact ⟨[], by simp, Or.inl rfl⟩
    · cases found
      · exact ⟨[], by simp, Or.inl rfl⟩
      · obtain ⟨upd, h1, h2⟩ := traced_updateDeleted db s tr id commit
        refine ⟨upd, by simp [h1], ?_⟩
        rcases h2 with h | h
        · exact Or.inl h
        · exact Or.inr ⟨id, h⟩
  · obtain ⟨upd, h1, h2⟩ := traced_updateDeleted db s tr id commit
    refine ⟨upd, by simp [h1], ?_⟩
    rcases h2 with h | h
    · exact Or.inl h
    · exact Or.inr ⟨id, h⟩

theorem traced_insertPath {σ : Type} (git : Git) (db : DB σ) (parse : ParseSymbolsFunc)
    (s : σ) (tr : List Call) (commit path : String) (cache : String → Option Nat) :
    ∃ ins, insertPath git (traced db) parse commit path (s, tr) cache =
        (((insertPath git db parse commit path s cache).1, tr ++ ins),
          (insertPath git db parse commit path s cache).2.1,
          (insertPath git db parse commit path s cache).2.2) ∧
      (ins = [] ∨ ∃ symbols, ins = [.InsertBlob
        { Commit := commit, Path := path, Added := [commit], Deleted := [],
          Symbols := symbols }]) ∧
      ((insertPath git db parse commit path s cache).2.2 = none →
        ∃ symbols, ins = [.InsertBlob
          { Commit := commit, Path := path, Added := [commit], Deleted := [],
            Symbols := symbols }]) := by
  unfold insertPath
  rcases git.CatFile commit path with e | contents
  · exact ⟨[], by simp, Or.inl rfl, by simp⟩
  · simp only
    rcases parse path contents with e | symbols
    · exact ⟨[], by simp, Or.inl rfl, by simp⟩
    · simp only
      rw [traced_InsertBlob]
      rcases db.InsertBlob s
          { Commit := commit, Path := path, Added := [commit], Deleted := [],
            Symbols := symbols } with e | ⟨s1, id⟩
      · exact ⟨[], by simp, Or.inl rfl, by simp⟩
      · exact ⟨_, rfl, Or.inr ⟨symbols, rfl⟩, fun _ => ⟨symbols, rfl⟩⟩

theorem traced_indexPath {σ : Type} (git : Git) (db : DB σ) (parse : ParseSymbolsFunc)
    (hops : List String) (commit : String) (ps : PathStatus) (s : σ) (tr : List Call)
    (cache : String → Option Nat) :
    ∃ calls, indexPath git (traced db) parse hops commit ps (s, tr) cache =
        (((indexPath git db parse hops commit ps s cache).1, tr ++ calls),
          (indexPath git db parse hops commit ps s cache).2.1,
          (indexPath git db parse hops commit ps s cache).2.2) ∧
      PathCalls commit ps calls ∧
      ((indexPath git db parse hops commit ps s cache).2.2 = none →
        PathCallsDone commit ps calls) := by
  unfold indexPath
  by_cases hd : ps.Status = .DeletedAMD ∨ ps.Status = .ModifiedAMD
  · have hna : ps.Status ≠ .AddedAMD := by
      rcases hd with h | h <;> rw [h] <;> decide
    obtain ⟨upd, h1, h2⟩ := traced_deletePath db s tr hops commit ps.Path cache
    have hupd : upd = [] ∨ (ps.Status ≠ .AddedAMD ∧
        ∃ id, upd = [Call.UpdateBlobHops id .DeletedAD commit]) := by
      rcases h2 with h | h
      · exact Or.inl h
      · exact Or.inr ⟨hna, h⟩
    simp only [hd, if_true, h1]
    rcases deletePath db hops commit ps.Path s cache with ⟨s1, _ | e⟩
    · simp only
      by_cases hi : ps.Status = .AddedAMD ∨ ps.Status = .ModifiedAMD
      · have hnd : ps.Status ≠ .DeletedAMD := by
          rcases hi with h | h <;> rw [h] <;> decide
        obtain ⟨ins, h3, h4, h5⟩ :=
          traced_insertPath git db parse s1 (tr ++ upd) commit ps.Path cache
        simp only [hi, if_true, h3]
        refine ⟨upd ++ ins, by simp, ⟨upd, ins, rfl, hupd, ?_⟩, ?_⟩
        · rcases h4 with h | h
          · exact Or.inl h
          · exact Or.inr ⟨hnd, h⟩
        · intro hok
          obtain ⟨symbols, hs⟩ := h5 hok
          refine ⟨⟨upd, ins, rfl, hupd, Or.inr ⟨hnd, symbols, hs⟩⟩, fun _ => ⟨symbols, ?_⟩⟩
          rw [hs]
          exact List.suffix_append _ _
      · have hdel : ps.Status = .DeletedAMD := by
          rcases hd with h | h
          · exact h
          · exact absurd (Or.inr h) hi
        simp only [hi, if_false]
        refine ⟨upd, rfl, ⟨upd, [], by simp, hupd, Or.inl rfl⟩, fun _ =>
          ⟨⟨upd, [], by simp, hupd, Or.inl rfl⟩, fun h => absurd hdel h⟩⟩
    · simp only
      refine ⟨upd, rfl, ⟨upd, [], by simp, hupd, Or.inl rfl⟩, fun h => ?_⟩
      simp at h
  · have ha : ps.Status = .AddedAMD := by
      cases hs : ps.Status
      · rfl
      · exact absurd (Or.inr hs) hd
      · exact absurd (Or.inl hs) hd
    have hnd : ps.Status ≠ .DeletedAMD := by rw [ha]; decide
    obtain ⟨ins, h3, h4, h5⟩ := traced_insertPath git db parse s tr commit ps.Path cache
    have hi : ps.Status = .AddedAMD ∨ ps.Status = .ModifiedAMD := Or.inl ha
    simp only [if_neg hd]
    simp only [if_pos hi, h3]
    refine ⟨ins, rfl, ⟨[], ins, rfl, Or.inl rfl, ?_⟩, ?_⟩
    · rcases h4 with h | h
      · exact Or.inl h
      · exact Or.inr ⟨hnd, h⟩
    · intro hok
      obtain ⟨symbols, hs⟩ := h5 hok
      refine ⟨⟨[], ins, rfl, Or.inl rfl, Or.inr ⟨hnd, symbols, hs⟩⟩, fun _ => ⟨symbols, ?_⟩⟩
      rw [hs]

theorem traced_indexPaths {σ : Type} (git : Git) (db : DB σ) (parse : ParseSymbolsFunc)
    (hops : List String) (commit : String) :
    ∀ (pss : List PathStatus) (s : σ) (tr : List Call) (cache : String → Option Nat),
      ∃ groups, indexPaths git (traced db) parse hops commit pss (s, tr) cache =
          (((indexPaths git db parse hops commit pss s cache).1, tr ++ groups.flatten),
            (indexPaths git db parse hops commit pss s cache).2.1,
            (indexPaths git db parse hops commit pss s cache).2.2) ∧
        List.Forall₂ (PathCalls commit) (pss.take groups.length) groups ∧
        ((indexPaths git db parse hops commit pss s cache).2.2 = none →
          List.Forall₂ (PathCallsDone commit) pss groups) := by
  intro pss
  induction pss with
  | nil =>
    intro s tr cache
    exact ⟨[], by simp [indexPaths], by simp, fun _ => List.Forall₂.nil⟩
  | cons ps rest ih =>
    intro s tr cache
    obtain ⟨calls, h1, h2, h3⟩ := traced_indexPath git db parse hops commit ps s tr cache
    rw [indexPaths_cons, indexPaths_cons, h1]
    rcases hip : indexPath git db parse hops commit ps s cache with ⟨s1, cache1, _ | e⟩
    · rw [hip] at h3
      obtain ⟨groups, g1, g2, g3⟩ := ih s1 (tr ++ calls) cache1
      simp only [g1]
      refine ⟨calls :: groups, by simp, ?_, ?_⟩
      · simp only [List.length_cons, List.take_succ_cons]
        exact List.Forall₂.cons h2 g2
      · intro hok
        exact List.Forall₂.cons (h3 rfl) (g3 hok)
    · simp only
      refine ⟨[calls], by simp, ?_, fun h => by simp at h⟩
      simp only [List.length_singleton, List.take_succ_cons, List.take_zero]
      exact List.Forall₂.cons h2 List.Forall₂.nil

/-! ### The writes of an entry -/

theorem traced_insertCommit {σ : Type} (db : DB σ) (s : σ) (tr : List Call)
    (commit : String) (height : Nat) (ancestor : String) :
    ∃ last, insertCommit (traced db) (s, tr) commit height ancestor =
        (insertCommit db s commit height ancestor, tr ++ last) ∧
      (last = [] ∨ last = [.InsertCommit commit height ancestor]) := by
  unfold insertCommit
  rw [traced_InsertCommit]
  rcases db.InsertCommit s commit height ancestor with e | s1
  · exact ⟨[], by simp, Or.inl rfl⟩
  · exact ⟨_, rfl, Or.inr rfl⟩

theorem traced_indexEntry {σ : Type} (fuel : Nat) (git : Git) (db : DB σ)
    (parse : ParseSymbolsFunc) (entry : LogEntry) (st : IndexState (σ × List Call)) :
    ∃ calls, indexEntry fuel git (traced db) parse entry st =
        (match indexEntry fuel git db parse entry st.erase with
          | none => none
          | some (st1, err) =>
            some ({ db := (st1.db, st.db.2 ++ calls), tipCommit := st1.tipCommit,
                    tipHeight := st1.tipHeight,
                    pathToBlobIdCache := st1.pathToBlobIdCache }, err)) ∧
      (∀ st1, indexEntry fuel git db parse entry st.erase = some (st1, none) →
        EntryCalls entry calls) ∧
      (∀ st1 e, indexEntry fuel git db parse entry st.erase = some (st1, some e) →
        EntryCallsFailed entry calls) := by
  obtain ⟨⟨s, tr⟩, tip, height, cache⟩ := st
  unfold indexEntry
  simp only [IndexState.erase, traced_getHops]
  rcases getHops fuel db s tip with _ | ⟨e | hops⟩
  · exact ⟨[], rfl, fun _ h => by simp at h, fun _ _ h => by simp at h⟩
  · refine ⟨[], by simp, fun _ h => by simp at h, fun _ _ _ => ?_⟩
    exact ⟨[], [], by simp, by simp⟩
  · simp only
    rcases hops[ruler (height + 1)]? with _ | ancestor
    · refine ⟨[], by simp, fun _ h => by simp at h, fun _ _ _ => ?_⟩
      exact ⟨[], [], by simp, by simp⟩
    · simp only [traced_AppendHop]
      rcases db.AppendHop s (hops.take (ruler (height + 1))) .AddedAD entry.Commit with e | s1
      · refine ⟨[], by simp, fun _ h => by simp at h, fun _ _ _ => ?_⟩
        exact ⟨[], [], by simp, by simp⟩
      · simp only [traced_AppendHop]
        rcases db.AppendHop s1 (hops.take (ruler (height + 1))) .DeletedAD entry.Commit
          with e | s2
        · refine ⟨[.AppendHop (hops.take (ruler (height + 1))) .AddedAD entry.Commit],
            by simp, fun _ h => by simp at h, fun _ _ _ => ?_⟩
          exact ⟨hops.take (ruler (height + 1)), [], by simp, by simp⟩
        · simp only
          obtain ⟨groups, g1, g2, g3⟩ := traced_indexPaths git db parse hops entry.Commit
            entry.PathStatuses s2
            (tr ++ [.AppendHop (hops.take (ruler (height + 1))) .AddedAD entry.Commit] ++
              [.AppendHop (hops.take (ruler (height + 1))) .DeletedAD entry.Commit]) cache
          rw [g1]
          rcases hip : indexPaths git db parse hops entry.Commit entry.PathStatuses s2 cache
            with ⟨s3, cache3, _ | e⟩
          · rw [hip] at g3
            simp only [traced_DeleteRedundant]
            rcases db.DeleteRedundant s3 entry.Commit with e | s4
            · refine ⟨[.AppendHop (hops.take (ruler (height + 1))) .AddedAD entry.Commit,
                  .AppendHop (hops.take (ruler (height + 1))) .DeletedAD entry.Commit] ++
                  groups.flatten, by simp, fun _ h => by simp at h, fun _ _ _ => ?_⟩
              exact ⟨hops.take (ruler (height + 1)), groups, List.prefix_refl _,
                by rw [List.take_of_length_le]
                   · exact (g3 rfl).imp fun _ _ h => h.1
                   · rw [(g3 rfl).length_eq]⟩
            · simp only
              obtain ⟨last, l1, l2⟩ := traced_insertCommit db s4
                (tr ++ [.AppendHop (hops.take (ruler (height + 1))) .AddedAD entry.Commit] ++
                  [.AppendHop (hops.take (ruler (height + 1))) .DeletedAD entry.Commit] ++
                  groups.flatten ++ [.DeleteRedundant entry.Commit])
                entry.Commit (height + 1) ancestor
              rw [l1]
              refine ⟨[.AppendHop (hops.take (ruler (height + 1))) .AddedAD entry.Commit,
                  .AppendHop (hops.take (ruler (height + 1))) .DeletedAD entry.Commit] ++
                  groups.flatten ++ [.DeleteRedundant entry.Commit] ++ last, by simp,
                fun _ _ => ?_, fun _ _ h => by simp at h⟩
              refine ⟨hops.take (ruler (height + 1)), groups, last, rfl, g3 rfl, ?_⟩
              rcases l2 with h | h
              · exact Or.inl h
              · exact Or.inr ⟨_, _, h⟩
          · simp only
            refine ⟨[.AppendHop (hops.take (ruler (height + 1))) .AddedAD entry.Commit,
                .AppendHop (hops.take (ruler (height + 1))) .DeletedAD entry.Commit] ++
                groups.flatten, by simp, fun _ h => by simp at h, fun _ _ _ => ?_⟩
            exact ⟨hops.take (ruler (height + 1)), groups, List.prefix_refl _, g2⟩

/-! ### The writes of a run -/

theorem traced_indexEntries {σ : Type} (fuel : Nat) (git : Git) (db : DB σ)
    (parse : ParseSymbolsFunc) :
    ∀ (entries : List LogEntry) (st : IndexState (σ × List Call)),
      ∃ calls, indexEntries fuel git (traced db) parse entries st =
          (match indexEntries fuel git db parse entries st.erase with
            | none => none
            | some (st1, err) =>
              some ({ db := (st1.db, st.db.2 ++ calls), tipCommit := st1.tipCommit,
                      tipHeight := st1.tipHeight,
                      pathToBlobIdCache := st1.pathToBlobIdCache }, err)) ∧
        ∀ st1 err, indexEntries fuel git db parse entries st.erase = some (st1, err) →
          RunCalls entries err calls := by
  intro entries
  induction entries with
  | nil =>
    intro st
    refine ⟨[], ?_, ?_⟩
    · obtain ⟨⟨s, tr⟩, tip, height, cache⟩ := st
      simp [indexEntries, IndexState.erase]
    · intro st1 err h
      simp only [indexEntries, Option.some.injEq, Prod.mk.injEq] at h
      rw [← h.2]
      exact ⟨[], rfl, List.Forall₂.nil⟩
  | cons entry rest ih =>
    intro st
    obtain ⟨calls, h1, h2, h3⟩ := traced_indexEntry fuel git db parse entry st
    rw [indexEntries_cons, indexEntries_cons, h1]
    rcases hie : indexEntry fuel git db parse entry st.erase with _ | ⟨st1, _ | e⟩
    · exact ⟨[], rfl, fun _ _ h => by simp at h⟩
    · simp only
      obtain ⟨calls2, k1, k2⟩ := ih
        { db := (st1.db, st.db.2 ++ calls), tipCommit := st1.tipCommit,
          tipHeight := st1.tipHeight, pathToBlobIdCache := st1.pathToBlobIdCache }
      have herase : IndexState.erase
          { db := (st1.db, st.db.2 ++ calls), tipCommit := st1.tipCommit,
            tipHeight := st1.tipHeight, pathToBlobIdCache := st1.pathToBlobIdCache } = st1 :=
        rfl
      rw [herase] at k1 k2
      rw [k1]
      refine ⟨calls ++ calls2, ?_, ?_⟩
      · rcases indexEntries fuel git db parse rest st1 with _ | ⟨st2, err2⟩
        · rfl
        · simp
      · intro st2 err2 hrun
        have hshape := k2 st2 err2 hrun
        have hentry := h2 st1 hie
        rcases err2 with _ | e2
        · obtain ⟨groups, rfl, hg⟩ := hshape
          exact ⟨calls :: groups, by simp, List.Forall₂.cons hentry hg⟩
        · obtain ⟨done, failed, rest2, groups, failedCalls, e1, rfl, hg, hf⟩ := hshape
          exact ⟨entry :: done, failed, rest2, calls :: groups, failedCalls, by simp [e1],
            by simp, List.Forall₂.cons hentry hg, hf⟩
    · simp only
      refine ⟨calls, rfl, ?_⟩
      intro st2 err2 hrun
      simp only [Option.some.injEq, Prod.mk.injEq] at hrun
      rw [← hrun.2]
      exact ⟨[], entry, rest, [], calls, by simp, by simp, List.Forall₂.nil, h3 st1 e hie⟩

/-- A run of `Index` on a store with a log is the run of `Index` on the store, with the
accepted writes added to the log. -/
theorem traced_Index {σ : Type} (fuel : Nat) (git : Git) (db : DB σ)
    (parse : ParseSymbolsFunc) (givenCommit : String) (s : σ) (tr : List Call) :
    ∃ calls, Index fuel git (traced db) parse givenCommit (s, tr) =
        (match Index fuel git db parse givenCommit s with
          | none => none
          | some (s1, err) => some ((s1, tr ++ calls), err)) ∧
      ∀ revs tipCommit tipHeight missingCount entries s1 err,
        git.RevList givenCommit = .ok revs →
        findTip db s revs 0 = .ok (tipCommit, tipHeight, missingCount) →
        git.LogReverse givenCommit missingCount = .ok entries →
        Index fuel git db parse givenCommit s = some (s1, err) →
        RunCalls entries err calls := by
  unfold Index
  rcases hrev : git.RevList givenCommit with e | revs
  · exact ⟨[], by simp, fun _ _ _ _ _ _ _ h => by simp at h⟩
  · simp only [traced_findTip]
    rcases htip : findTip db s revs 0 with e | ⟨tipCommit, tipHeight, missingCount⟩
    · refine ⟨[], by simp, ?_⟩
      intro revs2 _ _ _ _ _ _ e1 e2
      have r1 : revs2 = revs := by simpa using e1.symm
      subst r1
      rw [htip] at e2
      simp at e2
    · simp only
      rcases hlog : git.LogReverse givenCommit missingCount with e | entries
      · refine ⟨[], by simp, ?_⟩
        intro revs2 _ _ _ _ _ _ e1 e2 e3
        have r1 : revs2 = revs := by simpa using e1.symm
        subst r1
        rw [htip] at e2
        simp only [Except.ok.injEq, Prod.mk.injEq] at e2
        obtain ⟨rfl, rfl, rfl⟩ := e2
        rw [hlog] at e3
        simp at e3
      · simp only
        obtain ⟨calls, h1, h2⟩ := traced_indexEntries fuel git db parse entries
          { db := (s, tr), tipCommit := tipCommit, tipHeight := tipHeight,
            pathToBlobIdCache := fun _ => none }
        have herase : IndexState.erase
            { db := (s, tr), tipCommit := tipCommit, tipHeight := tipHeight,
              pathToBlobIdCache := fun _ => none } =
            { db := s, tipCommit := tipCommit, tipHeight := tipHeight,
              pathToBlobIdCache := fun _ => none } := rfl
        rw [herase] at h1 h2
        rw [h1]
        refine ⟨calls, ?_, ?_⟩
        · rcases indexEntries fuel git db parse entries
            { db := s, tipCommit := tipCommit, tipHeight := tipHeight,
              pathToBlobIdCache := fun _ => none } with _ | ⟨st1, err⟩ <;> rfl
        · intro revs2 tip2 height2 missing2 entries2 s1 err e1 e2 e3 hrun
          have r1 : revs2 = revs := by simpa using e1.symm
          subst r1
          rw [htip] at e2
          simp only [Except.ok.injEq, Prod.mk.injEq] at e2
          obtain ⟨rfl, rfl, rfl⟩ := e2
          rw [hlog] at e3
          simp only [Except.ok.injEq] at e3
          subst e3
          rcases hie : indexEntries fuel git db parse entries
            { db := s, tipCommit := tipCommit, tipHeight := tipHeight,
              pathToBlobIdCache := fun _ => none } with _ | ⟨st1, err1⟩
          · rw [hie] at hrun; simp at hrun
          · rw [hie] at hrun
            simp only [Option.some.injEq, Prod.mk.injEq] at hrun
            rw [← hrun.2]
            exact h2 st1 err1 hie

/-! ### Two runs side by side: rows -/

theorem overlaps_sim {c : String} {Ea Ed : Nat → Prop} {b b1 : BlobRow}
    (h : RowSim c Ea Ed b b1) {hs : List String} (hhs : c ∉ hs) (status : StatusAD) :
    overlaps hs (b1.column status) = overlaps hs (b.column status) := by
  rw [Bool.eq_iff_iff, overlaps_iff, overlaps_iff]
  obtain ⟨-, -, -, -, hm, -, -⟩ := h
  constructor
  · rintro ⟨x, hx, hxc⟩
    have hne : x ≠ c := fun e => hhs (e ▸ hx)
    refine ⟨x, hx, ?_⟩
    cases status
    · exact ((hm x hne).1).mp hxc
    · exact ((hm x hne).2).mp hxc
  · rintro ⟨x, hx, hxc⟩
    have hne : x ≠ c := fun e => hhs (e ▸ hx)
    refine ⟨x, hx, ?_⟩
    cases status
    · exact ((hm x hne).1).mpr hxc
    · exact ((hm x hne).2).mpr hxc

theorem rowSim_arrayAppend {c : String} {Ea Ed : Nat → Prop} {b b1 : BlobRow}
    (h : RowSim c Ea Ed b b1) (status : StatusAD) :
    RowSim c Ea Ed (b.arrayAppend status c) (b1.arrayAppend status c) := by
  obtain ⟨h1, h2, h3, h4, hm, ha, hd⟩ := h
  cases status
  · refine ⟨h1, h2, h3, h4, fun y hy => ⟨?_, (hm y hy).2⟩, ?_, hd⟩
    · simp only [BlobRow.arrayAppend, List.mem_append, List.mem_singleton, hy, or_false]
      exact (hm y hy).1
    · simp [BlobRow.arrayAppend]
  · refine ⟨h1, h2, h3, h4, fun y hy => ⟨(hm y hy).1, ?_⟩, ha, ?_⟩
    · simp only [BlobRow.arrayAppend, List.mem_append, List.mem_singleton, hy, or_false]
      exact (hm y hy).2
    · simp [BlobRow.arrayAppend]

theorem rowSim_appendOne {c : String} {Ea Ed : Nat → Prop} {b b1 : BlobRow}
    (h : RowSim c Ea Ed b b1) {hs : List String} (hhs : c ∉ hs) (status : StatusAD) :
    RowSim c Ea Ed (appendOne hs status c b) (appendOne hs status c b1) := by
  unfold appendOne
  rw [overlaps_sim h hhs status]
  split
  · exact rowSim_arrayAppend h status
  · exact h

theorem rowSim_updateOne {c : String} {Ea Ed : Nat → Prop} {b b1 : BlobRow}
    (h : RowSim c Ea Ed b b1) (id : Nat) (status : StatusAD) :
    RowSim c Ea Ed (updateOne id status c b) (updateOne id status c b1) := by
  unfold updateOne
  rw [h.1]
  split
  · exact rowSim_arrayAppend h status
  · exact h

theorem rowSim_collapse {c : String} {b b1 : BlobRow}
    (h : RowSim c (fun _ => False) (fun _ => False) b b1) :
    RowSim c (fun _ => False) (fun _ => False) (collapse c b) (collapse c b1) := by
  obtain ⟨h1, h2, h3, h4, hm, ha, hd⟩ := h
  simp only [or_false] at ha hd
  have hcond : (overlaps [c] b1.added && overlaps [c] b1.deleted) =
      (overlaps [c] b.added && overlaps [c] b.deleted) := by
    rw [Bool.eq_iff_iff]
    simp only [Bool.and_eq_true, overlaps_singleton, ha, hd]
  unfold collapse
  rw [hcond]
  split
  · refine ⟨h1, h2, h3, h4, fun y hy => ?_, ?_, ?_⟩
    · simp only [List.mem_filter, decide_eq_true_eq, ne_eq, hy, not_false_eq_true, and_true]
      exact hm y hy
    · simp
    · simp
  · exact ⟨h1, h2, h3, h4, hm, by simpa using ha, by simpa using hd⟩

theorem rowSim_refl (c : String) (b : BlobRow) :
    RowSim c (fun _ => False) (fun _ => False) b b :=
  ⟨rfl, rfl, rfl, rfl, fun _ _ => ⟨Iff.rfl, Iff.rfl⟩, by simp, by simp⟩

theorem rowSim_iff_sameSets (c : String) (b b1 : BlobRow) :
    RowSim c (fun _ => False) (fun _ => False) b b1 ↔ b.SameSets b1 := by
  constructor
  · rintro ⟨h1, h2, h3, h4, hm, ha, hd⟩
    simp only [or_false] at ha hd
    refine ⟨h1, h2, h3, h4, fun y => ?_, fun y => ?_⟩
    · by_cases hy : y = c
      · rw [hy]; exact ha
      · exact (hm y hy).1
    · by_cases hy : y = c
      · rw [hy]; exact hd
      · exact (hm y hy).2
  · rintro ⟨h1, h2, h3, h4, ha, hd⟩
    exact ⟨h1, h2, h3, h4, fun y _ => ⟨ha y, hd y⟩, by simpa using ha c, by simpa using hd c⟩

/-! ### Two runs side by side: tables -/

theorem tablesSim_map {c : String} {Ea Ed : Nat → Prop} {t t1 : Tables}
    (h : TablesSim c Ea Ed t t1) {f : BlobRow → BlobRow}
    (hf : ∀ b b1, RowSim c Ea Ed b b1 → RowSim c Ea Ed (f b) (f b1)) :
    TablesSim c Ea Ed { t with rockskip_blobs := t.rockskip_blobs.map f }
      { t1 with rockskip_blobs := t1.rockskip_blobs.map f } := by
  obtain ⟨h1, h2, h3, h4⟩ := h
  refine ⟨h1, h2, ?_, h4⟩
  simp only
  rw [List.forall₂_map_left_iff, List.forall₂_map_right_iff]
  exact h3.imp fun b b1 hb => hf b b1 hb

theorem find?_id_sim {c : String} {Ea Ed : Nat → Prop} {p q : BlobRow → Bool} :
    ∀ {l l1 : List BlobRow}, List.Forall₂ (RowSim c Ea Ed) l l1 →
      (∀ b b1, RowSim c Ea Ed b b1 → q b1 = p b) →
      (l1.find? q).map (fun b => b.id) = (l.find? p).map (fun b => b.id) := by
  intro l l1 h hpq
  induction h with
  | nil => rfl
  | @cons b b1 l l1 hb _ ih =>
    simp only [List.find?_cons, hpq b b1 hb]
    cases p b
    · exact ih
    · simp only [Option.map_some']
      rw [hb.1]

theorem pgGetBlob_eq_map (t : Tables) (hop path : String) :
    pgGetBlob t hop path =
      match (t.rockskip_blobs.find? fun b =>
          decide (b.path = path) && decide (hop ∈ b.added) && !decide (hop ∈ b.deleted)).map
        (fun b => b.id) with
      | none => .ok (0, false)
      | some id => .ok (id, true) := by
  unfold pgGetBlob
  cases t.rockskip_blobs.find? fun b =>
    decide (b.path = path) && decide (hop ∈ b.added) && !decide (hop ∈ b.deleted) <;> rfl

theorem pgGetBlob_sim {c : String} {Ea Ed : Nat → Prop} {t t1 : Tables}
    (h : TablesSim c Ea Ed t t1) {hop : String} (hhop : hop ≠ c) (path : String) :
    pgGetBlob t1 hop path = pgGetBlob t hop path := by
  rw [pgGetBlob_eq_map, pgGetBlob_eq_map, find?_id_sim h.2.2.1]
  intro b b1 hb
  obtain ⟨-, -, h3, -, hm, -, -⟩ := hb
  rw [h3]
  have := hm hop hhop
  simp only [this.1, this.2]

theorem lookupBlob_sim {c : String} {Ea Ed : Nat → Prop} {t t1 : Tables}
    (h : TablesSim c Ea Ed t t1) (path : String) :
    ∀ (hops : List String), c ∉ hops →
      lookupBlob postgres t1 path hops = lookupBlob postgres t path hops := by
  intro hops
  induction hops with
  | nil => intro _; rfl
  | cons hop hops ih =>
    intro hc
    simp only [List.mem_cons, not_or] at hc
    unfold lookupBlob
    simp only [postgres_GetBlob]
    rw [pgGetBlob_sim h (fun e => hc.1 e.symm) path, ih hc.2]

theorem updateDeleted_sim {c : String} {Ea Ed : Nat → Prop} {t t1 : Tables}
    (h : TablesSim c Ea Ed t t1) (id : Nat) :
    TablesSim c Ea Ed (updateDeleted postgres t id c) (updateDeleted postgres t1 id c) := by
  rw [updateDeleted_eq, updateDeleted_eq]
  exact tablesSim_map h fun b b1 hb => rowSim_updateOne hb id .DeletedAD

theorem deletePath_sim {c : String} {Ea Ed : Nat → Prop} {t t1 : Tables}
    (h : TablesSim c Ea Ed t t1) {hops : List String} (hc : c ∉ hops) (path : String)
    (cache : String → Option Nat) :
    (deletePath postgres hops c path t1 cache).2 = (deletePath postgres hops c path t cache).2 ∧
    TablesSim c Ea Ed (deletePath postgres hops c path t cache).1
      (deletePath postgres hops c path t1 cache).1 := by
  unfold deletePath
  rcases cache path with _ | id
  · simp only [lookupBlob_sim h path hops hc]
    rcases lookupBlob postgres t path hops with e | ⟨id, found⟩
    · exact ⟨rfl, h⟩
    · cases found
      · exact ⟨rfl, h⟩
      · exact ⟨rfl, updateDeleted_sim h id⟩
  · exact ⟨rfl, updateDeleted_sim h id⟩

theorem insertPath_sim {c : String} {Ea Ed : Nat → Prop} {t t1 : Tables}
    (h : TablesSim c Ea Ed t t1) (git : Git) (parse : ParseSymbolsFunc) (path : String)
    (cache : String → Option Nat) :
    (insertPath git postgres parse c path t1 cache).2 =
      (insertPath git postgres parse c path t cache).2 ∧
    TablesSim c Ea Ed (insertPath git postgres parse c path t cache).1
      (insertPath git postgres parse c path t1 cache).1 := by
  unfold insertPath
  rcases git.CatFile c path with e | contents
  · exact ⟨rfl, h⟩
  · simp only
    rcases parse path contents with e | _ | symbols
    · exact ⟨rfl, h⟩
    · exact ⟨rfl, h⟩
    · obtain ⟨h1, h2, h3, h4⟩ := h
      simp only [postgres_InsertBlob, pgInsertBlob, h2]
      refine ⟨trivial, h1, by simp only [h2], ?_, fun id hid => Nat.lt_succ_of_lt (h4 id hid)⟩
      simp only
      refine List.rel_append h3 (List.Forall₂.cons ?_ List.Forall₂.nil)
      refine ⟨rfl, rfl, rfl, rfl, fun _ _ => ⟨Iff.rfl, Iff.rfl⟩, by simp, ?_⟩
      simp only [List.not_mem_nil, false_or, false_iff]
      intro hed
      exact Nat.lt_irrefl _ (h4 _ hed)

theorem indexPath_sim {c : String} {Ea Ed : Nat → Prop} {t t1 : Tables}
    (h : TablesSim c Ea Ed t t1) (git : Git) (parse : ParseSymbolsFunc)
    {hops : List String} (hc : c ∉ hops) (ps : PathStatus) (cache : String → Option Nat) :
    (indexPath git postgres parse hops c ps t1 cache).2 =
      (indexPath git postgres parse hops c ps t cache).2 ∧
    TablesSim c Ea Ed (indexPath git postgres parse hops c ps t cache).1
      (indexPath git postgres parse hops c ps t1 cache).1 := by
  unfold indexPath
  by_cases hd : ps.Status = .DeletedAMD ∨ ps.Status = .ModifiedAMD
  · simp only [if_pos hd]
    obtain ⟨d1, d2⟩ := deletePath_sim h hc ps.Path cache
    rcases hdp : deletePath postgres hops c ps.Path t cache with ⟨s, _ | e⟩
    · rcases hdp1 : deletePath postgres hops c ps.Path t1 cache with ⟨s1, err1⟩
      rw [hdp, hdp1] at d1 d2
      simp only at d1 d2
      subst d1
      simp only
      split
      · exact insertPath_sim d2 git parse ps.Path cache
      · exact ⟨rfl, d2⟩
    · rcases hdp1 : deletePath postgres hops c ps.Path t1 cache with ⟨s1, err1⟩
      rw [hdp, hdp1] at d1 d2
      simp only at d1 d2
      subst d1
      exact ⟨rfl, d2⟩
  · simp only [if_neg hd]
    split
    · exact insertPath_sim h git parse ps.Path cache
    · exact ⟨rfl, h⟩

theorem indexPaths_sim {c : String} {Ea Ed : Nat → Prop} (git : Git)
    (parse : ParseSymbolsFunc) {hops : List String} (hc : c ∉ hops) :
    ∀ (pss : List PathStatus) (t t1 : Tables) (cache : String → Option Nat),
      TablesSim c Ea Ed t t1 →
      (indexPaths git postgres parse hops c pss t1 cache).2 =
        (indexPaths git postgres parse hops c pss t cache).2 ∧
      TablesSim c Ea Ed (indexPaths git postgres parse hops c pss t cache).1
        (indexPaths git postgres parse hops c pss t1 cache).1 := by
  intro pss
  induction pss with
  | nil => intro t t1 cache h; exact ⟨rfl, h⟩
  | cons ps rest ih =>
    intro t t1 cache h
    obtain ⟨p1, p2⟩ := indexPath_sim h git parse hc ps cache
    rw [indexPaths_cons, indexPaths_cons]
    rcases hip : indexPath git postgres parse hops c ps t cache with ⟨s, cache2, err⟩
    rcases hip1 : indexPath git postgres parse hops c ps t1 cache with ⟨s1, cache3, err1⟩
    rw [hip, hip1] at p1 p2
    simp only [Prod.mk.injEq] at p1 p2
    obtain ⟨rfl, rfl⟩ := p1
    rcases err1 with _ | e
    · exact ih s s1 cache3 p2
    · exact ⟨rfl, p2⟩

/-! ### Two runs side by side: one entry -/

theorem tablesSim_iff_sameSets (c : String) (t t1 : Tables) :
    TablesSim c (fun _ => False) (fun _ => False) t t1 ↔ t.SameSets t1 := by
  constructor
  · rintro ⟨h1, h2, h3, -⟩
    exact ⟨h1, h2, h3.imp fun b b1 hb => (rowSim_iff_sameSets c b b1).mp hb⟩
  · rintro ⟨h1, h2, h3⟩
    exact ⟨h1, h2, h3.imp fun b b1 hb => (rowSim_iff_sameSets c b b1).mpr hb,
      fun _ h => h.elim⟩

theorem pgGetCommit_congr {t t1 : Tables} (h : t1.rockskip_ancestry = t.rockskip_ancestry)
    (commit : String) : pgGetCommit t1 commit = pgGetCommit t commit := by
  unfold pgGetCommit
  rw [h]

theorem getHopsLoop_congr {t t1 : Tables} (h : t1.rockskip_ancestry = t.rockskip_ancestry) :
    ∀ (fuel : Nat) (current : String) (spine : List String),
      getHopsLoop postgres t1 fuel current spine = getHopsLoop postgres t fuel current spine := by
  intro fuel
  induction fuel with
  | zero => intro _ _; rfl
  | succ fuel ih =>
    intro current spine
    unfold getHopsLoop
    simp only [postgres_GetCommit, pgGetCommit_congr h, ih]

theorem getHops_congr {t t1 : Tables} (h : t1.rockskip_ancestry = t.rockskip_ancestry)
    (fuel : Nat) (commit : String) :
    getHops fuel postgres t1 commit = getHops fuel postgres t commit :=
  getHopsLoop_congr h fuel commit [commit]

theorem insertCommit_eq (t : Tables) (commit : String) (height : Nat) (ancestor : String) :
    insertCommit postgres t commit height ancestor =
      { t with rockskip_ancestry :=
          if t.rockskip_ancestry.any fun row => decide (row.commit_id = commit) then
            t.rockskip_ancestry
          else t.rockskip_ancestry ++
            [{ commit_id := commit, height := height, ancestor_id := ancestor }] } := by
  simp only [insertCommit, postgres_InsertCommit, pgInsertCommit]
  by_cases hdup : (t.rockskip_ancestry.any fun row => decide (row.commit_id = commit)) = true
  · rw [if_pos hdup, if_pos hdup]
  · rw [if_neg hdup, if_neg hdup]

/-- The processing of an entry on a `PostgresDB`, once the spine and the ancestor are
known: the two `AppendHop` statements, the path loop, `DeleteRedundant` and
`InsertCommit`. -/
theorem indexEntry_postgres (fuel : Nat) (git : Git) (parse : ParseSymbolsFunc)
    (entry : LogEntry) (st : IndexState Tables) (hops : List String) (ancestor : String)
    (hhops : getHops fuel postgres st.db st.tipCommit = some (.ok hops))
    (hanc : hops[ruler (st.tipHeight + 1)]? = some ancestor) :
    indexEntry fuel git postgres parse entry st =
      match indexPaths git postgres parse hops entry.Commit entry.PathStatuses
          { st.db with rockskip_blobs := (st.db.rockskip_blobs.map
              (appendBoth (hops.take (ruler (st.tipHeight + 1))) entry.Commit)) }
          st.pathToBlobIdCache with
      | (s3, cache3, some e) =>
        some ({ st with db := s3, pathToBlobIdCache := cache3 }, some e)
      | (s3, cache3, none) =>
        some ({ db := insertCommit postgres
                  { s3 with rockskip_blobs := s3.rockskip_blobs.map (collapse entry.Commit) }
                  entry.Commit (st.tipHeight + 1) ancestor,
                tipCommit := entry.Commit,
                tipHeight := st.tipHeight + 1,
                pathToBlobIdCache := cache3 }, none) := by
  unfold indexEntry
  rw [hhops]
  simp only
  rw [hanc]
  simp only [postgres_AppendHop, pgAppendHop, List.map_map, postgres_DeleteRedundant,
    pgDeleteRedundant]
  have e : (appendOne (hops.take (ruler (st.tipHeight + 1))) .DeletedAD entry.Commit ∘
      appendOne (hops.take (ruler (st.tipHeight + 1))) .AddedAD entry.Commit) =
      appendBoth (hops.take (ruler (st.tipHeight + 1))) entry.Commit := rfl
  rw [e]
  generalize indexPaths git postgres parse hops entry.Commit entry.PathStatuses _ _ = res
  rcases res with ⟨s3, cache3, _ | e⟩ <;> rfl

theorem appendBoth_sim {c : String} {Ea Ed : Nat → Prop} {b b1 : BlobRow}
    (h : RowSim c Ea Ed b b1) {hs : List String} (hhs : c ∉ hs) :
    RowSim c Ea Ed (appendBoth hs c b) (appendBoth hs c b1) := by
  unfold appendBoth
  exact rowSim_appendOne (rowSim_appendOne h hhs .AddedAD) hhs .DeletedAD

/-- The end of an entry on two stores that agree up to the order and the multiplicity of
the commits in the hop columns. -/
theorem finish_sameSets {s3 r3 : Tables} (c : String) (h : s3.SameSets r3) (height : Nat)
    (ancestor : String) :
    (insertCommit postgres { s3 with rockskip_blobs := s3.rockskip_blobs.map (collapse c) }
        c height ancestor).SameSets
      (insertCommit postgres { r3 with rockskip_blobs := r3.rockskip_blobs.map (collapse c) }
        c height ancestor) := by
  have hsim := tablesSim_map ((tablesSim_iff_sameSets c s3 r3).mpr h)
    (f := collapse c) fun b b1 hb => rowSim_collapse hb
  obtain ⟨h1, h2, h3⟩ := (tablesSim_iff_sameSets c _ _).mp hsim
  rw [insertCommit_eq, insertCommit_eq]
  simp only at h1 h2 h3
  refine ⟨?_, h2, h3⟩
  simp only [h1]

theorem indexEntry_sameSets (fuel : Nat) (git : Git) (parse : ParseSymbolsFunc)
    (entry : LogEntry) {st st1 r : IndexState Tables} {err : Option String}
    (hdb : st.db.SameSets st1.db) (htip : st1.tipCommit = st.tipCommit)
    (hheight : st1.tipHeight = st.tipHeight)
    (hcache : st1.pathToBlobIdCache = st.pathToBlobIdCache)
    (hfresh : ∀ hops, getHops fuel postgres st.db st.tipCommit = some (.ok hops) →
      entry.Commit ∉ hops)
    (hrun : indexEntry fuel git postgres parse entry st = some (r, err)) :
    ∃ r1, indexEntry fuel git postgres parse entry st1 = some (r1, err) ∧
      r.db.SameSets r1.db ∧ r1.tipCommit = r.tipCommit ∧ r1.tipHeight = r.tipHeight ∧
      r1.pathToBlobIdCache = r.pathToBlobIdCache := by
  have hg : getHops fuel postgres st1.db st1.tipCommit =
      getHops fuel postgres st.db st.tipCommit := by
    rw [htip]; exact getHops_congr hdb.1 fuel _
  rcases hh : getHops fuel postgres st.db st.tipCommit with _ | ⟨e | hops⟩
  · unfold indexEntry at hrun
    rw [hh] at hrun
    simp at hrun
  · unfold indexEntry at hrun ⊢
    rw [hh] at hrun
    rw [hg, hh]
    simp only [Option.some.injEq, Prod.mk.injEq] at hrun ⊢
    obtain ⟨rfl, rfl⟩ := hrun
    exact ⟨st1, ⟨rfl, rfl⟩, hdb, htip, hheight, hcache⟩
  · rcases hr : hops[ruler (st.tipHeight + 1)]? with _ | ancestor
    · unfold indexEntry at hrun ⊢
      rw [hh] at hrun
      rw [hg, hh]
      simp only at hrun ⊢
      rw [hr] at hrun
      rw [hheight, hr]
      simp only [Option.some.injEq, Prod.mk.injEq] at hrun ⊢
      obtain ⟨rfl, rfl⟩ := hrun
      exact ⟨st1, ⟨rfl, rfl⟩, hdb, htip, hheight, hcache⟩
    · have hc : entry.Commit ∉ hops := hfresh hops hh
      have hct : entry.Commit ∉ hops.take (ruler (st.tipHeight + 1)) :=
        fun hm => hc (List.mem_of_mem_take hm)
      rw [indexEntry_postgres fuel git parse entry st hops ancestor hh hr] at hrun
      rw [indexEntry_postgres fuel git parse entry st1 hops ancestor (hg.trans hh)
        (by rw [hheight]; exact hr), hheight, hcache]
      have hsim2 := tablesSim_map ((tablesSim_iff_sameSets entry.Commit _ _).mpr hdb)
        (f := appendBoth (hops.take (ruler (st.tipHeight + 1))) entry.Commit)
        fun b b1 hb => appendBoth_sim hb hct
      obtain ⟨p1, p2⟩ := indexPaths_sim git parse hc entry.PathStatuses _ _
        st.pathToBlobIdCache hsim2
      revert hrun p1 p2
      rcases indexPaths git postgres parse hops entry.Commit entry.PathStatuses
          { st.db with rockskip_blobs := (st.db.rockskip_blobs.map
              (appendBoth (hops.take (ruler (st.tipHeight + 1))) entry.Commit)) }
          st.pathToBlobIdCache with ⟨s3, cache3, err3⟩
      rcases indexPaths git postgres parse hops entry.Commit entry.PathStatuses
          { st1.db with rockskip_blobs := (st1.db.rockskip_blobs.map
              (appendBoth (hops.take (ruler (st.tipHeight + 1))) entry.Commit)) }
          st.pathToBlobIdCache with ⟨r3, cache4, err4⟩
      intro hrun p1 p2
      simp only [Prod.mk.injEq] at p1
      obtain ⟨rfl, rfl⟩ := p1
      have hs3 := (tablesSim_iff_sameSets entry.Commit _ _).mp p2
      rcases err4 with _ | e
      · simp only [Option.some.injEq, Prod.mk.injEq] at hrun ⊢
        obtain ⟨rfl, rfl⟩ := hrun
        exact ⟨_, ⟨rfl, rfl⟩, finish_sameSets entry.Commit hs3 _ _, rfl, rfl, rfl⟩
      · simp only [Option.some.injEq, Prod.mk.injEq] at hrun ⊢
        obtain ⟨rfl, rfl⟩ := hrun
        exact ⟨_, ⟨rfl, rfl⟩, hs3, htip, rfl, rfl⟩

/-! ### Two runs side by side: the entries of a history -/

theorem next_commit_not_in_spine {hist : List LogEntry} (hwf : WellFormedCommits hist)
    {k : Nat} (hk : k < hist.length) :
    commitAt hist (k + 1) ∉ (spineH k).map (commitAt hist) := by
  intro hm
  obtain ⟨y, hy, he⟩ := List.mem_map.mp hm
  have hyk : y ≤ k := spineH_le k y hy
  have := commitAt_inj hwf (by omega) (by omega) he
  omega

theorem entry_commit {hist : List LogEntry} {k : Nat} (hk : k < hist.length) :
    (hist[k]).Commit = commitAt hist (k + 1) :=
  (commitAt_succ hk).symm

theorem indexEntries_sameSets {hist : List LogEntry}
    {contents : String → String → List UInt8} {parse : ParseSymbolsFunc}
    (hwf : WellFormed hist) (hpo : ParseOk hist contents parse) {fuel : Nat}
    (hfuel : hist.length < fuel) :
    ∀ (n k : Nat) (t r : Tables) (cache : String → Option Nat), k + n ≤ hist.length →
      t.rockskip_ancestry = ancestryUpTo hist k → BlobsInv hist contents parse k t →
      CacheOK hist t cache → t.SameSets r →
      ∃ t2 r2 cache2,
        indexEntries fuel (gitOfHistory hist contents) postgres parse ((hist.drop k).take n)
            { db := t, tipCommit := commitAt hist k, tipHeight := k,
              pathToBlobIdCache := cache } =
          some ({ db := t2, tipCommit := commitAt hist (k + n), tipHeight := k + n,
                  pathToBlobIdCache := cache2 }, none) ∧
        indexEntries fuel (gitOfHistory hist contents) postgres parse ((hist.drop k).take n)
            { db := r, tipCommit := commitAt hist k, tipHeight := k,
              pathToBlobIdCache := cache } =
          some ({ db := r2, tipCommit := commitAt hist (k + n), tipHeight := k + n,
                  pathToBlobIdCache := cache2 }, none) ∧
        t2.SameSets r2 ∧ t2.rockskip_ancestry = ancestryUpTo hist (k + n) ∧
        BlobsInv hist contents parse (k + n) t2 := by
  intro n
  induction n with
  | zero =>
    intro k t r cache _ hanc hinv _ hsame
    exact ⟨t, r, cache, by simp [indexEntries], by simp [indexEntries], hsame, hanc, hinv⟩
  | succ n ih =>
    intro k t r cache hk hanc hinv hcache hsame
    have hlt : k < hist.length := by omega
    have hcons : (hist.drop k).take (n + 1) = hist[k] :: (hist.drop (k + 1)).take n := by
      rw [List.drop_eq_getElem_cons hlt]; rfl
    obtain ⟨t1, hanc1, hinv1, hrun1⟩ := indexEntry_ok hwf hpo hfuel hlt hanc hinv
    obtain ⟨cache1, he1, hc1⟩ := hrun1 cache hcache
    have hfresh : ∀ hops, getHops fuel postgres t (commitAt hist k) = some (.ok hops) →
        (hist[k]).Commit ∉ hops := by
      intro hops hh
      rw [getHops_spine hwf.1 hanc (by omega) (Nat.le_refl k) hfuel] at hh
      simp only [Option.some.injEq, Except.ok.injEq] at hh
      rw [← hh, entry_commit hlt]
      exact next_commit_not_in_spine hwf.1 hlt
    obtain ⟨r1, hr1, hs1, ht1, hh1, hca1⟩ := @indexEntry_sameSets fuel
      (gitOfHistory hist contents) parse hist[k]
      { db := t, tipCommit := commitAt hist k, tipHeight := k,
        pathToBlobIdCache := cache }
      { db := r, tipCommit := commitAt hist k, tipHeight := k,
        pathToBlobIdCache := cache } _ _
      hsame rfl rfl rfl hfresh he1
    obtain ⟨rdb, rtip, rheight, rcache⟩ := r1
    simp only at hs1 ht1 hh1 hca1
    rw [ht1, hh1, hca1] at hr1
    obtain ⟨t2, r2, cache2, e1, e2, hs2, hanc2, hinv2⟩ :=
      ih (k + 1) t1 rdb cache1 (by omega) hanc1 hinv1 hc1 hs1
    have hkn : k + 1 + n = k + (n + 1) := by omega
    rw [hkn] at e1 e2 hanc2 hinv2
    refine ⟨t2, r2, cache2, ?_, ?_, hs2, hanc2, hinv2⟩
    · rw [hcons, indexEntries_cons, he1]
      exact e1
    · rw [hcons, indexEntries_cons, hr1]
      exact e2

/-! ### Replaying the log of a `PostgresDB` -/

theorem applyCalls_append (t : Tables) (a b : List Call) :
    applyCalls t (a ++ b) = applyCalls (applyCalls t a) b := by
  simp [applyCalls, List.foldl_append]

theorem applyCalls_cons (t : Tables) (call : Call) (rest : List Call) :
    applyCalls t (call :: rest) = applyCalls (applyCall t call) rest := rfl

theorem applyCalls_nil (t : Tables) : applyCalls t [] = t := rfl

theorem applyCall_AppendHop (t : Tables) (hops : List String) (status : StatusAD)
    (hop : String) :
    applyCall t (.AppendHop hops status hop) =
      { t with rockskip_blobs := t.rockskip_blobs.map (appendOne hops status hop) } := rfl

theorem applyCall_UpdateBlobHops (t : Tables) (id : Nat) (status : StatusAD) (hop : String) :
    applyCall t (.UpdateBlobHops id status hop) =
      { t with rockskip_blobs := t.rockskip_blobs.map (updateOne id status hop) } := rfl

theorem applyCall_DeleteRedundant (t : Tables) (hop : String) :
    applyCall t (.DeleteRedundant hop) =
      { t with rockskip_blobs := t.rockskip_blobs.map (collapse hop) } := rfl

theorem applyCall_InsertBlob (t : Tables) (blob : Blob) :
    applyCall t (.InsertBlob blob) =
      match blob.Symbols with
      | none => t
      | some symbols =>
        { t with
            rockskip_blobs :=
              t.rockskip_blobs ++
                [{ id := t.nextId, commit := blob.Commit, path := blob.Path,
                   added := blob.Added, deleted := blob.Deleted, symbols := symbols }]
            nextId := t.nextId + 1 } := by
  simp only [applyCall, postgres_InsertBlob, pgInsertBlob]
  cases blob.Symbols <;> rfl

theorem replay_updateDeleted (s : Tables) (tr : List Call) (id : Nat) (c : String) :
    updateDeleted (traced postgres) (s, tr) id c =
      (applyCalls s [.UpdateBlobHops id .DeletedAD c],
        tr ++ [.UpdateBlobHops id .DeletedAD c]) := rfl

theorem replay_deletePath (hops : List String) (c path : String) (s : Tables)
    (tr : List Call) (cache : String → Option Nat) :
    ∃ ext, (deletePath (traced postgres) hops c path (s, tr) cache).1 =
        (applyCalls s ext, tr ++ ext) ∧
      ∀ call ∈ ext, call.appends = true ∧ call.marks c = true := by
  unfold deletePath
  rcases cache path with _ | id
  · simp only
    rcases lookupBlob (traced postgres) (s, tr) path hops with e | ⟨id, found⟩
    · exact ⟨[], by simp [applyCalls], by simp⟩
    · simp only
      by_cases hf : found = true
      · rw [if_pos hf, replay_updateDeleted]
        exact ⟨_, rfl, by simp [Call.appends, Call.marks]⟩
      · rw [if_neg hf]
        exact ⟨[], by simp [applyCalls], by simp⟩
  · simp only
    rw [replay_updateDeleted]
    exact ⟨_, rfl, by simp [Call.appends, Call.marks]⟩

theorem replay_insertPath (git : Git) (parse : ParseSymbolsFunc) (c path : String)
    (s : Tables) (tr : List Call) (cache : String → Option Nat) :
    ∃ ext, (insertPath git (traced postgres) parse c path (s, tr) cache).1 =
        (applyCalls s ext, tr ++ ext) ∧
      ∀ call ∈ ext, call.appends = true ∧ call.isInsertBlob = true := by
  unfold insertPath
  rcases git.CatFile c path with e | contents
  · exact ⟨[], by simp [applyCalls], by simp⟩
  · simp only
    rcases parse path contents with e | _ | symbols
    · exact ⟨[], by simp [applyCalls], by simp⟩
    · refine ⟨[], ?_, by simp⟩
      simp only [traced_InsertBlob, postgres_InsertBlob, pgInsertBlob, applyCalls,
        List.append_nil, List.foldl_nil]
    · simp only
      exact ⟨[Call.InsertBlob ⟨c, path, [c], [], some symbols⟩], rfl,
        by simp [Call.appends, Call.isInsertBlob]⟩

theorem replay_indexPath (git : Git) (parse : ParseSymbolsFunc) (hops : List String)
    (c : String) (ps : PathStatus) (s : Tables) (tr : List Call)
    (cache : String → Option Nat) :
    ∃ ext, (indexPath git (traced postgres) parse hops c ps (s, tr) cache).1 =
        (applyCalls s ext, tr ++ ext) ∧
      ∀ call ∈ ext, call.appends = true ∧
        (call.isInsertBlob = true ∨ call.marks c = true) := by
  unfold indexPath
  by_cases hd : ps.Status = .DeletedAMD ∨ ps.Status = .ModifiedAMD
  · simp only [if_pos hd]
    obtain ⟨ext1, h1, q1⟩ := replay_deletePath hops c ps.Path s tr cache
    rcases hdp : deletePath (traced postgres) hops c ps.Path (s, tr) cache with ⟨s1, _ | e⟩
    · rw [hdp] at h1
      simp only at h1 ⊢
      subst h1
      split
      · obtain ⟨ext2, h2, q2⟩ := replay_insertPath git parse c ps.Path (applyCalls s ext1)
          (tr ++ ext1) cache
        refine ⟨ext1 ++ ext2, ?_, ?_⟩
        · rw [h2, applyCalls_append, List.append_assoc]
        · intro call hc
          rcases List.mem_append.mp hc with h | h
          · exact ⟨(q1 call h).1, Or.inr (q1 call h).2⟩
          · exact ⟨(q2 call h).1, Or.inl (q2 call h).2⟩
      · exact ⟨ext1, rfl, fun call h => ⟨(q1 call h).1, Or.inr (q1 call h).2⟩⟩
    · rw [hdp] at h1
      simp only at h1 ⊢
      exact ⟨ext1, h1, fun call h => ⟨(q1 call h).1, Or.inr (q1 call h).2⟩⟩
  · simp only [if_neg hd]
    split
    · obtain ⟨ext2, h2, q2⟩ := replay_insertPath git parse c ps.Path s tr cache
      exact ⟨ext2, h2, fun call h => ⟨(q2 call h).1, Or.inl (q2 call h).2⟩⟩
    · exact ⟨[], by simp [applyCalls], by simp⟩

theorem replay_indexPaths (git : Git) (parse : ParseSymbolsFunc) (hops : List String)
    (c : String) :
    ∀ (pss : List PathStatus) (s : Tables) (tr : List Call) (cache : String → Option Nat),
      ∃ ext, (indexPaths git (traced postgres) parse hops c pss (s, tr) cache).1 =
          (applyCalls s ext, tr ++ ext) ∧
        ∀ call ∈ ext, call.appends = true ∧
          (call.isInsertBlob = true ∨ call.marks c = true) := by
  intro pss
  induction pss with
  | nil =>
    intro s tr cache
    exact ⟨[], by simp [indexPaths, applyCalls], by simp⟩
  | cons ps rest ih =>
    intro s tr cache
    obtain ⟨ext1, h1, q1⟩ := replay_indexPath git parse hops c ps s tr cache
    rw [indexPaths_cons]
    rcases hip : indexPath git (traced postgres) parse hops c ps (s, tr) cache
      with ⟨s1, cache1, _ | e⟩
    · rw [hip] at h1
      simp only at h1 ⊢
      subst h1
      obtain ⟨ext2, h2, q2⟩ := ih (applyCalls s ext1) (tr ++ ext1) cache1
      refine ⟨ext1 ++ ext2, ?_, ?_⟩
      · rw [h2, applyCalls_append, List.append_assoc]
      · intro call hc
        rcases List.mem_append.mp hc with h | h
        · exact q1 call h
        · exact q2 call h
    · rw [hip] at h1
      simp only at h1 ⊢
      exact ⟨ext1, h1, q1⟩

/-! ### What a prefix of the writes of an entry leaves behind -/

theorem marks_step {c : String} {call : Call} (h : call.marks c = true) (t : Tables) :
    ∃ f : BlobRow → BlobRow, (∀ b, SameExcept c b (f b)) ∧
      applyCall t call = { t with rockskip_blobs := t.rockskip_blobs.map f } := by
  cases call with
  | AppendHop hops status hop =>
    have hh : hop = c := by simpa [Call.marks] using h
    subst hh
    exact ⟨_, sameExcept_appendOne hops status hop, rfl⟩
  | UpdateBlobHops id status hop =>
    have hh : hop = c := by simpa [Call.marks] using h
    subst hh
    exact ⟨_, sameExcept_updateOne id status hop, rfl⟩
  | DeleteRedundant hop =>
    have hh : hop = c := by simpa [Call.marks] using h
    subst hh
    exact ⟨_, sameExcept_collapse hop, rfl⟩
  | InsertBlob blob => simp [Call.marks] at h
  | InsertCommit commit height ancestor => simp [Call.marks] at h

/-- Writes that name the commit `c` as hop and insert nothing leave the ancestry table and
the sequence alone, and keep every blob row up to the occurrences of `c`. -/
theorem marks_frame {c : String} (t : Tables) :
    ∀ P : List Call, (∀ call ∈ P, call.marks c = true) →
      (applyCalls t P).rockskip_ancestry = t.rockskip_ancestry ∧
      (applyCalls t P).nextId = t.nextId ∧
      List.Forall₂ (SameExcept c) t.rockskip_blobs (applyCalls t P).rockskip_blobs := by
  intro P
  induction P using List.reverseRecOn with
  | nil =>
    intro _
    exact ⟨rfl, rfl, List.forall₂_same.mpr fun b _ => sameExcept_refl c b⟩
  | append_singleton P call ih =>
    intro h
    obtain ⟨h1, h2, h3⟩ := ih fun x hx => h x (List.mem_append_left _ hx)
    obtain ⟨f, hf, e⟩ := marks_step (h call (by simp)) (applyCalls t P)
    rw [applyCalls_append, applyCalls_cons, applyCalls_nil, e]
    refine ⟨h1, h2, ?_⟩
    simp only
    rw [List.forall₂_map_right_iff]
    exact h3.imp fun b b1 hb => sameExcept_trans hb (hf b1)

theorem under_refl (c : String) (blobs : List BlobRow) : Under c blobs blobs :=
  fun b hb => ⟨b, hb, rfl, id, id⟩

theorem under_trans {c : String} {l1 l2 l3 : List BlobRow} (h12 : Under c l1 l2)
    (h23 : Under c l2 l3) : Under c l1 l3 := by
  intro b hb
  obtain ⟨b2, hb2, i2, a2, d2⟩ := h12 b hb
  obtain ⟨b3, hb3, i3, a3, d3⟩ := h23 b2 hb2
  exact ⟨b3, hb3, i3.trans i2, fun h => a3 (a2 h), fun h => d3 (d2 h)⟩

theorem under_map {c : String} (blobs : List BlobRow) {f : BlobRow → BlobRow}
    (hf : ∀ b, (f b).id = b.id ∧ (c ∈ b.added → c ∈ (f b).added) ∧
      (c ∈ b.deleted → c ∈ (f b).deleted)) : Under c blobs (blobs.map f) :=
  fun b hb => ⟨f b, List.mem_map_of_mem f hb, hf b⟩

theorem arrayAppend_grows (c : String) (status : StatusAD) (hop : String) (b : BlobRow) :
    (b.arrayAppend status hop).id = b.id ∧ (c ∈ b.added → c ∈ (b.arrayAppend status hop).added) ∧
      (c ∈ b.deleted → c ∈ (b.arrayAppend status hop).deleted) := by
  cases status
  · exact ⟨rfl, fun h => List.mem_append_left _ h, id⟩
  · exact ⟨rfl, id, fun h => List.mem_append_left _ h⟩

theorem appends_step (c : String) {call : Call} (h : call.appends = true) (t : Tables) :
    Under c t.rockskip_blobs (applyCall t call).rockskip_blobs := by
  cases call with
  | AppendHop hops status hop =>
    rw [applyCall_AppendHop]
    refine under_map _ fun b => ?_
    unfold appendOne
    split
    · exact arrayAppend_grows c status hop b
    · exact ⟨rfl, id, id⟩
  | UpdateBlobHops id1 status hop =>
    rw [applyCall_UpdateBlobHops]
    refine under_map _ fun b => ?_
    unfold updateOne
    split
    · exact arrayAppend_grows c status hop b
    · exact ⟨rfl, id, id⟩
  | InsertBlob blob =>
    rw [applyCall_InsertBlob]
    cases blob.Symbols with
    | none => exact fun b hb => ⟨b, hb, rfl, id, id⟩
    | some symbols => exact fun b hb => ⟨b, List.mem_append_left _ hb, rfl, id, id⟩
  | DeleteRedundant hop => simp [Call.appends] at h
  | InsertCommit commit height ancestor => simp [Call.appends] at h

/-- Writes that only append never take a commit out of a hop column. -/
theorem appends_under (c : String) :
    ∀ (Q : List Call) (t : Tables), (∀ call ∈ Q, call.appends = true) →
      Under c t.rockskip_blobs (applyCalls t Q).rockskip_blobs := by
  intro Q
  induction Q with
  | nil => intro t _; exact under_refl c _
  | cons call rest ih =>
    intro t h
    rw [applyCalls_cons]
    exact under_trans (appends_step c (h call (by simp)) t)
      (ih (applyCall t call) fun x hx => h x (List.mem_cons_of_mem _ hx))

theorem collapse_under (c : String) (blobs : List BlobRow) :
    Under c (blobs.map (collapse c)) blobs := by
  intro b hb
  obtain ⟨b0, hb0, rfl⟩ := List.mem_map.mp hb
  refine ⟨b0, hb0, ?_, ?_, ?_⟩
  · unfold collapse; split <;> rfl
  · unfold collapse
    split
    · intro h; exact (List.mem_filter.mp h).1
    · exact id
  · unfold collapse
    split
    · intro h; exact (List.mem_filter.mp h).1
    · exact id

/-! ### From the frame to the simulation, and back to equal sets -/

theorem forall₂_ids {R : BlobRow → BlobRow → Prop} (hR : ∀ b b1, R b b1 → b1.id = b.id) :
    ∀ {l l1 : List BlobRow}, List.Forall₂ R l l1 →
      l1.map (fun b => b.id) = l.map fun b => b.id := by
  intro l l1 h
  induction h with
  | nil => rfl
  | cons hb _ ih => simp only [List.map_cons, hR _ _ hb, ih]

theorem eq_of_id_eq {l : List BlobRow} (hn : (l.map fun b => b.id).Nodup) {b1 b2 : BlobRow}
    (h1 : b1 ∈ l) (h2 : b2 ∈ l) (h : b1.id = b2.id) : b1 = b2 :=
  List.inj_on_of_nodup_map hn h1 h2 h

/-- The store left by an interrupted pass over the entry with commit `c`, against the
store before the entry. -/
theorem tablesSim_of_frame {c : String} {t tP : Tables}
    (hanc : tP.rockskip_ancestry = t.rockskip_ancestry) (hnext : tP.nextId = t.nextId)
    (hrows : List.Forall₂ (SameExcept c) t.rockskip_blobs tP.rockskip_blobs)
    (hfresh : ∀ b ∈ t.rockskip_blobs, c ∉ b.added ∧ c ∉ b.deleted)
    (hnodup : (t.rockskip_blobs.map fun b => b.id).Nodup)
    (hlt : ∀ b ∈ t.rockskip_blobs, b.id < t.nextId) :
    TablesSim c (leftAdded c tP.rockskip_blobs) (leftDeleted c tP.rockskip_blobs) t tP := by
  have hids := forall₂_ids (fun b b1 (h : SameExcept c b b1) => h.1) hrows
  have hnodupP : (tP.rockskip_blobs.map fun b => b.id).Nodup := by rw [hids]; exact hnodup
  refine ⟨hanc, hnext, ?_, ?_⟩
  · rw [List.forall₂_iff_zip] at hrows ⊢
    refine ⟨hrows.1, fun {b bP} hz => ?_⟩
    obtain ⟨i1, c1, p1, s1, m1⟩ := hrows.2 hz
    have hb : b ∈ t.rockskip_blobs := (List.of_mem_zip hz).1
    have hbP : bP ∈ tP.rockskip_blobs := (List.of_mem_zip hz).2
    refine ⟨i1, c1, p1, s1, m1, ?_, ?_⟩
    · constructor
      · intro h; exact Or.inr ⟨bP, hbP, i1, h⟩
      · rintro (h | ⟨b2, hb2, i2, h⟩)
        · exact absurd h (hfresh b hb).1
        · rw [eq_of_id_eq hnodupP hbP hb2 (i1.trans i2.symm)]; exact h
    · constructor
      · intro h; exact Or.inr ⟨bP, hbP, i1, h⟩
      · rintro (h | ⟨b2, hb2, i2, h⟩)
        · exact absurd h (hfresh b hb).2
        · rw [eq_of_id_eq hnodupP hbP hb2 (i1.trans i2.symm)]; exact h
  · rintro id ⟨bP, hbP, rfl, -⟩
    have hm : bP.id ∈ tP.rockskip_blobs.map fun b => b.id := List.mem_map_of_mem _ hbP
    rw [hids] at hm
    obtain ⟨b, hb, hi⟩ := List.mem_map.mp hm
    rw [← hi]
    exact hlt b hb

/-- A simulation in which the interrupted pass left the commit only where the
uninterrupted run holds it too is an equality of sets. -/
theorem sameSets_of_tablesSim {c : String} {Ea Ed : Nat → Prop} {u r : Tables}
    (hsim : TablesSim c Ea Ed u r)
    (h : ∀ b ∈ u.rockskip_blobs, (Ea b.id → c ∈ b.added) ∧ (Ed b.id → c ∈ b.deleted)) :
    u.SameSets r := by
  obtain ⟨h1, h2, h3, -⟩ := hsim
  refine ⟨h1, h2, ?_⟩
  rw [List.forall₂_iff_zip] at h3 ⊢
  refine ⟨h3.1, fun {b b1} hz => ?_⟩
  obtain ⟨i1, c1, p1, s1, m1, a1, d1⟩ := h3.2 hz
  have hb : b ∈ u.rockskip_blobs := (List.of_mem_zip hz).1
  refine ⟨i1, c1, p1, s1, fun y => ?_, fun y => ?_⟩
  · by_cases hy : y = c
    · rw [hy, a1]
      exact ⟨fun hh => hh.elim id (h b hb).1, Or.inl⟩
    · exact (m1 y hy).1
  · by_cases hy : y = c
    · rw [hy, d1]
      exact ⟨fun hh => hh.elim id (h b hb).2, Or.inl⟩
    · exact (m1 y hy).2

theorem left_of_under {c : String} {blobsP blobsU : List BlobRow}
    (hu : Under c blobsP blobsU) (hn : (blobsU.map fun b => b.id).Nodup) :
    ∀ b ∈ blobsU, (leftAdded c blobsP b.id → c ∈ b.added) ∧
      (leftDeleted c blobsP b.id → c ∈ b.deleted) := by
  intro b hb
  constructor
  · rintro ⟨bP, hbP, i, h⟩
    obtain ⟨b1, hb1, i1, a1, -⟩ := hu bP hbP
    rw [eq_of_id_eq hn hb hb1 (i.symm.trans i1.symm)]
    exact a1 h
  · rintro ⟨bP, hbP, i, h⟩
    obtain ⟨b1, hb1, i1, -, d1⟩ := hu bP hbP
    rw [eq_of_id_eq hn hb hb1 (i.symm.trans i1.symm)]
    exact d1 h

/-! ### The writes of an entry on a `PostgresDB`, with the states between them -/

theorem applyCalls_appendBoth (s : Tables) (hs : List String) (c : String) :
    applyCalls s [.AppendHop hs .AddedAD c, .AppendHop hs .DeletedAD c] =
      { s with rockskip_blobs := s.rockskip_blobs.map (appendBoth hs c) } := by
  simp only [applyCalls, List.foldl_cons, List.foldl_nil, applyCall_AppendHop, List.map_map]
  rfl

theorem traced_entry_postgres (fuel : Nat) (git : Git) (parse : ParseSymbolsFunc)
    (entry : LogEntry) (s : Tables) (tr : List Call) (tip : String) (height : Nat)
    (cache : String → Option Nat) (hops : List String) (ancestor : String)
    (hhops : getHops fuel postgres s tip = some (.ok hops))
    (hanc : hops[ruler (height + 1)]? = some ancestor)
    {u3 : Tables} {cache3 : String → Option Nat}
    (hpaths : indexPaths git postgres parse hops entry.Commit entry.PathStatuses
        { s with rockskip_blobs := (s.rockskip_blobs.map
            (appendBoth (hops.take (ruler (height + 1))) entry.Commit)) } cache =
      (u3, cache3, none)) :
    ∃ ext last,
      indexEntry fuel git (traced postgres) parse entry
          { db := (s, tr), tipCommit := tip, tipHeight := height,
            pathToBlobIdCache := cache } =
        some ({ db := (insertCommit postgres
                    { u3 with rockskip_blobs := u3.rockskip_blobs.map (collapse entry.Commit) }
                    entry.Commit (height + 1) ancestor,
                  tr ++ ([.AppendHop (hops.take (ruler (height + 1))) .AddedAD entry.Commit,
                      .AppendHop (hops.take (ruler (height + 1))) .DeletedAD entry.Commit] ++
                    ext ++ [.DeleteRedundant entry.Commit] ++ last)),
                tipCommit := entry.Commit, tipHeight := height + 1,
                pathToBlobIdCache := cache3 }, none) ∧
      u3 = applyCalls s
        ([.AppendHop (hops.take (ruler (height + 1))) .AddedAD entry.Commit,
          .AppendHop (hops.take (ruler (height + 1))) .DeletedAD entry.Commit] ++ ext) ∧
      (∀ call ∈ ext, call.appends = true ∧
        (call.isInsertBlob = true ∨ call.marks entry.Commit = true)) ∧
      (∀ call ∈ last, call.isInsertCommit = true) := by
  have hab := applyCalls_appendBoth s (hops.take (ruler (height + 1))) entry.Commit
  obtain ⟨ext, h1, q1⟩ := replay_indexPaths git parse hops entry.Commit entry.PathStatuses
    (applyCalls s [.AppendHop (hops.take (ruler (height + 1))) .AddedAD entry.Commit,
      .AppendHop (hops.take (ruler (height + 1))) .DeletedAD entry.Commit])
    (tr ++ [.AppendHop (hops.take (ruler (height + 1))) .AddedAD entry.Commit] ++
      [.AppendHop (hops.take (ruler (height + 1))) .DeletedAD entry.Commit]) cache
  obtain ⟨groups, g1, -, -⟩ := traced_indexPaths git postgres parse hops entry.Commit
    entry.PathStatuses
    (applyCalls s [.AppendHop (hops.take (ruler (height + 1))) .AddedAD entry.Commit,
      .AppendHop (hops.take (ruler (height + 1))) .DeletedAD entry.Commit])
    (tr ++ [.AppendHop (hops.take (ruler (height + 1))) .AddedAD entry.Commit] ++
      [.AppendHop (hops.take (ruler (height + 1))) .DeletedAD entry.Commit]) cache
  rw [hab, hpaths] at g1
  simp only at g1
  rw [hab, g1] at h1
  simp only [Prod.mk.injEq] at h1
  obtain ⟨hu3, hgr⟩ := h1
  have hgr2 : groups.flatten = ext := List.append_cancel_left hgr
  obtain ⟨last, l1, l2⟩ := traced_insertCommit postgres
    { u3 with rockskip_blobs := u3.rockskip_blobs.map (collapse entry.Commit) }
    (tr ++ [.AppendHop (hops.take (ruler (height + 1))) .AddedAD entry.Commit] ++
      [.AppendHop (hops.take (ruler (height + 1))) .DeletedAD entry.Commit] ++
      groups.flatten ++ [.DeleteRedundant entry.Commit])
    entry.Commit (height + 1) ancestor
  refine ⟨ext, last, ?_, ?_, q1, ?_⟩
  · unfold indexEntry
    simp only [traced_getHops, hhops, hanc, traced_AppendHop, postgres_AppendHop, pgAppendHop,
      List.map_map]
    have e : (appendOne (hops.take (ruler (height + 1))) .DeletedAD entry.Commit ∘
        appendOne (hops.take (ruler (height + 1))) .AddedAD entry.Commit) =
        appendBoth (hops.take (ruler (height + 1))) entry.Commit := rfl
    rw [e, g1]
    simp only [traced_DeleteRedundant, postgres_DeleteRedundant, pgDeleteRedundant]
    rw [l1, hgr2]
    simp only [List.append_assoc, List.cons_append, List.nil_append]
  · rw [hu3, applyCalls_append, hab]
  · intro call hc
    rcases l2 with h | h
    · rw [h] at hc; simp at hc
    · rw [h] at hc
      simp only [List.mem_singleton] at hc
      rw [hc]; rfl

/-! ### Reprocessing the entry that was interrupted -/

theorem spine_ancestor (hist : List LogEntry) (k : Nat) :
    ((spineH k).map (commitAt hist))[ruler (k + 1)]? =
      some (commitAt hist (k + 1 - 2 ^ ruler (k + 1))) := by
  rw [List.getElem?_map, (spineH_ruler k).1]; rfl

/-- The path loop of the entry at height `k + 1` of a well-formed history, and the store
in which the entry ends. -/
theorem entry_paths {hist : List LogEntry} {contents : String → String → List UInt8}
    {parse : ParseSymbolsFunc} (hwf : WellFormed hist) (hpo : ParseOk hist contents parse)
    {fuel k : Nat} (hfuel : hist.length < fuel) (hk : k < hist.length) {t : Tables}
    (hanc : t.rockskip_ancestry = ancestryUpTo hist k)
    (hinv : BlobsInv hist contents parse k t) (cache : String → Option Nat)
    (hcache : CacheOK hist t cache) :
    ∃ u3 cache3,
      indexPaths (gitOfHistory hist contents) postgres parse ((spineH k).map (commitAt hist))
          (hist[k]).Commit (hist[k]).PathStatuses
          { t with rockskip_blobs := (t.rockskip_blobs.map
              (appendBoth (((spineH k).map (commitAt hist)).take (ruler (k + 1)))
                (hist[k]).Commit)) } cache = (u3, cache3, none) ∧
      (insertCommit postgres
          { u3 with rockskip_blobs := u3.rockskip_blobs.map (collapse (hist[k]).Commit) }
          (hist[k]).Commit (k + 1)
          (commitAt hist (k + 1 - 2 ^ ruler (k + 1)))).rockskip_ancestry =
        ancestryUpTo hist (k + 1) ∧
      BlobsInv hist contents parse (k + 1) (insertCommit postgres
          { u3 with rockskip_blobs := u3.rockskip_blobs.map (collapse (hist[k]).Commit) }
          (hist[k]).Commit (k + 1) (commitAt hist (k + 1 - 2 ^ ruler (k + 1)))) ∧
      CacheOK hist (insertCommit postgres
          { u3 with rockskip_blobs := u3.rockskip_blobs.map (collapse (hist[k]).Commit) }
          (hist[k]).Commit (k + 1) (commitAt hist (k + 1 - 2 ^ ruler (k + 1)))) cache3 := by
  obtain ⟨t1, hanc1, hinv1, hrun1⟩ := indexEntry_ok hwf hpo hfuel hk hanc hinv
  obtain ⟨cache1, he1, hc1⟩ := hrun1 cache hcache
  have hhops := getHops_spine hwf.1 hanc (le_of_lt hk) (le_refl k) hfuel
  rw [indexEntry_postgres fuel (gitOfHistory hist contents) parse hist[k]
    { db := t, tipCommit := commitAt hist k, tipHeight := k, pathToBlobIdCache := cache }
    ((spineH k).map (commitAt hist)) (commitAt hist (k + 1 - 2 ^ ruler (k + 1))) hhops
    (spine_ancestor hist k)] at he1
  simp only at he1
  rcases hp : indexPaths (gitOfHistory hist contents) postgres parse
      ((spineH k).map (commitAt hist)) (hist[k]).Commit (hist[k]).PathStatuses
      { t with rockskip_blobs := (t.rockskip_blobs.map
          (appendBoth (((spineH k).map (commitAt hist)).take (ruler (k + 1)))
            (hist[k]).Commit)) } cache with ⟨u3, cache3, _ | e⟩
  · rw [hp] at he1
    simp only [Option.some.injEq, Prod.mk.injEq, IndexState.mk.injEq, and_true] at he1
    obtain ⟨e1, -, e3⟩ := he1
    refine ⟨u3, cache3, rfl, ?_, ?_, ?_⟩
    · rw [e1]; exact hanc1
    · rw [e1]; exact hinv1
    · rw [e1, e3.2]; exact hc1
  · rw [hp] at he1
    simp at he1

theorem fresh_commit {hist : List LogEntry} {contents : String → String → List UInt8}
    {parse : ParseSymbolsFunc} (hwf : WellFormedCommits hist) {k : Nat}
    (hk : k < hist.length) {t : Tables} (hinv : BlobsInv hist contents parse k t) :
    ∀ b ∈ t.rockskip_blobs, commitAt hist (k + 1) ∉ b.added ∧
      commitAt hist (k + 1) ∉ b.deleted := by
  intro b hb
  constructor
  · intro h
    obtain ⟨x, -, hx, e, -⟩ := (hinv.2.added b hb _).mp h
    have := commitAt_inj hwf (by omega) (by omega) e
    omega
  · intro h
    obtain ⟨x, -, hx, e, -⟩ := (hinv.2.deleted b hb _).mp h
    have := commitAt_inj hwf (by omega) (by omega) e
    omega

theorem collapse_ids (c : String) (blobs : List BlobRow) :
    (blobs.map (collapse c)).map (fun b => b.id) = blobs.map fun b => b.id := by
  rw [List.map_map]
  apply List.map_congr_left
  intro b _
  simp only [Function.comp]
  unfold collapse
  split <;> rfl

/-- A prefix of the writes of an entry that holds no `InsertBlob` and no `InsertCommit`:
either a prefix of the writes before `DeleteRedundant`, or all of them with
`DeleteRedundant`. -/
theorem prefix_cases {pre last P : List Call} {c : String}
    (hP : P <+: pre ++ [.DeleteRedundant c] ++ last)
    (hlast : ∀ call ∈ last, call.isInsertCommit = true)
    (hPc : ∀ call ∈ P, call.isInsertCommit = false) :
    (∃ Q, pre = P ++ Q) ∨ P = pre ++ [.DeleteRedundant c] := by
  obtain ⟨rest, hrest⟩ := hP
  rcases List.prefix_or_prefix_of_prefix (List.prefix_append P rest)
      (show pre <+: P ++ rest by rw [hrest, List.append_assoc]; exact List.prefix_append _ _)
    with h | h
  · obtain ⟨Q, hQ⟩ := h
    exact Or.inl ⟨Q, hQ.symm⟩
  · obtain ⟨x, rfl⟩ := h
    rw [List.append_assoc, List.append_assoc, List.append_right_inj] at hrest
    rcases x with _ | ⟨call, x⟩
    · exact Or.inl ⟨[], by simp⟩
    · simp only [List.cons_append, List.singleton_append, List.cons.injEq] at hrest
      obtain ⟨rfl, hx⟩ := hrest
      rcases x with _ | ⟨call2, x⟩
      · exact Or.inr rfl
      · have hm : call2 ∈ last := by
          rw [List.nil_append] at hx
          rw [← hx]; simp
        have h1 := hlast call2 hm
        have h2 := hPc call2 (by simp)
        rw [h1] at h2
        exact absurd h2 (by decide)

/-- The entry at height `k + 1` of a well-formed history, processed on a store with a log
and processed once more after a crash: whatever prefix of its writes without `InsertBlob`
and `InsertCommit` was applied, processing the entry again ends in the store of the
uninterrupted pass, up to the order and the multiplicity of the commits in the hop
columns. -/
theorem rerun_entry {hist : List LogEntry} {contents : String → String → List UInt8}
    {parse : ParseSymbolsFunc} (hwf : WellFormed hist) (hpo : ParseOk hist contents parse)
    {fuel k : Nat} (hfuel : hist.length < fuel) (hk : k < hist.length) {t : Tables}
    (hanc : t.rockskip_ancestry = ancestryUpTo hist k)
    (hinv : BlobsInv hist contents parse k t) :
    ∃ t1 cache3 T,
      t1.rockskip_ancestry = ancestryUpTo hist (k + 1) ∧
      BlobsInv hist contents parse (k + 1) t1 ∧ CacheOK hist t1 cache3 ∧
      indexEntry fuel (gitOfHistory hist contents) postgres parse hist[k]
          { db := t, tipCommit := commitAt hist k, tipHeight := k,
            pathToBlobIdCache := fun _ => none } =
        some ({ db := t1, tipCommit := commitAt hist (k + 1), tipHeight := k + 1,
                pathToBlobIdCache := cache3 }, none) ∧
      indexEntry fuel (gitOfHistory hist contents) (traced postgres) parse hist[k]
          { db := (t, []), tipCommit := commitAt hist k, tipHeight := k,
            pathToBlobIdCache := fun _ => none } =
        some ({ db := (t1, T), tipCommit := commitAt hist (k + 1), tipHeight := k + 1,
                pathToBlobIdCache := cache3 }, none) ∧
      ∀ P, P <+: T →
        (∀ call ∈ P, call.isInsertBlob = false ∧ call.isInsertCommit = false) →
        (applyCalls t P).rockskip_ancestry = t.rockskip_ancestry ∧
        ∃ r1, indexEntry fuel (gitOfHistory hist contents) postgres parse hist[k]
            { db := applyCalls t P, tipCommit := commitAt hist k, tipHeight := k,
              pathToBlobIdCache := fun _ => none } =
          some ({ db := r1, tipCommit := commitAt hist (k + 1), tipHeight := k + 1,
                  pathToBlobIdCache := cache3 }, none) ∧
          t1.SameSets r1 := by
  have hc : (hist[k]).Commit = commitAt hist (k + 1) := entry_commit hk
  obtain ⟨u3, cache3, hp, hanc1, hinv1, hc1⟩ :=
    entry_paths hwf hpo hfuel hk hanc hinv (fun _ => none) (CacheOK_empty hist t)
  have hhops := getHops_spine hwf.1 hanc (le_of_lt hk) (le_refl k) hfuel
  obtain ⟨ext, last, htr, hu3, qext, qlast⟩ := traced_entry_postgres fuel
    (gitOfHistory hist contents) parse hist[k] t [] (commitAt hist k) k (fun _ => none)
    ((spineH k).map (commitAt hist)) (commitAt hist (k + 1 - 2 ^ ruler (k + 1)))
    hhops (spine_ancestor hist k) hp
  have hnotin : (hist[k]).Commit ∉ (spineH k).map (commitAt hist) := by
    rw [hc]; exact next_commit_not_in_spine hwf.1 hk
  have hnotin2 : (hist[k]).Commit ∉
      ((spineH k).map (commitAt hist)).take (ruler (k + 1)) :=
    fun hm => hnotin (List.mem_of_mem_take hm)
  refine ⟨_, cache3,
    [] ++ ([.AppendHop (((spineH k).map (commitAt hist)).take (ruler (k + 1))) .AddedAD
          (hist[k]).Commit,
        .AppendHop (((spineH k).map (commitAt hist)).take (ruler (k + 1))) .DeletedAD
          (hist[k]).Commit] ++ ext ++ [Call.DeleteRedundant (hist[k]).Commit] ++ last),
    hanc1, hinv1, hc1, ?_, ?_, ?_⟩
  · rw [indexEntry_postgres fuel (gitOfHistory hist contents) parse hist[k]
      { db := t, tipCommit := commitAt hist k, tipHeight := k,
        pathToBlobIdCache := fun _ => none }
      ((spineH k).map (commitAt hist)) (commitAt hist (k + 1 - 2 ^ ruler (k + 1))) hhops
      (spine_ancestor hist k)]
    simp only
    rw [hp]
    simp only [hc]
  · rw [htr]
    simp only [hc]
  · intro P hP hPq
    rw [List.nil_append] at hP
    -- the calls of the entry before `InsertCommit`
    have hall : ∀ call ∈
        [.AppendHop (((spineH k).map (commitAt hist)).take (ruler (k + 1))) .AddedAD
            (hist[k]).Commit,
          .AppendHop (((spineH k).map (commitAt hist)).take (ruler (k + 1))) .DeletedAD
            (hist[k]).Commit] ++ ext,
        call.appends = true ∧
          (call.isInsertBlob = true ∨ call.marks (hist[k]).Commit = true) := by
      intro call hm
      rcases List.mem_append.mp hm with h | h
      · simp only [List.mem_cons, List.mem_singleton, List.not_mem_nil, or_false] at h
        rcases h with rfl | rfl
        · exact ⟨rfl, Or.inr (by simp [Call.marks])⟩
        · exact ⟨rfl, Or.inr (by simp [Call.marks])⟩
      · exact qext call h
    have hcases := prefix_cases hP qlast fun call h => (hPq call h).2
    have hmarks : ∀ call ∈ P, call.marks (hist[k]).Commit = true := by
      intro call hm
      have hin : call ∈
          [.AppendHop (((spineH k).map (commitAt hist)).take (ruler (k + 1))) .AddedAD
              (hist[k]).Commit,
            .AppendHop (((spineH k).map (commitAt hist)).take (ruler (k + 1))) .DeletedAD
              (hist[k]).Commit] ++ ext ++ [Call.DeleteRedundant (hist[k]).Commit] := by
        rcases hcases with ⟨Q, hQ⟩ | hPeq
        · rw [hQ]
          exact List.mem_append_left _ (List.mem_append_left _ hm)
        · rw [← hPeq]; exact hm
      rcases List.mem_append.mp hin with h | h
      · rcases (hall call h).2 with h2 | h2
        · rw [(hPq call hm).1] at h2
          exact absurd h2 (by decide)
        · exact h2
      · simp only [List.mem_singleton] at h
        rw [h]
        simp [Call.marks]
    obtain ⟨f1, f2, f3⟩ := marks_frame t P hmarks
    have hunder : Under (hist[k]).Commit (applyCalls t P).rockskip_blobs u3.rockskip_blobs := by
      rcases hcases with ⟨Q, hQ⟩ | hPeq
      · rw [hu3, hQ, applyCalls_append]
        refine appends_under _ Q _ fun call hm => (hall call ?_).1
        rw [hQ]
        exact List.mem_append_right _ hm
      · rw [hPeq, applyCalls_append, ← hu3, applyCalls_cons, applyCalls_nil,
          applyCall_DeleteRedundant]
        exact collapse_under _ _
    refine ⟨f1, ?_⟩
    -- the two runs side by side
    have hsim0 := tablesSim_of_frame f1 f2 f3
      (by rw [hc]; exact fresh_commit hwf.1 hk hinv) hinv.1.ids_nodup hinv.1.ids_lt
    have hsim2 := tablesSim_map hsim0
      (f := appendBoth (((spineH k).map (commitAt hist)).take (ruler (k + 1)))
        (hist[k]).Commit)
      fun b b1 hb => appendBoth_sim hb hnotin2
    obtain ⟨p1, p2⟩ := indexPaths_sim (gitOfHistory hist contents) parse hnotin
      (hist[k]).PathStatuses _ _ (fun _ => none) hsim2
    rw [hp] at p1 p2
    have hn3 : (u3.rockskip_blobs.map fun b => b.id).Nodup := by
      have := hinv1.1.ids_nodup
      rw [insertCommit_blobs] at this
      simp only at this
      rw [collapse_ids] at this
      exact this
    have hs3 := sameSets_of_tablesSim p2 (left_of_under hunder hn3)
    have hhopsP : getHops fuel postgres (applyCalls t P) (commitAt hist k) =
        some (.ok ((spineH k).map (commitAt hist))) := by
      rw [getHops_congr f1]; exact hhops
    rw [indexEntry_postgres fuel (gitOfHistory hist contents) parse hist[k]
      { db := applyCalls t P, tipCommit := commitAt hist k, tipHeight := k,
        pathToBlobIdCache := fun _ => none }
      ((spineH k).map (commitAt hist)) (commitAt hist (k + 1 - 2 ^ ruler (k + 1))) hhopsP
      (spine_ancestor hist k)]
    simp only
    revert p1 hs3
    rcases indexPaths (gitOfHistory hist contents) postgres parse
        ((spineH k).map (commitAt hist)) (hist[k]).Commit (hist[k]).PathStatuses
        { applyCalls t P with rockskip_blobs := ((applyCalls t P).rockskip_blobs.map
            (appendBoth (((spineH k).map (commitAt hist)).take (ruler (k + 1)))
              (hist[k]).Commit)) } (fun _ => none) with ⟨r3, cache4, err4⟩
    intro p1 hs3
    simp only [Prod.mk.injEq] at p1
    obtain ⟨rfl, rfl⟩ := p1
    simp only at hs3 ⊢
    exact ⟨_, by rw [hc], finish_sameSets _ hs3 _ _⟩

/-! ### A run of `Index` on a store with a log -/

theorem Index_traced_eq {hist : List LogEntry} (hwf : WellFormedCommits hist)
    (contents : String → String → List UInt8) (parse : ParseSymbolsFunc) (fuel : Nat)
    {t : Tables} (tr : List Call) {k x : Nat}
    (ht : t.rockskip_ancestry = ancestryUpTo hist k)
    (hk : k ≤ hist.length) (hx1 : 1 ≤ x) (hx : x ≤ hist.length) :
    Index fuel (gitOfHistory hist contents) (traced postgres) parse (commitAt hist x) (t, tr) =
      (indexEntries fuel (gitOfHistory hist contents) (traced postgres) parse
          ((hist.drop k).take (x - k))
          { db := (t, tr), tipCommit := commitAt hist k, tipHeight := k,
            pathToBlobIdCache := fun _ => none }).map fun r => (r.1.db, r.2) := by
  obtain ⟨i, rfl⟩ : ∃ i, x = i + 1 := ⟨x - 1, by omega⟩
  have hidx := indexOf_commitAt hwf (show i < hist.length by omega)
  have hrev : (gitOfHistory hist contents).RevList (commitAt hist (i + 1)) =
      .ok (revsFrom hist (i + 1)) := by
    simp only [gitOfHistory, hidx, show i < hist.length by omega, if_true]
    rw [reverse_take_commitsOf hx]
  have hlog : ∀ n, (gitOfHistory hist contents).LogReverse (commitAt hist (i + 1)) n =
      .ok ((hist.take (i + 1)).drop (i + 1 - n)) := by
    intro n
    simp only [gitOfHistory, hidx, show i < hist.length by omega, if_true]
  generalize gitOfHistory hist contents = git at hrev hlog ⊢
  unfold Index
  rw [hrev]
  simp only
  rw [traced_findTip, findTip_revsFrom hwf ht hk (i + 1) 0 hx]
  by_cases hxk : i + 1 ≤ k
  · simp only [hxk, if_true, hlog]
    have h0 : i + 1 - k = 0 := by omega
    have h1 : List.drop (i + 1 - 0) (List.take (i + 1) hist) = [] := by
      rw [List.drop_eq_nil_iff]
      simp
    rw [h0, h1]
    simp [indexEntries]
  · simp only [hxk, if_false, hlog]
    have h1 : i + 1 - (0 + (i + 1 - k)) = k := by omega
    rw [h1, List.drop_take]
    generalize indexEntries _ _ _ _ _ _ = r
    rcases r with _ | ⟨st, err⟩ <;> rfl

/-! ### `Search` on stores that are equal as sets -/

theorem forall₂_filter {α : Type} {R : α → α → Prop} {p q : α → Bool}
    (h : ∀ a b, R a b → p a = q b) :
    ∀ {l l1 : List α}, List.Forall₂ R l l1 → List.Forall₂ R (l.filter p) (l1.filter q) := by
  intro l l1 hl
  induction hl with
  | nil => exact List.Forall₂.nil
  | @cons a b l l1 hab _ ih =>
    rw [List.filter_cons, List.filter_cons, h a b hab]
    split
    · exact List.Forall₂.cons hab ih
    · exact ih

theorem overlaps_congr (hops : List String) {l l1 : List String}
    (h : ∀ y, y ∈ l1 ↔ y ∈ l) : overlaps hops l1 = overlaps hops l := by
  unfold overlaps
  congr 1
  funext x
  exact decide_eq_decide.mpr (h x)

theorem toBlob_sameSets {b b1 : BlobRow} (h : b.SameSets b1) :
    b.toBlob.SameSets b1.toBlob :=
  ⟨h.2.1, h.2.2.1, congrArg some h.2.2.2.1, h.2.2.2.2.1, h.2.2.2.2.2⟩

theorem pgSearch_sameSets {t r : Tables} (h : t.SameSets r) (hops : List String)
    (query : Option String) :
    ∃ bs bs1, pgSearch t hops query = .ok bs ∧ pgSearch r hops query = .ok bs1 ∧
      List.Forall₂ Blob.SameSets bs bs1 := by
  obtain ⟨-, -, hrows⟩ := h
  rcases query with _ | q
  · refine ⟨_, _, pgSearch_none t hops, pgSearch_none r hops, ?_⟩
    rw [List.forall₂_map_left_iff, List.forall₂_map_right_iff]
    refine (forall₂_filter ?_ hrows).imp fun b b1 hb => toBlob_sameSets hb
    intro b b1 hb
    rw [overlaps_congr hops hb.2.2.2.2.1, overlaps_congr hops hb.2.2.2.2.2]
  · refine ⟨_, _, pgSearch_some t hops q, pgSearch_some r hops q, ?_⟩
    rw [List.forall₂_map_left_iff, List.forall₂_map_right_iff]
    refine (forall₂_filter ?_ hrows).imp fun b b1 hb => toBlob_sameSets hb
    intro b b1 hb
    rw [overlaps_congr hops hb.2.2.2.2.1, overlaps_congr hops hb.2.2.2.2.2, hb.2.2.2.1]

theorem Search_sameSets {hist : List LogEntry} (hwf : WellFormedCommits hist)
    {t r : Tables} {n x fuel : Nat} (hanc : t.rockskip_ancestry = ancestryUpTo hist n)
    (h : t.SameSets r) (hn : n ≤ hist.length) (hx : x ≤ n) (hfuel : hist.length < fuel)
    (query : Option String) :
    ∃ bs bs1, Search fuel postgres t (commitAt hist x) query = some (.ok bs) ∧
      Search fuel postgres r (commitAt hist x) query = some (.ok bs1) ∧
      List.Forall₂ Blob.SameSets bs bs1 := by
  obtain ⟨bs, bs1, h1, h2, h3⟩ := pgSearch_sameSets h ((spineH x).map (commitAt hist)) query
  refine ⟨bs, bs1, ?_, ?_, h3⟩
  · rw [Search_eq hwf hanc hn hx hfuel, h1]
  · rw [Search_eq hwf (h.1.trans hanc) hn hx hfuel, h2]

/-! ### Reprocessing after a crash, run by run -/

/-- From a store that holds the first `k` entries of a well-formed history: the writes of
the entry at height `k + 1`, the uninterrupted run of `Index` up to height `n`, and the run
of `Index` on the store left by a prefix of these writes that holds no `InsertBlob` and
no `InsertCommit`. -/
theorem reprocess_from {hist : List LogEntry} {contents : String → String → List UInt8}
    {parse : ParseSymbolsFunc} (hwf : WellFormed hist) (hpo : ParseOk hist contents parse)
    {fuel k n : Nat} (hfuel : hist.length < fuel) (hkn : k < n) (hn : n ≤ hist.length)
    {sk : Tables} (hanc : sk.rockskip_ancestry = ancestryUpTo hist k)
    (hinv : BlobsInv hist contents parse k sk) :
    ∃ sk1 T final,
      Index fuel (gitOfHistory hist contents) (traced postgres) parse (commitAt hist (k + 1))
        (sk, []) = some ((sk1, T), none) ∧
      Index fuel (gitOfHistory hist contents) postgres parse (commitAt hist n) sk =
        some (final, none) ∧
      ∀ P, P <+: T →
        (∀ call ∈ P, call.isInsertBlob = false ∧ call.isInsertCommit = false) →
        ∃ r, Index fuel (gitOfHistory hist contents) postgres parse (commitAt hist n)
            (applyCalls sk P) = some (r, none) ∧
          final.SameSets r ∧
          ∀ x, x ≤ n → ∀ query, ∃ bs bs1,
            Search fuel postgres final (commitAt hist x) query = some (.ok bs) ∧
            Search fuel postgres r (commitAt hist x) query = some (.ok bs1) ∧
            List.Forall₂ Blob.SameSets bs bs1 := by
  have hk : k < hist.length := by omega
  obtain ⟨t1, cache3, T, hanc1, hinv1, hc1, hplain, htraced, hmain⟩ :=
    rerun_entry hwf hpo hfuel hk hanc hinv
  obtain ⟨t2, hanc2, hinv2, hrun2⟩ :=
    indexEntries_ok hwf hpo hfuel (n - (k + 1)) (k + 1) t1 (by omega) hanc1 hinv1
  have hkn2 : k + 1 + (n - (k + 1)) = n := by omega
  rw [hkn2] at hanc2 hinv2 hrun2
  obtain ⟨cache4, he4, -⟩ := hrun2 cache3 hc1
  have hcons : (hist.drop k).take (n - k) = hist[k] :: (hist.drop (k + 1)).take (n - (k + 1)) := by
    have : n - k = (n - (k + 1)) + 1 := by omega
    rw [this, List.drop_eq_getElem_cons hk]; rfl
  refine ⟨t1, T, t2, ?_, ?_, ?_⟩
  · rw [Index_traced_eq hwf.1 contents parse fuel [] hanc (le_of_lt hk) (by omega) (by omega)]
    have h1 : (hist.drop k).take (k + 1 - k) = [hist[k]] := by
      have : k + 1 - k = 1 := by omega
      rw [this, List.drop_eq_getElem_cons hk]; rfl
    rw [h1, indexEntries_cons, htraced]
    rfl
  · rw [Index_eq_indexEntries hwf.1 contents parse fuel hanc (le_of_lt hk) (by omega) hn,
      hcons, indexEntries_cons, hplain]
    simp only
    rw [he4]
    rfl
  · intro P hP hPq
    obtain ⟨f1, r1, hr1, hs1⟩ := hmain P hP hPq
    obtain ⟨t3, r3, cache5, e1, e2, hs3, hanc3, -⟩ :=
      indexEntries_sameSets hwf hpo hfuel (n - (k + 1)) (k + 1) t1 r1 cache3 (by omega)
        hanc1 hinv1 hc1 hs1
    rw [hkn2] at e1 e2 hanc3
    rw [e1] at he4
    simp only [Option.some.injEq, Prod.mk.injEq, IndexState.mk.injEq, and_true,
      true_and] at he4
    obtain ⟨ht, -⟩ := he4
    subst ht
    refine ⟨r3, ?_, hs3, ?_⟩
    · rw [Index_eq_indexEntries hwf.1 contents parse fuel (f1.trans hanc) (le_of_lt hk)
        (by omega) hn, hcons, indexEntries_cons, hr1]
      simp only
      rw [e2]
      rfl
    · intro x hx query
      exact Search_sameSets hwf.1 hanc3 hs3 hn hx hfuel query

/-- A run of `Index` from the empty store that stops at height `m` and goes on to height
`n` leaves the store of a single run to height `n`. -/
theorem Index_resume {hist : List LogEntry} {contents : String → String → List UInt8}
    {parse : ParseSymbolsFunc} (hwf : WellFormed hist) (hpo : ParseOk hist contents parse)
    {fuel m n : Nat} (hfuel : hist.length < fuel) (hm1 : 1 ≤ m) (hmn : m ≤ n)
    (hn : n ≤ hist.length) :
    ∃ tm, Index fuel (gitOfHistory hist contents) postgres parse (commitAt hist m)
        emptyTables = some (tm, none) ∧
      tm.rockskip_ancestry = ancestryUpTo hist m ∧ BlobsInv hist contents parse m tm ∧
      Index fuel (gitOfHistory hist contents) postgres parse (commitAt hist n) emptyTables =
        Index fuel (gitOfHistory hist contents) postgres parse (commitAt hist n) tm := by
  obtain ⟨tm, hrunm, hancm, hinvm, hesm⟩ :=
    Index_ok hwf hpo hfuel (Nat.zero_le m) hm1 (le_trans hmn hn) (emptyTables_ancestry hist)
      (BlobsInv_empty hist contents parse)
  obtain ⟨t, hrun, -, -, hes⟩ :=
    Index_ok hwf hpo hfuel hmn (by omega) hn hancm hinvm
  refine ⟨tm, hrunm, hancm, hinvm, ?_⟩
  obtain ⟨cache1, he1, hc1⟩ := hesm (fun _ => none) (CacheOK_empty hist emptyTables)
  obtain ⟨cache2, he2, -⟩ := hes cache1 hc1
  rw [hrun, Index_eq_indexEntries hwf.1 contents parse fuel (emptyTables_ancestry hist)
    (Nat.zero_le _) (by omega) hn, take_split hist hmn,
    indexEntries_append _ _ _ _ _ _ _ _ he1, he2]
  rfl

/-! ### The spine over a store that satisfies P1 and P2 -/

theorem getHopsLoop_dense {σ : Type} (db : DB σ) (s : σ)
    (hnull : ∃ a h, db.GetCommit s NULL = .ok (a, h, false))
    (hP2 : AncestorDecrease db s) (h : Nat) :
    ∀ (c a : String) (fuel : Nat) (acc : List String), 0 < h →
      db.GetCommit s c = .ok (a, h, true) → (spineH h).length ≤ fuel →
      ∃ rest, getHopsLoop db s fuel c acc = some (.ok (acc ++ rest)) ∧
        rest.length + 1 = (spineH h).length := by
  induction h using Nat.strong_induction_on with
  | _ h ih =>
    intro c a fuel acc hpos hg hfuel
    have hp : 0 < 2 ^ ruler h := Nat.pos_of_ne_zero (by simp)
    have hne : c ≠ NULL := by
      rintro rfl
      obtain ⟨a0, h0, e0⟩ := hnull
      rw [e0] at hg
      simp at hg
    rw [spineH_pos hpos] at hfuel ⊢
    obtain ⟨f, rfl⟩ : ∃ f, fuel = f + 1 := ⟨fuel - 1, by simp at hfuel; omega⟩
    simp only [getHopsLoop, hg, Bool.not_true, Bool.false_eq_true, if_false, hne]
    rcases hP2 c a h hg hpos with ⟨h0, rfl⟩ | ⟨h1, a2, hga⟩
    · rw [h0, spineH_zero] at hfuel ⊢
      obtain ⟨f2, rfl⟩ : ∃ f2, f = f2 + 1 := ⟨f - 1, by simp at hfuel; omega⟩
      obtain ⟨a0, h00, e0⟩ := hnull
      refine ⟨[NULL], ?_, by simp⟩
      simp [getHopsLoop, e0]
    · obtain ⟨rest, hr, hl⟩ := ih (h - 2 ^ ruler h) (by omega) a a2 f (acc ++ [a]) h1 hga
        (by simpa using hfuel)
      refine ⟨a :: rest, ?_, by simp only [List.length_cons]; omega⟩
      rw [hr]
      simp

theorem pgGetCommit_row {hist : List LogEntry} {t : Tables} {k : Nat}
    (ht : t.rockskip_ancestry = ancestryUpTo hist k) {c a : String} {h : Nat}
    (hg : postgres.GetCommit t c = .ok (a, h, true)) :
    ∃ x, 1 ≤ x ∧ x ≤ k ∧ c = commitAt hist x ∧ h = x ∧
      a = commitAt hist (x - 2 ^ ruler x) := by
  change pgGetCommit t c = _ at hg
  unfold pgGetCommit at hg
  rcases hf : t.rockskip_ancestry.find? (fun row => decide (row.commit_id = c)) with _ | row
  · rw [hf] at hg
    simp at hg
  · rw [hf] at hg
    simp only [Except.ok.injEq, Prod.mk.injEq, and_true] at hg
    have hm : row ∈ t.rockskip_ancestry := List.mem_of_find?_eq_some hf
    have hc : row.commit_id = c := by simpa using List.find?_some hf
    rw [ht] at hm
    obtain ⟨x, h1, h2, rfl⟩ := mem_ancestryUpTo.mp hm
    exact ⟨x, h1, h2, hc.symm, hg.2.symm, hg.1.symm⟩

/-- The stores that `Index` produces satisfy P1 and P2. -/
theorem dense_of_ancestry {hist : List LogEntry} (hwf : WellFormedCommits hist)
    {t : Tables} {k : Nat} (ht : t.rockskip_ancestry = ancestryUpTo hist k)
    (hk : k ≤ hist.length) :
    HeightDensity postgres t k ∧ AncestorDecrease postgres t := by
  refine ⟨⟨⟨_, _, pgGetCommit_NULL hwf ht hk⟩, ?_, ?_, ?_⟩, ?_⟩
  · intro c a h hg
    obtain ⟨x, h1, h2, -, rfl, -⟩ := pgGetCommit_row ht hg
    exact ⟨h1, h2⟩
  · intro h h1 h2
    exact ⟨_, _, pgGetCommit_present hwf ht hk h1 h2⟩
  · intro c1 c2 a1 a2 h hg1 hg2
    obtain ⟨x, -, -, rfl, rfl, -⟩ := pgGetCommit_row ht hg1
    obtain ⟨y, -, -, rfl, e, -⟩ := pgGetCommit_row ht hg2
    rw [e]
  · intro c a h hg hpos
    obtain ⟨x, h1, h2, rfl, rfl, rfl⟩ := pgGetCommit_row ht hg
    by_cases h0 : h - 2 ^ ruler h = 0
    · left
      refine ⟨h0, ?_⟩
      rw [h0]
      rfl
    · right
      have hsl := Nat.sub_le h (2 ^ ruler h)
      exact ⟨by omega, _, pgGetCommit_present hwf ht hk (by omega) (by omega)⟩

/-! ### The spine over a store whose ancestors lie below -/

theorem heightIn_present {σ : Type} {db : DB σ} {s : σ} {c a : String} {h : Nat}
    (hg : db.GetCommit s c = .ok (a, h, true)) (hne : c ≠ NULL) : heightIn db s c = h := by
  simp [heightIn, hg, hne]

theorem heightIn_terminal {σ : Type} {db : DB σ} {s : σ} {c : String}
    (h : c = NULL ∨ ∀ a x, db.GetCommit s c ≠ .ok (a, x, true)) : heightIn db s c = 0 := by
  unfold heightIn
  rcases hg : db.GetCommit s c with e | ⟨a, x, present⟩
  · rfl
  · rcases present with _ | _
    · rfl
    · rcases h with h | h
      · simp [h]
      · exact absurd hg (h a x)

theorem getHopsLoop_terminal {σ : Type} (db : DB σ) (s : σ) (f : Nat) (c : String)
    (acc : List String) (h : c = NULL ∨ ∀ a x, db.GetCommit s c ≠ .ok (a, x, true)) :
    ∃ res, getHopsLoop db s (f + 1) c acc = some res ∧ ∀ hops, res = .ok hops → hops = acc := by
  unfold getHopsLoop
  rcases hg : db.GetCommit s c with e | ⟨a, x, present⟩
  · exact ⟨_, rfl, fun hops hh => by simp at hh⟩
  · rcases present with _ | _
    · exact ⟨_, rfl, fun hops hh => by simpa using hh.symm⟩
    · rcases h with h | h
      · simp only [Bool.not_true, Bool.false_eq_true, if_false, h, if_true]
        exact ⟨_, rfl, fun hops hh => by simpa using hh.symm⟩
      · exact absurd hg (h a x)

theorem getHopsLoop_descends {σ : Type} (db : DB σ) (s : σ) (hbelow : AncestorsBelow db s)
    (n : Nat) :
    ∀ (fuel : Nat) (current : String) (pre : List String),
      (∀ a h, db.GetCommit s current = .ok (a, h, true) → h ≤ n) → n + 2 ≤ fuel →
      ∃ res, getHopsLoop db s fuel current (pre ++ [current]) = some res ∧
        ∀ hops, res = .ok hops → ∃ tail, hops = pre ++ current :: tail ∧
          ((∀ c a h, db.GetCommit s c = .ok (a, h, true) → 1 ≤ h) →
            List.Chain' (fun x y => heightIn db s y < heightIn db s x) (current :: tail)) := by
  induction n using Nat.strong_induction_on with
  | _ n ih =>
    intro fuel current pre hn hfuel
    obtain ⟨f, rfl⟩ : ∃ f, fuel = f + 1 := ⟨fuel - 1, by omega⟩
    by_cases hterm : current = NULL ∨ ∀ a x, db.GetCommit s current ≠ .ok (a, x, true)
    · obtain ⟨res, hr, hh⟩ := getHopsLoop_terminal db s f current (pre ++ [current]) hterm
      refine ⟨res, hr, fun hops hres => ⟨[], ?_, fun _ => List.chain'_singleton _⟩⟩
      rw [hh hops hres]
    · have hne : current ≠ NULL := fun h => hterm (Or.inl h)
      have hex : ∃ a h, db.GetCommit s current = .ok (a, h, true) := by
        by_contra hno
        exact hterm (Or.inr fun a x hg => hno ⟨a, x, hg⟩)
      obtain ⟨a, h, hg⟩ := hex
      have hhn := hn a h hg
      unfold getHopsLoop
      simp only [hg, Bool.not_true, Bool.false_eq_true, if_false, hne]
      by_cases hterm2 : a = NULL ∨ ∀ a2 x, db.GetCommit s a ≠ .ok (a2, x, true)
      · obtain ⟨f2, rfl⟩ : ∃ f2, f = f2 + 1 := ⟨f - 1, by omega⟩
        obtain ⟨res, hr, hh⟩ := getHopsLoop_terminal db s f2 a (pre ++ [current] ++ [a]) hterm2
        refine ⟨res, hr, fun hops hres => ⟨[a], ?_, fun hpos => ?_⟩⟩
        · rw [hh hops hres]; simp
        · refine List.chain'_pair.mpr ?_
          rw [heightIn_terminal hterm2, heightIn_present hg hne]
          exact hpos current a h hg
      · have hne2 : a ≠ NULL := fun h => hterm2 (Or.inl h)
        have hex2 : ∃ a2 h2, db.GetCommit s a = .ok (a2, h2, true) := by
          by_contra hno
          exact hterm2 (Or.inr fun a2 x hg2 => hno ⟨a2, x, hg2⟩)
        obtain ⟨a2, h2, hg2⟩ := hex2
        have hlt : h2 < h := by
          rcases hbelow current a h hg a2 h2 hg2 with h0 | h0
          · exact absurd h0 hne2
          · exact h0
        obtain ⟨res, hr, hh⟩ := ih (n - 1) (by omega) f a (pre ++ [current])
          (fun a3 h3 hg3 => by
            rw [hg2] at hg3
            simp only [Except.ok.injEq, Prod.mk.injEq, and_true] at hg3
            omega)
          (by omega)
        refine ⟨res, hr, fun hops hres => ?_⟩
        obtain ⟨tail, ht, hc⟩ := hh hops hres
        refine ⟨a :: tail, by rw [ht]; simp, fun hpos => ?_⟩
        refine List.Chain'.cons ?_ (hc hpos)
        rw [heightIn_present hg hne, heightIn_present hg2 hne2]
        exact hlt

/-- In the stores that `Index` produces every present commit has a height of at least 1,
and its ancestor is `NULL` or a present commit of smaller height. -/
theorem ancestorsBelow_of_ancestry {hist : List LogEntry} (hwf : WellFormedCommits hist)
    {t : Tables} {k : Nat} (ht : t.rockskip_ancestry = ancestryUpTo hist k)
    (hk : k ≤ hist.length) :
    AncestorsBelow postgres t ∧
      ∀ c a h, postgres.GetCommit t c = .ok (a, h, true) → 1 ≤ h := by
  constructor
  · intro c a h hg a2 h2 hg2
    obtain ⟨x, h1, hxk, -, rfl, rfl⟩ := pgGetCommit_row ht hg
    obtain ⟨y, -, hyk, e, rfl, -⟩ := pgGetCommit_row ht hg2
    right
    have hp : 0 < 2 ^ ruler h := Nat.pos_of_ne_zero (by simp)
    have hsl := Nat.sub_le h (2 ^ ruler h)
    have hy := commitAt_inj hwf (by omega) (by omega) e
    omega
  · intro c a h hg
    obtain ⟨x, h1, -, -, rfl, -⟩ := pgGetCommit_row ht hg
    exact h1

/-! ### Which rows the collapse changes -/

theorem forall₂_mem_left {α β : Type} {R : α → β → Prop} :
    ∀ {l : List α} {l1 : List β}, List.Forall₂ R l l1 → ∀ a ∈ l, ∃ b ∈ l1, R a b := by
  intro l l1 h
  induction h with
  | nil => intro a ha; simp at ha
  | @cons a b l l1 hab _ ih =>
    intro x hx
    rcases List.mem_cons.mp hx with rfl | hx
    · exact ⟨b, List.mem_cons_self _ _, hab⟩
    · obtain ⟨y, hy, hR⟩ := ih x hx
      exact ⟨y, List.mem_cons_of_mem _ hy, hR⟩

theorem collapse_ne_iff (c : String) (b : BlobRow) :
    collapse c b ≠ b ↔ c ∈ b.added ∧ c ∈ b.deleted := by
  constructor
  · intro h
    by_contra hno
    apply h
    unfold collapse
    rw [if_neg]
    simpa [overlaps_singleton] using hno
  · rintro ⟨h1, h2⟩ heq
    have hm := (mem_collapse_added c b c).not.mpr (by
      intro h
      exact h.2 rfl h2)
    rw [heq] at hm
    exact hm h1

theorem appendBoth_changed {hs : List String} {c : String} {b : BlobRow}
    (ha : c ∉ b.added) (hd : c ∉ b.deleted) :
    (c ∈ (appendBoth hs c b).added ∧ c ∈ (appendBoth hs c b).deleted) ↔
      ((appendBoth hs c b).added ≠ b.added ∧ (appendBoth hs c b).deleted ≠ b.deleted) := by
  rw [appendBoth_added, appendBoth_deleted]
  by_cases h1 : overlaps hs b.added = true <;> by_cases h2 : overlaps hs b.deleted = true <;>
    simp [h1, h2, ha, hd]

/-- The entry at height `k + 1` of a well-formed history, step by step, and the rows that
its `DeleteRedundant` changes: a row that the path loop changed, or a row to which both
`AppendHop` statements appended the commit. -/
theorem collapse_cases {hist : List LogEntry} {contents : String → String → List UInt8}
    {parse : ParseSymbolsFunc} (hwf : WellFormed hist) (hpo : ParseOk hist contents parse)
    {fuel k : Nat} (hfuel : hist.length < fuel) (hk : k < hist.length) {sk : Tables}
    (hanc : sk.rockskip_ancestry = ancestryUpTo hist k)
    (hinv : BlobsInv hist contents parse k sk) :
    ∃ hops ancestor s1 s2 s3 cache3 s4,
      getHops fuel postgres sk (commitAt hist k) = some (.ok hops) ∧
      hops[ruler (k + 1)]? = some ancestor ∧
      postgres.AppendHop sk (hops.take (ruler (k + 1))) .AddedAD (hist[k]).Commit = .ok s1 ∧
      postgres.AppendHop s1 (hops.take (ruler (k + 1))) .DeletedAD (hist[k]).Commit =
        .ok s2 ∧
      indexPaths (gitOfHistory hist contents) postgres parse hops (hist[k]).Commit
        (hist[k]).PathStatuses s2 (fun _ => none) = (s3, cache3, none) ∧
      postgres.DeleteRedundant s3 (hist[k]).Commit = .ok s4 ∧
      indexEntry fuel (gitOfHistory hist contents) postgres parse hist[k]
          { db := sk, tipCommit := commitAt hist k, tipHeight := k,
            pathToBlobIdCache := fun _ => none } =
        some ({ db := insertCommit postgres s4 (hist[k]).Commit (k + 1) ancestor,
                tipCommit := (hist[k]).Commit, tipHeight := k + 1,
                pathToBlobIdCache := cache3 }, none) ∧
      (∀ b3 ∈ s3.rockskip_blobs, ∀ b4 ∈ s4.rockskip_blobs, b4.id = b3.id → b4 ≠ b3 →
        ∃ b0 ∈ sk.rockskip_blobs, ∃ b2 ∈ s2.rockskip_blobs, b0.id = b3.id ∧ b2.id = b3.id ∧
          (b3 ≠ b2 ∨ (b2.added ≠ b0.added ∧ b2.deleted ≠ b0.deleted))) ∧
      ((hist[k]).PathStatuses = [] → s3 = s2 ∧
        ∀ b0 ∈ sk.rockskip_blobs, ∀ b2 ∈ s2.rockskip_blobs, ∀ b4 ∈ s4.rockskip_blobs,
          b2.id = b0.id → b4.id = b0.id →
          (b4 ≠ b2 ↔ b2.added ≠ b0.added ∧ b2.deleted ≠ b0.deleted)) := by
  have hc : (hist[k]).Commit = commitAt hist (k + 1) := entry_commit hk
  have hhops := getHops_spine hwf.1 hanc (le_of_lt hk) (le_refl k) hfuel
  obtain ⟨s1, hs1, hs2⟩ := pgAppendHop_both sk
    (((spineH k).map (commitAt hist)).take (ruler (k + 1))) (hist[k]).Commit
  obtain ⟨hkeys2, hmid2⟩ := appendBoth_inv hwf.1 hk hinv
  rw [← hc] at hkeys2 hmid2
  obtain ⟨t3, ins3, hid3, hkeys3, hmid3, -, -, hrun3⟩ :=
    indexPaths_ok hwf hk (hist[k]).PathStatuses [] [] _ (hwf.2 k hk).1
      (fun ps _ => List.not_mem_nil _) (fun ps _ => List.not_mem_nil _)
      (fun ps hps => entry_status hwf hk hps)
      (fun ps hps hne => by
        have := hpo hist[k] (List.getElem_mem _) ps hps hne
        rwa [hc] at this)
      hkeys2 hmid2
  obtain ⟨cache3, hp, -⟩ := hrun3 (fun _ => none) (CacheOK_empty hist _)
  rw [← hc] at hp
  have hfresh := fresh_commit hwf.1 hk hinv
  rw [← hc] at hfresh
  have hkeep : KeepsRows (hist[k]).Commit
      (sk.rockskip_blobs.map (appendBoth (((spineH k).map (commitAt hist)).take
        (ruler (k + 1))) (hist[k]).Commit)) t3.rockskip_blobs := by
    have := indexPaths_keeps (c := (hist[k]).Commit) (gitOfHistory hist contents) parse
      ((spineH k).map (commitAt hist)) (hist[k]).PathStatuses
      { sk with rockskip_blobs := (sk.rockskip_blobs.map
          (appendBoth (((spineH k).map (commitAt hist)).take (ruler (k + 1)))
            (hist[k]).Commit)) } (fun _ => none) (keepsRows_refl _ _)
    rw [hp] at this
    exact this
  -- a row of the store before `DeleteRedundant` that the collapse changes is an old row
  have hold : ∀ b3 ∈ t3.rockskip_blobs, collapse (hist[k]).Commit b3 ≠ b3 →
      ∃ b0 ∈ sk.rockskip_blobs, b0.id = b3.id ∧
        SameExcept (hist[k]).Commit
          (appendBoth (((spineH k).map (commitAt hist)).take (ruler (k + 1)))
            (hist[k]).Commit b0) b3 := by
    intro b3 hb3 hne
    obtain ⟨ha, hd⟩ := (collapse_ne_iff _ _).mp hne
    obtain ⟨r1, r2, r3, r4, -, -⟩ := hkeys3.rows b3 hb3
    have hle : b3.birth hist ≤ k := by
      by_contra hgt
      have hf := (hmid3.fresh b3 hb3 (by omega)).2
      rw [hf] at hd
      simp at hd
    obtain ⟨b0, hb0, hc0, hp0⟩ := hinv.1.complete_old _ _ hle r4
    obtain ⟨olds, news, hsplit, hfa⟩ := hkeep
    obtain ⟨b', hb', hse⟩ := forall₂_mem_left hfa _ (List.mem_map_of_mem _ hb0)
    have hkk := appendBoth_keys (((spineH k).map (commitAt hist)).take (ruler (k + 1)))
      (hist[k]).Commit b0
    have hb'3 : b' ∈ t3.rockskip_blobs := by
      rw [hsplit]; exact List.mem_append_left _ hb'
    have heq : b' = b3 := hkeys3.eq_of_key hb'3 hb3
      (by rw [hse.2.1, hkk.2.1, hc0, r3]) (by rw [hse.2.2.1, hkk.2.2.1, hp0])
    subst heq
    exact ⟨b0, hb0, by rw [hse.1, hkk.1], hse⟩
  refine ⟨_, _, s1, _, t3, cache3, _, hhops, spine_ancestor hist k, hs1, hs2, hp,
    pgDeleteRedundant_eq _ _, ?_, ?_, ?_⟩
  · rw [indexEntry_postgres fuel (gitOfHistory hist contents) parse hist[k]
      { db := sk, tipCommit := commitAt hist k, tipHeight := k,
        pathToBlobIdCache := fun _ => none }
      ((spineH k).map (commitAt hist)) (commitAt hist (k + 1 - 2 ^ ruler (k + 1))) hhops
      (spine_ancestor hist k)]
    simp only
    rw [hp]
  · intro b3 hb3 b4 hb4 hid hne
    simp only at hb4
    obtain ⟨b3', hb3', rfl⟩ := List.mem_map.mp hb4
    have hid2 : b3'.id = b3.id := by rw [← hid, (collapse_keys _ b3').1]
    have := hkeys3.eq_of_id hb3' hb3 hid2
    subst this
    obtain ⟨b0, hb0, hid0, hse⟩ := hold b3' hb3 hne
    refine ⟨b0, hb0, _, List.mem_map_of_mem _ hb0, hid0, hse.1.symm, ?_⟩
    by_cases heq : b3' = appendBoth (((spineH k).map (commitAt hist)).take (ruler (k + 1)))
        (hist[k]).Commit b0
    · right
      obtain ⟨ha, hd⟩ := (collapse_ne_iff _ _).mp hne
      rw [heq] at ha hd
      exact (appendBoth_changed (hfresh b0 hb0).1 (hfresh b0 hb0).2).mp ⟨ha, hd⟩
    · exact Or.inl heq
  · intro hempty
    have hs3 : t3 = { sk with rockskip_blobs := (sk.rockskip_blobs.map
        (appendBoth (((spineH k).map (commitAt hist)).take (ruler (k + 1)))
          (hist[k]).Commit)) } := by
      rw [hempty] at hp
      simp only [indexPaths, Prod.mk.injEq] at hp
      exact hp.1.symm
    refine ⟨hs3, ?_⟩
    intro b0 hb0 b2 hb2 b4 hb4 hid2 hid4
    simp only at hb2 hb4
    obtain ⟨b0', hb0', rfl⟩ := List.mem_map.mp hb2
    have e0 : b0' = b0 := hinv.1.eq_of_id hb0' hb0 (by
      rw [← hid2, (appendBoth_keys _ _ b0').1])
    subst e0
    obtain ⟨b3, hb3, rfl⟩ := List.mem_map.mp hb4
    rw [hs3] at hb3
    simp only at hb3
    obtain ⟨b0'', hb0'', rfl⟩ := List.mem_map.mp hb3
    have e1 : b0'' = b0' := hinv.1.eq_of_id hb0'' hb0 (by
      rw [← hid4, (collapse_keys _ _).1, (appendBoth_keys _ _ b0'').1])
    subst e1
    rw [collapse_ne_iff]
    exact appendBoth_changed (hfresh b0'' hb0).1 (hfresh b0'' hb0).2

/-! ### The birth commit of a blob: rows -/

theorem idsOK_map {t : Tables} (h : IdsOK t) {f : BlobRow → BlobRow} (hf : KeepsKeys f) :
    IdsOK { t with rockskip_blobs := t.rockskip_blobs.map f } := by
  constructor
  · have : (t.rockskip_blobs.map f).map (fun b => b.id) =
        t.rockskip_blobs.map fun b => b.id := by
      rw [List.map_map]
      exact List.map_congr_left fun b _ => (hf b).1
    simp only [this]
    exact h.1
  · intro b hb
    obtain ⟨b0, hb0, rfl⟩ := List.mem_map.mp hb
    rw [(hf b0).1]
    exact h.2 b0 hb0

theorem cacheIds_map {t : Tables} {cache : String → Option Nat} (h : CacheIds t cache)
    {f : BlobRow → BlobRow} (hf : KeepsKeys f) :
    CacheIds { t with rockskip_blobs := t.rockskip_blobs.map f } cache := by
  intro p id hc
  obtain ⟨h1, h2⟩ := h p id hc
  refine ⟨h1, fun b hb hid => ?_⟩
  obtain ⟨b0, hb0, rfl⟩ := List.mem_map.mp hb
  rw [(hf b0).2.2.1]
  exact h2 b0 hb0 ((hf b0).1.symm.trans hid)

theorem bornRow_mono {hist : List LogEntry} {k m m1 : Nat} {b : BlobRow}
    (h : BornRow hist k m b) (hm : m ≤ m1) : BornRow hist k m1 b := by
  obtain ⟨a, h1, h2, h3, h4, h5⟩ := h
  refine ⟨a, h1, h2, h3, h4, fun y hy => ?_⟩
  obtain ⟨x, hx1, hx2, hx3⟩ := h5 y hy
  exact ⟨x, hx1, le_trans hx2 hm, hx3⟩

theorem bornRow_arrayAppend {hist : List LogEntry} {k : Nat} {b : BlobRow}
    (h : BornRow hist k (k + 1) b) (status : StatusAD) :
    BornRow hist k (k + 1) (b.arrayAppend status (commitAt hist (k + 1))) := by
  obtain ⟨a, h1, h2, h3, h4, h5⟩ := h
  cases status
  · exact ⟨a, h1, h2, h3, List.mem_append_left _ h4, h5⟩
  · refine ⟨a, h1, h2, h3, h4, fun y hy => ?_⟩
    rcases List.mem_append.mp hy with hy | hy
    · exact h5 y hy
    · simp only [List.mem_singleton] at hy
      exact ⟨k + 1, by omega, le_refl _, hy⟩

theorem bornRow_appendOne {hist : List LogEntry} {k : Nat} {b : BlobRow}
    (h : BornRow hist k (k + 1) b) (hs : List String) (status : StatusAD) :
    BornRow hist k (k + 1) (appendOne hs status (commitAt hist (k + 1)) b) := by
  unfold appendOne
  split
  · exact bornRow_arrayAppend h status
  · exact h

theorem bornRow_updateOne {hist : List LogEntry} {k : Nat} {b : BlobRow}
    (h : BornRow hist k (k + 1) b) (id : Nat) (status : StatusAD) :
    BornRow hist k (k + 1) (updateOne id status (commitAt hist (k + 1)) b) := by
  unfold updateOne
  split
  · exact bornRow_arrayAppend h status
  · exact h

theorem bornRow_collapse {hist : List LogEntry} (hwf : WellFormedCommits hist) {k : Nat}
    (hk : k < hist.length) {b : BlobRow} (h : BornRow hist k (k + 1) b) :
    BornRow hist k (k + 1) (collapse (commitAt hist (k + 1)) b) := by
  obtain ⟨a, h1, h2, h3, h4, h5⟩ := h
  have hkk := collapse_keys (commitAt hist (k + 1)) b
  refine ⟨a, h1, h2, hkk.2.1.trans h3, ?_, fun y hy => ?_⟩
  · rw [hkk.2.1, mem_collapse_added]
    refine ⟨h4, fun heq => ?_⟩
    rw [h3] at heq
    have := commitAt_inj hwf (by omega) (by omega) heq
    omega
  · exact h5 y ((mem_collapse_deleted _ _ _).mp hy).1

/-! ### The birth commit of a blob: the steps of an entry -/

theorem birthMid_map {hist : List LogEntry} {k N0 : Nat} {done : List String} {t : Tables}
    (h : BirthMid hist k N0 done t) {f : BlobRow → BlobRow} (hf : KeepsKeys f)
    (hold : ∀ b ∈ t.rockskip_blobs, b.id < N0 → BornRow hist k (k + 1) b →
      BornRow hist k (k + 1) (f b))
    (hnew : ∀ b ∈ t.rockskip_blobs, N0 ≤ b.id → b.added = [commitAt hist (k + 1)] →
      b.deleted = [] → f b = b) :
    BirthMid hist k N0 done { t with rockskip_blobs := t.rockskip_blobs.map f } := by
  obtain ⟨h1, h2, h3⟩ := h
  refine ⟨idsOK_map h1 hf, h2, fun b hb => ?_⟩
  obtain ⟨b0, hb0, rfl⟩ := List.mem_map.mp hb
  rcases h3 b0 hb0 with ⟨i, hb⟩ | ⟨i, c1, c2, c3, c4⟩
  · exact Or.inl ⟨by rw [(hf b0).1]; exact i, hold b0 hb0 i hb⟩
  · rw [hnew b0 hb0 i c2 c3]
    exact Or.inr ⟨i, c1, c2, c3, c4⟩

theorem birthMid_start {hist : List LogEntry} {k : Nat} {t : Tables}
    (h : BirthInv hist k t) (hs : List String) :
    BirthMid hist k t.nextId []
      { t with rockskip_blobs := (t.rockskip_blobs.map
          (appendBoth hs (commitAt hist (k + 1)))) } := by
  have h0 : BirthMid hist k t.nextId [] t :=
    ⟨h.1, le_refl _, fun b hb =>
      Or.inl ⟨h.1.2 b hb, bornRow_mono (h.2 b hb) (Nat.le_succ k)⟩⟩
  refine birthMid_map h0 (appendBoth_keys _ _) (fun b _ _ hb => ?_) (fun b hb hi => ?_)
  · unfold appendBoth
    exact bornRow_appendOne (bornRow_appendOne hb hs .AddedAD) hs .DeletedAD
  · have := h.1.2 b hb
    omega

theorem birthMid_updateDeleted {hist : List LogEntry} {k N0 : Nat} {done : List String}
    {t : Tables} (h : BirthMid hist k N0 done t) {id : Nat}
    (hid : ∀ b ∈ t.rockskip_blobs, b.id = id → b.id < N0) :
    BirthMid hist k N0 done (updateDeleted postgres t id (commitAt hist (k + 1))) := by
  rw [updateDeleted_eq]
  refine birthMid_map h (markDeleted_keys _ _) (fun b _ _ hb => ?_) (fun b hb hi _ _ => ?_)
  · exact bornRow_updateOne hb id .DeletedAD
  · unfold markDeleted updateOne
    rw [if_neg]
    intro heq
    have := hid b hb heq
    omega

theorem cacheIds_updateDeleted {t : Tables} {cache : String → Option Nat}
    (h : CacheIds t cache) (id : Nat) (c : String) :
    CacheIds (updateDeleted postgres t id c) cache := by
  rw [updateDeleted_eq]
  exact cacheIds_map h (markDeleted_keys _ _)

theorem pgGetBlob_found {t : Tables} {hop path : String} {id : Nat}
    (h : postgres.GetBlob t hop path = .ok (id, true)) :
    ∃ b ∈ t.rockskip_blobs, b.id = id ∧ hop ∈ b.added := by
  simp only [postgres_GetBlob, pgGetBlob] at h
  rcases hf : t.rockskip_blobs.find? (fun b =>
      decide (b.path = path) && decide (hop ∈ b.added) && !decide (hop ∈ b.deleted))
    with _ | b
  · rw [hf] at h
    simp at h
  · rw [hf] at h
    simp only [Except.ok.injEq, Prod.mk.injEq, and_true] at h
    have hp := List.find?_some hf
    simp only [Bool.and_eq_true, decide_eq_true_eq] at hp
    exact ⟨b, List.mem_of_find?_eq_some hf, h, hp.1.2⟩

theorem lookupBlob_found {t : Tables} {path : String} {id : Nat} :
    ∀ (hops : List String), lookupBlob postgres t path hops = .ok (id, true) →
      ∃ hop ∈ hops, ∃ b ∈ t.rockskip_blobs, b.id = id ∧ hop ∈ b.added := by
  intro hops
  induction hops with
  | nil => intro h; simp [lookupBlob] at h
  | cons hop hops ih =>
    intro h
    unfold lookupBlob at h
    rcases hg : postgres.GetBlob t hop path with e | ⟨id1, found⟩
    · rw [hg] at h
      simp at h
    · rw [hg] at h
      simp only at h
      rcases found with _ | _
      · simp only [Bool.false_eq_true, if_false] at h
        obtain ⟨hop2, hm, hb⟩ := ih h
        exact ⟨hop2, List.mem_cons_of_mem _ hm, hb⟩
      · simp only [if_true, Except.ok.injEq, Prod.mk.injEq, and_true] at h
        subst h
        obtain ⟨b, hb, hid, ha⟩ := pgGetBlob_found hg
        exact ⟨hop, List.mem_cons_self _ _, b, hb, hid, ha⟩

/-- The row that the delete half of the path loop marks was born before the entry. -/
theorem birthMid_deletePath {hist : List LogEntry} {k N0 : Nat} {done : List String}
    {t t1 : Tables} {cache : String → Option Nat} {hops : List String} {path : String}
    (h : BirthMid hist k N0 done t) (hcache : CacheIds t cache) (hpath : path ∉ done)
    (hhops : commitAt hist (k + 1) ∉ hops)
    (hrun : deletePath postgres hops (commitAt hist (k + 1)) path t cache = (t1, none)) :
    BirthMid hist k N0 done t1 ∧ CacheIds t1 cache := by
  have hold_of : ∀ id, (∃ b ∈ t.rockskip_blobs, b.id = id ∧
      ((∃ hop ∈ hops, hop ∈ b.added) ∨ b.path = path)) →
      ∀ b ∈ t.rockskip_blobs, b.id = id → b.id < N0 := by
    rintro id ⟨b0, hb0, hid0, hwhy⟩ b hb hid
    have heq : b = b0 := List.inj_on_of_nodup_map h.1.1 hb hb0 (hid.trans hid0.symm)
    subst heq
    rcases h.2.2 b hb with ⟨i, -⟩ | ⟨-, -, c2, -, c4⟩
    · exact i
    · rcases hwhy with ⟨hop, hm, ha⟩ | hp
      · rw [c2] at ha
        simp only [List.mem_singleton] at ha
        rw [ha] at hm
        exact absurd hm hhops
      · rw [hp] at c4
        exact absurd c4 hpath
  unfold deletePath at hrun
  rcases hc : cache path with _ | id
  · rw [hc] at hrun
    simp only at hrun
    rcases hl : lookupBlob postgres t path hops with e | ⟨id, found⟩
    · rw [hl] at hrun
      simp at hrun
    · rw [hl] at hrun
      simp only at hrun
      rcases found with _ | _
      · simp at hrun
      · simp only [if_true, Prod.mk.injEq, and_true] at hrun
        subst hrun
        obtain ⟨hop, hm, b, hb, hid, ha⟩ := lookupBlob_found hops hl
        exact ⟨birthMid_updateDeleted h (hold_of id ⟨b, hb, hid, Or.inl ⟨hop, hm, ha⟩⟩),
          cacheIds_updateDeleted hcache _ _⟩
  · rw [hc] at hrun
    simp only [Prod.mk.injEq, and_true] at hrun
    subst hrun
    refine ⟨birthMid_updateDeleted h ?_, cacheIds_updateDeleted hcache _ _⟩
    intro b hb hid
    exact hold_of id ⟨b, hb, hid, Or.inr ((hcache path id hc).2 b hb hid)⟩ b hb hid

theorem birthMid_done {hist : List LogEntry} {k N0 : Nat} {done done1 : List String}
    {t : Tables} (h : BirthMid hist k N0 done t) (hsub : ∀ p ∈ done, p ∈ done1) :
    BirthMid hist k N0 done1 t := by
  obtain ⟨h1, h2, h3⟩ := h
  refine ⟨h1, h2, fun b hb => ?_⟩
  rcases h3 b hb with h | ⟨i, c1, c2, c3, c4⟩
  · exact Or.inl h
  · exact Or.inr ⟨i, c1, c2, c3, hsub _ c4⟩

/-- The insert half of the path loop adds a row of the entry. -/
theorem birthMid_insertPath {hist : List LogEntry} {k N0 : Nat} {done : List String}
    {t t1 : Tables} {cache cache1 : String → Option Nat} (git : Git)
    (parse : ParseSymbolsFunc) {path : String}
    (h : BirthMid hist k N0 done t) (hcache : CacheIds t cache)
    (hrun : insertPath git postgres parse (commitAt hist (k + 1)) path t cache =
      (t1, cache1, none)) :
    BirthMid hist k N0 (path :: done) t1 ∧ CacheIds t1 cache1 := by
  unfold insertPath at hrun
  rcases hcat : git.CatFile (commitAt hist (k + 1)) path with e | contents
  · rw [hcat] at hrun
    simp at hrun
  · rw [hcat] at hrun
    simp only at hrun
    rcases hpar : parse path contents with e | _ | symbols
    · rw [hpar] at hrun
      simp at hrun
    · rw [hpar] at hrun
      simp [postgres_InsertBlob, pgInsertBlob] at hrun
    · rw [hpar] at hrun
      simp only [postgres_InsertBlob, pgInsertBlob, Prod.mk.injEq, and_true] at hrun
      obtain ⟨rfl, rfl⟩ := hrun
      obtain ⟨⟨n1, n2⟩, h2, h3⟩ := h
      refine ⟨⟨⟨?_, ?_⟩, by simp only; omega, ?_⟩, ?_⟩
      · simp only [List.map_append, List.map_cons, List.map_nil]
        rw [List.nodup_append]
        refine ⟨n1, List.nodup_singleton _, ?_⟩
        intro x hx1 hx2
        simp only [List.mem_singleton] at hx2
        obtain ⟨b, hb, rfl⟩ := List.mem_map.mp hx1
        have := n2 b hb
        omega
      · intro b hb
        simp only at hb ⊢
        rcases List.mem_append.mp hb with hb | hb
        · have := n2 b hb
          omega
        · simp only [List.mem_singleton] at hb
          rw [hb]
          exact Nat.lt_succ_self _
      · intro b hb
        simp only at hb
        rcases List.mem_append.mp hb with hb | hb
        · rcases h3 b hb with h | ⟨i, c1, c2, c3, c4⟩
          · exact Or.inl h
          · exact Or.inr ⟨i, c1, c2, c3, List.mem_cons_of_mem _ c4⟩
        · simp only [List.mem_singleton] at hb
          rw [hb]
          exact Or.inr ⟨h2, rfl, rfl, rfl, List.mem_cons_self _ _⟩
      · intro p id hc
        simp only at hc ⊢
        by_cases hp : p = path
        · rw [if_pos hp] at hc
          simp only [Option.some.injEq] at hc
          subst hc
          refine ⟨Nat.lt_succ_self _, fun b hb hid => ?_⟩
          rcases List.mem_append.mp hb with hb | hb
          · have := n2 b hb
            omega
          · simp only [List.mem_singleton] at hb
            rw [hb, hp]
        · rw [if_neg hp] at hc
          obtain ⟨q1, q2⟩ := hcache p id hc
          refine ⟨by omega, fun b hb hid => ?_⟩
          rcases List.mem_append.mp hb with hb | hb
          · exact q2 b hb hid
          · simp only [List.mem_singleton] at hb
            rw [hb] at hid
            simp only at hid
            omega

theorem birthMid_indexPath {hist : List LogEntry} {k N0 : Nat} {done : List String}
    {t t1 : Tables} {cache cache1 : String → Option Nat} (git : Git)
    (parse : ParseSymbolsFunc) {hops : List String} {ps : PathStatus}
    (h : BirthMid hist k N0 done t) (hcache : CacheIds t cache) (hpath : ps.Path ∉ done)
    (hhops : commitAt hist (k + 1) ∉ hops)
    (hrun : indexPath git postgres parse hops (commitAt hist (k + 1)) ps t cache =
      (t1, cache1, none)) :
    BirthMid hist k N0 (ps.Path :: done) t1 ∧ CacheIds t1 cache1 := by
  unfold indexPath at hrun
  by_cases hd : ps.Status = .DeletedAMD ∨ ps.Status = .ModifiedAMD
  · simp only [if_pos hd] at hrun
    rcases hdp : deletePath postgres hops (commitAt hist (k + 1)) ps.Path t cache
      with ⟨s1, _ | e⟩
    · rw [hdp] at hrun
      simp only at hrun
      obtain ⟨m1, c1⟩ := birthMid_deletePath h hcache hpath hhops hdp
      by_cases hi : ps.Status = .AddedAMD ∨ ps.Status = .ModifiedAMD
      · rw [if_pos hi] at hrun
        exact birthMid_insertPath git parse m1 c1 hrun
      · rw [if_neg hi] at hrun
        simp only [Prod.mk.injEq, and_true] at hrun
        obtain ⟨rfl, rfl⟩ := hrun
        exact ⟨birthMid_done m1 fun p hp => List.mem_cons_of_mem _ hp, c1⟩
    · rw [hdp] at hrun
      simp at hrun
  · simp only [if_neg hd] at hrun
    by_cases hi : ps.Status = .AddedAMD ∨ ps.Status = .ModifiedAMD
    · rw [if_pos hi] at hrun
      exact birthMid_insertPath git parse h hcache hrun
    · rw [if_neg hi] at hrun
      simp only [Prod.mk.injEq, and_true] at hrun
      obtain ⟨rfl, rfl⟩ := hrun
      exact ⟨birthMid_done h fun p hp => List.mem_cons_of_mem _ hp, hcache⟩

theorem birthMid_indexPaths {hist : List LogEntry} {k N0 : Nat} (git : Git)
    (parse : ParseSymbolsFunc) {hops : List String}
    (hhops : commitAt hist (k + 1) ∉ hops) :
    ∀ (pss : List PathStatus) (done : List String) (t t1 : Tables)
      (cache cache1 : String → Option Nat),
      (pss.map fun ps => ps.Path).Nodup → (∀ ps ∈ pss, ps.Path ∉ done) →
      BirthMid hist k N0 done t → CacheIds t cache →
      indexPaths git postgres parse hops (commitAt hist (k + 1)) pss t cache =
        (t1, cache1, none) →
      ∃ done1, BirthMid hist k N0 done1 t1 ∧ CacheIds t1 cache1 := by
  intro pss
  induction pss with
  | nil =>
    intro done t t1 cache cache1 _ _ h hc hrun
    simp only [indexPaths, Prod.mk.injEq, and_true] at hrun
    obtain ⟨rfl, rfl⟩ := hrun
    exact ⟨done, h, hc⟩
  | cons ps rest ih =>
    intro done t t1 cache cache1 hnd hnot h hc hrun
    rw [List.map_cons, List.nodup_cons] at hnd
    rw [indexPaths_cons] at hrun
    rcases hip : indexPath git postgres parse hops (commitAt hist (k + 1)) ps t cache
      with ⟨s1, cache2, _ | e⟩
    · rw [hip] at hrun
      simp only at hrun
      obtain ⟨m1, c1⟩ := birthMid_indexPath git parse h hc
        (hnot ps (List.mem_cons_self _ _)) hhops hip
      refine ih (ps.Path :: done) s1 t1 cache2 cache1 hnd.2 ?_ m1 c1 hrun
      intro ps2 h2 hm
      rcases List.mem_cons.mp hm with heq | hm
      · exact hnd.1 (heq ▸ List.mem_map.mpr ⟨ps2, h2, rfl⟩)
      · exact hnot ps2 (List.mem_cons_of_mem _ h2) hm
    · rw [hip] at hrun
      simp at hrun

/-- The end of an entry: `DeleteRedundant` and `InsertCommit`. -/
theorem birthInv_finish {hist : List LogEntry} (hwf : WellFormedCommits hist) {k N0 : Nat}
    (hk : k < hist.length) {done : List String} {t : Tables}
    {cache : String → Option Nat} (h : BirthMid hist k N0 done t) (hcache : CacheIds t cache)
    (height : Nat) (ancestor : String) :
    BirthInv hist (k + 1) (insertCommit postgres
      { t with rockskip_blobs := t.rockskip_blobs.map (collapse (commitAt hist (k + 1))) }
      (commitAt hist (k + 1)) height ancestor) ∧
    CacheIds (insertCommit postgres
      { t with rockskip_blobs := t.rockskip_blobs.map (collapse (commitAt hist (k + 1))) }
      (commitAt hist (k + 1)) height ancestor) cache := by
  have hm := birthMid_map h (collapse_keys (commitAt hist (k + 1)))
    (fun b _ _ hb => bornRow_collapse hwf hk hb)
    (fun b _ _ _ hd => by
      by_contra hne
      have := ((collapse_ne_iff _ _).mp hne).2
      rw [hd] at this
      simp at this)
  have hc := cacheIds_map hcache (collapse_keys (commitAt hist (k + 1)))
  rw [insertCommit_eq]
  refine ⟨⟨hm.1, fun b hb => ?_⟩, hc⟩
  rcases hm.2.2 b hb with ⟨-, a, h1, h2, h3, h4, h5⟩ | ⟨-, c1, c2, c3, -⟩
  · exact ⟨a, h1, by omega, h3, h4, h5⟩
  · refine ⟨k + 1, by omega, le_refl _, c1, ?_, ?_⟩
    · rw [c1, c2]; simp
    · rw [c3]; simp

/-! ### The birth commit of a blob: runs -/

theorem birthInv_indexEntry {hist : List LogEntry} (hwf : WellFormedCommits hist)
    (hnd : NodupPaths hist) (git : Git) (parse : ParseSymbolsFunc) {fuel k : Nat}
    (hfuel : hist.length < fuel) (hk : k < hist.length) {st st1 : IndexState Tables}
    (hst : AtHeight hist k st) (hinv : BirthInv hist k st.db)
    (hcache : CacheIds st.db st.pathToBlobIdCache)
    (hrun : indexEntry fuel git postgres parse hist[k] st = some (st1, none)) :
    AtHeight hist (k + 1) st1 ∧ BirthInv hist (k + 1) st1.db ∧
      CacheIds st1.db st1.pathToBlobIdCache := by
  have hat : AtHeight hist (k + 1) st1 := by
    obtain ⟨st2, err, he, hcase⟩ := indexEntry_ancestry hwf git parse hfuel hk hst
    rw [hrun] at he
    simp only [Option.some.injEq, Prod.mk.injEq] at he
    obtain ⟨rfl, rfl⟩ := he
    rcases hcase with ⟨-, h⟩ | ⟨h, -⟩
    · exact h
    · exact absurd rfl h
  refine ⟨hat, ?_⟩
  obtain ⟨ht, htip, hh⟩ := hst
  have hc : (hist[k]).Commit = commitAt hist (k + 1) := entry_commit hk
  have hhops : getHops fuel postgres st.db st.tipCommit =
      some (.ok ((spineH k).map (commitAt hist))) := by
    rw [htip]
    exact getHops_spine hwf ht (le_of_lt hk) (le_refl k) hfuel
  have hancr : ((spineH k).map (commitAt hist))[ruler (st.tipHeight + 1)]? =
      some (commitAt hist (k + 1 - 2 ^ ruler (k + 1))) := by
    rw [hh]
    exact spine_ancestor hist k
  rw [indexEntry_postgres fuel git parse hist[k] st _ _ hhops hancr, hc, hh] at hrun
  have hnotin : commitAt hist (k + 1) ∉ (spineH k).map (commitAt hist) :=
    next_commit_not_in_spine hwf hk
  rcases hp : indexPaths git postgres parse ((spineH k).map (commitAt hist))
      (commitAt hist (k + 1)) (hist[k]).PathStatuses
      { st.db with rockskip_blobs := (st.db.rockskip_blobs.map
          (appendBoth (((spineH k).map (commitAt hist)).take (ruler (k + 1)))
            (commitAt hist (k + 1)))) }
      st.pathToBlobIdCache with ⟨s3, cache3, _ | e⟩
  · rw [hp] at hrun
    simp only [Option.some.injEq, Prod.mk.injEq, and_true] at hrun
    subst hrun
    obtain ⟨done1, hm, hcm⟩ := birthMid_indexPaths git parse hnotin (hist[k]).PathStatuses []
      _ s3 _ cache3 (hnd hist[k] (List.getElem_mem _)) (fun _ _ => List.not_mem_nil _)
      (birthMid_start hinv _) (cacheIds_map hcache (appendBoth_keys _ _)) hp
    exact birthInv_finish hwf hk hm hcm _ _
  · rw [hp] at hrun
    simp at hrun

theorem birthInv_indexEntries {hist : List LogEntry} (hwf : WellFormedCommits hist)
    (hnd : NodupPaths hist) (git : Git) (parse : ParseSymbolsFunc) {fuel : Nat}
    (hfuel : hist.length < fuel) :
    ∀ (n k : Nat) (st st1 : IndexState Tables), k + n ≤ hist.length →
      AtHeight hist k st → BirthInv hist k st.db → CacheIds st.db st.pathToBlobIdCache →
      indexEntries fuel git postgres parse ((hist.drop k).take n) st = some (st1, none) →
      AtHeight hist (k + n) st1 ∧ BirthInv hist (k + n) st1.db := by
  intro n
  induction n with
  | zero =>
    intro k st st1 _ hst hinv _ hrun
    simp only [List.take_zero, indexEntries, Option.some.injEq, Prod.mk.injEq,
      and_true] at hrun
    subst hrun
    exact ⟨hst, hinv⟩
  | succ n ih =>
    intro k st st1 hkn hst hinv hcache hrun
    have hlt : k < hist.length := by omega
    have hcons : (hist.drop k).take (n + 1) = hist[k] :: (hist.drop (k + 1)).take n := by
      rw [List.drop_eq_getElem_cons hlt]; rfl
    rw [hcons, indexEntries_cons] at hrun
    rcases he : indexEntry fuel git postgres parse hist[k] st with _ | ⟨st2, _ | e⟩
    · rw [he] at hrun
      simp at hrun
    · rw [he] at hrun
      simp only at hrun
      obtain ⟨a1, a2, a3⟩ := birthInv_indexEntry hwf hnd git parse hfuel hlt hst hinv hcache he
      have hkn2 : k + 1 + n = k + (n + 1) := by omega
      rw [← hkn2]
      exact ih (k + 1) st2 st1 (by omega) a1 a2 a3 hrun
    · rw [he] at hrun
      simp at hrun

theorem birthInv_Index {hist : List LogEntry} (hwf : WellFormedCommits hist)
    (hnd : NodupPaths hist) (contents : String → String → List UInt8)
    (parse : ParseSymbolsFunc) {fuel n : Nat} (hfuel : hist.length < fuel) (hn1 : 1 ≤ n)
    (hn : n ≤ hist.length) {t : Tables}
    (hrun : Index fuel (gitOfHistory hist contents) postgres parse (commitAt hist n)
      emptyTables = some (t, none)) :
    t.rockskip_ancestry = ancestryUpTo hist n ∧ BirthInv hist n t := by
  rw [Index_eq_indexEntries hwf contents parse fuel (emptyTables_ancestry hist)
    (Nat.zero_le _) hn1 hn] at hrun
  rcases hes : indexEntries fuel (gitOfHistory hist contents) postgres parse
      ((hist.drop 0).take (n - 0))
      { db := emptyTables, tipCommit := commitAt hist 0, tipHeight := 0,
        pathToBlobIdCache := fun _ => none } with _ | ⟨st1, err⟩
  · rw [hes] at hrun
    simp at hrun
  · rw [hes] at hrun
    simp only [Option.map_some', Option.some.injEq, Prod.mk.injEq] at hrun
    obtain ⟨rfl, rfl⟩ := hrun
    obtain ⟨⟨h1, -, -⟩, h2⟩ := birthInv_indexEntries hwf hnd (gitOfHistory hist contents)
      parse hfuel (n - 0) 0 _ st1 (by omega) ⟨emptyTables_ancestry hist, rfl, rfl⟩
      ⟨⟨by simp [emptyTables], fun b hb => by simp [emptyTables] at hb⟩,
        fun b hb => by simp [emptyTables] at hb⟩
      (fun p id h => by simp at h) hes
    have hn0 : 0 + (n - 0) = n := by omega
    rw [hn0] at h1 h2
    exact ⟨h1, h2⟩

/-- A blob whose row satisfies the birth invariant is returned by `Search` at its own
commit. -/
theorem search_birth {hist : List LogEntry} (hwf : WellFormedCommits hist) {t : Tables}
    {n fuel : Nat} (hanc : t.rockskip_ancestry = ancestryUpTo hist n)
    (hn : n ≤ hist.length) (hfuel : hist.length < fuel) (hinv : BirthInv hist n t)
    {b : BlobRow} (hb : b ∈ t.rockskip_blobs) :
    b.added ≠ [] ∧ b.commit ∈ b.added ∧
      ∃ blobs, Search fuel postgres t b.commit none = some (.ok blobs) ∧
        b.toBlob ∈ blobs := by
  obtain ⟨a, h1, h2, h3, h4, h5⟩ := hinv.2 b hb
  refine ⟨List.ne_nil_of_mem h4, h4, ?_⟩
  rw [h3, Search_eq hwf hanc hn h2 hfuel none, pgSearch_none]
  refine ⟨_, rfl, List.mem_map_of_mem _ (List.mem_filter.mpr ⟨hb, ?_⟩)⟩
  rw [Bool.and_eq_true, Bool.not_eq_true', overlaps_iff]
  constructor
  · refine ⟨commitAt hist a, ?_, h3 ▸ h4⟩
    obtain ⟨l, hl⟩ := spineH_head a
    rw [hl]
    simp
  · rw [← Bool.not_eq_true, overlaps_iff]
    rintro ⟨y, hy, hd⟩
    obtain ⟨i, hi, rfl⟩ := List.mem_map.mp hy
    obtain ⟨x, hx1, hx2, hx3⟩ := h5 _ hd
    have hia := spineH_le a i hi
    have := commitAt_inj hwf (by omega) (by omega) hx3
    omega

/-! ### Columns of a row, for any statuses -/

theorem columnsWithin_appendBoth {hist : List LogEntry} (hwf : WellFormedCommits hist)
    {k : Nat} (hk : k < hist.length) {b : BlobRow} (h : ColumnsWithin hist k b) :
    ColumnsWithin hist (k + 1)
      (appendBoth (((spineH k).map (commitAt hist)).take (ruler (k + 1)))
        (commitAt hist (k + 1)) b) := by
  obtain ⟨a, ha, hd⟩ := h
  refine ⟨a, fun y hy => ?_, fun y hy => ?_⟩
  · rw [appendBoth_added] at hy
    split at hy
    · rename_i hov
      rcases List.mem_append.mp hy with hy | hy
      · obtain ⟨x, h1, h2, h3, h4⟩ := ha y hy
        exact ⟨x, h1, by omega, h3, h4⟩
      · rw [List.mem_singleton] at hy
        subst hy
        obtain ⟨z, hz, hzb⟩ := overlaps_iff.mp hov
        rw [← List.map_take] at hz
        obtain ⟨i, hi, rfl⟩ := List.mem_map.mp hz
        obtain ⟨x, h1, h2, h3, h4⟩ := ha _ hzb
        have hik := mem_take_spineH_le hi
        have hix : i = x := commitAt_inj hwf (by omega) (by omega) h3
        subst hix
        exact ⟨k + 1, by omega, le_refl _, rfl, ((take_cover k a).mp ⟨i, hi, h4⟩).1⟩
    · obtain ⟨x, h1, h2, h3, h4⟩ := ha y hy
      exact ⟨x, h1, by omega, h3, h4⟩
  · rw [appendBoth_deleted] at hy
    split at hy
    · rcases List.mem_append.mp hy with hy | hy
      · obtain ⟨x, h1, h2, h3⟩ := hd y hy
        exact ⟨x, h1, by omega, h3⟩
      · rw [List.mem_singleton] at hy
        exact ⟨k + 1, by omega, le_refl _, hy⟩
    · obtain ⟨x, h1, h2, h3⟩ := hd y hy
      exact ⟨x, h1, by omega, h3⟩

theorem columnsWithin_markDeleted {hist : List LogEntry} {m : Nat} (hm : 1 ≤ m) (id : Nat)
    {b : BlobRow} (h : ColumnsWithin hist m b) :
    ColumnsWithin hist m (markDeleted id (commitAt hist m) b) := by
  obtain ⟨a, ha, hd⟩ := h
  unfold markDeleted updateOne
  split
  · refine ⟨a, ha, fun y hy => ?_⟩
    rcases List.mem_append.mp hy with hy | hy
    · exact hd y hy
    · rw [List.mem_singleton] at hy
      exact ⟨m, hm, le_refl _, hy⟩
  · exact ⟨a, ha, hd⟩

theorem columnsWithin_newRow {hist : List LogEntry} {m : Nat} (hm : 1 ≤ m) (id : Nat)
    (p : String) (symbols : List String) :
    ColumnsWithin hist m (newRow id (commitAt hist m) p symbols) := by
  refine ⟨m, fun y hy => ?_, fun y hy => ?_⟩
  · simp only [newRow, List.mem_singleton] at hy
    exact ⟨m, hm, le_refl _, hy, inI_self m hm⟩
  · simp [newRow] at hy

theorem columnsWithin_collapse {hist : List LogEntry} {m : Nat} (c : String) {b : BlobRow}
    (h : ColumnsWithin hist m b) : ColumnsWithin hist m (collapse c b) := by
  obtain ⟨a, ha, hd⟩ := h
  exact ⟨a, fun y hy => ha y ((mem_collapse_added c b y).mp hy).1,
    fun y hy => hd y ((mem_collapse_deleted c b y).mp hy).1⟩

/-! ### A property of all rows through the path loop -/

theorem rows_updateDeleted {R : BlobRow → Prop} {c : String}
    (hupd : ∀ id b, R b → R (markDeleted id c b)) {t : Tables} (id : Nat)
    (h : ∀ b ∈ t.rockskip_blobs, R b) :
    ∀ b ∈ (updateDeleted postgres t id c).rockskip_blobs, R b := by
  intro b hb
  rw [updateDeleted_eq] at hb
  obtain ⟨b0, hb0, rfl⟩ := List.mem_map.mp hb
  exact hupd id b0 (h b0 hb0)

theorem rows_deletePath {R : BlobRow → Prop} {c : String}
    (hupd : ∀ id b, R b → R (markDeleted id c b)) {t : Tables}
    (hops : List String) (p : String) (cache : String → Option Nat)
    (h : ∀ b ∈ t.rockskip_blobs, R b) :
    ∀ b ∈ (deletePath postgres hops c p t cache).1.rockskip_blobs, R b := by
  unfold deletePath
  cases cache p with
  | some id => exact rows_updateDeleted hupd id h
  | none =>
    simp only
    cases lookupBlob postgres t p hops with
    | error e => exact h
    | ok r =>
      obtain ⟨id, found⟩ := r
      cases found
      · exact h
      · exact rows_updateDeleted hupd id h

theorem rows_insertPath {R : BlobRow → Prop} {c : String}
    (hnew : ∀ id p symbols, R (newRow id c p symbols)) {t : Tables} (git : Git)
    (parse : ParseSymbolsFunc) (p : String) (cache : String → Option Nat)
    (h : ∀ b ∈ t.rockskip_blobs, R b) :
    ∀ b ∈ (insertPath git postgres parse c p t cache).1.rockskip_blobs, R b := by
  unfold insertPath
  cases git.CatFile c p with
  | error e => exact h
  | ok contents =>
    simp only
    cases parse p contents with
    | error e => exact h
    | ok symbols =>
      cases symbols with
      | none => exact h
      | some symbols =>
      intro b hb
      have hb2 : b ∈ t.rockskip_blobs ++ [newRow t.nextId c p symbols] := hb
      rcases List.mem_append.mp hb2 with hb3 | hb3
      · exact h b hb3
      · rw [List.mem_singleton] at hb3
        subst hb3
        exact hnew _ _ _

theorem rows_indexPath {R : BlobRow → Prop} {c : String}
    (hupd : ∀ id b, R b → R (markDeleted id c b))
    (hnew : ∀ id p symbols, R (newRow id c p symbols)) {t : Tables} (git : Git)
    (parse : ParseSymbolsFunc) (hops : List String) (ps : PathStatus)
    (cache : String → Option Nat) (h : ∀ b ∈ t.rockskip_blobs, R b) :
    ∀ b ∈ (indexPath git postgres parse hops c ps t cache).1.rockskip_blobs, R b := by
  unfold indexPath
  by_cases hd : ps.Status = .DeletedAMD ∨ ps.Status = .ModifiedAMD
  · simp only [hd, if_true]
    have h1 := rows_deletePath hupd hops ps.Path cache h
    rcases hdp : deletePath postgres hops c ps.Path t cache with ⟨s1, _ | e⟩
    · rw [hdp] at h1
      simp only
      split
      · exact rows_insertPath hnew git parse ps.Path cache h1
      · exact h1
    · rw [hdp] at h1
      exact h1
  · simp only [hd, if_false]
    split
    · exact rows_insertPath hnew git parse ps.Path cache h
    · exact h

theorem rows_indexPaths {R : BlobRow → Prop} {c : String}
    (hupd : ∀ id b, R b → R (markDeleted id c b))
    (hnew : ∀ id p symbols, R (newRow id c p symbols)) (git : Git)
    (parse : ParseSymbolsFunc) (hops : List String) (pss : List PathStatus) :
    ∀ (t : Tables) (cache : String → Option Nat), (∀ b ∈ t.rockskip_blobs, R b) →
      ∀ b ∈ (indexPaths git postgres parse hops c pss t cache).1.rockskip_blobs, R b := by
  induction pss with
  | nil => intro t cache h; exact h
  | cons ps rest ih =>
    intro t cache h
    unfold indexPaths
    have h1 := rows_indexPath hupd hnew git parse hops ps cache h
    rcases hip : indexPath git postgres parse hops c ps t cache with ⟨s1, cache1, _ | e⟩
    · rw [hip] at h1
      exact ih s1 cache1 h1
    · rw [hip] at h1
      exact h1

/-! ### Columns of a row: runs -/

theorem columnsWithin_indexEntry {hist : List LogEntry} (hwf : WellFormedCommits hist)
    (git : Git) (parse : ParseSymbolsFunc) {fuel k : Nat}
    (hfuel : hist.length < fuel) (hk : k < hist.length) {st st1 : IndexState Tables}
    (hst : AtHeight hist k st) (hinv : ∀ b ∈ st.db.rockskip_blobs, ColumnsWithin hist k b)
    (hrun : indexEntry fuel git postgres parse hist[k] st = some (st1, none)) :
    AtHeight hist (k + 1) st1 ∧ ∀ b ∈ st1.db.rockskip_blobs, ColumnsWithin hist (k + 1) b := by
  have hat : AtHeight hist (k + 1) st1 := by
    obtain ⟨st2, err, he, hcase⟩ := indexEntry_ancestry hwf git parse hfuel hk hst
    rw [hrun] at he
    simp only [Option.some.injEq, Prod.mk.injEq] at he
    obtain ⟨rfl, rfl⟩ := he
    rcases hcase with ⟨-, h⟩ | ⟨h, -⟩
    · exact h
    · exact absurd rfl h
  refine ⟨hat, ?_⟩
  obtain ⟨ht, htip, hh⟩ := hst
  have hc : (hist[k]).Commit = commitAt hist (k + 1) := entry_commit hk
  have hhops : getHops fuel postgres st.db st.tipCommit =
      some (.ok ((spineH k).map (commitAt hist))) := by
    rw [htip]
    exact getHops_spine hwf ht (le_of_lt hk) (le_refl k) hfuel
  have hancr : ((spineH k).map (commitAt hist))[ruler (st.tipHeight + 1)]? =
      some (commitAt hist (k + 1 - 2 ^ ruler (k + 1))) := by
    rw [hh]
    exact spine_ancestor hist k
  rw [indexEntry_postgres fuel git parse hist[k] st _ _ hhops hancr, hc, hh] at hrun
  have hp := rows_indexPaths
    (fun id b hb => columnsWithin_markDeleted (Nat.succ_pos k) id hb)
    (fun id p symbols => columnsWithin_newRow (Nat.succ_pos k) id p symbols)
    git parse ((spineH k).map (commitAt hist)) (hist[k]).PathStatuses
    { st.db with rockskip_blobs := (st.db.rockskip_blobs.map
        (appendBoth (((spineH k).map (commitAt hist)).take (ruler (k + 1)))
          (commitAt hist (k + 1)))) }
    st.pathToBlobIdCache
    (fun b hb => by
      obtain ⟨b0, hb0, rfl⟩ := List.mem_map.mp hb
      exact columnsWithin_appendBoth hwf hk (hinv b0 hb0))
  rcases hp2 : indexPaths git postgres parse ((spineH k).map (commitAt hist))
      (commitAt hist (k + 1)) (hist[k]).PathStatuses
      { st.db with rockskip_blobs := (st.db.rockskip_blobs.map
          (appendBoth (((spineH k).map (commitAt hist)).take (ruler (k + 1)))
            (commitAt hist (k + 1)))) }
      st.pathToBlobIdCache with ⟨s3, cache3, _ | e⟩
  · rw [hp2] at hrun hp
    simp only [Option.some.injEq, Prod.mk.injEq, and_true] at hrun
    subst hrun
    intro b hb
    simp only [insertCommit_blobs] at hb
    obtain ⟨b0, hb0, rfl⟩ := List.mem_map.mp hb
    exact columnsWithin_collapse _ (hp b0 hb0)
  · rw [hp2] at hrun
    simp at hrun

theorem columnsWithin_indexEntries {hist : List LogEntry} (hwf : WellFormedCommits hist)
    (git : Git) (parse : ParseSymbolsFunc) {fuel : Nat} (hfuel : hist.length < fuel) :
    ∀ (n k : Nat) (st st1 : IndexState Tables), k + n ≤ hist.length →
      AtHeight hist k st → (∀ b ∈ st.db.rockskip_blobs, ColumnsWithin hist k b) →
      indexEntries fuel git postgres parse ((hist.drop k).take n) st = some (st1, none) →
      AtHeight hist (k + n) st1 ∧
        ∀ b ∈ st1.db.rockskip_blobs, ColumnsWithin hist (k + n) b := by
  intro n
  induction n with
  | zero =>
    intro k st st1 _ hst hinv hrun
    simp only [List.take_zero, indexEntries, Option.some.injEq, Prod.mk.injEq,
      and_true] at hrun
    subst hrun
    exact ⟨hst, hinv⟩
  | succ n ih =>
    intro k st st1 hkn hst hinv hrun
    have hlt : k < hist.length := by omega
    have hcons : (hist.drop k).take (n + 1) = hist[k] :: (hist.drop (k + 1)).take n := by
      rw [List.drop_eq_getElem_cons hlt]; rfl
    rw [hcons, indexEntries_cons] at hrun
    rcases he : indexEntry fuel git postgres parse hist[k] st with _ | ⟨st2, _ | e⟩
    · rw [he] at hrun
      simp at hrun
    · rw [he] at hrun
      simp only at hrun
      obtain ⟨a1, a2⟩ := columnsWithin_indexEntry hwf git parse hfuel hlt hst hinv he
      have hkn2 : k + 1 + n = k + (n + 1) := by omega
      rw [← hkn2]
      exact ih (k + 1) st2 st1 (by omega) a1 a2 hrun
    · rw [he] at hrun
      simp at hrun

/-- The store that `Index` leaves without error at height `n`, starting from the empty
store, whatever the statuses of the history are. -/
theorem columnsWithin_Index {hist : List LogEntry} (hwf : WellFormedCommits hist)
    (contents : String → String → List UInt8)
    (parse : ParseSymbolsFunc) {fuel n : Nat} (hfuel : hist.length < fuel) (hn1 : 1 ≤ n)
    (hn : n ≤ hist.length) {t : Tables}
    (hrun : Index fuel (gitOfHistory hist contents) postgres parse (commitAt hist n)
      emptyTables = some (t, none)) :
    t.rockskip_ancestry = ancestryUpTo hist n ∧
      ∀ b ∈ t.rockskip_blobs, ColumnsWithin hist n b := by
  rw [Index_eq_indexEntries hwf contents parse fuel (emptyTables_ancestry hist)
    (Nat.zero_le _) hn1 hn] at hrun
  rcases hes : indexEntries fuel (gitOfHistory hist contents) postgres parse
      ((hist.drop 0).take (n - 0))
      { db := emptyTables, tipCommit := commitAt hist 0, tipHeight := 0,
        pathToBlobIdCache := fun _ => none } with _ | ⟨st1, err⟩
  · rw [hes] at hrun
    simp at hrun
  · rw [hes] at hrun
    simp only [Option.map_some', Option.some.injEq, Prod.mk.injEq] at hrun
    obtain ⟨rfl, rfl⟩ := hrun
    obtain ⟨⟨h1, -, -⟩, h2⟩ := columnsWithin_indexEntries hwf (gitOfHistory hist contents)
      parse hfuel (n - 0) 0 _ st1 (by omega) ⟨emptyTables_ancestry hist, rfl, rfl⟩
      (fun b hb => by simp [emptyTables] at hb) hes
    have hn0 : 0 + (n - 0) = n := by omega
    rw [hn0] at h1 h2
    exact ⟨h1, h2⟩

/-! ### An entry without path statuses -/

theorem overlaps_append (xs zs ys : List String) :
    overlaps (xs ++ zs) ys = (overlaps xs ys || overlaps zs ys) := by
  simp [overlaps]

theorem overlaps_cons (x : String) (xs ys : List String) :
    overlaps (x :: xs) ys = (decide (x ∈ ys) || overlaps xs ys) := by
  simp [overlaps]

/-- The spine of the next height is the new commit followed by the spine of the parent
height without its first `ruler (k + 1)` elements. -/
theorem spine_next (hist : List LogEntry) (k : Nat) :
    (spineH (k + 1)).map (commitAt hist) =
      commitAt hist (k + 1) ::
        ((spineH k).map (commitAt hist)).drop (ruler (k + 1)) := by
  rw [spineH_pos (Nat.succ_pos k), List.map_cons, ← List.map_drop,
    (spineH_drop k (ruler (k + 1)) (pow_ruler_dvd (k + 1))).1]

/-- No row has commits of its `added` column both among the first `ruler (k + 1)` spine
elements and among the others. -/
theorem added_take_drop {hist : List LogEntry} (hwf : WellFormedCommits hist) {k : Nat}
    (hk : k < hist.length) {b : BlobRow} (h : ColumnsWithin hist k b)
    (h1 : overlaps (((spineH k).map (commitAt hist)).take (ruler (k + 1))) b.added = true)
    (h2 : overlaps (((spineH k).map (commitAt hist)).drop (ruler (k + 1))) b.added = true) :
    False := by
  obtain ⟨a, ha, -⟩ := h
  obtain ⟨y1, hy1, hb1⟩ := overlaps_iff.mp h1
  obtain ⟨y2, hy2, hb2⟩ := overlaps_iff.mp h2
  rw [← List.map_take] at hy1
  rw [← List.map_drop] at hy2
  obtain ⟨i, hi, rfl⟩ := List.mem_map.mp hy1
  obtain ⟨j, hj, rfl⟩ := List.mem_map.mp hy2
  obtain ⟨x1, -, p2, p3, p4⟩ := ha _ hb1
  obtain ⟨x2, -, q2, q3, q4⟩ := ha _ hb2
  have hik := mem_take_spineH_le hi
  have hjk := spineH_le k j (List.mem_of_mem_drop hj)
  have e1 : i = x1 := commitAt_inj hwf (by omega) (by omega) p3
  have e2 : j = x2 := commitAt_inj hwf (by omega) (by omega) q3
  subst e1 e2
  have c1 := (take_cover k a).mp ⟨i, hi, p4⟩
  rw [(spineH_drop k (ruler (k + 1)) (pow_ruler_dvd (k + 1))).1] at hj
  have c2 := (spineH_cover (k + 1 - 2 ^ ruler (k + 1)) a).mp ⟨j, hj, q4⟩
  have c3 := c1.1
  unfold inI at c3
  omega

/-- Row by row, an entry without path statuses leaves a row selected at its own commit
exactly when the row is selected at the parent commit. -/
theorem inherit_row {hist : List LogEntry} (hwf : WellFormedCommits hist) {k : Nat}
    (hk : k < hist.length) {b : BlobRow} (h : ColumnsWithin hist k b) :
    (overlaps ((spineH (k + 1)).map (commitAt hist))
        (collapse (commitAt hist (k + 1))
          (appendBoth (((spineH k).map (commitAt hist)).take (ruler (k + 1)))
            (commitAt hist (k + 1)) b)).added &&
      !overlaps ((spineH (k + 1)).map (commitAt hist))
        (collapse (commitAt hist (k + 1))
          (appendBoth (((spineH k).map (commitAt hist)).take (ruler (k + 1)))
            (commitAt hist (k + 1)) b)).deleted) =
    (overlaps ((spineH k).map (commitAt hist))
        (collapse (commitAt hist (k + 1))
          (appendBoth (((spineH k).map (commitAt hist)).take (ruler (k + 1)))
            (commitAt hist (k + 1)) b)).added &&
      !overlaps ((spineH k).map (commitAt hist))
        (collapse (commitAt hist (k + 1))
          (appendBoth (((spineH k).map (commitAt hist)).take (ruler (k + 1)))
            (commitAt hist (k + 1)) b)).deleted) := by
  have hnotin : commitAt hist (k + 1) ∉ (spineH k).map (commitAt hist) :=
    next_commit_not_in_spine hwf hk
  have hcA : commitAt hist (k + 1) ∉ b.added := by
    intro hm
    obtain ⟨a, ha, -⟩ := h
    obtain ⟨x, -, p2, p3, -⟩ := ha _ hm
    have := commitAt_inj hwf (by omega) (by omega) p3
    omega
  have hcD : commitAt hist (k + 1) ∉ b.deleted := by
    intro hm
    obtain ⟨a, -, hd⟩ := h
    obtain ⟨x, -, p2, p3⟩ := hd _ hm
    have := commitAt_inj hwf (by omega) (by omega) p3
    omega
  have hexcl := added_take_drop hwf hk h
  generalize hS : (spineH k).map (commitAt hist) = S at hnotin hexcl ⊢
  generalize hc : commitAt hist (k + 1) = c at hnotin hcA hcD ⊢
  have hsplit : S = S.take (ruler (k + 1)) ++ S.drop (ruler (k + 1)) :=
    (List.take_append_drop _ _).symm
  have hnT : c ∉ S.take (ruler (k + 1)) := fun hm => hnotin (List.mem_of_mem_take hm)
  have hnR : c ∉ S.drop (ruler (k + 1)) := fun hm => hnotin (List.mem_of_mem_drop hm)
  generalize hT : S.take (ruler (k + 1)) = T at hsplit hnT hexcl ⊢
  generalize hR : S.drop (ruler (k + 1)) = R at hsplit hnR hexcl ⊢
  have hspn : (spineH (k + 1)).map (commitAt hist) = c :: R := by
    rw [spine_next, hS, hR, hc]
  rw [hspn, hsplit]
  -- membership in the columns of the row that the entry leaves
  have mA : ∀ y, y ∈ (collapse c (appendBoth T c b)).added ↔
      (y ≠ c ∧ y ∈ b.added) ∨
        (y = c ∧ overlaps T b.added = true ∧ overlaps T b.deleted = false) := by
    intro y
    rw [mem_collapse_added, appendBoth_added, appendBoth_deleted]
    by_cases e : y = c
    · subst e
      by_cases o1 : overlaps T b.added = true <;> by_cases o2 : overlaps T b.deleted = true <;>
        simp [o1, o2, hcA, hcD]
    · by_cases o1 : overlaps T b.added = true <;> simp [o1, e]
  have mD : ∀ y, y ∈ (collapse c (appendBoth T c b)).deleted ↔
      (y ≠ c ∧ y ∈ b.deleted) ∨
        (y = c ∧ overlaps T b.deleted = true ∧ overlaps T b.added = false) := by
    intro y
    rw [mem_collapse_deleted, appendBoth_added, appendBoth_deleted]
    by_cases e : y = c
    · subst e
      by_cases o1 : overlaps T b.added = true <;> by_cases o2 : overlaps T b.deleted = true <;>
        simp [o1, o2, hcA, hcD]
    · by_cases o2 : overlaps T b.deleted = true <;> simp [o2, e]
  have oA : ∀ L : List String, c ∉ L →
      overlaps L (collapse c (appendBoth T c b)).added = overlaps L b.added := by
    intro L hL
    rw [Bool.eq_iff_iff, overlaps_iff, overlaps_iff]
    constructor
    · rintro ⟨y, hy, hm⟩
      rcases (mA y).mp hm with ⟨-, h2⟩ | ⟨h1, -⟩
      · exact ⟨y, hy, h2⟩
      · exact absurd (h1 ▸ hy) hL
    · rintro ⟨y, hy, hm⟩
      exact ⟨y, hy, (mA y).mpr (Or.inl ⟨fun e => hL (e ▸ hy), hm⟩)⟩
  have oD : ∀ L : List String, c ∉ L →
      overlaps L (collapse c (appendBoth T c b)).deleted = overlaps L b.deleted := by
    intro L hL
    rw [Bool.eq_iff_iff, overlaps_iff, overlaps_iff]
    constructor
    · rintro ⟨y, hy, hm⟩
      rcases (mD y).mp hm with ⟨-, h2⟩ | ⟨h1, -⟩
      · exact ⟨y, hy, h2⟩
      · exact absurd (h1 ▸ hy) hL
    · rintro ⟨y, hy, hm⟩
      exact ⟨y, hy, (mD y).mpr (Or.inl ⟨fun e => hL (e ▸ hy), hm⟩)⟩
  have cA : decide (c ∈ (collapse c (appendBoth T c b)).added) =
      (overlaps T b.added && !overlaps T b.deleted) := by
    rw [Bool.eq_iff_iff, decide_eq_true_eq, mA]
    simp
  have cD : decide (c ∈ (collapse c (appendBoth T c b)).deleted) =
      (overlaps T b.deleted && !overlaps T b.added) := by
    rw [Bool.eq_iff_iff, decide_eq_true_eq, mD]
    simp
  rw [overlaps_cons, overlaps_cons, overlaps_append, overlaps_append, cA, cD,
    oA R hnR, oD R hnR, oA T hnT, oD T hnT]
  cases hA1 : overlaps T b.added <;> cases hA2 : overlaps R b.added <;>
    cases hD1 : overlaps T b.deleted <;> cases hD2 : overlaps R b.deleted <;>
    first
    | rfl
    | exact absurd (hexcl hA1 hA2) id

/-- The processing of an entry without path statuses: the two `AppendHop` statements and
`DeleteRedundant` on every row, and the new commit in the ancestry table. -/
theorem empty_entry {hist : List LogEntry} (hwf : WellFormedCommits hist)
    (git : Git) (parse : ParseSymbolsFunc) {fuel k : Nat}
    (hfuel : hist.length < fuel) (hk : k < hist.length) {st : IndexState Tables}
    (hst : AtHeight hist k st) (hempty : (hist[k]).PathStatuses = []) :
    ∃ st1, indexEntry fuel git postgres parse hist[k] st = some (st1, none) ∧
      AtHeight hist (k + 1) st1 ∧
      st1.db.rockskip_blobs = st.db.rockskip_blobs.map fun b =>
        collapse (commitAt hist (k + 1))
          (appendBoth (((spineH k).map (commitAt hist)).take (ruler (k + 1)))
            (commitAt hist (k + 1)) b) := by
  obtain ⟨st2, err, he, hcase⟩ := indexEntry_ancestry hwf git parse hfuel hk hst
  obtain ⟨ht, htip, hh⟩ := hst
  have hc : (hist[k]).Commit = commitAt hist (k + 1) := entry_commit hk
  have hhops : getHops fuel postgres st.db st.tipCommit =
      some (.ok ((spineH k).map (commitAt hist))) := by
    rw [htip]
    exact getHops_spine hwf ht (le_of_lt hk) (le_refl k) hfuel
  have hancr : ((spineH k).map (commitAt hist))[ruler (st.tipHeight + 1)]? =
      some (commitAt hist (k + 1 - 2 ^ ruler (k + 1))) := by
    rw [hh]
    exact spine_ancestor hist k
  rw [indexEntry_postgres fuel git parse hist[k] st _ _ hhops hancr, hc, hh, hempty] at he
  simp only [indexPaths, Option.some.injEq, Prod.mk.injEq] at he
  obtain ⟨rfl, rfl⟩ := he
  rw [indexEntry_postgres fuel git parse hist[k] st _ _ hhops hancr, hc, hh, hempty]
  simp only [indexPaths]
  refine ⟨_, rfl, ?_, ?_⟩
  · rcases hcase with ⟨-, h⟩ | ⟨h, -⟩
    · exact h
    · exact absurd rfl h
  · simp only [insertCommit_blobs, List.map_map]
    rfl

/-! ### The nil slice of symbols -/

/-- The insert half of the path loop on a file for which the parser returns the nil slice:
`InsertBlob` fails and the store stays as it is. -/
theorem insertPath_nil (hist : List LogEntry) (contents : String → String → List UInt8)
    {parse : ParseSymbolsFunc} {c p : String}
    (hparse : parse p (contents c p) = .ok none) (t : Tables)
    (cache : String → Option Nat) :
    ∃ e, insertPath (gitOfHistory hist contents) postgres parse c p t cache =
      (t, cache, some e) := by
  simp only [insertPath, gitOfHistory, hparse, postgres_InsertBlob, pgInsertBlob]
  exact ⟨_, rfl⟩

/-- With a parser that returns the nil slice, `Index` on the one commit of `singleHistory`
returns the error of `InsertBlob` and stores neither the blob nor the commit. -/
theorem Index_nil_symbols :
    ¬ ParseOk singleHistory modifyContents nilSymbols ∧
    ∃ e, Index 2 (gitOfHistory singleHistory modifyContents) postgres nilSymbols "c1"
      emptyTables = some (emptyTables, some e) := by
  refine ⟨?_, _, by rfl⟩
  simp [ParseOk, singleHistory, nilSymbols]

/-! ### Symbol queries for one path -/

theorem list_eq_singleton {α : Type} {l : List α} {c : α} (hnd : l.Nodup)
    (h : ∀ y, y ∈ l ↔ y = c) : l = [c] := by
  match l, hnd, h with
  | [], _, h => exact absurd ((h c).mpr rfl) (List.not_mem_nil _)
  | [a], _, h =>
    have := (h a).mp (List.mem_singleton_self a)
    rw [this]
  | a :: b :: rest, hnd, h =>
    have ha := (h a).mp (List.mem_cons_self _ _)
    have hb := (h b).mp (List.mem_cons_of_mem _ (List.mem_cons_self _ _))
    rw [List.nodup_cons] at hnd
    exact absurd (ha.trans hb.symm ▸ List.mem_cons_self _ _) hnd.1

/-- Among the blobs that a symbol query returns at height `x`, those of the path of a row
that is live at `x` are that row alone when the symbol is among its symbols, and none
otherwise. -/
theorem search_path {hist : List LogEntry} {contents : String → String → List UInt8}
    {parse : ParseSymbolsFunc} (hwf : WellFormed hist) {n x : Nat} (hxn : x ≤ n)
    (hn : n ≤ hist.length) {t : Tables} (hinv : BlobsInv hist contents parse n t)
    {b : BlobRow} (hb : b ∈ t.rockskip_blobs)
    (hlive : liveAt hist x (b.birth hist) b.path) (s : String) :
    (((t.rockskip_blobs.filter fun r =>
        overlaps ((spineH x).map (commitAt hist)) r.added &&
          !overlaps ((spineH x).map (commitAt hist)) r.deleted &&
          overlaps [s] r.symbols).map BlobRow.toBlob).filter
      fun r => decide (r.Path = b.path)) =
    if s ∈ b.symbols then [b.toBlob] else [] := by
  rw [List.filter_map, List.filter_filter]
  have hmem : ∀ r, r ∈ (t.rockskip_blobs.filter fun r =>
      ((fun r : Blob => decide (r.Path = b.path)) ∘ BlobRow.toBlob) r &&
        (overlaps ((spineH x).map (commitAt hist)) r.added &&
          !overlaps ((spineH x).map (commitAt hist)) r.deleted &&
          overlaps [s] r.symbols)) ↔ (r = b ∧ s ∈ b.symbols) := by
    intro r
    rw [List.mem_filter]
    simp only [Function.comp, BlobRow.toBlob, Bool.and_eq_true, decide_eq_true_eq,
      overlaps_singleton]
    constructor
    · rintro ⟨hr, hp, hv, hs⟩
      have hv2 : (overlaps ((spineH x).map (commitAt hist)) r.added &&
          !overlaps ((spineH x).map (commitAt hist)) r.deleted) = true := by
        rw [Bool.and_eq_true]; exact hv
      have hl := (visible_iff hwf hxn hn hinv hr).mp hv2
      have := live_unique hwf (le_trans hxn hn) hinv hr hb hl hlive hp
      subst this
      exact ⟨rfl, hs⟩
    · rintro ⟨rfl, hs⟩
      have hv := (visible_iff hwf hxn hn hinv hb).mpr hlive
      rw [Bool.and_eq_true] at hv
      exact ⟨hb, rfl, hv, hs⟩
  have hnd : (t.rockskip_blobs.filter fun r =>
      ((fun r : Blob => decide (r.Path = b.path)) ∘ BlobRow.toBlob) r &&
        (overlaps ((spineH x).map (commitAt hist)) r.added &&
          !overlaps ((spineH x).map (commitAt hist)) r.deleted &&
          overlaps [s] r.symbols)).Nodup :=
    (blobs_nodup hinv.1).filter _
  by_cases hs : s ∈ b.symbols
  · have hone : ∀ r, r ∈ (t.rockskip_blobs.filter fun r =>
        ((fun r : Blob => decide (r.Path = b.path)) ∘ BlobRow.toBlob) r &&
          (overlaps ((spineH x).map (commitAt hist)) r.added &&
            !overlaps ((spineH x).map (commitAt hist)) r.deleted &&
            overlaps [s] r.symbols)) ↔ r = b := by
      intro r
      rw [hmem]
      exact ⟨fun h => h.1, fun h => ⟨h, hs⟩⟩
    rw [if_pos hs, list_eq_singleton hnd hone]
    rfl
  · rw [if_neg hs]
    have : (t.rockskip_blobs.filter fun r =>
      ((fun r : Blob => decide (r.Path = b.path)) ∘ BlobRow.toBlob) r &&
        (overlaps ((spineH x).map (commitAt hist)) r.added &&
          !overlaps ((spineH x).map (commitAt hist)) r.deleted &&
          overlaps [s] r.symbols)) = [] := by
      rw [List.eq_nil_iff_forall_not_mem]
      intro r hr
      exact hs ((hmem r).mp hr).2
    rw [this]
    rfl

/-! ## The claims -/

/-- C1: round trip.  For a well-formed linear history on whose added and modified files
the parser returns a slice of symbols that is not nil, indexed by `Index` from the empty
store up to height `n`, and an indexed commit at height `x ≤ n`: `Search` with no query
returns blobs whose paths are exactly the files that exist at height `x`, one blob per
path, and each blob carries the commit of the latest entry at or before `x` that added or
modified its path, with the symbols that `parse` extracts from the file at that commit. -/
theorem round_trip (hist : List LogEntry) (contents : String → String → List UInt8)
    (parse : ParseSymbolsFunc) (fuel n x : Nat)
    (hwf : WellFormed hist) (hpo : ParseOk hist contents parse)
    (hfuel : hist.length < fuel) (hx1 : 1 ≤ x) (hxn : x ≤ n) (hn : n ≤ hist.length) :
    ∃ t blobs,
      Index fuel (gitOfHistory hist contents) postgres parse (commitAt hist n) emptyTables =
        some (t, none) ∧
      Search fuel postgres t (commitAt hist x) none = some (.ok blobs) ∧
      (∀ p, p ∈ blobs.map (fun b => b.Path) ↔ p ∈ filesAt hist x) ∧
      (blobs.map fun b => b.Path).Nodup ∧
      ∀ b ∈ blobs, ∃ a bytes,
        1 ≤ a ∧ a ≤ x ∧ b.Commit = commitAt hist a ∧ born hist a b.Path ∧
        (∀ a2, a < a2 → a2 ≤ x → ¬ born hist a2 b.Path) ∧
        (gitOfHistory hist contents).CatFile b.Commit b.Path = .ok bytes ∧
        parse b.Path bytes = .ok b.Symbols := by
  obtain ⟨t, hrun, hanc, hinv, -⟩ :=
    Index_ok hwf hpo hfuel (Nat.zero_le n) (by omega) hn (emptyTables_ancestry hist)
      (BlobsInv_empty hist contents parse)
  refine ⟨t, _, hrun, ?_, ?_, visible_paths_nodup hwf hxn hn hinv, ?_⟩
  · rw [Search_eq hwf.1 hanc hn hxn hfuel, pgSearch_none]
  · intro p
    rw [mem_filesAt_iff hwf (le_trans hxn hn), List.map_map, List.mem_map]
    constructor
    · rintro ⟨b, hb, rfl⟩
      obtain ⟨hm, hv⟩ := List.mem_filter.mp hb
      exact ⟨_, (visible_iff hwf hxn hn hinv hm).mp hv⟩
    · rintro ⟨a, hlive⟩
      obtain ⟨b, hb, hc, hp⟩ :=
        hinv.1.complete_old a p (le_trans hlive.2.1 hxn) hlive.2.2.1
      have hbirth := birth_of_commit hwf (le_trans hlive.2.1 (le_trans hxn hn)) hc
      refine ⟨b, List.mem_filter.mpr ⟨hb, (visible_iff hwf hxn hn hinv hb).mpr ?_⟩, hp⟩
      rw [hbirth, hp]
      exact hlive
  · intro b2 hb2
    obtain ⟨b, hb, rfl⟩ := List.mem_map.mp hb2
    obtain ⟨hm, hv⟩ := List.mem_filter.mp hb
    have hlive := (visible_iff hwf hxn hn hinv hm).mp hv
    obtain ⟨r1, r2, r3, r4, r5, r6⟩ := hinv.1.rows b hm
    refine ⟨b.birth hist, contents b.commit b.path, hlive.1, hlive.2.1, r3, r4, ?_, rfl, r5⟩
    intro a2 h1 h2 hb2
    have := liveAt_latest hwf (le_trans hxn hn) hlive hb2 h2
    omega

theorem round_trip_witness :
    WellFormed modifyHistory ∧ ParseOk modifyHistory modifyContents bytesAsSymbols ∧
    modifyHistory.length < 3 ∧ 1 ≤ 1 ∧ 1 ≤ 2 ∧ 2 ≤ modifyHistory.length ∧
    ∃ t blobs,
      Index 3 (gitOfHistory modifyHistory modifyContents) postgres bytesAsSymbols
        (commitAt modifyHistory 2) emptyTables = some (t, none) ∧
      Search 3 postgres t (commitAt modifyHistory 1) none = some (.ok blobs) ∧
      (∀ p, p ∈ blobs.map (fun b => b.Path) ↔ p ∈ filesAt modifyHistory 1) ∧
      (blobs.map fun b => b.Path).Nodup ∧
      ∀ b ∈ blobs, ∃ a bytes,
        1 ≤ a ∧ a ≤ 1 ∧ b.Commit = commitAt modifyHistory a ∧
        born modifyHistory a b.Path ∧
        (∀ a2, a < a2 → a2 ≤ 1 → ¬ born modifyHistory a2 b.Path) ∧
        (gitOfHistory modifyHistory modifyContents).CatFile b.Commit b.Path = .ok bytes ∧
        bytesAsSymbols b.Path bytes = .ok b.Symbols :=
  ⟨by decide, parseOk_bytesAsSymbols _ _, by decide, by decide, by decide, by decide,
    round_trip modifyHistory modifyContents bytesAsSymbols 3 2 1 (by decide)
      (parseOk_bytesAsSymbols _ _) (by decide) (by decide) (by decide) (by decide)⟩

/-- C2: ancestor-height decrease.  After any sequence of `Index` calls on a linear history
of distinct non-`NULL` commits, started from the empty store, the ancestor recorded in a
row of height `h > 0` is `NULL` when `h - 2 ^ ruler h = 0`, and otherwise the commit of a
row whose height is `h - 2 ^ ruler h`. -/
theorem ancestor_height_decrease (hist : List LogEntry)
    (contents : String → String → List UInt8) (parse : ParseSymbolsFunc)
    (targets : List String) (fuel : Nat)
    (hwf : WellFormedCommits hist) (hfuel : hist.length < fuel) :
    ∃ t, indexAll fuel (gitOfHistory hist contents) parse targets emptyTables = some t ∧
      ∀ row ∈ t.rockskip_ancestry, 0 < row.height →
        (row.height - 2 ^ ruler row.height = 0 → row.ancestor_id = NULL) ∧
        (0 < row.height - 2 ^ ruler row.height →
          ∃ anc ∈ t.rockskip_ancestry,
            anc.height = row.height - 2 ^ ruler row.height ∧
            anc.commit_id = row.ancestor_id) := by
  obtain ⟨t, k, hrun, -, ht⟩ := indexAll_ancestry hwf contents parse hfuel targets
    (emptyTables_ancestry hist) (Nat.zero_le _)
  refine ⟨t, hrun, ?_⟩
  intro row hrow _
  rw [ht] at hrow ⊢
  obtain ⟨x, h1, h2, rfl⟩ := mem_ancestryUpTo.mp hrow
  simp only [ancestryRow]
  constructor
  · intro h0
    rw [h0]; rfl
  · intro hpos
    exact ⟨ancestryRow hist (x - 2 ^ ruler x),
      mem_ancestryUpTo.mpr ⟨_, hpos, le_trans (Nat.sub_le _ _) h2, rfl⟩, rfl, rfl⟩

theorem ancestor_height_decrease_witness :
    WellFormedCommits modifyHistory ∧ modifyHistory.length < 3 ∧
    ∃ t, indexAll 3 (gitOfHistory modifyHistory modifyContents) bytesAsSymbols ["c2"]
        emptyTables = some t ∧
      ∀ row ∈ t.rockskip_ancestry, 0 < row.height →
        (row.height - 2 ^ ruler row.height = 0 → row.ancestor_id = NULL) ∧
        (0 < row.height - 2 ^ ruler row.height →
          ∃ anc ∈ t.rockskip_ancestry,
            anc.height = row.height - 2 ^ ruler row.height ∧
            anc.commit_id = row.ancestor_id) :=
  ⟨by decide, by decide,
    ancestor_height_decrease modifyHistory modifyContents bytesAsSymbols ["c2"] 3
      (by decide) (by decide)⟩

/-- C3: height density.  After any sequence of `Index` calls on a linear history of
distinct non-`NULL` commits, started from the empty store, every call returns, and in the
store they leave every height from 1 to the highest stored height is the height of exactly
one ancestry row, and every row has its height in that range. -/
theorem height_density (hist : List LogEntry) (contents : String → String → List UInt8)
    (parse : ParseSymbolsFunc) (targets : List String) (fuel : Nat)
    (hwf : WellFormedCommits hist) (hfuel : hist.length < fuel) :
    ∃ t, indexAll fuel (gitOfHistory hist contents) parse targets emptyTables = some t ∧
      (∀ h, 1 ≤ h → h ≤ maxHeight t →
        t.rockskip_ancestry.countP (fun row => decide (row.height = h)) = 1) ∧
      (∀ row ∈ t.rockskip_ancestry, 1 ≤ row.height ∧ row.height ≤ maxHeight t) := by
  obtain ⟨t, k, hrun, -, ht⟩ := indexAll_ancestry hwf contents parse hfuel targets
    (emptyTables_ancestry hist) (Nat.zero_le _)
  refine ⟨t, hrun, ?_, ?_⟩
  · intro h h1 h2
    rw [maxHeight_ancestryUpTo ht] at h2
    rw [ht, countP_height_ancestryUpTo, if_pos ⟨h1, h2⟩]
  · intro row hrow
    rw [maxHeight_ancestryUpTo ht]
    rw [ht] at hrow
    obtain ⟨x, h1, h2, rfl⟩ := mem_ancestryUpTo.mp hrow
    exact ⟨h1, h2⟩

theorem height_density_witness :
    WellFormedCommits modifyHistory ∧ modifyHistory.length < 3 ∧
    ∃ t, indexAll 3 (gitOfHistory modifyHistory modifyContents) bytesAsSymbols ["c1", "c2"]
        emptyTables = some t ∧
      (∀ h, 1 ≤ h → h ≤ maxHeight t →
        t.rockskip_ancestry.countP (fun row => decide (row.height = h)) = 1) ∧
      (∀ row ∈ t.rockskip_ancestry, 1 ≤ row.height ∧ row.height ≤ maxHeight t) :=
  ⟨by decide, by decide,
    height_density modifyHistory modifyContents bytesAsSymbols ["c1", "c2"] 3
      (by decide) (by decide)⟩

/-- C4: disjoint sets.  For a well-formed linear history on whose added and modified
files the parser returns a slice of symbols that is not nil, indexed from the empty store
up to any height `n`, no commit is both in the `added` and in the `deleted` column of a blob.
The blob table of that store is the one that the `DeleteRedundant` step of the entry at
height `n` left: the `InsertCommit` that follows it does not touch the blob table. -/
theorem added_deleted_disjoint (hist : List LogEntry)
    (contents : String → String → List UInt8) (parse : ParseSymbolsFunc) (fuel n : Nat)
    (hwf : WellFormed hist) (hpo : ParseOk hist contents parse)
    (hfuel : hist.length < fuel) (hn1 : 1 ≤ n) (hn : n ≤ hist.length) :
    (∀ (s : Tables) (commit : String) (height : Nat) (ancestor : String),
      (insertCommit postgres s commit height ancestor).rockskip_blobs = s.rockskip_blobs) ∧
    ∃ t,
      Index fuel (gitOfHistory hist contents) postgres parse (commitAt hist n) emptyTables =
        some (t, none) ∧
      ∀ b ∈ t.rockskip_blobs, ∀ c, c ∈ b.added → c ∉ b.deleted := by
  obtain ⟨t, hrun, -, hinv, -⟩ :=
    Index_ok hwf hpo hfuel (Nat.zero_le n) hn1 hn (emptyTables_ancestry hist)
      (BlobsInv_empty hist contents parse)
  refine ⟨?_, t, hrun, fun b hb c hc => columns_disjoint hwf hn hinv hb hc⟩
  intro s commit height ancestor
  simp only [insertCommit, postgres_InsertCommit, pgInsertCommit]
  by_cases hdup : (s.rockskip_ancestry.any fun row => decide (row.commit_id = commit)) = true
  · rw [if_pos hdup]
  · rw [if_neg hdup]

theorem added_deleted_disjoint_witness :
    WellFormed modifyHistory ∧ ParseOk modifyHistory modifyContents bytesAsSymbols ∧
    modifyHistory.length < 3 ∧ 1 ≤ 2 ∧ 2 ≤ modifyHistory.length ∧
    (∀ (s : Tables) (commit : String) (height : Nat) (ancestor : String),
      (insertCommit postgres s commit height ancestor).rockskip_blobs = s.rockskip_blobs) ∧
    ∃ t,
      Index 3 (gitOfHistory modifyHistory modifyContents) postgres bytesAsSymbols
        (commitAt modifyHistory 2) emptyTables = some (t, none) ∧
      ∀ b ∈ t.rockskip_blobs, ∀ c, c ∈ b.added → c ∉ b.deleted :=
  ⟨by decide, parseOk_bytesAsSymbols _ _, by decide, by decide, by decide,
    added_deleted_disjoint modifyHistory modifyContents bytesAsSymbols 3 2 (by decide)
      (parseOk_bytesAsSymbols _ _) (by decide) (by decide) (by decide)⟩

/-- C5: resume equivalence.  For a well-formed linear history on whose added and modified
files the parser returns a slice of symbols that is not nil, an intermediate commit at
height `m` and a tip at height `n ≥ m`: `Index` on the intermediate commit and then on the
tip, from the empty store, leaves exactly the store that a single `Index` on the tip
leaves (the same ancestry rows and the same blob rows, column for column). -/
theorem resume_equivalence (hist : List LogEntry)
    (contents : String → String → List UInt8) (parse : ParseSymbolsFunc) (fuel m n : Nat)
    (hwf : WellFormed hist) (hpo : ParseOk hist contents parse)
    (hfuel : hist.length < fuel) (hm1 : 1 ≤ m) (hmn : m ≤ n) (hn : n ≤ hist.length) :
    ∃ tm t,
      Index fuel (gitOfHistory hist contents) postgres parse (commitAt hist m) emptyTables =
        some (tm, none) ∧
      Index fuel (gitOfHistory hist contents) postgres parse (commitAt hist n) tm =
        some (t, none) ∧
      Index fuel (gitOfHistory hist contents) postgres parse (commitAt hist n) emptyTables =
        some (t, none) := by
  obtain ⟨tm, hrunm, hancm, hinvm, hesm⟩ :=
    Index_ok hwf hpo hfuel (Nat.zero_le m) hm1 (le_trans hmn hn) (emptyTables_ancestry hist)
      (BlobsInv_empty hist contents parse)
  obtain ⟨t, hrun, -, -, hes⟩ :=
    Index_ok hwf hpo hfuel hmn (by omega) hn hancm hinvm
  refine ⟨tm, t, hrunm, hrun, ?_⟩
  obtain ⟨cache1, he1, hc1⟩ := hesm (fun _ => none) (CacheOK_empty hist emptyTables)
  obtain ⟨cache2, he2, -⟩ := hes cache1 hc1
  rw [Index_eq_indexEntries hwf.1 contents parse fuel (emptyTables_ancestry hist)
    (Nat.zero_le _) (by omega) hn, take_split hist hmn,
    indexEntries_append _ _ _ _ _ _ _ _ he1, he2]
  rfl

theorem resume_equivalence_witness :
    WellFormed modifyHistory ∧ ParseOk modifyHistory modifyContents bytesAsSymbols ∧
    modifyHistory.length < 3 ∧ 1 ≤ 1 ∧ 1 ≤ 2 ∧ 2 ≤ modifyHistory.length ∧
    ∃ tm t,
      Index 3 (gitOfHistory modifyHistory modifyContents) postgres bytesAsSymbols
        (commitAt modifyHistory 1) emptyTables = some (tm, none) ∧
      Index 3 (gitOfHistory modifyHistory modifyContents) postgres bytesAsSymbols
        (commitAt modifyHistory 2) tm = some (t, none) ∧
      Index 3 (gitOfHistory modifyHistory modifyContents) postgres bytesAsSymbols
        (commitAt modifyHistory 2) emptyTables = some (t, none) :=
  ⟨by decide, parseOk_bytesAsSymbols _ _, by decide, by decide, by decide, by decide,
    resume_equivalence modifyHistory modifyContents bytesAsSymbols 3 1 2 (by decide)
      (parseOk_bytesAsSymbols _ _) (by decide) (by decide) (by decide) (by decide)⟩

/-- C6: `ruler` is the 2-adic valuation.  `ruler 0 = 0`, and for every `n > 0` the power
`2 ^ ruler n` divides `n` while `2 ^ (ruler n + 1)` does not; so `ruler n = 0` exactly
when `n` is odd, and `ruler (2 * n) = 1 + ruler n`. -/
theorem ruler_two_adic_valuation :
    ruler 0 = 0 ∧
    ∀ n : Nat, 0 < n →
      2 ^ ruler n ∣ n ∧ ¬ 2 ^ (ruler n + 1) ∣ n ∧
      (ruler n = 0 ↔ n % 2 = 1) ∧ ruler (2 * n) = 1 + ruler n :=
  ⟨ruler_zero, fun n hn =>
    ⟨pow_ruler_dvd n, pow_ruler_succ_not_dvd hn, ruler_eq_zero_iff hn, ruler_two_mul hn⟩⟩

theorem ruler_two_adic_valuation_witness :
    0 < 12 ∧ 2 ^ ruler 12 ∣ 12 ∧ ¬ 2 ^ (ruler 12 + 1) ∣ 12 ∧
      (ruler 12 = 0 ↔ 12 % 2 = 1) ∧ ruler (2 * 12) = 1 + ruler 12 :=
  ⟨by decide, ruler_two_adic_valuation.2 12 (by decide)⟩

/-- C7, as stated, fails at tip height 1: after indexing the one commit of
`singleHistory` the highest stored height is 1 and the spine of `c1` is `[c1, NULL]`, two
elements, while `⌈log₂ 1⌉ + 1 = 1`. -/
theorem spine_length_bound_fails_at_height_one :
    Index 2 (gitOfHistory singleHistory modifyContents) postgres bytesAsSymbols "c1"
        emptyTables = some (singleTables, none) ∧
    maxHeight singleTables = 1 ∧
    getHops 2 postgres singleTables "c1" = some (.ok ["c1", NULL]) ∧
    ¬ (["c1", NULL].length ≤ Nat.clog 2 (maxHeight singleTables) + 1) := by
  have hmax : maxHeight singleTables = 1 := by decide
  refine ⟨by rfl, hmax, by rfl, ?_⟩
  rw [hmax, Nat.clog_one_right]
  decide

/-- C7, amended: when the highest stored height `H` is at least 2, the spine that
`getHops` returns for an indexed commit has at most `⌈log₂ H⌉ + 1` elements. -/
theorem spine_length_bound (hist : List LogEntry)
    (contents : String → String → List UInt8) (parse : ParseSymbolsFunc)
    (targets : List String) (fuel : Nat)
    (hwf : WellFormedCommits hist) (hfuel : hist.length < fuel) :
    ∃ t, indexAll fuel (gitOfHistory hist contents) parse targets emptyTables = some t ∧
      (2 ≤ maxHeight t → ∀ row ∈ t.rockskip_ancestry,
        ∃ hops, getHops fuel postgres t row.commit_id = some (.ok hops) ∧
          hops.length ≤ Nat.clog 2 (maxHeight t) + 1) := by
  obtain ⟨t, k, hrun, hk, ht⟩ := indexAll_ancestry hwf contents parse hfuel targets
    (emptyTables_ancestry hist) (Nat.zero_le _)
  refine ⟨t, hrun, ?_⟩
  intro hH row hrow
  rw [maxHeight_ancestryUpTo ht] at hH ⊢
  rw [ht] at hrow
  obtain ⟨x, h1, h2, rfl⟩ := mem_ancestryUpTo.mp hrow
  refine ⟨_, getHops_spine hwf ht hk h2 hfuel, ?_⟩
  rw [List.length_map]
  exact spineH_length_clog h2 hH

theorem spine_length_bound_witness :
    WellFormedCommits modifyHistory ∧ modifyHistory.length < 3 ∧
    ∃ t, indexAll 3 (gitOfHistory modifyHistory modifyContents) bytesAsSymbols ["c2"]
        emptyTables = some t ∧
      (2 ≤ maxHeight t → ∀ row ∈ t.rockskip_ancestry,
        ∃ hops, getHops 3 postgres t row.commit_id = some (.ok hops) ∧
          hops.length ≤ Nat.clog 2 (maxHeight t) + 1) :=
  ⟨by decide, by decide,
    spine_length_bound modifyHistory modifyContents bytesAsSymbols ["c2"] 3
      (by decide) (by decide)⟩

/-- C8: one visible blob per path.  For a well-formed linear history on whose added and
modified files the parser returns a slice of symbols that is not nil, indexed from the
empty store up to height `n` and an indexed commit at height `x ≤ n`: `Search` with no
query returns at most one blob of any path; and for any hop and any path at most one row
of the blob table satisfies the predicate of `GetBlob` (the path, the hop in `added`, the
hop not in `deleted`). -/
theorem one_visible_blob_per_path (hist : List LogEntry)
    (contents : String → String → List UInt8) (parse : ParseSymbolsFunc) (fuel n x : Nat)
    (hwf : WellFormed hist) (hpo : ParseOk hist contents parse)
    (hfuel : hist.length < fuel) (hx1 : 1 ≤ x) (hxn : x ≤ n) (hn : n ≤ hist.length) :
    ∃ t blobs,
      Index fuel (gitOfHistory hist contents) postgres parse (commitAt hist n) emptyTables =
        some (t, none) ∧
      Search fuel postgres t (commitAt hist x) none = some (.ok blobs) ∧
      (∀ p, blobs.countP (fun b => decide (b.Path = p)) ≤ 1) ∧
      ∀ hop p, t.rockskip_blobs.countP (fun b =>
        decide (b.path = p) && decide (hop ∈ b.added) && !decide (hop ∈ b.deleted)) ≤ 1 := by
  obtain ⟨t, hrun, hanc, hinv, -⟩ :=
    Index_ok hwf hpo hfuel (Nat.zero_le n) (by omega) hn (emptyTables_ancestry hist)
      (BlobsInv_empty hist contents parse)
  refine ⟨t, (t.rockskip_blobs.filter fun b =>
      overlaps ((spineH x).map (commitAt hist)) b.added &&
        !overlaps ((spineH x).map (commitAt hist)) b.deleted).map BlobRow.toBlob,
    hrun, ?_, ?_, ?_⟩
  · rw [Search_eq hwf.1 hanc hn hxn hfuel, pgSearch_none]
  · intro p
    have hnd := visible_paths_nodup hwf hxn hn hinv (x := x)
    have hcount := List.nodup_iff_count_le_one.mp hnd p
    rw [List.count_eq_countP, List.countP_map] at hcount
    refine le_trans (le_of_eq ?_) hcount
    apply List.countP_congr
    intro b _
    simp
  · intro hop p
    apply countP_le_one_of_unique _ _ (blobs_nodup hinv.1)
    intro b1 h1 b2 h2 p1 p2
    simp only [Bool.and_eq_true, decide_eq_true_eq, Bool.not_eq_true',
      decide_eq_false_iff_not] at p1 p2
    exact getBlob_unique hwf hn hinv h1 h2 (p1.1.1.trans p2.1.1.symm) p1.1.2 p2.1.2 p1.2 p2.2

theorem one_visible_blob_per_path_witness :
    WellFormed modifyHistory ∧ ParseOk modifyHistory modifyContents bytesAsSymbols ∧
    modifyHistory.length < 3 ∧ 1 ≤ 2 ∧ 2 ≤ 2 ∧ 2 ≤ modifyHistory.length ∧
    ∃ t blobs,
      Index 3 (gitOfHistory modifyHistory modifyContents) postgres bytesAsSymbols
        (commitAt modifyHistory 2) emptyTables = some (t, none) ∧
      Search 3 postgres t (commitAt modifyHistory 2) none = some (.ok blobs) ∧
      (∀ p, blobs.countP (fun b => decide (b.Path = p)) ≤ 1) ∧
      ∀ hop p, t.rockskip_blobs.countP (fun b =>
        decide (b.path = p) && decide (hop ∈ b.added) && !decide (hop ∈ b.deleted)) ≤ 1 :=
  ⟨by decide, parseOk_bytesAsSymbols _ _, by decide, by decide, by decide, by decide,
    one_visible_blob_per_path modifyHistory modifyContents bytesAsSymbols 3 2 2 (by decide)
      (parseOk_bytesAsSymbols _ _) (by decide) (by decide) (by decide) (by decide)⟩

/-- C9, as stated, fails on its own witness: after indexing `c2`, which modifies the
`a.txt` that `c1` added, the first blob has `added = [c1]` and an empty `deleted`; `c2` is
not in it (`AppendHop` had put `c2` in `added`, and `DeleteRedundant` removed it from both
columns). -/
theorem modify_witness_deleted_is_empty :
    Index 3 (gitOfHistory modifyHistory modifyContents) postgres bytesAsSymbols "c2"
        emptyTables = some (modifyTables, none) ∧
    (modifyTables.rockskip_blobs.map fun b => (b.id, b.added, b.deleted)) =
      [(1, ["c1"], []), (2, ["c2"], [])] ∧
    ¬ ∀ b ∈ modifyTables.rockskip_blobs, b.id = 1 → "c2" ∈ b.deleted := by
  refine ⟨by rfl, by decide, by decide⟩

/-- C9, amended: state after a modify.  For an entry at height `k + 1` of a well-formed
history (on whose added and modified files the parser returns a slice of symbols that is
not nil) that reports `p` as `Modified`, in the store that `Index` leaves at that height:
the row inserted for `p` has `added = [commit]` and an empty `deleted`; the row of `p`
returned by `Search` at the parent commit does not have the commit in `added`, and has it
in `deleted` exactly once unless its birth height lies in the interval of the new height,
in which case it does not have it in `deleted` either. -/
theorem state_after_modify (hist : List LogEntry)
    (contents : String → String → List UInt8) (parse : ParseSymbolsFunc) (fuel k : Nat)
    (p : String) (hwf : WellFormed hist) (hpo : ParseOk hist contents parse)
    (hfuel : hist.length < fuel) (hk : k < hist.length)
    (hmod : statusAt hist (k + 1) p = some .ModifiedAMD) :
    ∃ t old new blobs,
      Index fuel (gitOfHistory hist contents) postgres parse (commitAt hist (k + 1))
        emptyTables = some (t, none) ∧
      Search fuel postgres t (commitAt hist k) none = some (.ok blobs) ∧
      old ∈ t.rockskip_blobs ∧ old.path = p ∧ old.toBlob ∈ blobs ∧
      new ∈ t.rockskip_blobs ∧ new.path = p ∧ new.commit = commitAt hist (k + 1) ∧
      new.added = [commitAt hist (k + 1)] ∧ new.deleted = [] ∧
      commitAt hist (k + 1) ∉ old.added ∧
      old.deleted.count (commitAt hist (k + 1)) =
        if inI (old.birth hist) (k + 1) then 0 else 1 := by
  have hk1 : k + 1 ≤ hist.length := hk
  obtain ⟨t, hrun, hanc, hinv, -⟩ :=
    Index_ok hwf hpo hfuel (Nat.zero_le (k + 1)) (by omega) hk1 (emptyTables_ancestry hist)
      (BlobsInv_empty hist contents parse)
  -- the previously visible row
  have hfile : p ∈ filesAt hist k := (wellFormed_status hwf hk hmod).2 (by simp)
  obtain ⟨a0, hlive⟩ := (mem_filesAt_iff hwf (le_of_lt hk) p).mp hfile
  obtain ⟨old, hold, hoc, hop⟩ :=
    hinv.1.complete_old a0 p (by have := hlive.2.1; omega) hlive.2.2.1
  have hob : old.birth hist = a0 :=
    birth_of_commit hwf (by have := hlive.2.1; omega) hoc
  have hod : old.hidden hist = k + 1 := by
    rw [hidden_def, hob, hop]
    exact hiddenAt_eq_of_hides (by have := hlive.2.1; omega) (Or.inl hmod)
      fun x hx1 hx2 => hlive.2.2.2 x hx1 (by omega)
  -- the inserted row
  obtain ⟨new, hnew, hnc, hnp⟩ := hinv.1.complete_old (k + 1) p (le_refl _) (Or.inr hmod)
  have hnb : new.birth hist = k + 1 := birth_of_commit hwf hk1 hnc
  have hself := inI_self (k + 1) (by omega)
  have hnd := hidden_zero_or_gt hist new
  have hnh : ∀ x, x ≤ k + 1 → ¬ inI (new.hidden hist) x := by
    intro x hx hi
    unfold inI at hi
    omega
  refine ⟨t, old, new, (t.rockskip_blobs.filter fun b =>
      overlaps ((spineH k).map (commitAt hist)) b.added &&
        !overlaps ((spineH k).map (commitAt hist)) b.deleted).map BlobRow.toBlob,
    hrun, ?_, hold, hop, ?_, hnew, hnp, hnc, ?_, ?_, ?_, ?_⟩
  · rw [Search_eq hwf.1 hanc hk1 (Nat.le_succ k) hfuel, pgSearch_none]
  · refine List.mem_map.mpr ⟨old, List.mem_filter.mpr ⟨hold, ?_⟩, rfl⟩
    rw [visible_iff hwf (Nat.le_succ k) hk1 hinv hold, hob, hop]
    exact hlive
  · apply eq_singleton_of_nodup (hinv.2.added_nodup new hnew)
    intro y
    rw [hinv.2.added new hnew, hnb]
    constructor
    · rintro ⟨x, hx1, hx2, rfl, hx4, -⟩
      unfold inI at hx4
      have : x = k + 1 := by omega
      rw [this]
    · rintro rfl
      exact ⟨k + 1, by omega, le_refl _, rfl, hself, hnh _ (le_refl _)⟩
  · rw [List.eq_nil_iff_forall_not_mem]
    intro y hy
    obtain ⟨x, hx1, hx2, -, hx4, -⟩ := (hinv.2.deleted new hnew y).mp hy
    exact hnh x hx2 hx4
  · intro hmem
    have := ((AddedAt_commitAt hwf.1 hk1 hk1).mp ((hinv.2.added old hold _).mp hmem)).2.2
    rw [hod] at this
    exact this hself
  · have hiff : commitAt hist (k + 1) ∈ old.deleted ↔ ¬ inI (old.birth hist) (k + 1) := by
      rw [hinv.2.deleted old hold, DeletedAt_commitAt hwf.1 hk1 hk1, hod]
      constructor
      · exact fun h => h.2.2
      · exact fun h => ⟨le_refl _, hself, h⟩
    by_cases hin : inI (old.birth hist) (k + 1)
    · rw [if_pos hin, List.count_eq_zero]
      exact fun h => (hiff.mp h) hin
    · rw [if_neg hin]
      exact List.count_eq_one_of_mem (hinv.2.deleted_nodup old hold) (hiff.mpr hin)

theorem state_after_modify_witness :
    WellFormed modifyHistory ∧ ParseOk modifyHistory modifyContents bytesAsSymbols ∧
    modifyHistory.length < 3 ∧ 1 < modifyHistory.length ∧
    statusAt modifyHistory (1 + 1) "a.txt" = some .ModifiedAMD ∧
    ∃ t old new blobs,
      Index 3 (gitOfHistory modifyHistory modifyContents) postgres bytesAsSymbols
        (commitAt modifyHistory (1 + 1)) emptyTables = some (t, none) ∧
      Search 3 postgres t (commitAt modifyHistory 1) none = some (.ok blobs) ∧
      old ∈ t.rockskip_blobs ∧ old.path = "a.txt" ∧ old.toBlob ∈ blobs ∧
      new ∈ t.rockskip_blobs ∧ new.path = "a.txt" ∧
      new.commit = commitAt modifyHistory (1 + 1) ∧
      new.added = [commitAt modifyHistory (1 + 1)] ∧ new.deleted = [] ∧
      commitAt modifyHistory (1 + 1) ∉ old.added ∧
      old.deleted.count (commitAt modifyHistory (1 + 1)) =
        if inI (old.birth modifyHistory) (1 + 1) then 0 else 1 :=
  ⟨by decide, parseOk_bytesAsSymbols _ _, by decide, by decide, by decide,
    state_after_modify modifyHistory modifyContents bytesAsSymbols 3 1 "a.txt" (by decide)
      (parseOk_bytesAsSymbols _ _) (by decide) (by decide) (by decide)⟩

/-- C10, as stated, fails when the history holds another file: in `besideHistory` the
commit `c1` adds `a.txt` with the symbols `["f"]` and the next commit `c2` modifies it to
the symbols `["g"]`, while `q.txt`, added by `c0`, has the symbol `g`.  The symbol `g` is
not among the symbols of the first blob of `a.txt`, yet `Search` at `c1` for `g` returns a
blob (the one of `q.txt`); and `Search` at `c2` for `g` returns two blobs, the one of
`q.txt` and the second blob of `a.txt`. -/
theorem symbol_query_returns_other_paths :
    WellFormed besideHistory ∧
    Index 4 (gitOfHistory besideHistory modifyContents) postgres bytesAsSymbols "c2"
        emptyTables = some (besideTables, none) ∧
    bytesAsSymbols "a.txt" (modifyContents "c1" "a.txt") = .ok (some ["f"]) ∧
    bytesAsSymbols "a.txt" (modifyContents "c2" "a.txt") = .ok (some ["g"]) ∧
    "g" ∉ ["f"] ∧
    Search 4 postgres besideTables "c1" (some "g") =
      some (.ok [{ Commit := "c0", Path := "q.txt", Added := ["c0", "c1"], Deleted := [],
                   Symbols := some ["g"] }]) ∧
    Search 4 postgres besideTables "c2" (some "g") =
      some (.ok [{ Commit := "c0", Path := "q.txt", Added := ["c0", "c1"], Deleted := [],
                   Symbols := some ["g"] },
                 { Commit := "c2", Path := "a.txt", Added := ["c2"], Deleted := [],
                   Symbols := some ["g"] }]) := by
  refine ⟨by decide, by rfl, by rfl, by rfl, by decide, by rfl, by rfl⟩

/-- C10, amended: symbol queries across a modify, for the blobs of the path.  For a
well-formed linear history in which the entry at height `k + 1` adds `p`, with symbols
`S1`, and the next entry modifies `p`, to symbols `S2`, indexed from the empty store up to
any height `n` from `k + 2` on (the parser returning a slice of symbols that is not nil
for every file that the history adds or modifies): the store holds a first blob of `p`, born at the first commit
with symbols `S1`, and a second blob of `p`, born at the second commit with symbols `S2`;
among the blobs that `Search` at the first commit returns for a symbol `s`, those of path
`p` are exactly the first blob when `s` is in `S1` and none otherwise; and among the blobs
that `Search` at the second commit returns, those of path `p` are exactly the second blob
when `s` is in `S2` and none otherwise. -/
theorem symbol_queries_across_modify (hist : List LogEntry)
    (contents : String → String → List UInt8) (parse : ParseSymbolsFunc) (fuel k n : Nat)
    (p : String) (S1 S2 : List String)
    (hwf : WellFormed hist) (hpo : ParseOk hist contents parse)
    (hfuel : hist.length < fuel) (hkn : k + 2 ≤ n) (hn : n ≤ hist.length)
    (hadd : statusAt hist (k + 1) p = some .AddedAMD)
    (hmod : statusAt hist (k + 2) p = some .ModifiedAMD)
    (hp1 : parse p (contents (commitAt hist (k + 1)) p) = .ok (some S1))
    (hp2 : parse p (contents (commitAt hist (k + 2)) p) = .ok (some S2)) :
    ∃ t first second,
      Index fuel (gitOfHistory hist contents) postgres parse (commitAt hist n) emptyTables =
        some (t, none) ∧
      first ∈ t.rockskip_blobs ∧ first.commit = commitAt hist (k + 1) ∧ first.path = p ∧
      first.symbols = S1 ∧
      second ∈ t.rockskip_blobs ∧ second.commit = commitAt hist (k + 2) ∧ second.path = p ∧
      second.symbols = S2 ∧
      ∀ s, ∃ blobs1 blobs2,
        Search fuel postgres t (commitAt hist (k + 1)) (some s) = some (.ok blobs1) ∧
        Search fuel postgres t (commitAt hist (k + 2)) (some s) = some (.ok blobs2) ∧
        (blobs1.filter fun b => decide (b.Path = p)) =
          (if s ∈ S1 then [first.toBlob] else []) ∧
        (blobs2.filter fun b => decide (b.Path = p)) =
          (if s ∈ S2 then [second.toBlob] else []) := by
  obtain ⟨t, hrun, hanc, hinv, -⟩ :=
    Index_ok hwf hpo hfuel (Nat.zero_le n) (by omega) hn (emptyTables_ancestry hist)
      (BlobsInv_empty hist contents parse)
  obtain ⟨first, hf, hfc, hfp⟩ := hinv.1.complete_old (k + 1) p (by omega) (Or.inl hadd)
  obtain ⟨second, hs, hsc, hsp⟩ := hinv.1.complete_old (k + 2) p (by omega) (Or.inr hmod)
  have hfb : first.birth hist = k + 1 := birth_of_commit hwf (by omega) hfc
  have hsb : second.birth hist = k + 2 := birth_of_commit hwf (by omega) hsc
  have hfs : first.symbols = S1 := by
    have h := (hinv.1.rows first hf).2.2.2.2.1
    rw [hfp, hfc, hp1] at h
    simpa using h.symm
  have hss : second.symbols = S2 := by
    have h := (hinv.1.rows second hs).2.2.2.2.1
    rw [hsp, hsc, hp2] at h
    simpa using h.symm
  have hfl : liveAt hist (k + 1) (first.birth hist) first.path := by
    rw [hfb, hfp]
    exact ⟨by omega, le_refl _, Or.inl hadd, fun x h1 h2 => by omega⟩
  have hsl : liveAt hist (k + 2) (second.birth hist) second.path := by
    rw [hsb, hsp]
    exact ⟨by omega, le_refl _, Or.inr hmod, fun x h1 h2 => by omega⟩
  refine ⟨t, first, second, hrun, hf, hfc, hfp, hfs, hs, hsc, hsp, hss, fun s => ?_⟩
  refine ⟨(t.rockskip_blobs.filter fun r =>
      overlaps ((spineH (k + 1)).map (commitAt hist)) r.added &&
        !overlaps ((spineH (k + 1)).map (commitAt hist)) r.deleted &&
        overlaps [s] r.symbols).map BlobRow.toBlob,
    (t.rockskip_blobs.filter fun r =>
      overlaps ((spineH (k + 2)).map (commitAt hist)) r.added &&
        !overlaps ((spineH (k + 2)).map (commitAt hist)) r.deleted &&
        overlaps [s] r.symbols).map BlobRow.toBlob, ?_, ?_, ?_, ?_⟩
  · rw [Search_eq hwf.1 hanc hn (by omega) hfuel, pgSearch_some]
  · rw [Search_eq hwf.1 hanc hn (by omega) hfuel, pgSearch_some]
  · rw [← hfp, ← hfs]
    exact search_path hwf (by omega) hn hinv hf hfl s
  · rw [← hsp, ← hss]
    exact search_path hwf (by omega) hn hinv hs hsl s

theorem symbol_queries_across_modify_witness :
    WellFormed besideHistory ∧ ParseOk besideHistory modifyContents bytesAsSymbols ∧
    besideHistory.length < 4 ∧ 1 + 2 ≤ 3 ∧ 3 ≤ besideHistory.length ∧
    statusAt besideHistory (1 + 1) "a.txt" = some .AddedAMD ∧
    statusAt besideHistory (1 + 2) "a.txt" = some .ModifiedAMD ∧
    bytesAsSymbols "a.txt" (modifyContents (commitAt besideHistory (1 + 1)) "a.txt") =
      .ok (some ["f"]) ∧
    bytesAsSymbols "a.txt" (modifyContents (commitAt besideHistory (1 + 2)) "a.txt") =
      .ok (some ["g"]) ∧
    ∃ t first second,
      Index 4 (gitOfHistory besideHistory modifyContents) postgres bytesAsSymbols
        (commitAt besideHistory 3) emptyTables = some (t, none) ∧
      first ∈ t.rockskip_blobs ∧ first.commit = commitAt besideHistory (1 + 1) ∧
      first.path = "a.txt" ∧ first.symbols = ["f"] ∧
      second ∈ t.rockskip_blobs ∧ second.commit = commitAt besideHistory (1 + 2) ∧
      second.path = "a.txt" ∧ second.symbols = ["g"] ∧
      ∀ s, ∃ blobs1 blobs2,
        Search 4 postgres t (commitAt besideHistory (1 + 1)) (some s) = some (.ok blobs1) ∧
        Search 4 postgres t (commitAt besideHistory (1 + 2)) (some s) = some (.ok blobs2) ∧
        (blobs1.filter fun b => decide (b.Path = "a.txt")) =
          (if s ∈ ["f"] then [first.toBlob] else []) ∧
        (blobs2.filter fun b => decide (b.Path = "a.txt")) =
          (if s ∈ ["g"] then [second.toBlob] else []) :=
  ⟨by decide, parseOk_bytesAsSymbols _ _, by decide, by decide, by decide, by decide,
    by decide, by rfl, by rfl,
    symbol_queries_across_modify besideHistory modifyContents bytesAsSymbols 4 1 3 "a.txt"
      ["f"] ["g"] (by decide) (parseOk_bytesAsSymbols _ _) (by decide) (by decide)
      (by decide) (by decide) (by decide) (by rfl) (by rfl)⟩

/-- C11, as stated, fails: after indexing the eight commits of `chainHistory` the added
column of the blob of `a.txt` is `[c1, c2, c4, c8]`, four commits and not three. -/
theorem chain_added_has_four_commits :
    Index 9 (gitOfHistory chainHistory modifyContents) postgres bytesAsSymbols "c8"
        emptyTables = some (chainTables, none) ∧
    ((chainTables.rockskip_blobs.filter fun b => decide (b.path = "a.txt")).map
      fun b => b.added) = [["c1", "c2", "c4", "c8"]] ∧
    ¬ (["c1", "c2", "c4", "c8"].length = 3) := by
  refine ⟨by rfl, by decide, by decide⟩

/-- C11, amended: ruler propagation size.  For a well-formed linear history of at least
eight commits, on whose added and modified files the parser returns a slice of symbols
that is not nil, in which the first commit adds the path `p` and no later commit up to height
8 reports `p`, after `Index` on the commit at height 8 from the empty store the path has
one blob, and its added column holds exactly the commits at heights 1, 2, 4 and 8: four
commits (`log₂ 8 + 1`), not eight. -/
theorem ruler_propagation_size (hist : List LogEntry)
    (contents : String → String → List UInt8) (parse : ParseSymbolsFunc) (fuel : Nat)
    (p : String) (hwf : WellFormed hist) (hpo : ParseOk hist contents parse)
    (hfuel : hist.length < fuel) (hlen : 8 ≤ hist.length)
    (hadd : statusAt hist 1 p = some .AddedAMD)
    (hnot : ∀ x, 2 ≤ x → x ≤ 8 → statusAt hist x p = none) :
    ∃ t b,
      Index fuel (gitOfHistory hist contents) postgres parse (commitAt hist 8) emptyTables =
        some (t, none) ∧
      b ∈ t.rockskip_blobs ∧ b.path = p ∧ b.commit = commitAt hist 1 ∧
      (∀ b2 ∈ t.rockskip_blobs, b2.path = p → b2 = b) ∧
      b.added.Perm [commitAt hist 1, commitAt hist 2, commitAt hist 4, commitAt hist 8] ∧
      b.added.length = 4 ∧ Nat.log 2 8 + 1 = 4 := by
  obtain ⟨t, b, hrun, hb, hbp, hbc, huniq, hperm⟩ :=
    chain_added hwf hpo hfuel hlen hadd hnot
  exact ⟨t, b, hrun, hb, hbp, hbc, huniq, hperm, by rw [hperm.length_eq]; rfl,
    by simp [Nat.log]⟩

theorem ruler_propagation_size_witness :
    WellFormed chainHistory ∧ ParseOk chainHistory modifyContents bytesAsSymbols ∧
    chainHistory.length < 9 ∧ 8 ≤ chainHistory.length ∧
    statusAt chainHistory 1 "a.txt" = some .AddedAMD ∧
    (∀ x, 2 ≤ x → x ≤ 8 → statusAt chainHistory x "a.txt" = none) ∧
    ∃ t b,
      Index 9 (gitOfHistory chainHistory modifyContents) postgres bytesAsSymbols
        (commitAt chainHistory 8) emptyTables = some (t, none) ∧
      b ∈ t.rockskip_blobs ∧ b.path = "a.txt" ∧ b.commit = commitAt chainHistory 1 ∧
      (∀ b2 ∈ t.rockskip_blobs, b2.path = "a.txt" → b2 = b) ∧
      b.added.Perm [commitAt chainHistory 1, commitAt chainHistory 2,
        commitAt chainHistory 4, commitAt chainHistory 8] ∧
      b.added.length = 4 ∧ Nat.log 2 8 + 1 = 4 :=
  have hnot : ∀ x, 2 ≤ x → x ≤ 8 → statusAt chainHistory x "a.txt" = none := by
    intro x h2 h8
    interval_cases x <;> rfl
  ⟨by decide, parseOk_bytesAsSymbols _ _, by decide, by decide, by rfl, hnot,
    ruler_propagation_size chainHistory modifyContents bytesAsSymbols 9 "a.txt" (by decide)
      (parseOk_bytesAsSymbols _ _) (by decide) (by decide) (by rfl) hnot⟩

/-- C12, as stated, fails in two ways.  On `deleteTwice`, one `Index` call up to `c3`
returns no error although `a.txt` is not visible at the tip `c2` (`Search` at `c2` on the
store of `c2` is empty): the cache of the call still holds the blob that `c1` inserted,
and the blob is marked deleted at `c3`; a separate call for `c3` has an empty cache and
does return the error.  On `deleteLate`, a separate `Index` call for `c4` returns no error
although only `b.txt` is visible at the tip `c3`: `GetBlob` finds the blob of `a.txt`
through the hop `c2`, which is in its added column and not in its deleted column. -/
theorem change_to_invisible_path_not_fatal :
    (Index 4 (gitOfHistory deleteTwice modifyContents) postgres bytesAsSymbols "c2"
        emptyTables = some (deleteTwiceAt2, none) ∧
      Search 4 postgres deleteTwiceAt2 "c2" none = some (.ok []) ∧
      Index 4 (gitOfHistory deleteTwice modifyContents) postgres bytesAsSymbols "c3"
        emptyTables = some (deleteTwiceAt3, none) ∧
      (deleteTwiceAt3.rockskip_blobs.map fun b => (b.path, b.added, b.deleted)) =
        [("a.txt", ["c1"], ["c3"])] ∧
      Index 4 (gitOfHistory deleteTwice modifyContents) postgres bytesAsSymbols "c3"
        deleteTwiceAt2 = some (deleteTwiceAt2, some "could not find blob for path a.txt")) ∧
    (Index 5 (gitOfHistory deleteLate modifyContents) postgres bytesAsSymbols "c3"
        emptyTables = some (deleteLateAt3, none) ∧
      Search 5 postgres deleteLateAt3 "c3" none = some (.ok
        [{ Commit := "c2", Path := "b.txt", Added := ["c2"], Deleted := [],
           Symbols := some ["g"] }]) ∧
      getHops 5 postgres deleteLateAt3 "c3" = some (.ok ["c3", "c2", NULL]) ∧
      postgres.GetBlob deleteLateAt3 "c2" "a.txt" = .ok (1, true) ∧
      Index 5 (gitOfHistory deleteLate modifyContents) postgres bytesAsSymbols "c4"
        deleteLateAt3 = some (deleteLateAt4, none)) := by
  refine ⟨⟨by rfl, by rfl, by rfl, by rfl, by rfl⟩, ⟨by rfl, by rfl, by rfl, by rfl, by rfl⟩⟩

/-- C12, amended: a change to a path for which no blob is found is fatal.  In any run of
`Index` (any `Git`, any `DB`) that reaches, in the path loop of an entry, a path status
`Deleted` or `Modified` for which the cache of the call holds no id and for which
`GetBlob` finds no blob on any hop of the tip's spine, `Index` returns the error
`could not find blob for path ...`, and the store is left as it was when the path was
reached: neither `UpdateBlobHops` nor `InsertBlob` is issued for it, and no later path or
entry is processed. -/
theorem unfound_path_is_fatal {σ : Type} (fuel : Nat) (git : Git) (db : DB σ)
    (parse : ParseSymbolsFunc) (givenCommit : String) (s : σ) (revs : List String)
    (tipCommit : String) (tipHeight missingCount : Nat) (done rest : List LogEntry)
    (entry : LogEntry) (st : IndexState σ) (hops : List String) (s1 s2 s3 : σ)
    (cache3 : String → Option Nat) (pre post : List PathStatus) (ps : PathStatus)
    (hrev : git.RevList givenCommit = .ok revs)
    (htip : findTip db s revs 0 = .ok (tipCommit, tipHeight, missingCount))
    (hlog : git.LogReverse givenCommit missingCount = .ok (done ++ entry :: rest))
    (hdone : indexEntries fuel git db parse done
      { db := s, tipCommit := tipCommit, tipHeight := tipHeight,
        pathToBlobIdCache := fun _ => none } = some (st, none))
    (hhops : getHops fuel db st.db st.tipCommit = some (.ok hops))
    (hr : ruler (st.tipHeight + 1) < hops.length)
    (ha1 : db.AppendHop st.db (hops.take (ruler (st.tipHeight + 1))) .AddedAD
      entry.Commit = .ok s1)
    (ha2 : db.AppendHop s1 (hops.take (ruler (st.tipHeight + 1))) .DeletedAD
      entry.Commit = .ok s2)
    (hps : entry.PathStatuses = pre ++ ps :: post)
    (hpre : indexPaths git db parse hops entry.Commit pre s2 st.pathToBlobIdCache =
      (s3, cache3, none))
    (hst : ps.Status = .DeletedAMD ∨ ps.Status = .ModifiedAMD)
    (hcache : cache3 ps.Path = none)
    (hmiss : ∀ hop ∈ hops, ∃ id, db.GetBlob s3 hop ps.Path = .ok (id, false)) :
    Index fuel git db parse givenCommit s =
      some (s3, some ("could not find blob for path " ++ ps.Path)) := by
  have hentry : indexEntry fuel git db parse entry st =
      some ({ st with db := s3, pathToBlobIdCache := cache3 },
        some ("could not find blob for path " ++ ps.Path)) := by
    unfold indexEntry
    rw [hhops]
    simp only
    rw [List.getElem?_eq_getElem hr]
    simp only
    rw [ha1]
    simp only
    rw [ha2]
    simp only
    rw [hps, indexPaths_append git db parse hops entry.Commit pre (ps :: post) _ _ _ _ hpre,
      indexPaths_cons, indexPath_miss git db parse hops entry.Commit ps s3 cache3 hst hcache
        hmiss]
  unfold Index
  rw [hrev]
  simp only
  rw [htip]
  simp only
  rw [hlog]
  simp only
  rw [indexEntries_append fuel git db parse done (entry :: rest) _ st hdone,
    indexEntries_cons, hentry]

theorem unfound_path_is_fatal_witness :
    (gitOfHistory deleteTwice modifyContents).RevList "c3" = .ok ["c3", "c2", "c1"] ∧
    findTip postgres deleteTwiceAt2 ["c3", "c2", "c1"] 0 = .ok ("c2", 2, 1) ∧
    (gitOfHistory deleteTwice modifyContents).LogReverse "c3" 1 =
      .ok ([] ++ { Commit := "c3",
                   PathStatuses := [{ Path := "a.txt", Status := .DeletedAMD }] } :: []) ∧
    getHops 4 postgres deleteTwiceAt2 "c2" = some (.ok ["c2", NULL]) ∧
    ruler (2 + 1) < ["c2", NULL].length ∧
    postgres.AppendHop deleteTwiceAt2 (["c2", NULL].take (ruler (2 + 1))) .AddedAD "c3" =
      .ok deleteTwiceAt2 ∧
    postgres.AppendHop deleteTwiceAt2 (["c2", NULL].take (ruler (2 + 1))) .DeletedAD "c3" =
      .ok deleteTwiceAt2 ∧
    (∀ hop ∈ ["c2", NULL], ∃ id, postgres.GetBlob deleteTwiceAt2 hop "a.txt" =
      .ok (id, false)) ∧
    Index 4 (gitOfHistory deleteTwice modifyContents) postgres bytesAsSymbols "c3"
      deleteTwiceAt2 = some (deleteTwiceAt2, some ("could not find blob for path " ++ "a.txt")) :=
  have hmiss : ∀ hop ∈ ["c2", NULL], ∃ id, postgres.GetBlob deleteTwiceAt2 hop "a.txt" =
      .ok (id, false) := by
    intro hop hm
    simp only [List.mem_cons, List.mem_singleton, List.not_mem_nil, or_false] at hm
    rcases hm with rfl | rfl <;> exact ⟨0, rfl⟩
  ⟨by rfl, by rfl, by rfl, by rfl, by decide, by rfl, by rfl, hmiss,
    unfound_path_is_fatal 4 (gitOfHistory deleteTwice modifyContents) postgres
      bytesAsSymbols "c3" deleteTwiceAt2 ["c3", "c2", "c1"] "c2" 2 1 [] []
      { Commit := "c3", PathStatuses := [{ Path := "a.txt", Status := .DeletedAMD }] }
      { db := deleteTwiceAt2, tipCommit := "c2", tipHeight := 2,
        pathToBlobIdCache := fun _ => none }
      ["c2", NULL] deleteTwiceAt2 deleteTwiceAt2 deleteTwiceAt2 (fun _ => none) [] []
      { Path := "a.txt", Status := .DeletedAMD }
      (by rfl) (by rfl) (by rfl) (by rfl) (by rfl) (by decide) (by rfl) (by rfl) (by rfl)
      (by rfl) (Or.inl rfl) (by rfl) hmiss⟩

/-- C13: the errors of two store operations are dropped.  On a store whose
`UpdateBlobHops` fails, `Index` over the three commits of `modifyTwice` returns no error,
processes every entry, and leaves all three versions of `a.txt` visible at `c3`.  On a
store whose `InsertCommit` fails, `Index` over the one commit of `singleHistory` returns
no error and leaves the blob without the commit; over the two commits of `modifyHistory`
it goes on to the second entry and fails there on the range check. -/
theorem update_and_insert_commit_errors_dropped :
    (updateFails.UpdateBlobHops emptyTables 1 .DeletedAD "c2" =
        .error "UpdateBlobHops: connection lost" ∧
      Index 4 (gitOfHistory modifyTwice modifyContents) updateFails bytesAsSymbols "c3"
        emptyTables = some (modifyTwiceUnmarked, none) ∧
      Search 4 updateFails modifyTwiceUnmarked "c3" none = some (.ok
        [{ Commit := "c1", Path := "a.txt", Added := ["c1", "c2"], Deleted := [],
           Symbols := some ["f"] },
         { Commit := "c2", Path := "a.txt", Added := ["c2"], Deleted := [],
           Symbols := some ["g"] },
         { Commit := "c3", Path := "a.txt", Added := ["c3"], Deleted := [],
           Symbols := some ["g"] }])) ∧
    (insertCommitFails.InsertCommit emptyTables "c1" 1 NULL =
        .error "InsertCommit: connection lost" ∧
      Index 2 (gitOfHistory singleHistory modifyContents) insertCommitFails bytesAsSymbols
        "c1" emptyTables = some (singleUnrecorded, none) ∧
      Index 3 (gitOfHistory modifyHistory modifyContents) insertCommitFails bytesAsSymbols
        "c2" emptyTables =
        some (singleUnrecorded, some "ruler(2) = 1 is out of range of len(hops) = 1")) := by
  refine ⟨⟨by rfl, by rfl, by rfl⟩, ⟨by rfl, by rfl, by rfl⟩⟩

/-- C14: `InsertCommit` is issued last, but its error is dropped.  On a store whose
`InsertCommit` fails, `Index` over the two commits of `modifyHistory` issues for the entry
`c1` the two `AppendHop`, the `InsertBlob` and `DeleteRedundant`, which the store accepts,
and then `InsertCommit`, which the store refuses; the entry `c1` is processed without
error, and `Index` returns the error of the range check that it raises while processing
the entry `c2`, with the commit `c1` of the earlier entry absent from the ancestry
table. -/
theorem earlier_commit_absent_after_error :
    insertCommitFails.InsertCommit singleUnrecorded "c1" 1 NULL =
      .error "InsertCommit: connection lost" ∧
    (indexEntries 3 (gitOfHistory modifyHistory modifyContents) insertCommitFails
        bytesAsSymbols
        [{ Commit := "c1", PathStatuses := [{ Path := "a.txt", Status := .AddedAMD }] }]
        { db := emptyTables, tipCommit := NULL, tipHeight := 0,
          pathToBlobIdCache := fun _ => none }).map
        (fun r => (r.1.db, r.1.tipCommit, r.1.tipHeight, r.2)) =
      some (singleUnrecorded, "c1", 1, none) ∧
    Index 3 (gitOfHistory modifyHistory modifyContents) (traced insertCommitFails)
        bytesAsSymbols "c2" (emptyTables, []) =
      some ((singleUnrecorded,
        [.AppendHop [] .AddedAD "c1", .AppendHop [] .DeletedAD "c1",
         .InsertBlob { Commit := "c1", Path := "a.txt", Added := ["c1"], Deleted := [],
                       Symbols := some ["f"] },
         .DeleteRedundant "c1"]),
        some "ruler(2) = 1 is out of range of len(hops) = 1") ∧
    insertCommitFails.GetCommit singleUnrecorded "c1" = .ok ("", 0, false) ∧
    singleUnrecorded.rockskip_ancestry = [] := by
  refine ⟨by rfl, by rfl, by rfl, by rfl, by rfl⟩

/-- C15, as stated, fails: in `singleHistory` the two `AppendHop` and the `InsertBlob` of
the entry `c1` are a prefix of its writes that ends before `InsertCommit`; `Index` run on
the store that this prefix leaves inserts the blob of `a.txt` a second time, so the final
store has two blob rows where the uninterrupted run has one, and `Search` at `c1` returns
two blobs instead of one. -/
theorem reprocessing_after_insert_blob_duplicates :
    Index 2 (gitOfHistory singleHistory modifyContents) (traced postgres) bytesAsSymbols "c1"
        (emptyTables, []) =
      some ((singleTables, singleCrashPrefix ++
        [.DeleteRedundant "c1", .InsertCommit "c1" 1 NULL]), none) ∧
    (∀ call ∈ singleCrashPrefix, call.isInsertCommit = false) ∧
    Index 2 (gitOfHistory singleHistory modifyContents) postgres bytesAsSymbols "c1"
        (applyCalls emptyTables singleCrashPrefix) = some (singleReprocessed, none) ∧
    Index 2 (gitOfHistory singleHistory modifyContents) postgres bytesAsSymbols "c1"
        emptyTables = some (singleTables, none) ∧
    ¬ singleTables.SameSets singleReprocessed ∧
    Search 2 postgres singleReprocessed "c1" none = some (.ok
      [{ Commit := "c1", Path := "a.txt", Added := ["c1"], Deleted := [],
         Symbols := some ["f"] },
       { Commit := "c1", Path := "a.txt", Added := ["c1"], Deleted := [],
         Symbols := some ["f"] }]) ∧
    Search 2 postgres singleTables "c1" none = some (.ok
      [{ Commit := "c1", Path := "a.txt", Added := ["c1"], Deleted := [],
         Symbols := some ["f"] }]) := by
  refine ⟨by rfl, by decide, by rfl, by rfl, ?_, by rfl, by rfl⟩
  intro h
  have hlen := h.2.2.length_eq
  simp [singleTables, singleReprocessed] at hlen

/-- C15, amended: reprocessing a crashed entry is idempotent as long as no blob of the
entry had been inserted.  For a well-formed linear history on whose added and modified
files the parser returns a slice of symbols that is not nil, the entry `E` at height
`k + 1` and a target at height `n > k`: let `sk` be the store that `Index` leaves at
height `k` (the empty store for `k = 0`) and `T` the writes that `Index` issues for `E`
from `sk`.  For every prefix `P` of `T` that holds no `InsertBlob` and no `InsertCommit`,
`Index` run to the target on the store that `P` leaves returns without error, and its
store equals the store `final` of the uninterrupted run once the hop columns are read as
sets: the same ancestry rows, row by row the same blobs with the same `added` and
`deleted` sets, and `Search` at every commit up to the target returns the same blobs with
the same sets. -/
theorem reprocessing_before_insert_blob (hist : List LogEntry)
    (contents : String → String → List UInt8) (parse : ParseSymbolsFunc) (fuel k n : Nat)
    (hwf : WellFormed hist) (hpo : ParseOk hist contents parse)
    (hfuel : hist.length < fuel) (hkn : k < n) (hn : n ≤ hist.length) :
    ∃ sk sk1 T final,
      (k = 0 ∧ sk = emptyTables ∨
        Index fuel (gitOfHistory hist contents) postgres parse (commitAt hist k)
          emptyTables = some (sk, none)) ∧
      Index fuel (gitOfHistory hist contents) (traced postgres) parse (commitAt hist (k + 1))
        (sk, []) = some ((sk1, T), none) ∧
      Index fuel (gitOfHistory hist contents) postgres parse (commitAt hist n) emptyTables =
        some (final, none) ∧
      Index fuel (gitOfHistory hist contents) postgres parse (commitAt hist n) sk =
        some (final, none) ∧
      ∀ P, P <+: T →
        (∀ call ∈ P, call.isInsertBlob = false ∧ call.isInsertCommit = false) →
        ∃ r, Index fuel (gitOfHistory hist contents) postgres parse (commitAt hist n)
            (applyCalls sk P) = some (r, none) ∧
          final.SameSets r ∧
          ∀ x, x ≤ n → ∀ query, ∃ bs bs1,
            Search fuel postgres final (commitAt hist x) query = some (.ok bs) ∧
            Search fuel postgres r (commitAt hist x) query = some (.ok bs1) ∧
            List.Forall₂ Blob.SameSets bs bs1 := by
  rcases Nat.eq_zero_or_pos k with hk0 | hk0
  · subst hk0
    obtain ⟨sk1, T, final, h1, h2, h3⟩ := reprocess_from hwf hpo hfuel hkn hn
      (emptyTables_ancestry hist) (BlobsInv_empty hist contents parse)
    exact ⟨emptyTables, sk1, T, final, Or.inl ⟨rfl, rfl⟩, h1, h2, h2, h3⟩
  · obtain ⟨sk, hrun, hanc, hinv, hres⟩ :=
      Index_resume hwf hpo hfuel hk0 (le_of_lt hkn) hn
    obtain ⟨sk1, T, final, h1, h2, h3⟩ := reprocess_from hwf hpo hfuel hkn hn hanc hinv
    exact ⟨sk, sk1, T, final, Or.inr hrun, h1, hres.trans h2, h2, h3⟩

theorem reprocessing_before_insert_blob_witness :
    WellFormed modifyHistory ∧ ParseOk modifyHistory modifyContents bytesAsSymbols ∧
    modifyHistory.length < 3 ∧ 1 < 2 ∧ 2 ≤ modifyHistory.length ∧
    ∃ sk sk1 T final,
      (1 = 0 ∧ sk = emptyTables ∨
        Index 3 (gitOfHistory modifyHistory modifyContents) postgres bytesAsSymbols
          (commitAt modifyHistory 1) emptyTables = some (sk, none)) ∧
      Index 3 (gitOfHistory modifyHistory modifyContents) (traced postgres) bytesAsSymbols
        (commitAt modifyHistory (1 + 1)) (sk, []) = some ((sk1, T), none) ∧
      Index 3 (gitOfHistory modifyHistory modifyContents) postgres bytesAsSymbols
        (commitAt modifyHistory 2) emptyTables = some (final, none) ∧
      Index 3 (gitOfHistory modifyHistory modifyContents) postgres bytesAsSymbols
        (commitAt modifyHistory 2) sk = some (final, none) ∧
      ∀ P, P <+: T →
        (∀ call ∈ P, call.isInsertBlob = false ∧ call.isInsertCommit = false) →
        ∃ r, Index 3 (gitOfHistory modifyHistory modifyContents) postgres bytesAsSymbols
            (commitAt modifyHistory 2) (applyCalls sk P) = some (r, none) ∧
          final.SameSets r ∧
          ∀ x, x ≤ 2 → ∀ query, ∃ bs bs1,
            Search 3 postgres final (commitAt modifyHistory x) query = some (.ok bs) ∧
            Search 3 postgres r (commitAt modifyHistory x) query = some (.ok bs1) ∧
            List.Forall₂ Blob.SameSets bs bs1 :=
  ⟨by decide, parseOk_bytesAsSymbols _ _, by decide, by decide, by decide,
    reprocessing_before_insert_blob modifyHistory modifyContents bytesAsSymbols 3 1 2
      (by decide) (parseOk_bytesAsSymbols _ _) (by decide) (by decide) (by decide)⟩

/-- C16: spine head.  Whenever `getHops` returns a list for a commit `C`, the list is not
empty and its first element is `C`; and when `GetCommit` reports `C` as not present,
`getHops` returns exactly `[C]` (one round of the loop is enough). -/
theorem spine_head {σ : Type} (db : DB σ) (s : σ) (C : String) (fuel : Nat) :
    (∀ hops, getHops fuel db s C = some (.ok hops) → hops ≠ [] ∧ hops.head? = some C) ∧
    (∀ ancestor height, db.GetCommit s C = .ok (ancestor, height, false) →
      getHops (fuel + 1) db s C = some (.ok [C])) := by
  constructor
  · intro hops h
    obtain ⟨rest, rfl⟩ := getHopsLoop_prefix db s fuel C [C] hops h
    simp
  · intro ancestor height h
    exact getHops_absent db s C ancestor height fuel h

theorem spine_head_witness :
    getHops 2 postgres singleTables "c1" = some (.ok ["c1", NULL]) ∧
    (["c1", NULL] ≠ [] ∧ ["c1", NULL].head? = some "c1") ∧
    postgres.GetCommit singleTables NULL = .ok ("", 0, false) ∧
    getHops 2 postgres singleTables NULL = some (.ok [NULL]) :=
  ⟨by rfl, (spine_head postgres singleTables "c1" 2).1 _ (by rfl), by rfl,
    (spine_head postgres singleTables NULL 1).2 _ _ (by rfl)⟩

/-- C17: a commit record without a path list yields no entry.  The stream of the one
record `emptyCommitRecord` (a hash, a space and a NUL) parses to no entry at all, and the
stream of two records, `emptyCommitRecord` followed by `addCommitRecord`, parses to one
entry, that of the second record. -/
theorem commit_without_paths_yields_no_entry :
    rawLog [emptyCommitRecord] = List.replicate 40 97 ++ [32, 0] ∧
    ParseLogReverse (rawLog [emptyCommitRecord]) = some (.ok []) ∧
    [emptyCommitRecord, addCommitRecord].length = 2 ∧
    ParseLogReverse (rawLog [emptyCommitRecord, addCommitRecord]) = some (.ok
      [{ Commit := bytesToString (List.replicate 40 98),
         PathStatuses := [{ Path := "a.txt", Status := .AddedAMD }] }]) := by
  refine ⟨by rfl, by rfl, by rfl, ?_⟩
  have hwf : ∀ c ∈ [emptyCommitRecord, addCommitRecord], c.WellFormed := by
    intro c hc
    simp only [List.mem_cons, List.mem_singleton, List.not_mem_nil, or_false] at hc
    rcases hc with rfl | rfl
    · exact emptyCommitRecord_wf
    · exact addCommitRecord_wf
  have hnf : ∀ c ∈ [emptyCommitRecord, addCommitRecord],
      ∀ rs, c.paths = some rs → ∀ r ∈ rs, ¬ r.Fatal := by
    intro c hc
    simp only [List.mem_cons, List.mem_singleton, List.not_mem_nil, or_false] at hc
    rcases hc with rfl | rfl
    · exact emptyCommitRecord_not_fatal
    · exact addCommitRecord_not_fatal
  unfold ParseLogReverse
  rw [parseLogEntries_rawLog _ hwf hnf _ [] (Nat.lt_succ_self _)]
  rfl

/-- C18: status classification in `ParseLogReverse`.  On a stream of well-formed commit
records, when no path record has the status byte `C`, `R` or `X` the parser returns, for
each commit record with a path list, the entry whose path statuses are those of
`RawPath.reported` (`A`, `M`, `D` give `Added`, `Modified`, `Deleted`; `T` gives `Added`
when only the old mode is `160000`, `Deleted` when only the new mode is, and no status
otherwise; any other byte gives no status), in the order of the records and with the
records without a status left out; when some path record has the status byte `C`, `R` or
`X` the parser returns an error. -/
theorem status_classification (cs : List RawCommit) (hwf : ∀ c ∈ cs, c.WellFormed) :
    ((∀ c ∈ cs, ∀ rs, c.paths = some rs → ∀ r ∈ rs, ¬ r.Fatal) →
      ParseLogReverse (rawLog cs) = some (.ok (reportedEntries cs))) ∧
    ((∃ c ∈ cs, ∃ rs, c.paths = some rs ∧ ∃ r ∈ rs, r.Fatal) →
      ∃ e, ParseLogReverse (rawLog cs) = some (.error e)) := by
  constructor
  · intro hnf
    unfold ParseLogReverse
    rw [parseLogEntries_rawLog cs hwf hnf _ [] (Nat.lt_succ_self _), List.nil_append]
  · intro hf
    exact parseLogEntries_rawLog_fatal cs hwf hf _ [] (Nat.lt_succ_self _)

theorem status_classification_witness :
    (∀ c ∈ [addCommitRecord], c.WellFormed) ∧
    (∀ c ∈ [addCommitRecord], ∀ rs, c.paths = some rs → ∀ r ∈ rs, ¬ r.Fatal) ∧
    ParseLogReverse (rawLog [addCommitRecord]) = some (.ok (reportedEntries [addCommitRecord])) ∧
    reportedEntries [addCommitRecord] =
      [{ Commit := bytesToString (List.replicate 40 98),
         PathStatuses := [{ Path := "a.txt", Status := .AddedAMD }] }] ∧
    (∀ c ∈ [addCommitRecord, renameCommitRecord], c.WellFormed) ∧
    (∃ c ∈ [addCommitRecord, renameCommitRecord],
      ∃ rs, c.paths = some rs ∧ ∃ r ∈ rs, r.Fatal) ∧
    ∃ e, ParseLogReverse (rawLog [addCommitRecord, renameCommitRecord]) = some (.error e) :=
  have hwf1 : ∀ c ∈ [addCommitRecord], c.WellFormed := by
    intro c hc
    simp only [List.mem_singleton] at hc
    subst hc
    exact addCommitRecord_wf
  have hnf1 : ∀ c ∈ [addCommitRecord], ∀ rs, c.paths = some rs → ∀ r ∈ rs, ¬ r.Fatal := by
    intro c hc
    simp only [List.mem_singleton] at hc
    subst hc
    exact addCommitRecord_not_fatal
  have hwf2 : ∀ c ∈ [addCommitRecord, renameCommitRecord], c.WellFormed := by
    intro c hc
    simp only [List.mem_cons, List.mem_singleton, List.not_mem_nil, or_false] at hc
    rcases hc with rfl | rfl
    · exact addCommitRecord_wf
    · exact renameCommitRecord_wf
  have hf2 : ∃ c ∈ [addCommitRecord, renameCommitRecord],
      ∃ rs, c.paths = some rs ∧ ∃ r ∈ rs, r.Fatal :=
    ⟨renameCommitRecord, by simp, _, rfl, _, List.mem_singleton.mpr rfl,
      Or.inr (Or.inl (by decide))⟩
  ⟨hwf1, hnf1, (status_classification [addCommitRecord] hwf1).1 hnf1, by rfl, hwf2, hf2,
    (status_classification [addCommitRecord, renameCommitRecord] hwf2).2 hf2⟩

/-- C19, as stated, fails: the one commit of `singleHistory` is stored with height 1 and
ancestor `NULL`, while the commit at height `1 - ruler 1 = 1` is `c1` itself. -/
theorem ancestor_is_not_at_height_minus_ruler :
    Index 2 (gitOfHistory singleHistory modifyContents) postgres bytesAsSymbols "c1"
        emptyTables = some (singleTables, none) ∧
    singleTables.rockskip_ancestry =
      [{ commit_id := "c1", height := 1, ancestor_id := NULL }] ∧
    1 - ruler 1 = 1 ∧ commitAt singleHistory (1 - ruler 1) = "c1" ∧ NULL ≠ "c1" := by
  refine ⟨by rfl, by rfl, by decide, by decide, by decide⟩

/-- C19, amended: ancestor position.  After any sequence of `Index` calls on a linear
history of distinct non-`NULL` commits, started from the empty store, the row of a commit
stored with height `h` records as ancestor the commit at height `h - 2 ^ ruler h` (`NULL`
at height 0), which `GetCommit` reports with that height; this height is strictly below
`h - ruler h`. -/
theorem ancestor_position (hist : List LogEntry)
    (contents : String → String → List UInt8) (parse : ParseSymbolsFunc)
    (targets : List String) (fuel : Nat)
    (hwf : WellFormedCommits hist) (hfuel : hist.length < fuel) :
    ∃ t, indexAll fuel (gitOfHistory hist contents) parse targets emptyTables = some t ∧
      ∀ row ∈ t.rockskip_ancestry,
        row.commit_id = commitAt hist row.height ∧
        row.ancestor_id = commitAt hist (row.height - 2 ^ ruler row.height) ∧
        (0 < row.height - 2 ^ ruler row.height →
          ∃ ancestor, postgres.GetCommit t row.ancestor_id =
            .ok (ancestor, row.height - 2 ^ ruler row.height, true)) ∧
        row.height - 2 ^ ruler row.height < row.height - ruler row.height := by
  obtain ⟨t, k, hrun, hk, ht⟩ := indexAll_ancestry hwf contents parse hfuel targets
    (emptyTables_ancestry hist) (Nat.zero_le _)
  refine ⟨t, hrun, ?_⟩
  intro row hrow
  rw [ht] at hrow
  obtain ⟨x, h1, h2, rfl⟩ := mem_ancestryUpTo.mp hrow
  simp only [ancestryRow]
  have hle : 2 ^ ruler x ≤ x := pow_ruler_le (by omega)
  have hlt : ruler x < 2 ^ ruler x := Nat.lt_two_pow (ruler x)
  refine ⟨trivial, trivial, ?_, by omega⟩
  intro hpos
  exact ⟨_, pgGetCommit_present hwf ht hk hpos (le_trans (Nat.sub_le _ _) h2)⟩

theorem ancestor_position_witness :
    WellFormedCommits modifyHistory ∧ modifyHistory.length < 3 ∧
    ∃ t, indexAll 3 (gitOfHistory modifyHistory modifyContents) bytesAsSymbols ["c2"]
        emptyTables = some t ∧
      ∀ row ∈ t.rockskip_ancestry,
        row.commit_id = commitAt modifyHistory row.height ∧
        row.ancestor_id = commitAt modifyHistory (row.height - 2 ^ ruler row.height) ∧
        (0 < row.height - 2 ^ ruler row.height →
          ∃ ancestor, postgres.GetCommit t row.ancestor_id =
            .ok (ancestor, row.height - 2 ^ ruler row.height, true)) ∧
        row.height - 2 ^ ruler row.height < row.height - ruler row.height :=
  ⟨by decide, by decide,
    ancestor_position modifyHistory modifyContents bytesAsSymbols ["c2"] 3
      (by decide) (by decide)⟩

/-- C20: only the current commit's membership changes.  However the processing of an entry
by `Index` on a `PostgresDB` ends, the blob table it leaves consists of the rows that were
there before, in their order, followed by new rows; each old row keeps its id, commit,
path and symbols, and every commit other than the entry's commit is in its added
(deleted) column exactly when it was before; and the ancestry table it leaves is the old
one followed by new rows. -/
theorem only_current_commit_changes (fuel : Nat) (git : Git) (parse : ParseSymbolsFunc)
    (entry : LogEntry) (st st1 : IndexState Tables) (err : Option String)
    (h : indexEntry fuel git postgres parse entry st = some (st1, err)) :
    (∃ olds news, st1.db.rockskip_blobs = olds ++ news ∧
      List.Forall₂ (fun b b1 =>
        b1.id = b.id ∧ b1.commit = b.commit ∧ b1.path = b.path ∧ b1.symbols = b.symbols ∧
        ∀ c, c ≠ entry.Commit →
          ((c ∈ b1.added ↔ c ∈ b.added) ∧ (c ∈ b1.deleted ↔ c ∈ b.deleted)))
        st.db.rockskip_blobs olds) ∧
    ∃ rows, st1.db.rockskip_ancestry = st.db.rockskip_ancestry ++ rows :=
  indexEntry_keeps fuel git parse entry st st1 err h

theorem only_current_commit_changes_witness :
    indexEntry 3 (gitOfHistory modifyHistory modifyContents) postgres bytesAsSymbols
        { Commit := "c2", PathStatuses := [{ Path := "a.txt", Status := .ModifiedAMD }] }
        { db := singleTables, tipCommit := "c1", tipHeight := 1,
          pathToBlobIdCache := fun _ => none } =
      some ({ db := modifyTables, tipCommit := "c2", tipHeight := 2,
              pathToBlobIdCache := fun p => if p = "a.txt" then some 2 else none }, none) ∧
    (∃ olds news, modifyTables.rockskip_blobs = olds ++ news ∧
      List.Forall₂ (fun b b1 =>
        b1.id = b.id ∧ b1.commit = b.commit ∧ b1.path = b.path ∧ b1.symbols = b.symbols ∧
        ∀ c, c ≠ "c2" →
          ((c ∈ b1.added ↔ c ∈ b.added) ∧ (c ∈ b1.deleted ↔ c ∈ b.deleted)))
        singleTables.rockskip_blobs olds) ∧
    ∃ rows, modifyTables.rockskip_ancestry = singleTables.rockskip_ancestry ++ rows :=
  ⟨by rfl,
    only_current_commit_changes 3 (gitOfHistory modifyHistory modifyContents)
      bytesAsSymbols
      { Commit := "c2", PathStatuses := [{ Path := "a.txt", Status := .ModifiedAMD }] }
      { db := singleTables, tipCommit := "c1", tipHeight := 1,
        pathToBlobIdCache := fun _ => none }
      { db := modifyTables, tipCommit := "c2", tipHeight := 2,
        pathToBlobIdCache := fun p => if p = "a.txt" then some 2 else none } none (by rfl)⟩

/-- C21: the birth commit stays in `added`.  For a linear history of distinct commits in
which each entry names a path at most once, whatever the statuses, the file contents and
the parser: `Index` on the commit at height `n`, from the empty store, returns; and when
it returns no error, every blob of the store it leaves (the store at the end of the entry
at height `n`) has a non-empty `added` column that holds the blob's own commit, and
`Search` at that commit returns the blob.  For a well-formed history on whose added and
modified files the parser returns a slice of symbols that is not nil, `Index` returns no
error. -/
theorem birth_commit_stays_in_added (hist : List LogEntry)
    (contents : String → String → List UInt8) (parse : ParseSymbolsFunc) (fuel n : Nat)
    (hwf : WellFormedCommits hist) (hnd : NodupPaths hist) (hfuel : hist.length < fuel)
    (hn1 : 1 ≤ n) (hn : n ≤ hist.length) :
    ∃ t err,
      Index fuel (gitOfHistory hist contents) postgres parse (commitAt hist n) emptyTables =
        some (t, err) ∧
      (err = none → ∀ b ∈ t.rockskip_blobs,
        b.added ≠ [] ∧ b.commit ∈ b.added ∧
        ∃ blobs, Search fuel postgres t b.commit none = some (.ok blobs) ∧
          b.toBlob ∈ blobs) ∧
      (WellFormed hist → ParseOk hist contents parse → err = none) := by
  obtain ⟨t, err, k1, hrun, -, -, -⟩ := Index_ancestry hwf contents parse hfuel
    (emptyTables_ancestry hist) (Nat.zero_le _) (commitAt hist n)
  refine ⟨t, err, hrun, fun herr b hb => ?_, fun hwf2 hpo => ?_⟩
  · subst herr
    obtain ⟨hanc, hinv⟩ := birthInv_Index hwf hnd contents parse hfuel hn1 hn hrun
    exact search_birth hwf hanc hn hfuel hinv hb
  · obtain ⟨t2, hrun2, -⟩ := Index_ok hwf2 hpo hfuel (Nat.zero_le n) hn1 hn
      (emptyTables_ancestry hist) (BlobsInv_empty hist contents parse)
    rw [hrun] at hrun2
    simp only [Option.some.injEq, Prod.mk.injEq] at hrun2
    exact hrun2.2

theorem birth_commit_stays_in_added_witness :
    WellFormedCommits collapseHistory ∧ NodupPaths collapseHistory ∧
    collapseHistory.length < 5 ∧ 1 ≤ 4 ∧ 4 ≤ collapseHistory.length ∧
    ∃ t err,
      Index 5 (gitOfHistory collapseHistory modifyContents) postgres bytesAsSymbols
        (commitAt collapseHistory 4) emptyTables = some (t, err) ∧
      (err = none → ∀ b ∈ t.rockskip_blobs,
        b.added ≠ [] ∧ b.commit ∈ b.added ∧
        ∃ blobs, Search 5 postgres t b.commit none = some (.ok blobs) ∧
          b.toBlob ∈ blobs) ∧
      (WellFormed collapseHistory → ParseOk collapseHistory modifyContents bytesAsSymbols →
        err = none) :=
  ⟨by decide, by decide, by decide, by decide, by decide,
    birth_commit_stays_in_added collapseHistory modifyContents bytesAsSymbols 5 4
      (by decide) (by decide) (by decide) (by decide) (by decide)⟩

/-- C22: visibility is inherited across an entry without changes.  For a linear history
of distinct commits, whatever its path statuses are, whose entry `E` at height `k + 1` has
no path statuses, and for every store `tP` that `Index` leaves without error at the parent
`P` (height `k`; the empty store for `k = 0`) starting from the empty store: `Index` on
the commit of `E` returns without error, and on the store it leaves `Search` at the commit
of `E` returns, for every query, the very list of blobs that `Search` at `P` returns; and
the two spines select the same rows of the blob table. -/
theorem visibility_inherited (hist : List LogEntry)
    (contents : String → String → List UInt8) (parse : ParseSymbolsFunc) (fuel k : Nat)
    (tP : Tables) (hwf : WellFormedCommits hist)
    (hfuel : hist.length < fuel) (hk : k < hist.length)
    (hempty : (hist[k]).PathStatuses = [])
    (hP : k = 0 ∧ tP = emptyTables ∨
      Index fuel (gitOfHistory hist contents) postgres parse (commitAt hist k)
        emptyTables = some (tP, none)) :
    ∃ t,
      Index fuel (gitOfHistory hist contents) postgres parse (commitAt hist (k + 1)) tP =
        some (t, none) ∧
      (∀ query, ∃ blobs,
        Search fuel postgres t (commitAt hist (k + 1)) query = some (.ok blobs) ∧
        Search fuel postgres t (commitAt hist k) query = some (.ok blobs)) ∧
      ∃ hopsE hopsP,
        getHops fuel postgres t (commitAt hist (k + 1)) = some (.ok hopsE) ∧
        getHops fuel postgres t (commitAt hist k) = some (.ok hopsP) ∧
        ∀ b ∈ t.rockskip_blobs,
          (overlaps hopsE b.added && !overlaps hopsE b.deleted) =
            (overlaps hopsP b.added && !overlaps hopsP b.deleted) := by
  have hstore : tP.rockskip_ancestry = ancestryUpTo hist k ∧
      ∀ b ∈ tP.rockskip_blobs, ColumnsWithin hist k b := by
    rcases hP with ⟨rfl, rfl⟩ | hrunP
    · exact ⟨emptyTables_ancestry hist, fun b hb => by simp [emptyTables] at hb⟩
    · rcases Nat.eq_zero_or_pos k with hk0 | hk0
      · subst hk0
        rw [Index_unknown hist contents parse fuel emptyTables
          (show commitAt hist 0 ∉ commitsOf hist from hwf.2)] at hrunP
        simp only [Option.some.injEq, Prod.mk.injEq] at hrunP
        exact absurd hrunP.2 (by simp)
      · exact columnsWithin_Index hwf contents parse hfuel hk0 (le_of_lt hk) hrunP
  obtain ⟨hancP, hcw⟩ := hstore
  obtain ⟨st1, he, ⟨hanc, -, -⟩, hblobs⟩ :=
    @empty_entry hist hwf (gitOfHistory hist contents) parse fuel k hfuel hk
      { db := tP, tipCommit := commitAt hist k, tipHeight := k,
        pathToBlobIdCache := fun _ => none } ⟨hancP, rfl, rfl⟩ hempty
  have hvis : ∀ b ∈ st1.db.rockskip_blobs,
      (overlaps ((spineH (k + 1)).map (commitAt hist)) b.added &&
        !overlaps ((spineH (k + 1)).map (commitAt hist)) b.deleted) =
      (overlaps ((spineH k).map (commitAt hist)) b.added &&
        !overlaps ((spineH k).map (commitAt hist)) b.deleted) := by
    intro b hb
    rw [hblobs] at hb
    obtain ⟨b0, hb0, rfl⟩ := List.mem_map.mp hb
    exact inherit_row hwf hk (hcw b0 hb0)
  refine ⟨st1.db, ?_, fun query => ?_,
    _, _, getHops_spine hwf hanc hk (le_refl _) hfuel,
    getHops_spine hwf hanc hk (Nat.le_succ k) hfuel, hvis⟩
  · have h1 : k + 1 - k = 1 := by omega
    rw [Index_eq_indexEntries hwf contents parse fuel hancP (le_of_lt hk)
      (show 1 ≤ k + 1 by omega) (show k + 1 ≤ hist.length from hk),
      h1, List.drop_eq_getElem_cons hk]
    simp only [List.take_succ_cons, List.take_zero]
    rw [indexEntries_cons, he]
    rfl
  · rw [Search_eq hwf hanc hk (le_refl _) hfuel query,
      Search_eq hwf hanc hk (Nat.le_succ k) hfuel query]
    rcases query with _ | q
    · rw [pgSearch_none, pgSearch_none]
      refine ⟨_, rfl, ?_⟩
      congr 3
      exact List.filter_congr fun b hb => (hvis b hb).symm
    · rw [pgSearch_some, pgSearch_some]
      refine ⟨_, rfl, ?_⟩
      congr 3
      exact List.filter_congr fun b hb => by rw [hvis b hb]

theorem visibility_inherited_witness :
    WellFormedCommits collapseHistory ∧
    collapseHistory.length < 5 ∧ ∃ hk : 3 < collapseHistory.length,
    (collapseHistory[3]).PathStatuses = [] ∧
    (3 = 0 ∧ collapseAt3 = emptyTables ∨
      Index 5 (gitOfHistory collapseHistory modifyContents) postgres bytesAsSymbols
        (commitAt collapseHistory 3) emptyTables = some (collapseAt3, none)) ∧
    ∃ t,
      Index 5 (gitOfHistory collapseHistory modifyContents) postgres bytesAsSymbols
          (commitAt collapseHistory (3 + 1)) collapseAt3 = some (t, none) ∧
      (∀ query, ∃ blobs,
        Search 5 postgres t (commitAt collapseHistory (3 + 1)) query = some (.ok blobs) ∧
        Search 5 postgres t (commitAt collapseHistory 3) query = some (.ok blobs)) ∧
      ∃ hopsE hopsP,
        getHops 5 postgres t (commitAt collapseHistory (3 + 1)) = some (.ok hopsE) ∧
        getHops 5 postgres t (commitAt collapseHistory 3) = some (.ok hopsP) ∧
        ∀ b ∈ t.rockskip_blobs,
          (overlaps hopsE b.added && !overlaps hopsE b.deleted) =
            (overlaps hopsP b.added && !overlaps hopsP b.deleted) :=
  ⟨by decide, by decide, by decide, rfl, Or.inr (by rfl),
    visibility_inherited collapseHistory modifyContents bytesAsSymbols 5 3 collapseAt3
      (by decide) (by decide) (by decide) rfl (Or.inr (by rfl))⟩

/-- C23, as stated, fails: in `collapseHistory` the entry `c4` has no path statuses, so its
per-path step updates no blob (the writes of the entry are the two `AppendHop`,
`DeleteRedundant` and `InsertCommit`), yet `DeleteRedundant` changes the blob of `a.txt`:
the two `AppendHop` had appended `c4` to its `added` column (which holds `c2`) and to its
`deleted` column (which holds `c3`), and the collapse removes it from both. -/
theorem collapse_changes_untouched_blob :
    WellFormed collapseHistory ∧
    Index 5 (gitOfHistory collapseHistory modifyContents) postgres bytesAsSymbols "c3"
        emptyTables = some (collapseAt3, none) ∧
    Index 5 (gitOfHistory collapseHistory modifyContents) (traced postgres) bytesAsSymbols
        "c4" (collapseAt3, []) =
      some ((collapseAt4,
        [.AppendHop ["c3", "c2"] .AddedAD "c4", .AppendHop ["c3", "c2"] .DeletedAD "c4",
         .DeleteRedundant "c4", .InsertCommit "c4" 4 NULL]), none) ∧
    applyCalls collapseAt3
        [.AppendHop ["c3", "c2"] .AddedAD "c4", .AppendHop ["c3", "c2"] .DeletedAD "c4"] =
      collapseMid ∧
    postgres.DeleteRedundant collapseMid "c4" =
      .ok { collapseMid with rockskip_blobs := collapseAt4.rockskip_blobs } ∧
    collapseMid.rockskip_blobs.head? =
      some { id := 1, commit := "c1", path := "a.txt", added := ["c1", "c2", "c4"],
             deleted := ["c3", "c4"], symbols := ["f"] } ∧
    collapseAt4.rockskip_blobs.head? =
      some { id := 1, commit := "c1", path := "a.txt", added := ["c1", "c2"],
             deleted := ["c3"], symbols := ["f"] } := by
  refine ⟨by decide, by rfl, by rfl, by rfl, by rfl, by rfl, by rfl⟩

/-- C23, amended: the collapse touches the blobs that the per-path step updated and the
blobs to which both `AppendHop` statements appended the commit.  For a well-formed linear
history on whose added and modified files the parser returns a slice of symbols that is
not nil, and its entry `E` at height `k + 1`, processed from the store `sk` that `Index`
leaves at height `k`: let `s2` be the store after the two `AppendHop` statements, `s3` the
store after the per-path loop and `s4` the store after `DeleteRedundant`.  A blob that
`DeleteRedundant` changes (its row in `s4` differs from its row in `s3`) is a blob of `sk`
that the per-path loop changed (its row in `s3` differs from its row in `s2`) or to which
both `AppendHop` statements appended (both columns of its row in `s2` differ from those in
`sk`).  When `E` has no path statuses, `DeleteRedundant` changes exactly the blobs of the
second kind. -/
theorem collapse_touches_updated_or_bulk_marked (hist : List LogEntry)
    (contents : String → String → List UInt8) (parse : ParseSymbolsFunc) (fuel k : Nat)
    (hwf : WellFormed hist) (hpo : ParseOk hist contents parse)
    (hfuel : hist.length < fuel) (hk : k < hist.length) :
    ∃ sk hops ancestor s1 s2 s3 cache3 s4,
      (k = 0 ∧ sk = emptyTables ∨
        Index fuel (gitOfHistory hist contents) postgres parse (commitAt hist k)
          emptyTables = some (sk, none)) ∧
      getHops fuel postgres sk (commitAt hist k) = some (.ok hops) ∧
      hops[ruler (k + 1)]? = some ancestor ∧
      postgres.AppendHop sk (hops.take (ruler (k + 1))) .AddedAD (hist[k]).Commit = .ok s1 ∧
      postgres.AppendHop s1 (hops.take (ruler (k + 1))) .DeletedAD (hist[k]).Commit =
        .ok s2 ∧
      indexPaths (gitOfHistory hist contents) postgres parse hops (hist[k]).Commit
        (hist[k]).PathStatuses s2 (fun _ => none) = (s3, cache3, none) ∧
      postgres.DeleteRedundant s3 (hist[k]).Commit = .ok s4 ∧
      indexEntry fuel (gitOfHistory hist contents) postgres parse hist[k]
          { db := sk, tipCommit := commitAt hist k, tipHeight := k,
            pathToBlobIdCache := fun _ => none } =
        some ({ db := insertCommit postgres s4 (hist[k]).Commit (k + 1) ancestor,
                tipCommit := (hist[k]).Commit, tipHeight := k + 1,
                pathToBlobIdCache := cache3 }, none) ∧
      (∀ b3 ∈ s3.rockskip_blobs, ∀ b4 ∈ s4.rockskip_blobs, b4.id = b3.id → b4 ≠ b3 →
        ∃ b0 ∈ sk.rockskip_blobs, ∃ b2 ∈ s2.rockskip_blobs, b0.id = b3.id ∧ b2.id = b3.id ∧
          (b3 ≠ b2 ∨ (b2.added ≠ b0.added ∧ b2.deleted ≠ b0.deleted))) ∧
      ((hist[k]).PathStatuses = [] → s3 = s2 ∧
        ∀ b0 ∈ sk.rockskip_blobs, ∀ b2 ∈ s2.rockskip_blobs, ∀ b4 ∈ s4.rockskip_blobs,
          b2.id = b0.id → b4.id = b0.id →
          (b4 ≠ b2 ↔ b2.added ≠ b0.added ∧ b2.deleted ≠ b0.deleted)) := by
  rcases Nat.eq_zero_or_pos k with hk0 | hk0
  · subst hk0
    obtain ⟨hops, ancestor, s1, s2, s3, cache3, s4, h⟩ :=
      collapse_cases hwf hpo hfuel hk (emptyTables_ancestry hist)
        (BlobsInv_empty hist contents parse)
    exact ⟨emptyTables, hops, ancestor, s1, s2, s3, cache3, s4, Or.inl ⟨rfl, rfl⟩, h⟩
  · obtain ⟨sk, hrun, hanc, hinv, -⟩ :=
      Index_ok hwf hpo hfuel (Nat.zero_le k) hk0 (le_of_lt hk) (emptyTables_ancestry hist)
        (BlobsInv_empty hist contents parse)
    obtain ⟨hops, ancestor, s1, s2, s3, cache3, s4, h⟩ :=
      collapse_cases hwf hpo hfuel hk hanc hinv
    exact ⟨sk, hops, ancestor, s1, s2, s3, cache3, s4, Or.inr hrun, h⟩

theorem collapse_touches_updated_or_bulk_marked_witness :
    WellFormed collapseHistory ∧ ParseOk collapseHistory modifyContents bytesAsSymbols ∧
    collapseHistory.length < 5 ∧ ∃ hk : 3 < collapseHistory.length,
    ∃ sk hops ancestor s1 s2 s3 cache3 s4,
      (3 = 0 ∧ sk = emptyTables ∨
        Index 5 (gitOfHistory collapseHistory modifyContents) postgres bytesAsSymbols
          (commitAt collapseHistory 3) emptyTables = some (sk, none)) ∧
      getHops 5 postgres sk (commitAt collapseHistory 3) = some (.ok hops) ∧
      hops[ruler (3 + 1)]? = some ancestor ∧
      postgres.AppendHop sk (hops.take (ruler (3 + 1))) .AddedAD
        (collapseHistory[3]).Commit = .ok s1 ∧
      postgres.AppendHop s1 (hops.take (ruler (3 + 1))) .DeletedAD
        (collapseHistory[3]).Commit = .ok s2 ∧
      indexPaths (gitOfHistory collapseHistory modifyContents) postgres bytesAsSymbols hops
        (collapseHistory[3]).Commit (collapseHistory[3]).PathStatuses s2 (fun _ => none) =
          (s3, cache3, none) ∧
      postgres.DeleteRedundant s3 (collapseHistory[3]).Commit = .ok s4 ∧
      indexEntry 5 (gitOfHistory collapseHistory modifyContents) postgres bytesAsSymbols
          collapseHistory[3]
          { db := sk, tipCommit := commitAt collapseHistory 3, tipHeight := 3,
            pathToBlobIdCache := fun _ => none } =
        some ({ db := insertCommit postgres s4 (collapseHistory[3]).Commit (3 + 1) ancestor,
                tipCommit := (collapseHistory[3]).Commit, tipHeight := 3 + 1,
                pathToBlobIdCache := cache3 }, none) ∧
      (∀ b3 ∈ s3.rockskip_blobs, ∀ b4 ∈ s4.rockskip_blobs, b4.id = b3.id → b4 ≠ b3 →
        ∃ b0 ∈ sk.rockskip_blobs, ∃ b2 ∈ s2.rockskip_blobs, b0.id = b3.id ∧ b2.id = b3.id ∧
          (b3 ≠ b2 ∨ (b2.added ≠ b0.added ∧ b2.deleted ≠ b0.deleted))) ∧
      ((collapseHistory[3]).PathStatuses = [] → s3 = s2 ∧
        ∀ b0 ∈ sk.rockskip_blobs, ∀ b2 ∈ s2.rockskip_blobs, ∀ b4 ∈ s4.rockskip_blobs,
          b2.id = b0.id → b4.id = b0.id →
          (b4 ≠ b2 ↔ b2.added ≠ b0.added ∧ b2.deleted ≠ b0.deleted)) :=
  ⟨by decide, parseOk_bytesAsSymbols _ _, by decide, by decide,
    collapse_touches_updated_or_bulk_marked collapseHistory modifyContents bytesAsSymbols
      5 3 (by decide) (parseOk_bytesAsSymbols _ _) (by decide) (by decide)⟩

/-- C24: the ruler index is always in range.  For every store, of whatever `DB`
implementation, that satisfies P1 and P2, and a tip commit at height `t` (a present
commit of height `t`, or `NULL` at height 0): `getHops` returns the spine of the tip, and
`ruler (t + 1)` is smaller than its length.  So the slice `hops[0:r]` has its `r` elements
and `hops[r]` is there: the test `r >= len(hops)` of `Index` is false, and the branch
that returns the error `out of range` is not taken. -/
theorem ruler_index_in_range {σ : Type} (db : DB σ) (s : σ) (H t fuel : Nat) (tip : String)
    (hP1 : HeightDensity db s H) (hP2 : AncestorDecrease db s)
    (htip : (t = 0 ∧ tip = NULL) ∨ ∃ a, db.GetCommit s tip = .ok (a, t, true))
    (hfuel : t < fuel) :
    ∃ hops, getHops fuel db s tip = some (.ok hops) ∧ ruler (t + 1) < hops.length ∧
      (hops.take (ruler (t + 1))).length = ruler (t + 1) ∧
      ∃ ancestor, hops[ruler (t + 1)]? = some ancestor := by
  have key : ∃ hops, getHops fuel db s tip = some (.ok hops) ∧
      ruler (t + 1) < hops.length := by
    rcases htip with ⟨rfl, rfl⟩ | ⟨a, hg⟩
    · obtain ⟨f, rfl⟩ : ∃ f, fuel = f + 1 := ⟨fuel - 1, by omega⟩
      obtain ⟨a0, h0, e0⟩ := hP1.1
      refine ⟨[NULL], ?_, by decide⟩
      simp [getHops, getHopsLoop, e0]
    · have hpos := (hP1.2.1 tip a t hg).1
      obtain ⟨rest, hr, hl⟩ := getHopsLoop_dense db s hP1.1 hP2 t tip a fuel [tip] hpos hg
        (by have := spineH_length_le t; omega)
      refine ⟨[tip] ++ rest, hr, ?_⟩
      have hlen : ([tip] ++ rest).length = (spineH t).length := by
        simp only [List.length_append, List.length_singleton]
        omega
      rw [hlen]
      by_contra hge
      have hnone := List.getElem?_eq_none (Nat.le_of_not_lt hge)
      rw [(spineH_ruler t).1] at hnone
      simp at hnone
  obtain ⟨hops, h1, h2⟩ := key
  refine ⟨hops, h1, h2, ?_, hops[ruler (t + 1)], ?_⟩
  · rw [List.length_take]
    omega
  · exact List.getElem?_eq_getElem h2

theorem ruler_index_in_range_witness :
    HeightDensity postgres chainTables 8 ∧ AncestorDecrease postgres chainTables ∧
    ((7 = 0 ∧ "c7" = NULL) ∨ ∃ a, postgres.GetCommit chainTables "c7" = .ok (a, 7, true)) ∧
    7 < 9 ∧
    ∃ hops, getHops 9 postgres chainTables "c7" = some (.ok hops) ∧
      ruler (7 + 1) < hops.length ∧
      (hops.take (ruler (7 + 1))).length = ruler (7 + 1) ∧
      ∃ ancestor, hops[ruler (7 + 1)]? = some ancestor :=
  ⟨(dense_of_ancestry (show WellFormedCommits chainHistory by decide)
      (show chainTables.rockskip_ancestry = ancestryUpTo chainHistory 8 by decide)
      (by decide)).1,
    (dense_of_ancestry (show WellFormedCommits chainHistory by decide)
      (show chainTables.rockskip_ancestry = ancestryUpTo chainHistory 8 by decide)
      (by decide)).2,
    Or.inr ⟨"c6", by rfl⟩, by decide,
    ruler_index_in_range postgres chainTables 8 7 9 "c7"
      (dense_of_ancestry (show WellFormedCommits chainHistory by decide)
        (show chainTables.rockskip_ancestry = ancestryUpTo chainHistory 8 by decide)
        (by decide)).1
      (dense_of_ancestry (show WellFormedCommits chainHistory by decide)
        (show chainTables.rockskip_ancestry = ancestryUpTo chainHistory 8 by decide)
        (by decide)).2
      (Or.inr ⟨"c6", by rfl⟩) (by decide)⟩

/-- C25, as stated, fails when a commit is stored at height 0: in `heightZeroStore` the
ancestor of the one present commit `c1` is `NULL`, so the store is one in which every
ancestor is `NULL`, absent or a present commit of smaller height; `getHops` returns
`[c1, NULL]`, and the heights of the two elements are 0 and 0. -/
theorem spine_heights_not_strict_at_height_zero :
    AncestorsBelow postgres heightZeroStore ∧
    getHops 3 postgres heightZeroStore "c1" = some (.ok ["c1", NULL]) ∧
    postgres.GetCommit heightZeroStore "c1" = .ok (NULL, 0, true) ∧
    heightIn postgres heightZeroStore "c1" = 0 ∧
    heightIn postgres heightZeroStore NULL = 0 ∧
    ¬ List.Chain' (fun x y => heightIn postgres heightZeroStore y <
        heightIn postgres heightZeroStore x) ["c1", NULL] := by
  have h1 : heightIn postgres heightZeroStore "c1" = 0 := by rfl
  have h2 : heightIn postgres heightZeroStore NULL = 0 := by rfl
  refine ⟨?_, by rfl, by rfl, h1, h2, ?_⟩
  · intro c a h hg a2 h2 _
    left
    change pgGetCommit heightZeroStore c = _ at hg
    unfold pgGetCommit at hg
    simp only [heightZeroStore, List.find?] at hg
    by_cases hc : "c1" = c
    · simp only [hc, decide_True, Except.ok.injEq, Prod.mk.injEq, and_true] at hg
      exact hg.1.symm
    · simp [hc] at hg
  · rw [List.chain'_pair, h1, h2]
    exact Nat.lt_irrefl 0

/-- C25, amended: the spine walk terminates and descends.  For every store, of whatever
`DB` implementation, in which the ancestor of each present commit is `NULL`, absent or a
present commit of strictly smaller height, and every starting commit `C`: `getHops`
returns (a list, or the error of `GetCommit`) within two rounds more than the stored
height of `C`; and when every present commit has a height of at least 1, as in every
store that `Index` produces, the heights of consecutive elements of the returned list
strictly decrease, `NULL` and an absent commit counted as height 0. -/
theorem spine_walk_descends {σ : Type} (db : DB σ) (s : σ) (C : String) (fuel : Nat)
    (hbelow : AncestorsBelow db s) (hfuel2 : 2 ≤ fuel)
    (hfuel : ∀ a h, db.GetCommit s C = .ok (a, h, true) → h + 2 ≤ fuel) :
    ∃ res, getHops fuel db s C = some res ∧
      ∀ hops, res = .ok hops →
        hops.head? = some C ∧
        ((∀ c a h, db.GetCommit s c = .ok (a, h, true) → 1 ≤ h) →
          List.Chain' (fun x y => heightIn db s y < heightIn db s x) hops) := by
  obtain ⟨res, hr, hh⟩ := getHopsLoop_descends db s hbelow (fuel - 2) fuel C []
    (fun a h hg => by have := hfuel a h hg; omega) (by omega)
  refine ⟨res, hr, fun hops hres => ?_⟩
  obtain ⟨tail, ht, hc⟩ := hh hops hres
  rw [List.nil_append] at ht
  rw [ht]
  exact ⟨rfl, hc⟩

theorem spine_walk_descends_witness :
    AncestorsBelow postgres chainTables ∧ 2 ≤ 10 ∧
    (∀ a h, postgres.GetCommit chainTables "c8" = .ok (a, h, true) → h + 2 ≤ 10) ∧
    ∃ res, getHops 10 postgres chainTables "c8" = some res ∧
      ∀ hops, res = .ok hops →
        hops.head? = some "c8" ∧
        ((∀ c a h, postgres.GetCommit chainTables c = .ok (a, h, true) → 1 ≤ h) →
          List.Chain' (fun x y => heightIn postgres chainTables y <
            heightIn postgres chainTables x) hops) :=
  ⟨(ancestorsBelow_of_ancestry (show WellFormedCommits chainHistory by decide)
      (show chainTables.rockskip_ancestry = ancestryUpTo chainHistory 8 by decide)
      (by decide)).1,
    by decide,
    fun a h hg => by
      have e : postgres.GetCommit chainTables "c8" = .ok (NULL, 8, true) := by rfl
      rw [e] at hg
      simp only [Except.ok.injEq, Prod.mk.injEq, and_true] at hg
      omega,
    spine_walk_descends postgres chainTables "c8" 10
      (ancestorsBelow_of_ancestry (show WellFormedCommits chainHistory by decide)
        (show chainTables.rockskip_ancestry = ancestryUpTo chainHistory 8 by decide)
        (by decide)).1
      (by decide)
      (fun a h hg => by
        have e : postgres.GetCommit chainTables "c8" = .ok (NULL, 8, true) := by rfl
        rw [e] at hg
        simp only [Except.ok.injEq, Prod.mk.injEq, and_true] at hg
        omega)⟩

/-- C26: interval characterisation of the commit sets.  For a well-formed linear history
on whose added and modified files the parser returns a slice of symbols that is not nil,
indexed by `Index` from the empty store through height `H`, every blob of the store has a
birth height `a` (its commit is the commit at height `a ≤ H`, whose entry adds or modifies
its path) and a hiding height `d`: the first height above `a` whose entry modifies or
deletes the path, and 0, which lies in no interval, when there is none.  For every indexed
commit at height `x ≤ H`, with `inI z x` the statement that `z` lies in the interval
`(x - 2 ^ ruler x, x]`: the commit is in the `added` column of the blob exactly when `a`
is in the interval and `d` is not, and in the `deleted` column exactly when `d` is in the
interval and `a` is not.  The two columns hold indexed commits only. -/
theorem interval_characterisation (hist : List LogEntry)
    (contents : String → String → List UInt8) (parse : ParseSymbolsFunc) (fuel H : Nat)
    (hwf : WellFormed hist) (hpo : ParseOk hist contents parse)
    (hfuel : hist.length < fuel) (hH1 : 1 ≤ H) (hH : H ≤ hist.length) :
    ∃ t,
      Index fuel (gitOfHistory hist contents) postgres parse (commitAt hist H) emptyTables =
        some (t, none) ∧
      ∀ b ∈ t.rockskip_blobs, ∃ a d,
        1 ≤ a ∧ a ≤ H ∧ b.commit = commitAt hist a ∧ born hist a b.path ∧
        ((d = 0 ∧ ∀ y, a < y → ¬ hides hist y b.path) ∨
          (a < d ∧ hides hist d b.path ∧ ∀ y, a < y → y < d → ¬ hides hist y b.path)) ∧
        (∀ x, 1 ≤ x → x ≤ H →
          (commitAt hist x ∈ b.added ↔ inI a x ∧ ¬ inI d x) ∧
          (commitAt hist x ∈ b.deleted ↔ inI d x ∧ ¬ inI a x)) ∧
        ∀ y, y ∈ b.added ∨ y ∈ b.deleted → ∃ x, 1 ≤ x ∧ x ≤ H ∧ y = commitAt hist x := by
  obtain ⟨t, hrun, -, hinv, -⟩ :=
    Index_ok hwf hpo hfuel (Nat.zero_le H) hH1 hH (emptyTables_ancestry hist)
      (BlobsInv_empty hist contents parse)
  refine ⟨t, hrun, fun b hb => ⟨b.birth hist, b.hidden hist, ?_⟩⟩
  obtain ⟨r1, r2, r3, r4, -, r6⟩ := hinv.1.rows b hb
  have hle : b.birth hist ≤ H := by
    by_contra hgt
    have h := r6 (by omega)
    simp at h
  refine ⟨r1, hle, r3, r4, ?_, ?_, ?_⟩
  · rw [hidden_def]
    rcases hiddenAt_spec hist (b.birth hist) b.path with h | ⟨h1, -, h3, h4⟩
    · exact Or.inl h
    · exact Or.inr ⟨h1, h3, h4⟩
  · intro x _ hx
    constructor
    · rw [hinv.2.added b hb, AddedAt_commitAt hwf.1 hH (le_trans hx hH)]
      exact ⟨fun h => h.2, fun h => ⟨hx, h⟩⟩
    · rw [hinv.2.deleted b hb, DeletedAt_commitAt hwf.1 hH (le_trans hx hH)]
      exact ⟨fun h => h.2, fun h => ⟨hx, h⟩⟩
  · rintro y (h | h)
    · obtain ⟨x, h1, h2, h3, -⟩ := (hinv.2.added b hb y).mp h
      exact ⟨x, h1, h2, h3⟩
    · obtain ⟨x, h1, h2, h3, -⟩ := (hinv.2.deleted b hb y).mp h
      exact ⟨x, h1, h2, h3⟩

theorem interval_characterisation_witness :
    WellFormed collapseHistory ∧ ParseOk collapseHistory modifyContents bytesAsSymbols ∧
    collapseHistory.length < 5 ∧ 1 ≤ 4 ∧ 4 ≤ collapseHistory.length ∧
    ∃ t,
      Index 5 (gitOfHistory collapseHistory modifyContents) postgres bytesAsSymbols
        (commitAt collapseHistory 4) emptyTables = some (t, none) ∧
      ∀ b ∈ t.rockskip_blobs, ∃ a d,
        1 ≤ a ∧ a ≤ 4 ∧ b.commit = commitAt collapseHistory a ∧
        born collapseHistory a b.path ∧
        ((d = 0 ∧ ∀ y, a < y → ¬ hides collapseHistory y b.path) ∨
          (a < d ∧ hides collapseHistory d b.path ∧
            ∀ y, a < y → y < d → ¬ hides collapseHistory y b.path)) ∧
        (∀ x, 1 ≤ x → x ≤ 4 →
          (commitAt collapseHistory x ∈ b.added ↔ inI a x ∧ ¬ inI d x) ∧
          (commitAt collapseHistory x ∈ b.deleted ↔ inI d x ∧ ¬ inI a x)) ∧
        ∀ y, y ∈ b.added ∨ y ∈ b.deleted →
          ∃ x, 1 ≤ x ∧ x ≤ 4 ∧ y = commitAt collapseHistory x :=
  ⟨by decide, parseOk_bytesAsSymbols _ _, by decide, by decide, by decide,
    interval_characterisation collapseHistory modifyContents bytesAsSymbols 5 4 (by decide)
      (parseOk_bytesAsSymbols _ _) (by decide) (by decide) (by decide)⟩

end Rockskip
